import Mathlib

/-!
# BKTR relocation engine (`source/core/bktr.c`)

A shallow embedding of the bucket-tree lookups, the physical read resolver, the
AesCtrEx read dispatcher and the public read entry points of `bktr.c`, together
with the properties established about them.

Conventions of the embedding.

* `u32` and `u64` values are natural numbers; every C operation that can wrap is
  written with an explicit `% 2 ^ 32` or `% 2 ^ 64`.
* A pointer to an entry is a pair (bucket number, index into the entry array of
  that bucket); `entry + 1` is the same bucket with the index plus one.
* The memory of a block is what its lists hold.  Reading a slot that the lists
  do not hold is reported as `fault` (the C program would read memory that does
  not belong to the array: undefined behaviour).
* Loops and recursions that the C program does not obviously leave are run with
  a step budget; an exhausted budget is reported as `diverge`.
-/

namespace Bktr

/-! ## Data model -/

/-- Value of `BktrIndirectStorageIndex_Original`: the entry is served by the base section. -/
def BktrIndirectStorageIndex_Original : Nat := 0

/-- Value of `BktrIndirectStorageIndex_Patch`: the entry is served by the update section. -/
def BktrIndirectStorageIndex_Patch : Nat := 1

/-- Modelled from the spec: the record `BktrIndirectStorageEntry` is declared in `bktr.h`,
which is not part of the sources at hand.  It is `{virtual_offset, physical_offset, source}`
with the source tag stored as an integer (`Base = 0`, `Patch = 1`). -/
structure BktrIndirectStorageEntry where
  virtual_offset : Nat
  physical_offset : Nat
  indirect_storage_index : Nat
  deriving DecidableEq, Repr

/-- Modelled from the spec: the record `BktrIndirectStorageBucket` is declared in `bktr.h`.
It is a header `{entry_count}` followed by the entry slots.  The list holds the slots of the
bucket in the re-laid layout, so slot `entry_count` is the sentinel. -/
structure BktrIndirectStorageBucket where
  entry_count : Nat
  indirect_storage_entries : List BktrIndirectStorageEntry
  deriving DecidableEq, Repr

/-- Modelled from the spec: the record `BktrIndirectStorageBlock` is declared in `bktr.h`.
It is a header with `bucket_count` and `virtual_size`, the top table `virtual_offsets`
and the buckets, which are reached through `bktrGetIndirectStorageBucket`. -/
structure BktrIndirectStorageBlock where
  bucket_count : Nat
  virtual_size : Nat
  virtual_offsets : List Nat
  indirect_storage_buckets : List BktrIndirectStorageBucket
  deriving DecidableEq, Repr

/-- Modelled from the spec: the record `BktrAesCtrExStorageEntry` is declared in `bktr.h`.
It is `{offset, generation}`. -/
structure BktrAesCtrExStorageEntry where
  offset : Nat
  generation : Nat
  deriving DecidableEq, Repr

/-- Modelled from the spec: the record `BktrAesCtrExStorageBucket` is declared in `bktr.h`.
Same shape as the Indirect bucket; the last bucket of a block holds two sentinels, in slots
`entry_count` and `entry_count + 1`. -/
structure BktrAesCtrExStorageBucket where
  entry_count : Nat
  aes_ctr_ex_storage_entries : List BktrAesCtrExStorageEntry
  deriving DecidableEq, Repr

/-- Modelled from the spec: the record `BktrAesCtrExStorageBlock` is declared in `bktr.h`.
It is a header with `bucket_count` and `physical_size`, the top table `physical_offsets`
and the buckets. -/
structure BktrAesCtrExStorageBlock where
  bucket_count : Nat
  physical_size : Nat
  physical_offsets : List Nat
  aes_ctr_ex_storage_buckets : List BktrAesCtrExStorageBucket
  deriving DecidableEq, Repr

/-- What an entry lookup hands back: a pointer to an entry (`found bucket_num index`),
the C `NULL` (`null`), a read outside the memory of the block (`fault`), or a search
loop that never ends (`diverge`). -/
inductive Lookup where
  | found (bucket_num : Nat) (index : Nat)
  | null
  | fault
  | diverge
  deriving DecidableEq, Repr

/-- What the search inside one bucket hands back. -/
inductive SearchResult where
  | hit (mid : Nat)
  | miss
  | fault
  | diverge
  deriving DecidableEq, Repr

/-! ## Bucket tree index -/

/-- The loop `for(u32 i = 1; i < block->bucket_count; i++) if (top[i] <= offset) bucket_num++;`
shared by both lookups.  `remaining` is the number of iterations still to run, `i` the loop
counter and `bucket_num` the count so far.  `none` is a read outside the top table. -/
def bucketNumLoop (top : List Nat) (offset : Nat) : Nat → Nat → Nat → Option Nat
  | 0, _, bucket_num => some bucket_num
  | remaining + 1, i, bucket_num =>
    match top[i]? with
    | none => none
    | some o => bucketNumLoop top offset remaining (i + 1) (if o ≤ offset then bucket_num + 1 else bucket_num)

/-- The loop `while(low <= high)` of both lookups, on the keys of the entry slots of one
bucket.  `low`, `high` and `mid` are `u32`. -/
def searchLoop (keys : List Nat) (entry_count offset : Nat) : Nat → Nat → Nat → SearchResult
  | 0, _, _ => SearchResult.diverge
  | budget + 1, low, high =>
    if low ≤ high then
      let mid := ((low + high) % 2 ^ 32) / 2
      match keys[mid]? with
      | none => SearchResult.fault
      | some k =>
        if k > offset then
          searchLoop keys entry_count offset budget low ((mid + 2 ^ 32 - 1) % 2 ^ 32)
        else if mid = (entry_count + 2 ^ 32 - 1) % 2 ^ 32 then SearchResult.hit mid
        else
          match keys[mid + 1]? with
          | none => SearchResult.fault
          | some k1 =>
            if k1 > offset then SearchResult.hit mid
            else searchLoop keys entry_count offset budget ((mid + 1) % 2 ^ 32) high
    else SearchResult.miss

/-- Number of iterations after which `searchLoop` is known to run forever: its state is the
pair (`low`, `high`) of `u32` values and the memory does not change, so a run of more than
`2 ^ 64` iterations visits a state twice. -/
def searchBudget : Nat := 2 ^ 64 + 1

/-- The part of a lookup that follows the choice of the bucket: empty bucket, the
`entry_count == 1` short circuit, and the binary search. -/
def bucketSearch (entry_count : Nat) (keys : List Nat) (offset : Nat) : SearchResult :=
  if entry_count = 0 then SearchResult.miss
  else if entry_count = 1 then SearchResult.hit 0
  else searchLoop keys entry_count offset searchBudget 0 ((entry_count + 2 ^ 32 - 1) % 2 ^ 32)

/-- Translation of a search result inside bucket `bucket_num` into a lookup result. -/
def Lookup.ofSearch (bucket_num : Nat) : SearchResult → Lookup
  | SearchResult.hit mid => Lookup.found bucket_num mid
  | SearchResult.miss => Lookup.null
  | SearchResult.fault => Lookup.fault
  | SearchResult.diverge => Lookup.diverge

/-- The accessor `bktrGetIndirectStorageBucket`: `none` is its `NULL`, otherwise the number of
the bucket it points to. -/
def bktrGetIndirectStorageBucket (block : BktrIndirectStorageBlock) (bucket_num : Nat) : Option Nat :=
  if bucket_num ≥ block.bucket_count then none else some bucket_num

/-- The lookup `bktrGetIndirectStorageEntry`. -/
def bktrGetIndirectStorageEntry (block : BktrIndirectStorageBlock) (offset : Nat) : Lookup :=
  if block.bucket_count = 0 ∨ offset ≥ block.virtual_size then Lookup.null
  else
    match bucketNumLoop block.virtual_offsets offset (block.bucket_count - 1) 1 0 with
    | none => Lookup.fault
    | some bucket_num =>
      match bktrGetIndirectStorageBucket block bucket_num with
      | none => Lookup.null
      | some ptr =>
        match block.indirect_storage_buckets[ptr]? with
        | none => Lookup.fault
        | some bucket =>
          Lookup.ofSearch bucket_num
            (bucketSearch bucket.entry_count
              (bucket.indirect_storage_entries.map BktrIndirectStorageEntry.virtual_offset) offset)

/-- The accessor `bktrGetAesCtrExStorageBucket`. -/
def bktrGetAesCtrExStorageBucket (block : BktrAesCtrExStorageBlock) (bucket_num : Nat) : Option Nat :=
  if bucket_num ≥ block.bucket_count then none else some bucket_num

/-- The lookup `bktrGetAesCtrExStorageEntry`. -/
def bktrGetAesCtrExStorageEntry (block : BktrAesCtrExStorageBlock) (offset : Nat) : Lookup :=
  if block.bucket_count = 0 ∨ offset ≥ block.physical_size then Lookup.null
  else
    match bktrGetAesCtrExStorageBucket block ((block.bucket_count + 2 ^ 32 - 1) % 2 ^ 32) with
    | none => Lookup.null
    | some last_ptr =>
      match block.aes_ctr_ex_storage_buckets[last_ptr]? with
      | none => Lookup.fault
      | some last_bucket =>
        if last_bucket.entry_count = 0 then Lookup.null
        else
          match last_bucket.aes_ctr_ex_storage_entries[last_bucket.entry_count]? with
          | none => Lookup.fault
          | some sentinel =>
            if offset ≥ sentinel.offset then Lookup.found last_ptr last_bucket.entry_count
            else
              match bucketNumLoop block.physical_offsets offset (block.bucket_count - 1) 1 0 with
              | none => Lookup.fault
              | some bucket_num =>
                match bktrGetAesCtrExStorageBucket block bucket_num with
                | none => Lookup.null
                | some ptr =>
                  match block.aes_ctr_ex_storage_buckets[ptr]? with
                  | none => Lookup.fault
                  | some bucket =>
                    Lookup.ofSearch bucket_num
                      (bucketSearch bucket.entry_count
                        (bucket.aes_ctr_ex_storage_entries.map BktrAesCtrExStorageEntry.offset) offset)

/-- Entry behind a pointer into an Indirect block; `none` when the slot is not in memory. -/
def BktrIndirectStorageBlock.entryAt (block : BktrIndirectStorageBlock) (bucket_num index : Nat) :
    Option BktrIndirectStorageEntry :=
  match block.indirect_storage_buckets[bucket_num]? with
  | none => none
  | some bucket => bucket.indirect_storage_entries[index]?

/-- Entry behind a pointer into an AesCtrEx block; `none` when the slot is not in memory. -/
def BktrAesCtrExStorageBlock.entryAt (block : BktrAesCtrExStorageBlock) (bucket_num index : Nat) :
    Option BktrAesCtrExStorageEntry :=
  match block.aes_ctr_ex_storage_buckets[bucket_num]? with
  | none => none
  | some bucket => bucket.aes_ctr_ex_storage_entries[index]?

/-- The field `entry_count` of bucket `bucket_num` of an Indirect block (`0` when the bucket
is not in memory). -/
def BktrIndirectStorageBlock.entryCount (block : BktrIndirectStorageBlock) (bucket_num : Nat) : Nat :=
  match block.indirect_storage_buckets[bucket_num]? with
  | none => 0
  | some bucket => bucket.entry_count

/-- The field `entry_count` of bucket `bucket_num` of an AesCtrEx block (`0` when the bucket
is not in memory). -/
def BktrAesCtrExStorageBlock.entryCount (block : BktrAesCtrExStorageBlock) (bucket_num : Nat) : Nat :=
  match block.aes_ctr_ex_storage_buckets[bucket_num]? with
  | none => 0
  | some bucket => bucket.entry_count

/-! ## Collaborators and machine state -/

/-- Sum of two `u64` values. -/
def add64 (a b : Nat) : Nat := (a + b) % 2 ^ 64

/-- Difference of two `u64` values. -/
def sub64 (a b : Nat) : Nat := (a + 2 ^ 64 - b % 2 ^ 64) % 2 ^ 64

/-- A call to one of the two section readers that `bktr.c` consumes, with the position
`pos` inside the caller buffer that the call is given as its output pointer. -/
inductive Call where
  | ncaReadFsSection (pos read_size offset : Nat)
  | ncaReadAesCtrExStorageFromBktrSection (pos read_size offset generation : Nat)
  deriving DecidableEq, Repr

/-- Modelled from the spec: the section readers `ncaReadFsSection` (`section_read`) and
`ncaReadAesCtrExStorageFromBktrSection` (`section_read_with_generation`) live in `nca.c`,
which is not part of the sources at hand.  A section is the byte sequence `plain` that a
plain read yields, the byte sequences `ctr_ex generation` that a read with a counter
generation yields, and for each reader the set of calls that it answers with `ok`. -/
structure NcaFsSectionContext where
  plain : Nat → Nat
  plain_ok : Nat → Nat → Bool
  ctr_ex : Nat → Nat → Nat
  ctr_ex_ok : Nat → Nat → Nat → Bool

/-- The state that a read acts on: the caller buffer `out` (byte at each position) and the
collaborator calls issued so far, oldest first. -/
structure Machine where
  out : Nat → Nat
  calls : List Call

/-- How a read ends: it returns `success`, it reads outside the memory of a block, or it
never returns. -/
inductive Outcome where
  | ret (success : Bool)
  | fault
  | diverge
  deriving DecidableEq, Repr

/-- The buffer after `read_size` bytes of `data`, taken from `offset` on, were written at
position `pos`. -/
def writeOut (out : Nat → Nat) (pos read_size : Nat) (data : Nat → Nat) (offset : Nat) : Nat → Nat :=
  fun j => if pos ≤ j ∧ j < pos + read_size then data (offset + (j - pos)) else out j

/-- Modelled from the spec: `section_read(fs, buf, len, off) → ok|err`.  The call is recorded;
when the section answers `ok` the bytes are written to the buffer, otherwise the buffer is
left as it was. -/
def ncaReadFsSection (fs : NcaFsSectionContext) (m : Machine) (pos read_size offset : Nat) :
    Outcome × Machine :=
  if fs.plain_ok read_size offset then
    (Outcome.ret true,
      ⟨writeOut m.out pos read_size fs.plain offset,
        m.calls ++ [Call.ncaReadFsSection pos read_size offset]⟩)
  else (Outcome.ret false, ⟨m.out, m.calls ++ [Call.ncaReadFsSection pos read_size offset]⟩)

/-- Modelled from the spec: `section_read_with_generation(update_fs, buf, len, off, generation)`. -/
def ncaReadAesCtrExStorageFromBktrSection (fs : NcaFsSectionContext) (m : Machine)
    (pos read_size offset generation : Nat) : Outcome × Machine :=
  if fs.ctr_ex_ok read_size offset generation then
    (Outcome.ret true,
      ⟨writeOut m.out pos read_size (fs.ctr_ex generation) offset,
        m.calls ++ [Call.ncaReadAesCtrExStorageFromBktrSection pos read_size offset generation]⟩)
  else
    (Outcome.ret false,
      ⟨m.out, m.calls ++ [Call.ncaReadAesCtrExStorageFromBktrSection pos read_size offset generation]⟩)

/-- Modelled from the spec: the record `BktrContext` is declared in `bktr.h`.  The fields
that the read paths use: the RomFS region `(offset, size)`, `body_offset`,
`missing_base_romfs`, the section handles `base_romfs_ctx.nca_fs_ctx` and
`patch_romfs_ctx.nca_fs_ctx`, and the two blocks (`none` is a null pointer). -/
structure BktrContext where
  offset : Nat
  size : Nat
  body_offset : Nat
  missing_base_romfs : Bool
  base_nca_fs_ctx : Option NcaFsSectionContext
  patch_nca_fs_ctx : Option NcaFsSectionContext
  indirect_block : Option BktrIndirectStorageBlock
  aes_ctr_ex_block : Option BktrAesCtrExStorageBlock

/-- Modelled from the spec: the record `RomFileSystemFileEntry` is declared in `romfs.h`;
the fields used here are the position and the size of the file data inside the body. -/
structure RomFileSystemFileEntry where
  offset : Nat
  size : Nat
  deriving DecidableEq, Repr

/-! ## Physical read resolver and AesCtrEx read dispatcher -/

/-- The C expression `first && second` on two reads: the second read runs, on the machine
that the first one left, only when the first one returned `true`. -/
def andThen (first : Outcome × Machine) (second : Machine → Outcome × Machine) :
    Outcome × Machine :=
  match first with
  | (Outcome.ret true, m1) => second m1
  | r => r

mutual

/-- The resolver `bktrPhysicalSectionRead(ctx, out + pos, read_size, offset)`, with the
number of nested calls it may still make as first argument. -/
def bktrPhysicalSectionRead (ctx : BktrContext) :
    Nat → Machine → Nat → Nat → Nat → Outcome × Machine
  | 0, m, _, _, _ => (Outcome.diverge, m)
  | depth + 1, m, pos, read_size, offset =>
    match ctx.indirect_block with
    | none => (Outcome.ret false, m)
    | some block =>
      if (!ctx.missing_base_romfs && ctx.base_nca_fs_ctx.isNone) || read_size == 0 then
        (Outcome.ret false, m)
      else
        match bktrGetIndirectStorageEntry block offset with
        | Lookup.null => (Outcome.ret false, m)
        | Lookup.fault => (Outcome.fault, m)
        | Lookup.diverge => (Outcome.diverge, m)
        | Lookup.found b i =>
          match block.entryAt b i, block.entryAt b (i + 1) with
          | some indirect_entry, some next_indirect_entry =>
            let section_offset :=
              add64 (sub64 offset indirect_entry.virtual_offset) indirect_entry.physical_offset
            if add64 offset read_size ≤ next_indirect_entry.virtual_offset then
              if indirect_entry.indirect_storage_index = BktrIndirectStorageIndex_Patch then
                bktrAesCtrExStorageRead ctx depth m pos read_size offset section_offset
              else if !ctx.missing_base_romfs then
                match ctx.base_nca_fs_ctx with
                | some fs => ncaReadFsSection fs m pos read_size section_offset
                | none => (Outcome.ret false, m)
              else (Outcome.ret false, m)
            else
              let indirect_block_size := sub64 next_indirect_entry.virtual_offset offset
              andThen (bktrPhysicalSectionRead ctx depth m pos indirect_block_size offset)
                (fun m1 => bktrPhysicalSectionRead ctx depth m1 (pos + indirect_block_size)
                  (sub64 read_size indirect_block_size) (add64 offset indirect_block_size))
          | _, _ => (Outcome.fault, m)
termination_by structural depth => depth

/-- The dispatcher
`bktrAesCtrExStorageRead(ctx, out + pos, read_size, virtual_offset, section_offset)`, with the
number of nested calls it may still make as first argument. -/
def bktrAesCtrExStorageRead (ctx : BktrContext) :
    Nat → Machine → Nat → Nat → Nat → Nat → Outcome × Machine
  | 0, m, _, _, _, _ => (Outcome.diverge, m)
  | depth + 1, m, pos, read_size, virtual_offset, section_offset =>
    match ctx.patch_nca_fs_ctx, ctx.aes_ctr_ex_block with
    | some fs, some block =>
      if read_size = 0 then (Outcome.ret false, m)
      else
        match bktrGetAesCtrExStorageEntry block section_offset with
        | Lookup.null => (Outcome.ret false, m)
        | Lookup.fault => (Outcome.fault, m)
        | Lookup.diverge => (Outcome.diverge, m)
        | Lookup.found b i =>
          match block.entryAt b i, block.entryAt b (i + 1) with
          | some aes_ctr_ex_entry, some next_aes_ctr_ex_entry =>
            if add64 section_offset read_size ≤ next_aes_ctr_ex_entry.offset then
              ncaReadAesCtrExStorageFromBktrSection fs m pos read_size section_offset
                aes_ctr_ex_entry.generation
            else
              let aes_ctr_ex_block_size := sub64 next_aes_ctr_ex_entry.offset section_offset
              andThen (bktrPhysicalSectionRead ctx depth m pos aes_ctr_ex_block_size virtual_offset)
                (fun m1 => bktrPhysicalSectionRead ctx depth m1 (pos + aes_ctr_ex_block_size)
                  (sub64 read_size aes_ctr_ex_block_size)
                  (add64 virtual_offset aes_ctr_ex_block_size))
          | _, _ => (Outcome.fault, m)
    | _, _ => (Outcome.ret false, m)
termination_by structural depth => depth

end

/-- Number of nested calls after which the mutual recursion of the resolver and the
dispatcher is known never to return: a call is determined by its `u64` arguments
`(read_size, offset)`, so a chain of more than `2 ^ 129` nested calls repeats a call. -/
def callBudget : Nat := 2 ^ 129 + 1

/-- The entry point `bktrReadFileSystemData(ctx, out + pos, read_size, offset)`. -/
def bktrReadFileSystemData (ctx : BktrContext) (m : Machine) (pos read_size offset : Nat) :
    Outcome × Machine :=
  if ctx.size = 0 ∨ read_size = 0 ∨ add64 offset read_size > ctx.size then (Outcome.ret false, m)
  else bktrPhysicalSectionRead ctx callBudget m pos read_size (add64 ctx.offset offset)

/-- The entry point `bktrReadFileEntryData(ctx, file_entry, out + pos, read_size, offset)`:
the parameter check of lines 270-274 with its `u64` sums, then the call of
`bktrReadFileSystemData` at `ctx->body_offset + file_entry->offset + offset`. -/
def bktrReadFileEntryData (ctx : BktrContext) (file_entry : RomFileSystemFileEntry)
    (m : Machine) (pos read_size offset : Nat) : Outcome × Machine :=
  if ctx.body_offset = 0 ∨ file_entry.size = 0 ∨
      add64 file_entry.offset file_entry.size > ctx.size ∨ read_size = 0 ∨
      add64 offset read_size > file_entry.size then (Outcome.ret false, m)
  else
    bktrReadFileSystemData ctx m pos read_size
      (add64 (add64 ctx.body_offset file_entry.offset) offset)

/-- The wrapper `read_file` in the words of the specification: `read_fs` at the caller's
offset shifted by `ctx.body_offset + file_entry.offset`. -/
def read_file_spec (ctx : BktrContext) (file_entry : RomFileSystemFileEntry)
    (m : Machine) (pos len off : Nat) : Outcome × Machine :=
  bktrReadFileSystemData ctx m pos len (ctx.body_offset + file_entry.offset + off)

/-! ## Update detection -/

/-- How `bktrIsFileEntryUpdated` ends: it returns `true` and stores `updated` through its
output pointer, it returns `false`, it reads outside the memory of a bucket, or it never
returns. -/
inductive FileUpdated where
  | ok (updated : Bool)
  | failed
  | fault
  | diverge
  deriving DecidableEq, Repr

/-- The loop `while(last_indirect_entry->virtual_offset < limit) last_indirect_entry++;` on
the entry slots from the pointer on; `index` is the index of the first of them.  The result
is the index at which the loop stops, `none` when the pointer leaves the slots of the
bucket. -/
def lastEntryLoop (limit : Nat) : List BktrIndirectStorageEntry → Nat → Option Nat
  | [], _ => none
  | e :: rest, index =>
    if e.virtual_offset < limit then lastEntryLoop limit rest (index + 1) else some index

/-- The loop `while(indirect_entry < last_indirect_entry)` with its `break`, on the entry
slots from the pointer on; `remaining` is the distance of the pointer to
`last_indirect_entry`. -/
def updatedLoop : List BktrIndirectStorageEntry → Nat → Option Bool
  | _, 0 => some false
  | [], _ + 1 => none
  | e :: rest, remaining + 1 =>
    if e.indirect_storage_index = BktrIndirectStorageIndex_Patch then some true
    else updatedLoop rest remaining

/-- The entry point `bktrIsFileEntryUpdated(ctx, file_entry, out)`. -/
def bktrIsFileEntryUpdated (ctx : BktrContext) (file_entry : RomFileSystemFileEntry) :
    FileUpdated :=
  match ctx.indirect_block with
  | none => FileUpdated.failed
  | some block =>
    if ctx.body_offset = 0 ∨ file_entry.size = 0 ∨
        add64 file_entry.offset file_entry.size > ctx.size then FileUpdated.failed
    else
      let file_offset := add64 (add64 ctx.offset ctx.body_offset) file_entry.offset
      match bktrGetIndirectStorageEntry block file_offset with
      | Lookup.null => FileUpdated.failed
      | Lookup.fault => FileUpdated.fault
      | Lookup.diverge => FileUpdated.diverge
      | Lookup.found b i =>
        match block.indirect_storage_buckets[b]? with
        | none => FileUpdated.fault
        | some bucket =>
          match lastEntryLoop (add64 file_offset file_entry.size)
              (bucket.indirect_storage_entries.drop i) i with
          | none => FileUpdated.fault
          | some last =>
            match updatedLoop (bucket.indirect_storage_entries.drop i) (last - i) with
            | none => FileUpdated.fault
            | some updated => FileUpdated.ok updated

/-! ## Well-formed, normalised bucket trees -/

/-- Key view of a bucket: its `entry_count` and the keys of its entry slots. -/
structure KeyBucket where
  entry_count : Nat
  keys : List Nat
  deriving DecidableEq, Repr

/-- Key of slot `i`, or `0` when the slot is not in memory. -/
def keyAt (keys : List Nat) (i : Nat) : Nat := (keys[i]?).getD 0

/-- Bucket `b` of a list of key views (an empty bucket when it is not in memory). -/
def bucketAt (buckets : List KeyBucket) (b : Nat) : KeyBucket := (buckets[b]?).getD ⟨0, []⟩

/-- Key of slot `i` of bucket `b`. -/
def slotKey (buckets : List KeyBucket) (b i : Nat) : Nat := keyAt (bucketAt buckets b).keys i

/-- A well-formed bucket in the re-laid layout: it is not empty, its count fits the bucket
record, the sentinel slot is in memory, and the keys of slots `0..entry_count` (sentinel
included) are strictly increasing. -/
def BucketWF (kb : KeyBucket) : Prop :=
  0 < kb.entry_count ∧ kb.entry_count < 2 ^ 31 ∧ kb.entry_count < kb.keys.length ∧
    ∀ i, i < kb.entry_count → keyAt kb.keys i < keyAt kb.keys (i + 1)

/-- A well-formed, normalised bucket tree with `bucket_count` buckets whose last sentinel is
`total`: every bucket is well formed, bucket `0` starts at key `0`, bucket `b ≥ 1` starts at
`top[b]`, the sentinel of a bucket that has a successor is `top[b + 1]`, and the sentinel of
the last bucket is `total`. -/
def TreeWF (bucket_count total : Nat) (top : List Nat) (buckets : List KeyBucket) : Prop :=
  0 < bucket_count ∧ bucket_count < 2 ^ 32 ∧ bucket_count ≤ top.length ∧
    bucket_count ≤ buckets.length ∧ total < 2 ^ 64 ∧
    (∀ b, b < bucket_count → BucketWF (bucketAt buckets b)) ∧
    slotKey buckets 0 0 = 0 ∧
    (∀ b, b < bucket_count → 0 < b → slotKey buckets b 0 = keyAt top b) ∧
    (∀ b, b < bucket_count → b + 1 < bucket_count →
      slotKey buckets b (bucketAt buckets b).entry_count = keyAt top (b + 1)) ∧
    slotKey buckets (bucket_count - 1) (bucketAt buckets (bucket_count - 1)).entry_count = total

/-- Slot `(b, i)` is a real entry of the tree and serves key `v`: its key is at most `v` and
the key of the next slot is above `v`. -/
def Serves (bucket_count : Nat) (buckets : List KeyBucket) (b i v : Nat) : Prop :=
  b < bucket_count ∧ i < (bucketAt buckets b).entry_count ∧
    slotKey buckets b i ≤ v ∧ v < slotKey buckets b (i + 1)

/-- Key view of an Indirect bucket. -/
def BktrIndirectStorageBucket.toKeys (bucket : BktrIndirectStorageBucket) : KeyBucket :=
  ⟨bucket.entry_count, bucket.indirect_storage_entries.map BktrIndirectStorageEntry.virtual_offset⟩

/-- Key view of an AesCtrEx bucket. -/
def BktrAesCtrExStorageBucket.toKeys (bucket : BktrAesCtrExStorageBucket) : KeyBucket :=
  ⟨bucket.entry_count, bucket.aes_ctr_ex_storage_entries.map BktrAesCtrExStorageEntry.offset⟩

/-- Key views of the buckets of an Indirect block. -/
def BktrIndirectStorageBlock.keyBuckets (block : BktrIndirectStorageBlock) : List KeyBucket :=
  block.indirect_storage_buckets.map BktrIndirectStorageBucket.toKeys

/-- Key views of the buckets of an AesCtrEx block. -/
def BktrAesCtrExStorageBlock.keyBuckets (block : BktrAesCtrExStorageBlock) : List KeyBucket :=
  block.aes_ctr_ex_storage_buckets.map BktrAesCtrExStorageBucket.toKeys

/-- A well-formed, normalised Indirect block: a well-formed tree whose last sentinel is
`virtual_size`. -/
def IndirectWF (block : BktrIndirectStorageBlock) : Prop :=
  TreeWF block.bucket_count block.virtual_size block.virtual_offsets block.keyBuckets

/-- A well-formed, normalised AesCtrEx block as bootstrap leaves it, for an update section
of size `section_size` whose Indirect block starts at `ind_off`: a well-formed tree whose
last bucket has the first sentinel `ind_off` and the second sentinel `section_size`, with
`ind_off < physical_size ≤ section_size` (`physical_size` is the offset `aes.off` of the
AesCtrEx block inside the section). -/
def AesCtrExWF (block : BktrAesCtrExStorageBlock) (ind_off section_size : Nat) : Prop :=
  TreeWF block.bucket_count ind_off block.physical_offsets block.keyBuckets ∧
    (bucketAt block.keyBuckets (block.bucket_count - 1)).entry_count + 1 <
      (bucketAt block.keyBuckets (block.bucket_count - 1)).keys.length ∧
    slotKey block.keyBuckets (block.bucket_count - 1)
      ((bucketAt block.keyBuckets (block.bucket_count - 1)).entry_count + 1) = section_size ∧
    ind_off < block.physical_size ∧ block.physical_size ≤ section_size ∧ section_size < 2 ^ 64

/-- Entry behind a pointer into an Indirect block, a zero entry when the slot is not in
memory. -/
def indirectEntry (block : BktrIndirectStorageBlock) (bucket_num index : Nat) :
    BktrIndirectStorageEntry :=
  (block.entryAt bucket_num index).getD ⟨0, 0, 0⟩

/-- Every real Indirect entry maps its logical range `[virtual_offset, next.virtual_offset)`
to a physical range that `u64` offsets can address, and a `Patch` entry maps it inside
`[0, physical_size)`, the range of offsets that the AesCtrEx lookup accepts. -/
def EntriesMapped (block : BktrIndirectStorageBlock) (physical_size : Nat) : Prop :=
  ∀ b, b < block.bucket_count → ∀ i, i < block.entryCount b →
    (indirectEntry block b i).physical_offset +
        ((indirectEntry block b (i + 1)).virtual_offset - (indirectEntry block b i).virtual_offset)
      ≤ 2 ^ 64 ∧
    ((indirectEntry block b i).indirect_storage_index = BktrIndirectStorageIndex_Patch →
      (indirectEntry block b i).physical_offset +
          ((indirectEntry block b (i + 1)).virtual_offset -
            (indirectEntry block b i).virtual_offset)
        ≤ physical_size)

/-- A well-formed, normalised context over the blocks `ib` and `ab`: both blocks are well
formed, the update section handle is set, the base section handle is set unless the base
RomFS is missing, and the Indirect entries are mapped. -/
def ContextWF (ctx : BktrContext) (ib : BktrIndirectStorageBlock) (ab : BktrAesCtrExStorageBlock)
    (ind_off section_size : Nat) : Prop :=
  ctx.indirect_block = some ib ∧ ctx.aes_ctr_ex_block = some ab ∧ IndirectWF ib ∧
    AesCtrExWF ab ind_off section_size ∧ ctx.patch_nca_fs_ctx.isSome = true ∧
    (ctx.missing_base_romfs = false → ctx.base_nca_fs_ctx.isSome = true) ∧
    EntriesMapped ib ab.physical_size

/-- The byte of the patched image at logical offset `v`: the Indirect entry that the lookup
returns for `v` names the source and the physical offset; a `Patch` byte is the byte of the
update section under the generation of the AesCtrEx entry that the lookup returns for that
physical offset, any other byte is the byte of the base section.  `none` when a lookup does
not return an entry or the source is not at hand. -/
def logicalByte (ctx : BktrContext) (v : Nat) : Option Nat :=
  match ctx.indirect_block with
  | none => none
  | some ib =>
    match bktrGetIndirectStorageEntry ib v with
    | Lookup.found b i =>
      match ib.entryAt b i with
      | none => none
      | some e =>
        if e.indirect_storage_index = BktrIndirectStorageIndex_Patch then
          match ctx.patch_nca_fs_ctx, ctx.aes_ctr_ex_block with
          | some fs, some ab =>
            match bktrGetAesCtrExStorageEntry ab (e.physical_offset + (v - e.virtual_offset)) with
            | Lookup.found c j =>
              match ab.entryAt c j with
              | none => none
              | some a => some (fs.ctr_ex a.generation (e.physical_offset + (v - e.virtual_offset)))
            | _ => none
          | _, _ => none
        else if ctx.missing_base_romfs then none
        else
          match ctx.base_nca_fs_ctx with
          | none => none
          | some fs => some (fs.plain (e.physical_offset + (v - e.virtual_offset)))
    | _ => none

/-- The buffer after the bytes of the patched image at `[v, v + len)` were written at
position `pos`. -/
def writeLogical (ctx : BktrContext) (out : Nat → Nat) (pos len v : Nat) : Nat → Nat :=
  fun j => if pos ≤ j ∧ j < pos + len then (logicalByte ctx (v + (j - pos))).getD 0 else out j

/-- The call `c` is the leaf read of the logical segment `[v, v + l)` into the buffer at
`pos`: the segment lies inside the range of one real Indirect entry `e`; when `e` is not a
`Patch` entry the call is a plain read of the base section at the mapped physical offset,
and when it is one the call is a read of the update section at the mapped physical offset
`p`, with `[p, p + l)` inside the range of the AesCtrEx entry `a` that the lookup returns for
`p`, and with the generation of `a`. -/
def LeafCall (ib : BktrIndirectStorageBlock) (ab : BktrAesCtrExStorageBlock) (c : Call)
    (pos v l : Nat) : Prop :=
  ∃ b i e nxt, Serves ib.bucket_count ib.keyBuckets b i v ∧ ib.entryAt b i = some e ∧
    ib.entryAt b (i + 1) = some nxt ∧ v + l ≤ nxt.virtual_offset ∧
    ((e.indirect_storage_index ≠ BktrIndirectStorageIndex_Patch ∧
        c = Call.ncaReadFsSection pos l (e.physical_offset + (v - e.virtual_offset))) ∨
      (e.indirect_storage_index = BktrIndirectStorageIndex_Patch ∧
        ∃ cb j a an,
          bktrGetAesCtrExStorageEntry ab (e.physical_offset + (v - e.virtual_offset)) =
            Lookup.found cb j ∧
          ab.entryAt cb j = some a ∧ ab.entryAt cb (j + 1) = some an ∧
          a.offset ≤ e.physical_offset + (v - e.virtual_offset) ∧
          e.physical_offset + (v - e.virtual_offset) + l ≤ an.offset ∧
          c = Call.ncaReadAesCtrExStorageFromBktrSection pos l
            (e.physical_offset + (v - e.virtual_offset)) a.generation))

/-- The calls `cs`, in order, are the leaf reads of consecutive logical segments that start
at `v`, follow one another without a gap and have the total length `k`; each is written at
the buffer position of its segment. -/
def LeafRun (ib : BktrIndirectStorageBlock) (ab : BktrAesCtrExStorageBlock) :
    List Call → Nat → Nat → Nat → Prop
  | [], _, _, k => k = 0
  | c :: rest, pos, v, k =>
    ∃ l, 0 < l ∧ l ≤ k ∧ LeafCall ib ab c pos v l ∧ LeafRun ib ab rest (pos + l) (v + l) (k - l)

/-- The section of the call answers it with `ok`. -/
def Answered (ctx : BktrContext) : Call → Prop
  | Call.ncaReadFsSection _ read_size offset =>
    ∃ fs, ctx.base_nca_fs_ctx = some fs ∧ fs.plain_ok read_size offset = true
  | Call.ncaReadAesCtrExStorageFromBktrSection _ read_size offset generation =>
    ∃ fs, ctx.patch_nca_fs_ctx = some fs ∧ fs.ctr_ex_ok read_size offset generation = true

/-- What a physical read of `[v, v + len)` into the buffer at `pos` leaves behind: it
returns; the calls it issued are the leaf reads of consecutive segments from `v` on, of total
length `k ≤ len`; it returns `true` exactly when every byte of the range has a source and
every call was answered; and then the segments cover the whole range and the buffer holds
the bytes of the patched image. -/
def ReadPost (ctx : BktrContext) (ib : BktrIndirectStorageBlock) (ab : BktrAesCtrExStorageBlock)
    (m : Machine) (pos len v : Nat) (r : Outcome × Machine) : Prop :=
  ∃ ok cs k, r.1 = Outcome.ret ok ∧ r.2.calls = m.calls ++ cs ∧ k ≤ len ∧
    LeafRun ib ab cs pos v k ∧
    (ok = true ↔ (∀ t, t < len → (logicalByte ctx (v + t)).isSome = true) ∧
      ∀ c, c ∈ cs → Answered ctx c) ∧
    (ok = true → k = len ∧ r.2.out = writeLogical ctx m.out pos len v)

/-- Both section readers answer every call: the sections are read as fixed byte
sequences. -/
def ReadersTotal (ctx : BktrContext) : Prop :=
  (∀ fs, ctx.base_nca_fs_ctx = some fs → ∀ l o, fs.plain_ok l o = true) ∧
    (∀ fs, ctx.patch_nca_fs_ctx = some fs → ∀ l o g, fs.ctr_ex_ok l o g = true)

instance (kb : KeyBucket) : Decidable (BucketWF kb) := by
  unfold BucketWF; infer_instance

instance (bucket_count total : Nat) (top : List Nat) (buckets : List KeyBucket) :
    Decidable (TreeWF bucket_count total top buckets) := by
  unfold TreeWF; infer_instance

instance (bucket_count : Nat) (buckets : List KeyBucket) (b i v : Nat) :
    Decidable (Serves bucket_count buckets b i v) := by
  unfold Serves; infer_instance

instance (block : BktrIndirectStorageBlock) : Decidable (IndirectWF block) := by
  unfold IndirectWF; infer_instance

instance (block : BktrAesCtrExStorageBlock) (ind_off section_size : Nat) :
    Decidable (AesCtrExWF block ind_off section_size) := by
  unfold AesCtrExWF; infer_instance

instance (block : BktrIndirectStorageBlock) (physical_size : Nat) :
    Decidable (EntriesMapped block physical_size) := by
  unfold EntriesMapped; infer_instance

instance (ctx : BktrContext) (ib : BktrIndirectStorageBlock) (ab : BktrAesCtrExStorageBlock)
    (ind_off section_size : Nat) : Decidable (ContextWF ctx ib ab ind_off section_size) := by
  unfold ContextWF; infer_instance

/-- The place where a physical read of a range that starts at `v` is split: `head` bytes
after `v`, either at the key of the successor of the Indirect entry that serves `v`, or, for
a `Patch` entry and before that key, where the physical offset reaches the offset of the
successor of the AesCtrEx entry that the lookup returns. -/
def SplitPoint (ib : BktrIndirectStorageBlock) (ab : BktrAesCtrExStorageBlock)
    (v head : Nat) : Prop :=
  ∃ b i e nxt, Serves ib.bucket_count ib.keyBuckets b i v ∧ ib.entryAt b i = some e ∧
    ib.entryAt b (i + 1) = some nxt ∧
    (v + head = nxt.virtual_offset ∨
      (e.indirect_storage_index = BktrIndirectStorageIndex_Patch ∧
        v + head < nxt.virtual_offset ∧
        ∃ cb j an,
          bktrGetAesCtrExStorageEntry ab (e.physical_offset + (v - e.virtual_offset)) =
            Lookup.found cb j ∧
          ab.entryAt cb (j + 1) = some an ∧
          e.physical_offset + (v - e.virtual_offset) + head = an.offset))

/-! ## Bootstrap: the re-lay of the buckets in memory -/

/-- Modelled from the spec: `sizeof(BktrIndirectStorageBucket)` and
`sizeof(BktrAesCtrExStorageBucket)`; the records are declared in `bktr.h`, the specification
gives the `0x4000` bytes of a bucket on disk. -/
def sizeofBucket : Nat := 0x4000

/-- The two `memcpy` of one iteration of a re-lay loop, on the bytes of the bucket area of a
block (byte at each offset from `block->indirect_storage_buckets`, resp.
`block->aes_ctr_ex_storage_buckets`): `size` bytes from offset `src` on are copied to
`tmp_bucket`, and from there to offset `dst` on. -/
def copyBucket (area : Nat → Nat) (dst src size : Nat) : Nat → Nat :=
  fun a => if dst ≤ a ∧ a < dst + size then area (src + (a - dst)) else area a

/-- Offset inside the bucket area of the pointer that the accessors
`bktrGetIndirectStorageBucket` and `bktrGetAesCtrExStorageBucket` return for `bucket_num`
(`none` is their `NULL`): `(sizeof(Bucket) + sizeof(Entry)) * (u64)bucket_num`, where
`entry_size` is `sizeof(Entry)`. -/
def bucketAddress (bucket_count entry_size bucket_num : Nat) : Option Nat :=
  if bucket_num ≥ bucket_count then none
  else some (((sizeofBucket + entry_size) * bucket_num) % 2 ^ 64)

/-- The loop `for(u32 i = bucket_count - 1; i > 0; i--)` of lines 123-128 and 136-141, from
the value `i` of its counter on: bucket `i` is copied from its place on disk,
`&buckets[i]` at offset `sizeof(Bucket) * i`, to the place that the accessor returns.  The
result is `none` when the accessor returns `NULL`, which the second `memcpy` writes to. -/
def relayLoop (bucket_count entry_size : Nat) : Nat → (Nat → Nat) → Option (Nat → Nat)
  | 0, area => some area
  | i + 1, area =>
    match bucketAddress bucket_count entry_size (i + 1) with
    | none => none
    | some dst =>
      relayLoop bucket_count entry_size i
        (copyBucket area dst (sizeofBucket * (i + 1)) sizeofBucket)

/-- The re-lay of the bucket area of a block with `bucket_count` buckets: the loop, started
at the `u32` value `bucket_count - 1`. -/
def relay (bucket_count entry_size : Nat) (area : Nat → Nat) : Option (Nat → Nat) :=
  relayLoop bucket_count entry_size ((bucket_count + 2 ^ 32 - 1) % 2 ^ 32) area

/-! ## Bootstrap: the sentinels -/

/-- The store `entries[index].virtual_offset = key` into the entry slots of a bucket; `none`
when the slot is not in the memory of the bucket. -/
def storeIndirectKey (entries : List BktrIndirectStorageEntry) (index key : Nat) :
    Option (List BktrIndirectStorageEntry) :=
  match entries[index]? with
  | none => none
  | some e => some (entries.set index ⟨key, e.physical_offset, e.indirect_storage_index⟩)

/-- The two stores `entries[index].offset = offset; entries[index].generation = generation;`
into the entry slots of a bucket; `none` when the slot is not in the memory of the bucket. -/
def storeAesCtrExEntry (entries : List BktrAesCtrExStorageEntry)
    (index offset generation : Nat) : Option (List BktrAesCtrExStorageEntry) :=
  match entries[index]? with
  | none => none
  | some _ => some (entries.set index ⟨offset, generation⟩)

/-- The Indirect buckets from number `i` on after the re-lay, as pointers see them: a bucket
keeps its header and its entry slots and gains behind them the slots `room i` that the new
stride leaves between it and its successor (behind the last bucket, the rest of the tail
room).  What these slots hold is whatever the memory held. -/
def relaidIndirectBuckets (room : Nat → List BktrIndirectStorageEntry) :
    List BktrIndirectStorageBucket → Nat → List BktrIndirectStorageBucket
  | [], _ => []
  | bucket :: rest, i =>
    ⟨bucket.entry_count, bucket.indirect_storage_entries ++ room i⟩ ::
      relaidIndirectBuckets room rest (i + 1)

/-- The AesCtrEx buckets from number `i` on after the re-lay, as pointers see them. -/
def relaidAesCtrExBuckets (room : Nat → List BktrAesCtrExStorageEntry) :
    List BktrAesCtrExStorageBucket → Nat → List BktrAesCtrExStorageBucket
  | [], _ => []
  | bucket :: rest, i =>
    ⟨bucket.entry_count, bucket.aes_ctr_ex_storage_entries ++ room i⟩ ::
      relaidAesCtrExBuckets room rest (i + 1)

/-- The re-lay loop of lines 123-128 on an Indirect block as read from disk.  The loop
counter starts at the `u32` value `bucket_count - 1`, so with `bucket_count = 0` the first
iteration copies to the `NULL` that the accessor returns; a bucket that the block does not
hold is a read outside its memory. -/
def relayIndirect (block : BktrIndirectStorageBlock)
    (room : Nat → List BktrIndirectStorageEntry) : Option BktrIndirectStorageBlock :=
  if block.bucket_count = 0 ∨ block.indirect_storage_buckets.length < block.bucket_count then none
  else
    some ⟨block.bucket_count, block.virtual_size, block.virtual_offsets,
      relaidIndirectBuckets room block.indirect_storage_buckets 0⟩

/-- The re-lay loop of lines 136-141 on an AesCtrEx block as read from disk. -/
def relayAesCtrEx (block : BktrAesCtrExStorageBlock)
    (room : Nat → List BktrAesCtrExStorageEntry) : Option BktrAesCtrExStorageBlock :=
  if block.bucket_count = 0 ∨ block.aes_ctr_ex_storage_buckets.length < block.bucket_count then
    none
  else
    some ⟨block.bucket_count, block.physical_size, block.physical_offsets,
      relaidAesCtrExBuckets room block.aes_ctr_ex_storage_buckets 0⟩

/-- The loop `for(u32 i = 0; (i + 1) < bucket_count; i++)` of lines 130-134: the slot
`entries[entry_count]` of bucket `i` gets the key `virtual_offsets[i + 1]`.  `remaining` is
the number of iterations still to run and `buckets` the buckets of the block so far; `none`
is an access outside the memory of the block. -/
def indirectSentinelLoop (block : BktrIndirectStorageBlock) :
    Nat → Nat → List BktrIndirectStorageBucket → Option (List BktrIndirectStorageBucket)
  | 0, _, buckets => some buckets
  | remaining + 1, i, buckets =>
    match bktrGetIndirectStorageBucket block i with
    | none => none
    | some ptr =>
      match buckets[ptr]?, block.virtual_offsets[i + 1]? with
      | some cur_bucket, some key =>
        match storeIndirectKey cur_bucket.indirect_storage_entries cur_bucket.entry_count key with
        | none => none
        | some entries =>
          indirectSentinelLoop block remaining (i + 1)
            (buckets.set ptr ⟨cur_bucket.entry_count, entries⟩)
      | _, _ => none

/-- The loop `for(u32 i = 0; (i + 1) < bucket_count; i++)` of lines 143-149: the slot
`entries[entry_count]` of bucket `i` gets the offset and the generation of the first entry
slot of bucket `i + 1`. -/
def aesCtrExSentinelLoop (block : BktrAesCtrExStorageBlock) :
    Nat → Nat → List BktrAesCtrExStorageBucket → Option (List BktrAesCtrExStorageBucket)
  | 0, _, buckets => some buckets
  | remaining + 1, i, buckets =>
    match bktrGetAesCtrExStorageBucket block i, bktrGetAesCtrExStorageBucket block (i + 1) with
    | some cur_ptr, some next_ptr =>
      match buckets[cur_ptr]?, buckets[next_ptr]? with
      | some cur_bucket, some next_bucket =>
        match next_bucket.aes_ctr_ex_storage_entries[0]? with
        | none => none
        | some first =>
          match storeAesCtrExEntry cur_bucket.aes_ctr_ex_storage_entries cur_bucket.entry_count
              first.offset first.generation with
          | none => none
          | some entries =>
            aesCtrExSentinelLoop block remaining (i + 1)
              (buckets.set cur_ptr ⟨cur_bucket.entry_count, entries⟩)
      | _, _ => none
    | _, _ => none

/-- Lines 151 and 153: the slot `entries[entry_count]` of the last Indirect bucket gets the
key `virtual_size`. -/
def lastIndirectSentinel (block : BktrIndirectStorageBlock) : Option BktrIndirectStorageBlock :=
  match bktrGetIndirectStorageBucket block ((block.bucket_count + 2 ^ 32 - 1) % 2 ^ 32) with
  | none => none
  | some ptr =>
    match block.indirect_storage_buckets[ptr]? with
    | none => none
    | some last_indirect_bucket =>
      match storeIndirectKey last_indirect_bucket.indirect_storage_entries
          last_indirect_bucket.entry_count block.virtual_size with
      | none => none
      | some entries =>
        some ⟨block.bucket_count, block.virtual_size, block.virtual_offsets,
          block.indirect_storage_buckets.set ptr ⟨last_indirect_bucket.entry_count, entries⟩⟩

/-- Lines 152 and 154-157: the slot `entries[entry_count]` of the last AesCtrEx bucket gets
`{indirect_bucket.offset, aes_ctr_upper_iv.generation}` and the slot
`entries[entry_count + 1]` gets `{section_size, 0}`. -/
def lastAesCtrExSentinels (block : BktrAesCtrExStorageBlock)
    (indirect_offset generation section_size : Nat) : Option BktrAesCtrExStorageBlock :=
  match bktrGetAesCtrExStorageBucket block ((block.bucket_count + 2 ^ 32 - 1) % 2 ^ 32) with
  | none => none
  | some ptr =>
    match block.aes_ctr_ex_storage_buckets[ptr]? with
    | none => none
    | some last_aes_ctr_ex_bucket =>
      match storeAesCtrExEntry last_aes_ctr_ex_bucket.aes_ctr_ex_storage_entries
          last_aes_ctr_ex_bucket.entry_count indirect_offset generation with
      | none => none
      | some entries1 =>
        match storeAesCtrExEntry entries1 ((last_aes_ctr_ex_bucket.entry_count + 1) % 2 ^ 32)
            section_size 0 with
        | none => none
        | some entries2 =>
          some ⟨block.bucket_count, block.physical_size, block.physical_offsets,
            block.aes_ctr_ex_storage_buckets.set ptr
              ⟨last_aes_ctr_ex_bucket.entry_count, entries2⟩⟩

/-- The Indirect block after the re-lay and the sentinel steps of bootstrap (lines 123-134,
151, 153); `none` is an access outside the memory of the block. -/
def normaliseIndirect (block : BktrIndirectStorageBlock)
    (room : Nat → List BktrIndirectStorageEntry) : Option BktrIndirectStorageBlock :=
  match relayIndirect block room with
  | none => none
  | some relaid =>
    match indirectSentinelLoop relaid (relaid.bucket_count - 1) 0
        relaid.indirect_storage_buckets with
    | none => none
    | some buckets =>
      lastIndirectSentinel
        ⟨relaid.bucket_count, relaid.virtual_size, relaid.virtual_offsets, buckets⟩

/-- The AesCtrEx block after the re-lay and the sentinel steps of bootstrap (lines 136-149,
152, 154-157), for the header values `indirect_bucket.offset`, `aes_ctr_upper_iv.generation`
and `section_size` of the update section. -/
def normaliseAesCtrEx (block : BktrAesCtrExStorageBlock)
    (room : Nat → List BktrAesCtrExStorageEntry)
    (indirect_offset generation section_size : Nat) : Option BktrAesCtrExStorageBlock :=
  match relayAesCtrEx block room with
  | none => none
  | some relaid =>
    match aesCtrExSentinelLoop relaid (relaid.bucket_count - 1) 0
        relaid.aes_ctr_ex_storage_buckets with
    | none => none
    | some buckets =>
      lastAesCtrExSentinels
        ⟨relaid.bucket_count, relaid.physical_size, relaid.physical_offsets, buckets⟩
        indirect_offset generation section_size

/-- A bucket tree as it lies on disk, in the key view: every bucket holds its
`entry_count ≥ 1` entries, their keys are strictly increasing, bucket `0` starts at key `0`,
bucket `b ≥ 1` starts at `top[b]`, the last key of a bucket is below the first key of its
successor, and the last key of the last bucket is below `total`. -/
def DiskTreeWF (bucket_count total : Nat) (top : List Nat) (buckets : List KeyBucket) : Prop :=
  0 < bucket_count ∧ bucket_count < 2 ^ 32 ∧ bucket_count ≤ top.length ∧
    bucket_count ≤ buckets.length ∧ total < 2 ^ 64 ∧
    (∀ b, b < bucket_count →
      0 < (bucketAt buckets b).entry_count ∧ (bucketAt buckets b).entry_count < 2 ^ 31 ∧
      (bucketAt buckets b).entry_count ≤ (bucketAt buckets b).keys.length ∧
      ∀ i, i < (bucketAt buckets b).entry_count → i + 1 < (bucketAt buckets b).entry_count →
        keyAt (bucketAt buckets b).keys i < keyAt (bucketAt buckets b).keys (i + 1)) ∧
    slotKey buckets 0 0 = 0 ∧
    (∀ b, b < bucket_count → 0 < b → slotKey buckets b 0 = keyAt top b) ∧
    (∀ b, b < bucket_count → b + 1 < bucket_count →
      slotKey buckets b ((bucketAt buckets b).entry_count - 1) < keyAt top (b + 1)) ∧
    slotKey buckets (bucket_count - 1) ((bucketAt buckets (bucket_count - 1)).entry_count - 1) <
      total

instance (bucket_count total : Nat) (top : List Nat) (buckets : List KeyBucket) :
    Decidable (DiskTreeWF bucket_count total top buckets) := by
  unfold DiskTreeWF; infer_instance

/-! ## Bootstrap -/

/-- Modelled from the spec: the enumeration `NcaFsSectionType` is declared in `nca.h`; these
are the values that bootstrap tells apart. -/
inductive NcaFsSectionType where
  | RomFs
  | PatchRomFs
  | Other
  deriving DecidableEq, Repr

/-- Modelled from the spec: the fields of the record `NcaContext` (declared in `nca.h`) that
bootstrap compares: program identity, content kind, id offset, title version, and whether a
title key is needed and was retrieved. -/
structure NcaContext where
  program_id : Nat
  content_type : Nat
  id_offset : Nat
  title_version : Nat
  rights_id_available : Bool
  titlekey_retrieved : Bool
  deriving DecidableEq, Repr

/-- Modelled from the spec: one of the two records `indirect_bucket` and `aes_ctr_ex_bucket`
of `header.patch_info` (declared in `nca.h`): the place `[offset, offset + size)` of a block
inside the update section, and the magic word and the version of its header. -/
structure NcaBucketInfo where
  offset : Nat
  size : Nat
  magic : Nat
  version : Nat
  deriving DecidableEq, Repr

/-- Modelled from the spec: a section handle, the C record `NcaFsSectionContext` (declared in
`nca.h`), with the fields that bootstrap uses and, as `reader`, the bytes that reads of the
section yield. -/
structure NcaFsSection where
  enabled : Bool
  section_type : NcaFsSectionType
  has_sparse_layer : Bool
  section_size : Nat
  nca_ctx : Option NcaContext
  indirect_bucket : NcaBucketInfo
  aes_ctr_ex_bucket : NcaBucketInfo
  aes_ctr_upper_iv_generation : Nat
  reader : NcaFsSectionContext

/-- Modelled from the spec: the fields of `RomFileSystemHeader.cur_format` (declared in
`romfs.h`) that bootstrap uses. -/
structure RomFileSystemInformation where
  header_size : Nat
  directory_entry_offset : Nat
  directory_entry_size : Nat
  file_entry_offset : Nat
  file_entry_size : Nat
  body_offset : Nat
  deriving DecidableEq, Repr

/-- Modelled from the spec: the whole record `BktrContext` (declared in `bktr.h`) as bootstrap
fills it: the fields `ctx` that the read paths use, whether `base_romfs_ctx` was set up by
`romfsInitializeContext`, and the rest of `patch_romfs_ctx`: the RomFS region, the header,
the two tables with their sizes (`none` is a null pointer) and the body offset. -/
structure BktrContextRecord where
  ctx : BktrContext
  base_romfs_ready : Bool
  patch_offset : Nat
  patch_size : Nat
  patch_header : RomFileSystemInformation
  dir_table_size : Nat
  dir_table : Option (Nat → Nat)
  file_table_size : Nat
  file_table : Option (Nat → Nat)
  patch_body_offset : Nat

/-- The empty state of the context record: every field zero, every pointer null. -/
def emptyContextRecord : BktrContextRecord :=
  ⟨⟨0, 0, 0, false, none, none, none, none⟩, false, 0, 0, ⟨0, 0, 0, 0, 0, 0⟩, 0, none, 0, none, 0⟩

/-- Modelled from the spec: `free(ctx)`, the inline function `bktrFreeContext` of `bktr.h`.
It releases the two blocks and the two table buffers and clears every field: the record is
left in the empty state. -/
def bktrFreeContext (_out : BktrContextRecord) : BktrContextRecord := emptyContextRecord

/-- A call that bootstrap makes to a collaborator; `resolver c` is a section read `c` that
`bktrPhysicalSectionRead` issued on behalf of bootstrap. -/
inductive BootCall where
  | romfsInitializeContext
  | calloc (size : Nat)
  | ncaReadFsSection (read_size offset : Nat)
  | ncaGetFsSectionHashTargetProperties
  | malloc (size : Nat)
  | resolver (c : Call)
  deriving DecidableEq, Repr

/-- Modelled from the spec: what bootstrap takes from outside `bktr.c`.  The constants
`NCA_BKTR_VERSION`, `ROMFS_HEADER_SIZE`, `sizeof(RomFileSystemHeader)` and the sizes of the
two entry records; the collaborators `romfsInitializeContext` (whether it succeeds; a
failed call leaves `base_romfs_ctx` as it found it) and
`ncaGetFsSectionHashTargetProperties` (`none` is its failure); whether the allocation
number `n` of a run, of `size` bytes, succeeds; how the bytes of a block and of the RomFS
header are laid out as records; and what the tail room of the blocks holds. -/
structure BootEnv where
  NCA_BKTR_VERSION : Nat
  ROMFS_HEADER_SIZE : Nat
  sizeof_header : Nat
  sizeof_indirect_entry : Nat
  sizeof_aes_ctr_ex_entry : Nat
  romfsInitializeContext : NcaFsSection → Bool
  alloc_ok : Nat → Nat → Bool
  decodeIndirect : (Nat → Nat) → BktrIndirectStorageBlock
  decodeAesCtrEx : (Nat → Nat) → BktrAesCtrExStorageBlock
  indirect_room : Nat → List BktrIndirectStorageEntry
  aes_ctr_ex_room : Nat → List BktrAesCtrExStorageEntry
  ncaGetFsSectionHashTargetProperties : NcaFsSection → Option (Nat × Nat)
  decodeHeader : (Nat → Nat) → RomFileSystemInformation

/-- Modelled from the spec: the constant `NCA_BKTR_MAGIC` of `nca.h`, the magic word `"BKTR"`
read as a big-endian number. -/
def NCA_BKTR_MAGIC : Nat := 0x424B5452

/-- The builtin `__builtin_bswap32` on a `u32` value. -/
def bswap32 (x : Nat) : Nat :=
  (x % 256) * 2 ^ 24 + (x / 2 ^ 8 % 256) * 2 ^ 16 + (x / 2 ^ 16 % 256) * 2 ^ 8 +
    (x / 2 ^ 24 % 256)

/-- The condition of the `if` of lines 41-52, "Invalid parameters!", for a non-null output
pointer: a handle or its `nca_ctx` is null, the update section is disabled or is not a
`PatchRomFs` section, base and update differ in program id, content type or id offset, the
base title version is above the update title version, a block header has a wrong magic word
or version, the blocks are not adjacent, the AesCtrEx block does not end at the section end
(both sums in `u64`), or a title key is missing. -/
def invalidParameters (env : BootEnv) (base_nca_fs_ctx update_nca_fs_ctx : Option NcaFsSection) :
    Bool :=
  match base_nca_fs_ctx, update_nca_fs_ctx with
  | some b, some u =>
    match b.nca_ctx, u.nca_ctx with
    | some base_nca_ctx, some update_nca_ctx =>
      !u.enabled || u.section_type != NcaFsSectionType.PatchRomFs ||
        base_nca_ctx.program_id != update_nca_ctx.program_id ||
        base_nca_ctx.content_type != update_nca_ctx.content_type ||
        base_nca_ctx.id_offset != update_nca_ctx.id_offset ||
        decide (base_nca_ctx.title_version > update_nca_ctx.title_version) ||
        bswap32 u.indirect_bucket.magic != NCA_BKTR_MAGIC ||
        u.indirect_bucket.version != env.NCA_BKTR_VERSION ||
        bswap32 u.aes_ctr_ex_bucket.magic != NCA_BKTR_MAGIC ||
        u.aes_ctr_ex_bucket.version != env.NCA_BKTR_VERSION ||
        add64 u.indirect_bucket.offset u.indirect_bucket.size != u.aes_ctr_ex_bucket.offset ||
        add64 u.aes_ctr_ex_bucket.offset u.aes_ctr_ex_bucket.size != u.section_size ||
        (base_nca_ctx.rights_id_available && !base_nca_ctx.titlekey_retrieved) ||
        (update_nca_ctx.rights_id_available && !update_nca_ctx.titlekey_retrieved)
    | _, _ => true
  | _, _ => true

/-- The label `end:` of `bktrInitializeContext`: on failure the context is freed. -/
def initializeEnd (success : Bool) (out : BktrContextRecord) (calls : List BootCall) :
    Outcome × BktrContextRecord × List BootCall :=
  if success then (Outcome.ret true, out, calls)
  else (Outcome.ret false, bktrFreeContext out, calls)

/-- A read of `read_size` bytes at `offset` through the resolver into a buffer of bootstrap:
the outcome, the buffer, and the collaborator calls appended to `calls`. -/
def bootRead (out : BktrContextRecord) (calls : List BootCall) (read_size offset : Nat) :
    Outcome × (Nat → Nat) × List BootCall :=
  match bktrPhysicalSectionRead out.ctx callBudget ⟨fun _ => 0, []⟩ 0 read_size offset with
  | (outcome, m) => (outcome, m.out, calls ++ m.calls.map BootCall.resolver)

/-- Lines 172-235 of `bktrInitializeContext`: the RomFS header and the two tables are read
through the resolver, and the body offset is recorded. -/
def bktrInitializeContextTables (env : BootEnv) (out : BktrContextRecord)
    (calls : List BootCall) : Outcome × BktrContextRecord × List BootCall :=
  match bootRead out calls env.sizeof_header out.patch_offset with
  | (Outcome.fault, _, calls1) => (Outcome.fault, out, calls1)
  | (Outcome.diverge, _, calls1) => (Outcome.diverge, out, calls1)
  | (Outcome.ret false, _, calls1) => initializeEnd false out calls1
  | (Outcome.ret true, header_bytes, calls1) =>
    let header := env.decodeHeader header_bytes
    let out1 : BktrContextRecord :=
      ⟨out.ctx, out.base_romfs_ready, out.patch_offset, out.patch_size, header,
        out.dir_table_size, out.dir_table, out.file_table_size, out.file_table,
        out.patch_body_offset⟩
    if header.header_size ≠ env.ROMFS_HEADER_SIZE then initializeEnd false out1 calls1
    else
      let out2 : BktrContextRecord :=
        ⟨out.ctx, out.base_romfs_ready, out.patch_offset, out.patch_size, header,
          header.directory_entry_size, out.dir_table, out.file_table_size, out.file_table,
          out.patch_body_offset⟩
      if header.directory_entry_offset = 0 ∨ header.directory_entry_size = 0 then
        initializeEnd false out2 calls1
      else if env.alloc_ok 2 header.directory_entry_size = false then
        initializeEnd false out2 (calls1 ++ [BootCall.malloc header.directory_entry_size])
      else
        match bootRead out2 (calls1 ++ [BootCall.malloc header.directory_entry_size])
            header.directory_entry_size (add64 out.patch_offset header.directory_entry_offset) with
        | (Outcome.fault, _, calls2) => (Outcome.fault, out2, calls2)
        | (Outcome.diverge, _, calls2) => (Outcome.diverge, out2, calls2)
        | (Outcome.ret false, _, calls2) => initializeEnd false out2 calls2
        | (Outcome.ret true, dir_table, calls2) =>
          let out3 : BktrContextRecord :=
            ⟨out.ctx, out.base_romfs_ready, out.patch_offset, out.patch_size, header,
              header.directory_entry_size, some dir_table, header.file_entry_size, out.file_table,
              out.patch_body_offset⟩
          if header.file_entry_offset = 0 ∨ header.file_entry_size = 0 then
            initializeEnd false out3 calls2
          else if env.alloc_ok 3 header.file_entry_size = false then
            initializeEnd false out3 (calls2 ++ [BootCall.malloc header.file_entry_size])
          else
            match bootRead out3 (calls2 ++ [BootCall.malloc header.file_entry_size])
                header.file_entry_size (add64 out.patch_offset header.file_entry_offset) with
            | (Outcome.fault, _, calls3) => (Outcome.fault, out3, calls3)
            | (Outcome.diverge, _, calls3) => (Outcome.diverge, out3, calls3)
            | (Outcome.ret false, _, calls3) => initializeEnd false out3 calls3
            | (Outcome.ret true, file_table, calls3) =>
              initializeEnd true
                ⟨⟨out.ctx.offset, out.ctx.size, header.body_offset, out.ctx.missing_base_romfs,
                    out.ctx.base_nca_fs_ctx, out.ctx.patch_nca_fs_ctx, out.ctx.indirect_block,
                    out.ctx.aes_ctr_ex_block⟩,
                  out.base_romfs_ready, out.patch_offset, out.patch_size, header,
                  header.directory_entry_size, some dir_table, header.file_entry_size,
                  some file_table, header.body_offset⟩
                calls3

/-- Lines 82-170 of `bktrInitializeContext`, "Fill context": the two blocks are allocated
with their tail room and read from the update section, `physical_size` is checked, the
blocks are re-laid and get their sentinels (the steps on the two blocks do not touch each
other and are run block by block here), the update section handle and the RomFS region are
recorded; then the header and the tables are read.  Every failure goes to the label `end:`,
which frees the context, so the pointers to the blocks are recorded in the context only
from the step on that reads through them. -/
def bktrInitializeContextFill (env : BootEnv) (out : BktrContextRecord) (u : NcaFsSection)
    (calls : List BootCall) : Outcome × BktrContextRecord × List BootCall :=
  let indirect_size := add64 u.indirect_bucket.size ((0x3FF0 / 8) * env.sizeof_indirect_entry)
  let aes_ctr_ex_size :=
    add64 u.aes_ctr_ex_bucket.size ((0x3FF0 / 8 + 1) * env.sizeof_aes_ctr_ex_entry)
  let calls1 := calls ++ [BootCall.calloc indirect_size]
  if env.alloc_ok 0 indirect_size = false then initializeEnd false out calls1
  else
    let calls2 :=
      calls1 ++ [BootCall.ncaReadFsSection u.indirect_bucket.size u.indirect_bucket.offset]
    if u.reader.plain_ok u.indirect_bucket.size u.indirect_bucket.offset = false then
      initializeEnd false out calls2
    else
      let indirect_block := env.decodeIndirect
        (fun k => if k < u.indirect_bucket.size then u.reader.plain (u.indirect_bucket.offset + k)
          else 0)
      let calls3 := calls2 ++ [BootCall.calloc aes_ctr_ex_size]
      if env.alloc_ok 1 aes_ctr_ex_size = false then initializeEnd false out calls3
      else
        let calls4 := calls3 ++
          [BootCall.ncaReadFsSection u.aes_ctr_ex_bucket.size u.aes_ctr_ex_bucket.offset]
        if u.reader.plain_ok u.aes_ctr_ex_bucket.size u.aes_ctr_ex_bucket.offset = false then
          initializeEnd false out calls4
        else
          let aes_ctr_ex_block := env.decodeAesCtrEx
            (fun k => if k < u.aes_ctr_ex_bucket.size then
              u.reader.plain (u.aes_ctr_ex_bucket.offset + k) else 0)
          if aes_ctr_ex_block.physical_size ≠ u.aes_ctr_ex_bucket.offset then
            initializeEnd false out calls4
          else
            match normaliseIndirect indirect_block env.indirect_room,
                normaliseAesCtrEx aes_ctr_ex_block env.aes_ctr_ex_room u.indirect_bucket.offset
                  u.aes_ctr_upper_iv_generation u.section_size with
            | some nib, some nab =>
              let calls5 := calls4 ++ [BootCall.ncaGetFsSectionHashTargetProperties]
              match env.ncaGetFsSectionHashTargetProperties u with
              | none =>
                initializeEnd false
                  ⟨⟨out.ctx.offset, out.ctx.size, out.ctx.body_offset,
                      out.ctx.missing_base_romfs, out.ctx.base_nca_fs_ctx, some u.reader,
                      some nib, some nab⟩,
                    out.base_romfs_ready, out.patch_offset, out.patch_size, out.patch_header,
                    out.dir_table_size, out.dir_table, out.file_table_size, out.file_table,
                    out.patch_body_offset⟩
                  calls5
              | some (offset, size) =>
                bktrInitializeContextTables env
                  ⟨⟨offset, size, out.ctx.body_offset, out.ctx.missing_base_romfs,
                      out.ctx.base_nca_fs_ctx, some u.reader, some nib, some nab⟩,
                    out.base_romfs_ready, offset, size, out.patch_header, out.dir_table_size,
                    out.dir_table, out.file_table_size, out.file_table, out.patch_body_offset⟩
                  calls5
            | _, _ => (Outcome.fault, out, calls4)

/-- The entry point `bktrInitializeContext(out, base_nca_fs_ctx, update_nca_fs_ctx)` for a
non-null `out`: the outcome, the output context on return, and the collaborator calls made,
oldest first. -/
def bktrInitializeContext (env : BootEnv) (out : BktrContextRecord)
    (base_nca_fs_ctx update_nca_fs_ctx : Option NcaFsSection) :
    Outcome × BktrContextRecord × List BootCall :=
  if invalidParameters env base_nca_fs_ctx update_nca_fs_ctx then (Outcome.ret false, out, [])
  else
    match base_nca_fs_ctx, update_nca_fs_ctx with
    | some b, some u =>
      let freed := bktrFreeContext out
      let missing_base_romfs := !b.enabled || b.section_type != NcaFsSectionType.RomFs
      let out1 : BktrContextRecord :=
        ⟨⟨freed.ctx.offset, freed.ctx.size, freed.ctx.body_offset, missing_base_romfs,
            freed.ctx.base_nca_fs_ctx, freed.ctx.patch_nca_fs_ctx, freed.ctx.indirect_block,
            freed.ctx.aes_ctr_ex_block⟩,
          freed.base_romfs_ready, freed.patch_offset, freed.patch_size, freed.patch_header,
          freed.dir_table_size, freed.dir_table, freed.file_table_size, freed.file_table,
          freed.patch_body_offset⟩
      if !missing_base_romfs then
        if !b.has_sparse_layer then
          if env.romfsInitializeContext b then
            bktrInitializeContextFill env
              ⟨⟨out1.ctx.offset, out1.ctx.size, out1.ctx.body_offset, out1.ctx.missing_base_romfs,
                  some b.reader, out1.ctx.patch_nca_fs_ctx, out1.ctx.indirect_block,
                  out1.ctx.aes_ctr_ex_block⟩,
                true, out1.patch_offset, out1.patch_size, out1.patch_header,
                out1.dir_table_size, out1.dir_table, out1.file_table_size, out1.file_table,
                out1.patch_body_offset⟩
              u [BootCall.romfsInitializeContext]
          else (Outcome.ret false, out1, [BootCall.romfsInitializeContext])
        else (Outcome.ret false, out1, [])
      else bktrInitializeContextFill env out1 u []
    | _, _ => (Outcome.ret false, out, [])

/-- What the part of bootstrap that follows the base RomFS step leaves behind, started on
the context `out` after the collaborator calls `calls`: when it returns `false` the context
is empty; it adds no call of `romfsInitializeContext`; and when it returns `true` the base
fields of the context are those of `out`. -/
def FillPost (out : BktrContextRecord) (calls : List BootCall)
    (r : Outcome × BktrContextRecord × List BootCall) : Prop :=
  (r.1 = Outcome.ret false → r.2.1 = emptyContextRecord) ∧
    (BootCall.romfsInitializeContext ∉ calls → BootCall.romfsInitializeContext ∉ r.2.2) ∧
    (r.1 = Outcome.ret true →
      r.2.1.ctx.missing_base_romfs = out.ctx.missing_base_romfs ∧
      r.2.1.base_romfs_ready = out.base_romfs_ready ∧
      r.2.1.ctx.base_nca_fs_ctx.isSome = out.ctx.base_nca_fs_ctx.isSome)

/-! ## Bootstrap: the bytes that the re-lay and the sentinel steps write -/

/-- The byte ranges `(start, size)`, as offsets into the bucket area, that the `memcpy` calls
of a re-lay loop write, from the value `i` of the loop counter on: `sizeof(Bucket)` bytes at
the address that the accessor returns for bucket `i`. -/
def relayWrites (bucket_count entry_size : Nat) : Nat → List (Nat × Nat)
  | 0 => []
  | i + 1 =>
    match bucketAddress bucket_count entry_size (i + 1) with
    | none => []
    | some dst => (dst, sizeofBucket) :: relayWrites bucket_count entry_size i

/-- The byte ranges that the loops of lines 130-134 and 143-149 write, from the value `i` of
the counter on, `remaining` iterations: the stores go to fields of the entry slot
`entries[entry_count]` of bucket `i`, which starts `entries_offset + entry_count * entry_size`
bytes behind the address of the bucket (`entries_offset` is the offset of the member
`entries` in the bucket record, `counts i` the field `entry_count` of bucket `i`). -/
def sentinelLoopWrites (bucket_count entry_size entries_offset : Nat) (counts : Nat → Nat) :
    Nat → Nat → List (Nat × Nat)
  | 0, _ => []
  | remaining + 1, i =>
    match bucketAddress bucket_count entry_size i with
    | none => []
    | some cur_bucket =>
      (cur_bucket + entries_offset + counts i * entry_size, entry_size) ::
        sentinelLoopWrites bucket_count entry_size entries_offset counts remaining (i + 1)

/-- The byte range that line 153 writes: a field of the slot `entries[entry_count]` of the
last Indirect bucket. -/
def lastIndirectWrites (bucket_count entry_size entries_offset : Nat) (counts : Nat → Nat) :
    List (Nat × Nat) :=
  match bucketAddress bucket_count entry_size ((bucket_count + 2 ^ 32 - 1) % 2 ^ 32) with
  | none => []
  | some last_bucket =>
    [(last_bucket + entries_offset +
        counts ((bucket_count + 2 ^ 32 - 1) % 2 ^ 32) * entry_size, entry_size)]

/-- The byte ranges that lines 154-157 write: fields of the slots `entries[entry_count]` and
`entries[entry_count + 1]` of the last AesCtrEx bucket. -/
def lastAesCtrExWrites (bucket_count entry_size entries_offset : Nat) (counts : Nat → Nat) :
    List (Nat × Nat) :=
  match bucketAddress bucket_count entry_size ((bucket_count + 2 ^ 32 - 1) % 2 ^ 32) with
  | none => []
  | some last_bucket =>
    [(last_bucket + entries_offset +
        counts ((bucket_count + 2 ^ 32 - 1) % 2 ^ 32) * entry_size, entry_size),
      (last_bucket + entries_offset +
        ((counts ((bucket_count + 2 ^ 32 - 1) % 2 ^ 32) + 1) % 2 ^ 32) * entry_size, entry_size)]

/-- Every byte range that the re-lay and the sentinel steps write into the bucket area of
the Indirect block (lines 123-134 and 153). -/
def indirectWrites (bucket_count entry_size entries_offset : Nat) (counts : Nat → Nat) :
    List (Nat × Nat) :=
  relayWrites bucket_count entry_size ((bucket_count + 2 ^ 32 - 1) % 2 ^ 32) ++
    sentinelLoopWrites bucket_count entry_size entries_offset counts (bucket_count - 1) 0 ++
    lastIndirectWrites bucket_count entry_size entries_offset counts

/-- Every byte range that the re-lay and the sentinel steps write into the bucket area of
the AesCtrEx block (lines 136-149 and 154-157). -/
def aesCtrExWrites (bucket_count entry_size entries_offset : Nat) (counts : Nat → Nat) :
    List (Nat × Nat) :=
  relayWrites bucket_count entry_size ((bucket_count + 2 ^ 32 - 1) % 2 ^ 32) ++
    sentinelLoopWrites bucket_count entry_size entries_offset counts (bucket_count - 1) 0 ++
    lastAesCtrExWrites bucket_count entry_size entries_offset counts

/-! ## The split of the dispatcher in the words of the specification -/

/-- The split branch of the dispatcher in the words of the specification's variant: it
recurses through the dispatcher itself, with `aesctrex_read(head, v, p)` and then, when that
returned `true`, `aesctrex_read(len - head, v + head, p + head)`, under the budget `depth`
for the nested calls of each. -/
def aesCtrExSplitThroughDispatcher (ctx : BktrContext) (depth : Nat) (m : Machine)
    (pos read_size virtual_offset section_offset head : Nat) : Outcome × Machine :=
  andThen (bktrAesCtrExStorageRead ctx depth m pos head virtual_offset section_offset)
    (fun m1 => bktrAesCtrExStorageRead ctx depth m1 (pos + head) (read_size - head)
      (virtual_offset + head) (section_offset + head))

/-! ## The segments of a read and the entries that it meets -/

/-- Physical offset inside the update section of the logical byte `x`, when the Indirect
entry that the lookup returns for `x` is a `Patch` entry; `none` otherwise. -/
def patchOffset (ib : BktrIndirectStorageBlock) (x : Nat) : Option Nat :=
  match bktrGetIndirectStorageEntry ib x with
  | Lookup.found b i =>
    match ib.entryAt b i with
    | some e =>
      if e.indirect_storage_index = BktrIndirectStorageIndex_Patch then
        some (e.physical_offset + (x - e.virtual_offset))
      else none
    | none => none
  | _ => none

/-- The pair of entries behind the logical byte `x`: what the Indirect lookup returns for
`x` and, for a `Patch` byte, what the AesCtrEx lookup returns for its physical offset
(`Lookup.null` for any other byte). -/
def servingPair (ib : BktrIndirectStorageBlock) (ab : BktrAesCtrExStorageBlock) (x : Nat) :
    Lookup × Lookup :=
  (bktrGetIndirectStorageEntry ib x,
    match patchOffset ib x with
    | some p => bktrGetAesCtrExStorageEntry ab p
    | none => Lookup.null)

/-- Number of segments of the logical range `[v, v + len)`: the maximal runs of bytes behind
which the pair of entries is the same.  A byte opens a segment when it is the first byte of
the range or its pair differs from the pair of the byte before it; an AesCtrEx entry is thus
counted once for every Indirect entry through which the range reaches it. -/
def segmentCount (ib : BktrIndirectStorageBlock) (ab : BktrAesCtrExStorageBlock) (v : Nat) :
    Nat → Nat
  | 0 => 0
  | t + 1 =>
    segmentCount ib ab v t +
      (if t = 0 ∨ servingPair ib ab (v + t) ≠ servingPair ib ab (v + t - 1) then 1 else 0)

/-- Number of Indirect entries whose range `[virtual_offset, next.virtual_offset)` intersects
the logical range `[v, v + len)`. -/
def indirectEntriesMet (ib : BktrIndirectStorageBlock) (v len : Nat) : Nat :=
  ((List.range ib.bucket_count).map (fun b =>
    ((List.range (ib.entryCount b)).filter (fun i =>
      decide (slotKey ib.keyBuckets b i < v + len ∧ v < slotKey ib.keyBuckets b (i + 1)))).length)).sum

/-- Number of AesCtrEx entries, the first sentinel of a bucket included, whose range
`[offset, next.offset)` holds the physical offset of a `Patch` byte of the logical range
`[v, v + len)`. -/
def aesCtrExEntriesMet (ib : BktrIndirectStorageBlock) (ab : BktrAesCtrExStorageBlock)
    (v len : Nat) : Nat :=
  ((List.range ab.bucket_count).map (fun cb =>
    ((List.range (ab.entryCount cb + 1)).filter (fun j =>
      (List.range len).any (fun t =>
        match patchOffset ib (v + t) with
        | some p =>
          decide (slotKey ab.keyBuckets cb j ≤ p ∧ p < slotKey ab.keyBuckets cb (j + 1))
        | none => false))).length)).sum

/-! ## Sample blocks -/

/-- One bucket with the two entries `{5, 0, Base}`, `{10, 5, Base}` and the sentinel `100`:
a corrupt index, the first key is not `0`. -/
def corruptIndirect2 : BktrIndirectStorageBlock :=
  ⟨1, 100, [0], [⟨2, [⟨5, 0, 0⟩, ⟨10, 5, 0⟩, ⟨100, 0, 0⟩]⟩]⟩

/-- One bucket with the single entry `{5, 0, Base}` and the sentinel `100`. -/
def corruptIndirect1 : BktrIndirectStorageBlock :=
  ⟨1, 100, [0], [⟨1, [⟨5, 0, 0⟩, ⟨100, 0, 0⟩]⟩]⟩

/-- Two buckets: `{0, 0, Base}`, `{0x2000, 0, Patch}` with sentinel `0x4000`, then
`{0x4000, 0x2000, Base}`, `{0x6000, 0x2000, Patch}` with sentinel `0x8000`. -/
def sampleIndirect : BktrIndirectStorageBlock :=
  ⟨2, 0x8000, [0, 0x4000],
    [⟨2, [⟨0, 0, 0⟩, ⟨0x2000, 0, 1⟩, ⟨0x4000, 0, 0⟩]⟩,
     ⟨2, [⟨0x4000, 0x2000, 0⟩, ⟨0x6000, 0x2000, 1⟩, ⟨0x8000, 0, 0⟩]⟩]⟩

/-- One bucket `{0, 5}`, `{0x1000, 6}` with the sentinels `{0x4000, 7}` and `{0x6000, 0}`;
`physical_size` is `0x5000`. -/
def sampleAesCtrEx : BktrAesCtrExStorageBlock :=
  ⟨1, 0x5000, [0], [⟨2, [⟨0, 5⟩, ⟨0x1000, 6⟩, ⟨0x4000, 7⟩, ⟨0x6000, 0⟩]⟩]⟩

/-- Two buckets, the first one empty: `virtual_offsets[1] = 50`, bucket `1` holds `{50, 0, Base}`
with the sentinel `100`. -/
def emptyBucketIndirect : BktrIndirectStorageBlock :=
  ⟨2, 100, [0, 50], [⟨0, [⟨0, 0, 0⟩]⟩, ⟨1, [⟨50, 0, 0⟩, ⟨100, 0, 0⟩]⟩]⟩

/-- Two buckets, the first one empty: `physical_offsets[1] = 50`, bucket `1` holds `{50, 3}` with
the sentinels `{80, 4}` and `{120, 0}`; `physical_size` is `100`. -/
def emptyBucketAesCtrEx : BktrAesCtrExStorageBlock :=
  ⟨2, 100, [0, 50], [⟨0, [⟨0, 0⟩]⟩, ⟨1, [⟨50, 3⟩, ⟨80, 4⟩, ⟨120, 0⟩]⟩]⟩

/-- Base section of the samples: byte `off % 251` at offset `off`, every read answered. -/
def sampleBase : NcaFsSectionContext :=
  ⟨fun off => off % 251, fun _ _ => true, fun _ off => off % 251, fun _ _ _ => true⟩

/-- Update section of the samples: byte `(7 * off + generation) % 253`, every read answered. -/
def samplePatch : NcaFsSectionContext :=
  ⟨fun off => (7 * off) % 253, fun _ _ => true, fun g off => (7 * off + g) % 253,
    fun _ _ _ => true⟩

/-- A context over `sampleIndirect` and `sampleAesCtrEx` with a base RomFS; the RomFS region
is `[0x100, 0x100 + 0x7000)`. -/
def sampleCtx : BktrContext :=
  ⟨0x100, 0x7000, 0x200, false, some sampleBase, some samplePatch, some sampleIndirect,
    some sampleAesCtrEx⟩

/-- The same context without a base RomFS. -/
def sampleCtxNoBase : BktrContext :=
  ⟨0x100, 0x7000, 0x200, true, none, some samplePatch, some sampleIndirect, some sampleAesCtrEx⟩

/-- The context `sampleCtx` with the RomFS region `[1, 1 + 0x1000)`. -/
def wrapCtx : BktrContext :=
  ⟨1, 0x1000, 0x200, false, some sampleBase, some samplePatch, some sampleIndirect,
    some sampleAesCtrEx⟩

/-- Two buckets of one entry each: `{0, 0, Base}` with the sentinel `0x4000` and two unused
zero slots, then `{0x4000, 0, Patch}` with the sentinel `0x8000` and two unused zero slots. -/
def crossIndirect : BktrIndirectStorageBlock :=
  ⟨2, 0x8000, [0, 0x4000],
    [⟨1, [⟨0, 0, 0⟩, ⟨0x4000, 0, 0⟩, ⟨0, 0, 0⟩, ⟨0, 0, 0⟩]⟩,
     ⟨1, [⟨0x4000, 0, 1⟩, ⟨0x8000, 0, 0⟩, ⟨0, 0, 0⟩, ⟨0, 0, 0⟩]⟩]⟩

/-- The block `crossIndirect` with the unused slots of bucket `0` holding `pad` and with the
source tag `source` in the entry of bucket `1`. -/
def crossIndirectWith (pad : List BktrIndirectStorageEntry) (source : Nat) :
    BktrIndirectStorageBlock :=
  ⟨2, 0x8000, [0, 0x4000],
    [⟨1, [⟨0, 0, 0⟩, ⟨0x4000, 0, 0⟩] ++ pad⟩,
     ⟨1, [⟨0x4000, 0, source⟩, ⟨0x8000, 0, 0⟩, ⟨0, 0, 0⟩, ⟨0, 0, 0⟩]⟩]⟩

/-- The context `crossCtx` over `crossIndirectWith pad source`. -/
def crossCtxWith (pad : List BktrIndirectStorageEntry) (source : Nat) : BktrContext :=
  ⟨0x100, 0x7000, 0x200, false, some sampleBase, some samplePatch,
    some (crossIndirectWith pad source), some sampleAesCtrEx⟩

/-- A context over `crossIndirect` with the RomFS region `[0x100, 0x100 + 0x7000)` and the
body at `0x200`. -/
def crossCtx : BktrContext :=
  ⟨0x100, 0x7000, 0x200, false, some sampleBase, some samplePatch, some crossIndirect,
    some sampleAesCtrEx⟩

/-- A machine with a zeroed buffer and no call issued. -/
def freshMachine : Machine := ⟨fun _ => 0, []⟩

/-- The Indirect block `sampleIndirect` as it lies on disk: two buckets of two entries,
without sentinels. -/
def diskIndirect : BktrIndirectStorageBlock :=
  ⟨2, 0x8000, [0, 0x4000],
    [⟨2, [⟨0, 0, 0⟩, ⟨0x2000, 0, 1⟩]⟩, ⟨2, [⟨0x4000, 0x2000, 0⟩, ⟨0x6000, 0x2000, 1⟩]⟩]⟩

/-- The AesCtrEx block `sampleAesCtrEx` as it lies on disk at offset `0x5000` of the update
section, behind an Indirect block that occupies `[0x4000, 0x5000)`: one bucket of two
entries, without sentinels. -/
def diskAesCtrEx : BktrAesCtrExStorageBlock :=
  ⟨1, 0x5000, [0], [⟨2, [⟨0, 5⟩, ⟨0x1000, 6⟩]⟩]⟩

/-- Room of one zeroed entry slot behind every Indirect bucket. -/
def zeroIndirectRoom : Nat → List BktrIndirectStorageEntry := fun _ => [⟨0, 0, 0⟩]

/-- Room of two zeroed entry slots behind every AesCtrEx bucket. -/
def zeroAesCtrExRoom : Nat → List BktrAesCtrExStorageEntry := fun _ => [⟨0, 0⟩, ⟨0, 0⟩]

/-- An AesCtrEx block of two buckets as it lies on disk: `{0, 5}` in bucket `0` and
`{0x2000, 6}` in bucket `1`, with `physical_offsets[1] = 0x2000`. -/
def diskAesCtrEx2 : BktrAesCtrExStorageBlock :=
  ⟨2, 0x5000, [0, 0x2000], [⟨1, [⟨0, 5⟩]⟩, ⟨1, [⟨0x2000, 6⟩]⟩]⟩

/-- The constants and collaborators of the samples: version `1`, a RomFS header of `0x50`
bytes, every allocation and every collaborator call succeeds, the blocks read from the
update section are `diskIndirect` and `diskAesCtrEx`, the RomFS region is
`[0x100, 0x100 + 0x7000)`, and the header places the directory table at `0x50`, the file
table at `0x60` and the body at `0x200`. -/
def sampleEnv : BootEnv :=
  ⟨1, 0x50, 0x50, 0x14, 0x10, fun _ => true, fun _ _ => true, fun _ => diskIndirect,
    fun _ => diskAesCtrEx, zeroIndirectRoom, zeroAesCtrExRoom, fun _ => some (0x100, 0x7000),
    fun _ => ⟨0x50, 0x50, 0x10, 0x60, 0x10, 0x200⟩⟩

/-- Base section of the samples: an enabled RomFS section without a sparse layer. -/
def sampleBaseSection : NcaFsSection :=
  ⟨true, NcaFsSectionType.RomFs, false, 0x8000, some ⟨0x1000, 0, 0, 0, false, false⟩,
    ⟨0, 0, 0, 0⟩, ⟨0, 0, 0, 0⟩, 0, sampleBase⟩

/-- Update section of the samples: an enabled patch section of `0x6000` bytes whose Indirect
block occupies `[0x4000, 0x5000)` and whose AesCtrEx block occupies `[0x5000, 0x6000)`, both
with the magic word `"BKTR"` and version `1`; the generation of its upper IV is `7`. -/
def sampleUpdateSection : NcaFsSection :=
  ⟨true, NcaFsSectionType.PatchRomFs, false, 0x6000, some ⟨0x1000, 0, 0, 0x10000, false, false⟩,
    ⟨0x4000, 0x1000, 0x52544B42, 1⟩, ⟨0x5000, 0x1000, 0x52544B42, 1⟩, 7, samplePatch⟩

/-- The update section of the samples with a header that places the AesCtrEx block at
`0x5800`, not behind the Indirect block. -/
def gapUpdateSection : NcaFsSection :=
  ⟨true, NcaFsSectionType.PatchRomFs, false, 0x6000, some ⟨0x1000, 0, 0, 0x10000, false, false⟩,
    ⟨0x4000, 0x1000, 0x52544B42, 1⟩, ⟨0x5800, 0x800, 0x52544B42, 1⟩, 7, samplePatch⟩

/-- The base section of the samples with a sparse layer. -/
def sparseBaseSection : NcaFsSection :=
  ⟨true, NcaFsSectionType.RomFs, true, 0x8000, some ⟨0x1000, 0, 0, 0, false, false⟩,
    ⟨0, 0, 0, 0⟩, ⟨0, 0, 0, 0⟩, 0, sampleBase⟩

/-- The base section of the samples, disabled. -/
def disabledBaseSection : NcaFsSection :=
  ⟨false, NcaFsSectionType.RomFs, false, 0x8000, some ⟨0x1000, 0, 0, 0, false, false⟩,
    ⟨0, 0, 0, 0⟩, ⟨0, 0, 0, 0⟩, 0, sampleBase⟩

/-- A context record that an earlier bootstrap filled: the context `sampleCtx` with its
blocks, the header and both tables. -/
def filledContextRecord : BktrContextRecord :=
  ⟨sampleCtx, true, 0x100, 0x7000, ⟨0x50, 0x50, 0x10, 0x60, 0x10, 0x200⟩, 0x10,
    some (fun _ => 0), 0x10, some (fun _ => 0), 0x200⟩

/-- An Indirect block whose header has `bucket_count = 0`. -/
def zeroBucketIndirect : BktrIndirectStorageBlock := ⟨0, 0x8000, [], []⟩

/-- An AesCtrEx block whose header has `bucket_count = 0`; its `physical_size` is the offset
`0x5000` of the AesCtrEx block of `sampleUpdateSection`. -/
def zeroBucketAesCtrEx : BktrAesCtrExStorageBlock := ⟨0, 0x5000, [], []⟩

/-- The collaborators of the samples, with an update section whose Indirect block has
`bucket_count = 0`. -/
def zeroBucketEnv : BootEnv :=
  ⟨1, 0x50, 0x50, 0x14, 0x10, fun _ => true, fun _ _ => true, fun _ => zeroBucketIndirect,
    fun _ => diskAesCtrEx, zeroIndirectRoom, zeroAesCtrExRoom, fun _ => some (0x100, 0x7000),
    fun _ => ⟨0x50, 0x50, 0x10, 0x60, 0x10, 0x200⟩⟩

/-- One bucket of three `Patch` entries `{0, 1}`, `{2, 1}`, `{4, 1}` with the sentinel `6`:
each of the logical ranges `[0, 2)`, `[2, 4)`, `[4, 6)` is mapped to the same physical range
`[1, 3)` of the update section. -/
def overlapIndirect : BktrIndirectStorageBlock :=
  ⟨1, 6, [0], [⟨3, [⟨0, 1, 1⟩, ⟨2, 1, 1⟩, ⟨4, 1, 1⟩, ⟨6, 0, 0⟩]⟩]⟩

/-- One bucket `{0, 5}`, `{2, 6}` with the sentinels `{4, 7}` and `{6, 0}`; `physical_size`
is `5`. -/
def overlapAesCtrEx : BktrAesCtrExStorageBlock :=
  ⟨1, 5, [0], [⟨2, [⟨0, 5⟩, ⟨2, 6⟩, ⟨4, 7⟩, ⟨6, 0⟩]⟩]⟩

/-- A context over `overlapIndirect` and `overlapAesCtrEx` with the sections of the
samples. -/
def overlapCtx : BktrContext :=
  ⟨0, 6, 0, false, some sampleBase, some samplePatch, some overlapIndirect,
    some overlapAesCtrEx⟩

/-- An update section of `0x6000` bytes whose reader refuses every read that does not lie
inside the section, and whose header places the Indirect block at `2 ^ 64 - 0x1000` with a
size of `0x6000` and the AesCtrEx block at `[0x5000, 0x6000)`: the sum
`ind.off + ind.sz = 2 ^ 64 + 0x5000` is not `aes.off`, but it is `0x5000` in 64 bits. -/
def wrapUpdateSection : NcaFsSection :=
  ⟨true, NcaFsSectionType.PatchRomFs, false, 0x6000, some ⟨0x1000, 0, 0, 0x10000, false, false⟩,
    ⟨2 ^ 64 - 0x1000, 0x6000, 0x52544B42, 1⟩, ⟨0x5000, 0x1000, 0x52544B42, 1⟩, 7,
    ⟨fun off => (7 * off) % 253, fun len off => decide (off + len ≤ 0x6000),
      fun g off => (7 * off + g) % 253, fun len off _ => decide (off + len ≤ 0x6000)⟩⟩

/-! ## Properties of the bucket tree index -/

theorem getElem?_keyAt {keys : List Nat} {i : Nat} (h : i < keys.length) :
    keys[i]? = some (keyAt keys i) := by
  simp [keyAt, List.getElem?_eq_getElem h]

theorem searchLoop_step_left (mem : List Nat) (entry_count offset budget low high k : Nat)
    (hlh : low ≤ high) (hsum : low + high < 2 ^ 32) (hmem : mem[(low + high) / 2]? = some k)
    (hk : k > offset) (hpos : 0 < (low + high) / 2) :
    searchLoop mem entry_count offset (budget + 1) low high =
      searchLoop mem entry_count offset budget low ((low + high) / 2 - 1) := by
  have h1 : (low + high) % 2 ^ 32 = low + high := Nat.mod_eq_of_lt hsum
  have h2 : ((low + high) / 2 + 2 ^ 32 - 1) % 2 ^ 32 = (low + high) / 2 - 1 := by omega
  rw [searchLoop]
  simp only [hlh, if_true, h1, hmem, hk, h2]

theorem searchLoop_step_last (mem : List Nat) (entry_count offset budget low high k : Nat)
    (hlh : low ≤ high) (hsum : low + high < 2 ^ 32) (hmem : mem[(low + high) / 2]? = some k)
    (hk : ¬ k > offset) (hec : 0 < entry_count) (hec2 : entry_count < 2 ^ 32)
    (hlast : (low + high) / 2 = entry_count - 1) :
    searchLoop mem entry_count offset (budget + 1) low high =
      SearchResult.hit ((low + high) / 2) := by
  have h1 : (low + high) % 2 ^ 32 = low + high := Nat.mod_eq_of_lt hsum
  have h2 : (entry_count + 2 ^ 32 - 1) % 2 ^ 32 = entry_count - 1 := by omega
  rw [searchLoop]
  simp only [hlh, if_true, h1, hmem, hk, if_false, h2]
  rw [if_pos hlast]

theorem searchLoop_step_hit (mem : List Nat) (entry_count offset budget low high k k1 : Nat)
    (hlh : low ≤ high) (hsum : low + high < 2 ^ 32) (hmem : mem[(low + high) / 2]? = some k)
    (hk : ¬ k > offset) (hec : 0 < entry_count) (hec2 : entry_count < 2 ^ 32)
    (hlast : ¬ (low + high) / 2 = entry_count - 1)
    (hmem1 : mem[(low + high) / 2 + 1]? = some k1) (hk1 : k1 > offset) :
    searchLoop mem entry_count offset (budget + 1) low high =
      SearchResult.hit ((low + high) / 2) := by
  have h1 : (low + high) % 2 ^ 32 = low + high := Nat.mod_eq_of_lt hsum
  have h2 : (entry_count + 2 ^ 32 - 1) % 2 ^ 32 = entry_count - 1 := by omega
  rw [searchLoop]
  simp only [hlh, if_true, h1, hmem, hk, if_false, h2, hlast, hmem1, hk1]

theorem searchLoop_step_right (mem : List Nat) (entry_count offset budget low high k k1 : Nat)
    (hlh : low ≤ high) (hsum : low + high < 2 ^ 32) (hmem : mem[(low + high) / 2]? = some k)
    (hk : ¬ k > offset) (hec : 0 < entry_count) (hec2 : entry_count < 2 ^ 32)
    (hlast : ¬ (low + high) / 2 = entry_count - 1)
    (hmem1 : mem[(low + high) / 2 + 1]? = some k1) (hk1 : ¬ k1 > offset) :
    searchLoop mem entry_count offset (budget + 1) low high =
      searchLoop mem entry_count offset budget ((low + high) / 2 + 1) high := by
  have h1 : (low + high) % 2 ^ 32 = low + high := Nat.mod_eq_of_lt hsum
  have h2 : (entry_count + 2 ^ 32 - 1) % 2 ^ 32 = entry_count - 1 := by omega
  have h3 : ((low + high) / 2 + 1) % 2 ^ 32 = (low + high) / 2 + 1 := by omega
  rw [searchLoop]
  simp only [hlh, if_true, h1, hmem, hk, if_false, h2, hlast, hmem1, hk1, h3]

theorem searchLoop_hit (keys : List Nat) (entry_count offset : Nat)
    (hec : entry_count < 2 ^ 31) :
    ∀ budget low high, low ≤ high → high < entry_count → high - low < budget →
      keyAt keys low ≤ offset →
      (high + 1 = entry_count ∨ offset < keyAt keys (high + 1)) →
      ∃ mid, low ≤ mid ∧ mid ≤ high ∧ keyAt keys mid ≤ offset ∧
        (mid + 1 = entry_count ∨ offset < keyAt keys (mid + 1)) ∧
        ∀ mem : List Nat, (∀ i, i < entry_count → mem[i]? = some (keyAt keys i)) →
          searchLoop mem entry_count offset budget low high = SearchResult.hit mid := by
  intro budget
  induction budget with
  | zero => intro low high _ _ h; omega
  | succ n ih =>
    intro low high hlh hh hb hlow hhigh
    have hsum : low + high < 2 ^ 32 := by omega
    have hmid_lo : low ≤ (low + high) / 2 := by omega
    have hmid_hi : (low + high) / 2 ≤ high := by omega
    by_cases hk : keyAt keys ((low + high) / 2) > offset
    · have hne : low < (low + high) / 2 := by
        rcases Nat.lt_or_ge low ((low + high) / 2) with h | h
        · exact h
        · have h2 : (low + high) / 2 = low := by omega
          rw [h2] at hk
          omega
      have hk2 : offset < keyAt keys ((low + high) / 2 - 1 + 1) := by
        rw [show (low + high) / 2 - 1 + 1 = (low + high) / 2 by omega]
        exact hk
      obtain ⟨mid, h1, h2, h3, h4, h5⟩ :=
        ih low ((low + high) / 2 - 1) (by omega) (by omega) (by omega) hlow (Or.inr hk2)
      refine ⟨mid, h1, by omega, h3, h4, fun mem hmem => ?_⟩
      rw [searchLoop_step_left mem entry_count offset n low high _ hlh hsum
        (hmem _ (by omega)) hk (by omega)]
      exact h5 mem hmem
    · by_cases hlast : (low + high) / 2 = entry_count - 1
      · refine ⟨(low + high) / 2, hmid_lo, hmid_hi, by omega, Or.inl (by omega),
          fun mem hmem => ?_⟩
        exact searchLoop_step_last mem entry_count offset n low high _ hlh hsum
          (hmem _ (by omega)) hk (by omega) (by omega) hlast
      · by_cases hk1 : keyAt keys ((low + high) / 2 + 1) > offset
        · refine ⟨(low + high) / 2, hmid_lo, hmid_hi, by omega, Or.inr hk1,
            fun mem hmem => ?_⟩
          exact searchLoop_step_hit mem entry_count offset n low high _ _ hlh hsum
            (hmem _ (by omega)) hk (by omega) (by omega) hlast (hmem _ (by omega)) hk1
        · have hlt : (low + high) / 2 < high := by
            rcases Nat.lt_or_ge ((low + high) / 2) high with h | h
            · exact h
            · have h2 : (low + high) / 2 = high := by omega
              rcases hhigh with h3 | h3
              · omega
              · rw [h2] at hk1
                omega
          obtain ⟨mid, h1, h2, h3, h4, h5⟩ :=
            ih ((low + high) / 2 + 1) high (by omega) hh (by omega) (by omega) hhigh
          refine ⟨mid, by omega, h2, h3, h4, fun mem hmem => ?_⟩
          rw [searchLoop_step_right mem entry_count offset n low high _ _ hlh hsum
            (hmem _ (by omega)) hk (by omega) (by omega) hlast (hmem _ (by omega)) hk1]
          exact h5 mem hmem

/-- On a bucket with at least one entry whose first key is at most `offset`, the search
returns a slot `mid` with key at most `offset` that is the last real slot or is followed by a
key above `offset`.  The result is the same on every memory `mem` that agrees with `keys` on
the slots `0..entry_count - 1`: no other slot is read. -/
theorem bucketSearch_hit_mem (keys : List Nat) (entry_count offset : Nat)
    (hpos : 0 < entry_count) (hec : entry_count < 2 ^ 31)
    (hfirst : keyAt keys 0 ≤ offset) :
    ∃ mid, mid < entry_count ∧ keyAt keys mid ≤ offset ∧
      (mid + 1 = entry_count ∨ offset < keyAt keys (mid + 1)) ∧
      ∀ mem : List Nat, (∀ i, i < entry_count → mem[i]? = some (keyAt keys i)) →
        bucketSearch entry_count mem offset = SearchResult.hit mid := by
  have h0 : entry_count ≠ 0 := by omega
  by_cases h1 : entry_count = 1
  · refine ⟨0, by omega, hfirst, Or.inl (by omega), fun mem _ => ?_⟩
    subst h1
    rfl
  · have hec1 : (entry_count + 2 ^ 32 - 1) % 2 ^ 32 = entry_count - 1 := by omega
    obtain ⟨mid, h2, h3, h4, h5, h6⟩ :=
      searchLoop_hit keys entry_count offset hec searchBudget 0 (entry_count - 1)
        (by omega) (by omega) (by unfold searchBudget; omega) hfirst (Or.inl (by omega))
    refine ⟨mid, by omega, h4, h5, fun mem hmem => ?_⟩
    unfold bucketSearch
    simp only [h0, if_false, h1, hec1]
    exact h6 mem hmem

theorem bucketSearch_hit (keys : List Nat) (entry_count offset : Nat)
    (hpos : 0 < entry_count) (hec : entry_count < 2 ^ 31) (hlen : entry_count ≤ keys.length)
    (hfirst : keyAt keys 0 ≤ offset) :
    ∃ mid, bucketSearch entry_count keys offset = SearchResult.hit mid ∧ mid < entry_count ∧
      keyAt keys mid ≤ offset ∧ (mid + 1 = entry_count ∨ offset < keyAt keys (mid + 1)) := by
  obtain ⟨mid, h1, h2, h3, h4⟩ := bucketSearch_hit_mem keys entry_count offset hpos hec hfirst
  exact ⟨mid, h4 keys (fun _ hi => getElem?_keyAt (by omega)), h1, h2, h3⟩

/-- Whatever the bucket holds, a slot that the search loop returns was read and its key is at
most `offset`. -/
theorem searchLoop_hit_le (keys : List Nat) (entry_count offset : Nat) :
    ∀ budget low high mid,
      searchLoop keys entry_count offset budget low high = SearchResult.hit mid →
      ∃ k, keys[mid]? = some k ∧ k ≤ offset := by
  intro budget
  induction budget with
  | zero => intro low high mid h; simp [searchLoop] at h
  | succ n ih =>
    intro low high mid h
    unfold searchLoop at h
    by_cases hlh : low ≤ high
    · simp only [hlh, if_true] at h
      cases hm : keys[((low + high) % 2 ^ 32) / 2]? with
      | none =>
        rw [hm] at h
        exact SearchResult.noConfusion h
      | some k =>
        simp only [hm] at h
        by_cases hk : k > offset
        · simp only [hk, if_true] at h
          exact ih _ _ _ h
        · simp only [hk, if_false] at h
          by_cases hlast : ((low + high) % 2 ^ 32) / 2 = (entry_count + 2 ^ 32 - 1) % 2 ^ 32
          · simp only [hlast, if_true] at h
            injection h with h
            subst h
            rw [hlast] at hm
            exact ⟨k, hm, by omega⟩
          · simp only [hlast, if_false] at h
            cases hm1 : keys[((low + high) % 2 ^ 32) / 2 + 1]? with
            | none =>
              rw [hm1] at h
              exact SearchResult.noConfusion h
            | some k1 =>
              simp only [hm1] at h
              by_cases hk1 : k1 > offset
              · simp only [hk1, if_true] at h
                injection h with h
                subst h
                exact ⟨k, hm, by omega⟩
              · simp only [hk1, if_false] at h
                exact ih _ _ _ h
    · simp [hlh] at h

theorem bucketSearch_hit_le (keys : List Nat) (entry_count offset mid : Nat)
    (h : bucketSearch entry_count keys offset = SearchResult.hit mid) :
    (entry_count = 1 ∧ mid = 0) ∨ ∃ k, keys[mid]? = some k ∧ k ≤ offset := by
  unfold bucketSearch at h
  by_cases h0 : entry_count = 0
  · simp [h0] at h
  · simp only [h0, if_false] at h
    by_cases h1 : entry_count = 1
    · simp only [h1, if_true] at h
      injection h with h
      exact Or.inl ⟨h1, h.symm⟩
    · simp only [h1, if_false] at h
      exact Or.inr (searchLoop_hit_le _ _ _ _ _ _ _ h)

theorem bucketNumLoop_eq (top : List Nat) (offset : Nat) :
    ∀ remaining i bucket_num b, i + remaining ≤ top.length → b + 1 ≤ i + remaining →
      (∀ j, i ≤ j → j ≤ b → keyAt top j ≤ offset) →
      (∀ j, b < j → i ≤ j → j < i + remaining → offset < keyAt top j) →
      bucketNumLoop top offset remaining i bucket_num = some (bucket_num + (b + 1 - i)) := by
  intro remaining
  induction remaining with
  | zero =>
    intro i bucket_num b _ hb _ _
    simp only [bucketNumLoop]
    congr 1
    omega
  | succ r ih =>
    intro i bucket_num b hlen hb hle hgt
    simp only [bucketNumLoop]
    rw [getElem?_keyAt (by omega)]
    simp only
    by_cases hib : i ≤ b
    · have h1 : keyAt top i ≤ offset := hle i (Nat.le_refl i) hib
      simp only [h1, if_true]
      rw [ih (i + 1) (bucket_num + 1) b (by omega) (by omega)
        (fun j h2 h3 => hle j (by omega) h3) (fun j h2 h3 h4 => hgt j h2 (by omega) (by omega))]
      congr 1
      omega
    · have h1 : ¬ keyAt top i ≤ offset := by
        have := hgt i (by omega) (Nat.le_refl i) (by omega)
        omega
      simp only [h1, if_false]
      rw [ih (i + 1) bucket_num b (by omega) (by omega)
        (fun j h2 h3 => hle j (by omega) h3) (fun j h2 h3 h4 => hgt j h2 (by omega) (by omega))]
      congr 1
      omega

theorem bucket_keys_lt (kb : KeyBucket) (h : BucketWF kb) :
    ∀ j i, i < j → j ≤ kb.entry_count → keyAt kb.keys i < keyAt kb.keys j := by
  intro j
  induction j with
  | zero => intro i hi; omega
  | succ n ih =>
    intro i hi hj
    have hstep := h.2.2.2 n (by omega)
    rcases Nat.lt_or_ge i n with h1 | h1
    · have := ih i h1 (by omega)
      omega
    · have h2 : i = n := by omega
      rw [h2]
      exact hstep

theorem bucket_keys_le (kb : KeyBucket) (h : BucketWF kb) (i j : Nat) (hij : i ≤ j)
    (hj : j ≤ kb.entry_count) : keyAt kb.keys i ≤ keyAt kb.keys j := by
  rcases Nat.lt_or_ge i j with h1 | h1
  · exact Nat.le_of_lt (bucket_keys_lt kb h j i h1 hj)
  · have h2 : i = j := by omega
    rw [h2]

section Tree

variable {bucket_count total : Nat} {top : List Nat} {buckets : List KeyBucket}

theorem tree_sentinel_eq_next (hwf : TreeWF bucket_count total top buckets) (b : Nat)
    (hb : b + 1 < bucket_count) :
    slotKey buckets b (bucketAt buckets b).entry_count = slotKey buckets (b + 1) 0 := by
  obtain ⟨_, _, _, _, _, _, _, htopkey, hsent, _⟩ := hwf
  rw [hsent b (by omega) hb, htopkey (b + 1) hb (by omega)]

theorem tree_first_lt_sentinel (hwf : TreeWF bucket_count total top buckets) (b : Nat)
    (hb : b < bucket_count) :
    slotKey buckets b 0 < slotKey buckets b (bucketAt buckets b).entry_count := by
  have hbw := hwf.2.2.2.2.2.1 b hb
  exact bucket_keys_lt _ hbw _ 0 hbw.1 (Nat.le_refl _)

theorem tree_first_mono (hwf : TreeWF bucket_count total top buckets) :
    ∀ c b, b < c → c < bucket_count →
      slotKey buckets b (bucketAt buckets b).entry_count ≤ slotKey buckets c 0 := by
  intro c
  induction c with
  | zero => intro b hb; omega
  | succ n ih =>
    intro b hb hc
    have hnext := tree_sentinel_eq_next hwf n hc
    rcases Nat.lt_or_ge b n with h1 | h1
    · have h2 := ih b h1 (by omega)
      have h3 := tree_first_lt_sentinel hwf n (by omega)
      omega
    · have h2 : b = n := by omega
      rw [h2, hnext]

theorem tree_sentinel_le_total (hwf : TreeWF bucket_count total top buckets) (b : Nat)
    (hb : b < bucket_count) :
    slotKey buckets b (bucketAt buckets b).entry_count ≤ total := by
  have hlast := hwf.2.2.2.2.2.2.2.2.2
  rcases Nat.lt_or_ge b (bucket_count - 1) with h1 | h1
  · have h2 := tree_first_mono hwf (bucket_count - 1) b h1 (by omega)
    have h3 := tree_first_lt_sentinel hwf (bucket_count - 1) (by omega)
    omega
  · have h2 : b = bucket_count - 1 := by omega
    rw [h2, hlast]

theorem tree_bucket_exists (hwf : TreeWF bucket_count total top buckets) (v : Nat) :
    ∀ n, n ≤ bucket_count → 0 < n →
      v < slotKey buckets (n - 1) (bucketAt buckets (n - 1)).entry_count →
      ∃ b, b < n ∧ slotKey buckets b 0 ≤ v ∧
        v < slotKey buckets b (bucketAt buckets b).entry_count := by
  intro n
  induction n with
  | zero => intro _ h; omega
  | succ m ih =>
    intro hm _ hv
    simp only [Nat.add_sub_cancel] at hv
    by_cases hle : slotKey buckets m 0 ≤ v
    · exact ⟨m, by omega, hle, hv⟩
    · rcases Nat.eq_zero_or_pos m with h0 | h0
      · subst h0
        have := hwf.2.2.2.2.2.2.1
        omega
      · have hnext := tree_sentinel_eq_next hwf (m - 1) (by omega)
        rw [show m - 1 + 1 = m by omega] at hnext
        obtain ⟨b, h1, h2, h3⟩ := ih (by omega) h0 (by omega)
        exact ⟨b, by omega, h2, h3⟩

/-- In a well-formed tree every key below `total` is located: the bucket loop selects a
bucket `b`, the search inside it hits a slot `i`, and slot `(b, i)` serves the key. -/
theorem tree_lookup (hwf : TreeWF bucket_count total top buckets) (v : Nat) (hv : v < total) :
    ∃ b i, bucketNumLoop top v (bucket_count - 1) 1 0 = some b ∧
      bucketSearch (bucketAt buckets b).entry_count (bucketAt buckets b).keys v =
        SearchResult.hit i ∧
      Serves bucket_count buckets b i v := by
  have hpos := hwf.1
  have hlast := hwf.2.2.2.2.2.2.2.2.2
  obtain ⟨b, hb, hlo, hhi⟩ := tree_bucket_exists hwf v bucket_count (Nat.le_refl _) hpos
    (by rw [hlast]; exact hv)
  have hbw := hwf.2.2.2.2.2.1 b hb
  have htopkey := hwf.2.2.2.2.2.2.2.1
  have hloop : bucketNumLoop top v (bucket_count - 1) 1 0 = some b := by
    have h := bucketNumLoop_eq top v (bucket_count - 1) 1 0 b (by have := hwf.2.2.1; omega)
      (by omega)
      (fun j h1 h2 => by
        rw [← htopkey j (by omega) (by omega)]
        rcases Nat.lt_or_ge j b with h3 | h3
        · have h4 := tree_first_mono hwf b j h3 hb
          have h5 := tree_first_lt_sentinel hwf j (by omega)
          omega
        · have h4 : j = b := by omega
          rw [h4]
          exact hlo)
      (fun j h1 h2 h3 => by
        rw [← htopkey j (by omega) (by omega)]
        have h4 := tree_first_mono hwf j b h1 (by omega)
        omega)
    rw [h]
    congr 1
    omega
  obtain ⟨i, h1, h2, h3, h4⟩ := bucketSearch_hit (bucketAt buckets b).keys
    (bucketAt buckets b).entry_count v hbw.1 hbw.2.1 (Nat.le_of_lt hbw.2.2.1) hlo
  refine ⟨b, i, hloop, h1, hb, h2, h3, ?_⟩
  rcases h4 with h5 | h5
  · rw [h5]
    exact hhi
  · exact h5

/-- In a well-formed tree at most one slot serves a key. -/
theorem serves_unique (hwf : TreeWF bucket_count total top buckets) (b i c j v : Nat)
    (h1 : Serves bucket_count buckets b i v) (h2 : Serves bucket_count buckets c j v) :
    b = c ∧ i = j := by
  obtain ⟨hb, hi, hlo, hhi⟩ := h1
  obtain ⟨hc, hj, hlo2, hhi2⟩ := h2
  have hbw := hwf.2.2.2.2.2.1 b hb
  have hcw := hwf.2.2.2.2.2.1 c hc
  have hbc : b = c := by
    rcases Nat.lt_trichotomy b c with h | h | h
    · have h3 := tree_first_mono hwf c b h hc
      have h4 := bucket_keys_le _ hbw (i + 1) _ (by omega) (Nat.le_refl _)
      have h5 := bucket_keys_le _ hcw 0 j (by omega) (by omega)
      unfold slotKey at *
      omega
    · exact h
    · have h3 := tree_first_mono hwf b c h hb
      have h4 := bucket_keys_le _ hcw (j + 1) _ (by omega) (Nat.le_refl _)
      have h5 := bucket_keys_le _ hbw 0 i (by omega) (by omega)
      unfold slotKey at *
      omega
  subst hbc
  refine ⟨rfl, ?_⟩
  rcases Nat.lt_trichotomy i j with h | h | h
  · have h4 := bucket_keys_le _ hbw (i + 1) j (by omega) (by omega)
    unfold slotKey at *
    omega
  · exact h
  · have h4 := bucket_keys_le _ hbw (j + 1) i (by omega) (by omega)
    unfold slotKey at *
    omega

end Tree

/-! ### From key views back to blocks -/

theorem keyAt_map {α : Type} (f : α → Nat) (l : List α) (i : Nat) (a : α) (h : l[i]? = some a) :
    keyAt (l.map f) i = f a := by
  simp [keyAt, h]

theorem indirect_bucketAt (block : BktrIndirectStorageBlock) (b : Nat)
    (bucket : BktrIndirectStorageBucket) (h : block.indirect_storage_buckets[b]? = some bucket) :
    bucketAt block.keyBuckets b = bucket.toKeys := by
  simp [bucketAt, BktrIndirectStorageBlock.keyBuckets, h]

theorem aesctrex_bucketAt (block : BktrAesCtrExStorageBlock) (b : Nat)
    (bucket : BktrAesCtrExStorageBucket) (h : block.aes_ctr_ex_storage_buckets[b]? = some bucket) :
    bucketAt block.keyBuckets b = bucket.toKeys := by
  simp [bucketAt, BktrAesCtrExStorageBlock.keyBuckets, h]

theorem indirect_bucket_exists (block : BktrIndirectStorageBlock) (b : Nat)
    (h : b < block.keyBuckets.length) :
    ∃ bucket, block.indirect_storage_buckets[b]? = some bucket := by
  simp only [BktrIndirectStorageBlock.keyBuckets, List.length_map] at h
  exact ⟨_, List.getElem?_eq_getElem h⟩

theorem aesctrex_bucket_exists (block : BktrAesCtrExStorageBlock) (b : Nat)
    (h : b < block.keyBuckets.length) :
    ∃ bucket, block.aes_ctr_ex_storage_buckets[b]? = some bucket := by
  simp only [BktrAesCtrExStorageBlock.keyBuckets, List.length_map] at h
  exact ⟨_, List.getElem?_eq_getElem h⟩

theorem indirect_entry_exists (block : BktrIndirectStorageBlock) (b i : Nat)
    (bucket : BktrIndirectStorageBucket) (h : block.indirect_storage_buckets[b]? = some bucket)
    (hi : i < bucket.toKeys.keys.length) :
    ∃ e, block.entryAt b i = some e ∧ bucket.indirect_storage_entries[i]? = some e ∧
      slotKey block.keyBuckets b i = e.virtual_offset := by
  simp only [BktrIndirectStorageBucket.toKeys, List.length_map] at hi
  refine ⟨bucket.indirect_storage_entries[i], ?_, List.getElem?_eq_getElem hi, ?_⟩
  · simp [BktrIndirectStorageBlock.entryAt, h, List.getElem?_eq_getElem hi]
  · rw [slotKey, indirect_bucketAt block b bucket h]
    exact keyAt_map _ _ _ _ (List.getElem?_eq_getElem hi)

theorem aesctrex_entry_exists (block : BktrAesCtrExStorageBlock) (b i : Nat)
    (bucket : BktrAesCtrExStorageBucket) (h : block.aes_ctr_ex_storage_buckets[b]? = some bucket)
    (hi : i < bucket.toKeys.keys.length) :
    ∃ e, block.entryAt b i = some e ∧ bucket.aes_ctr_ex_storage_entries[i]? = some e ∧
      slotKey block.keyBuckets b i = e.offset := by
  simp only [BktrAesCtrExStorageBucket.toKeys, List.length_map] at hi
  refine ⟨bucket.aes_ctr_ex_storage_entries[i], ?_, List.getElem?_eq_getElem hi, ?_⟩
  · simp [BktrAesCtrExStorageBlock.entryAt, h, List.getElem?_eq_getElem hi]
  · rw [slotKey, aesctrex_bucketAt block b bucket h]
    exact keyAt_map _ _ _ _ (List.getElem?_eq_getElem hi)

theorem indirect_entryAt_key (block : BktrIndirectStorageBlock) (b i : Nat)
    (e : BktrIndirectStorageEntry) (h : block.entryAt b i = some e) :
    slotKey block.keyBuckets b i = e.virtual_offset := by
  unfold BktrIndirectStorageBlock.entryAt at h
  cases hb : block.indirect_storage_buckets[b]? with
  | none => simp [hb] at h
  | some bucket =>
    simp only [hb] at h
    rw [slotKey, indirect_bucketAt block b bucket hb]
    exact keyAt_map _ _ _ _ h

theorem aesctrex_entryAt_key (block : BktrAesCtrExStorageBlock) (b i : Nat)
    (e : BktrAesCtrExStorageEntry) (h : block.entryAt b i = some e) :
    slotKey block.keyBuckets b i = e.offset := by
  unfold BktrAesCtrExStorageBlock.entryAt at h
  cases hb : block.aes_ctr_ex_storage_buckets[b]? with
  | none => simp [hb] at h
  | some bucket =>
    simp only [hb] at h
    rw [slotKey, aesctrex_bucketAt block b bucket hb]
    exact keyAt_map _ _ _ _ h

theorem indirect_entryCount (block : BktrIndirectStorageBlock) (b : Nat) :
    (bucketAt block.keyBuckets b).entry_count = block.entryCount b := by
  unfold BktrIndirectStorageBlock.entryCount
  cases hb : block.indirect_storage_buckets[b]? with
  | none => simp [bucketAt, BktrIndirectStorageBlock.keyBuckets, hb]
  | some bucket => simp [indirect_bucketAt block b bucket hb, BktrIndirectStorageBucket.toKeys]

theorem aesctrex_entryCount (block : BktrAesCtrExStorageBlock) (b : Nat) :
    (bucketAt block.keyBuckets b).entry_count = block.entryCount b := by
  unfold BktrAesCtrExStorageBlock.entryCount
  cases hb : block.aes_ctr_ex_storage_buckets[b]? with
  | none => simp [bucketAt, BktrAesCtrExStorageBlock.keyBuckets, hb]
  | some bucket => simp [aesctrex_bucketAt block b bucket hb, BktrAesCtrExStorageBucket.toKeys]

/-- A well-formed Indirect block locates every `v < virtual_size`, stated on the key view. -/
theorem indirect_lookup_serves (block : BktrIndirectStorageBlock) (hwf : IndirectWF block)
    (v : Nat) (hv : v < block.virtual_size) :
    ∃ b i, bktrGetIndirectStorageEntry block v = Lookup.found b i ∧
      Serves block.bucket_count block.keyBuckets b i v := by
  obtain ⟨b, i, hloop, hsearch, hserves⟩ := tree_lookup hwf v hv
  refine ⟨b, i, ?_, hserves⟩
  have hb := hserves.1
  obtain ⟨bucket, hbucket⟩ := indirect_bucket_exists block b (by have := hwf.2.2.2.1; omega)
  rw [indirect_bucketAt block b bucket hbucket] at hsearch
  unfold bktrGetIndirectStorageEntry bktrGetIndirectStorageBucket
  have h1 : ¬ (block.bucket_count = 0 ∨ v ≥ block.virtual_size) := by
    have := hwf.1
    omega
  have h2 : ¬ (b ≥ block.bucket_count) := by omega
  simp only [h1, if_false, hloop, h2, hbucket]
  simp only [BktrIndirectStorageBucket.toKeys] at hsearch
  rw [hsearch]
  rfl

/-- Slots of a located key of a well-formed Indirect block: both the entry and its successor
are in memory, and their keys enclose the key. -/
theorem indirect_slot (block : BktrIndirectStorageBlock) (hwf : IndirectWF block)
    (b i v : Nat) (h : Serves block.bucket_count block.keyBuckets b i v) :
    ∃ e nxt, block.entryAt b i = some e ∧ block.entryAt b (i + 1) = some nxt ∧
      e.virtual_offset = slotKey block.keyBuckets b i ∧
      nxt.virtual_offset = slotKey block.keyBuckets b (i + 1) ∧
      e.virtual_offset ≤ v ∧ v < nxt.virtual_offset ∧ nxt.virtual_offset ≤ block.virtual_size := by
  obtain ⟨hb, hi, hlo, hhi⟩ := h
  obtain ⟨bucket, hbucket⟩ := indirect_bucket_exists block b (by have := hwf.2.2.2.1; omega)
  have hbw := hwf.2.2.2.2.2.1 b hb
  have hkb := indirect_bucketAt block b bucket hbucket
  rw [hkb] at hbw hi
  obtain ⟨e, he1, _, he3⟩ := indirect_entry_exists block b i bucket hbucket (by have := hbw.2.2.1; omega)
  obtain ⟨nxt, hn1, _, hn3⟩ :=
    indirect_entry_exists block b (i + 1) bucket hbucket (by have := hbw.2.2.1; omega)
  refine ⟨e, nxt, he1, hn1, he3.symm, hn3.symm, by omega, by omega, ?_⟩
  have h1 := bucket_keys_le _ hbw (i + 1) bucket.toKeys.entry_count (by omega) (Nat.le_refl _)
  have h2 := tree_sentinel_le_total hwf b hb
  rw [hkb] at h2
  unfold slotKey at h2 hn3
  rw [hkb] at h2 hn3
  omega

/-- A well-formed AesCtrEx block locates every `p < physical_size`: below `ind_off` the
result is a real entry that serves `p`, from `ind_off` on it is the first sentinel of the
last bucket. -/
theorem aesctrex_lookup_serves (block : BktrAesCtrExStorageBlock) (ind_off section_size : Nat)
    (hwf : AesCtrExWF block ind_off section_size) (p : Nat) (hp : p < block.physical_size) :
    ∃ b i, bktrGetAesCtrExStorageEntry block p = Lookup.found b i ∧
      ((p < ind_off ∧ Serves block.bucket_count block.keyBuckets b i p) ∨
        (ind_off ≤ p ∧ b = block.bucket_count - 1 ∧ i = block.entryCount b)) := by
  obtain ⟨htree, hlen2, hsec, hind, hphys, hss⟩ := hwf
  have hpos := htree.1
  have hlt := htree.2.1
  have hlastb : block.bucket_count - 1 < block.bucket_count := by omega
  obtain ⟨last, hlast⟩ :=
    aesctrex_bucket_exists block (block.bucket_count - 1) (by have := htree.2.2.2.1; omega)
  have hkb := aesctrex_bucketAt block _ last hlast
  have hbw := htree.2.2.2.2.2.1 _ hlastb
  rw [hkb] at hbw hlen2
  obtain ⟨s, _, hs2, hs3⟩ := aesctrex_entry_exists block (block.bucket_count - 1)
    last.entry_count last hlast (by have := hbw.2.2.1; simpa [BktrAesCtrExStorageBucket.toKeys] using this)
  have htotal := htree.2.2.2.2.2.2.2.2.2
  rw [hkb] at htotal
  simp only [BktrAesCtrExStorageBucket.toKeys] at htotal hs3 hbw
  rw [htotal] at hs3
  have h1 : ¬ (block.bucket_count = 0 ∨ p ≥ block.physical_size) := by omega
  have h2 : (block.bucket_count + 2 ^ 32 - 1) % 2 ^ 32 = block.bucket_count - 1 := by omega
  have h3 : ¬ (block.bucket_count - 1 ≥ block.bucket_count) := by omega
  have h4 : ¬ (last.entry_count = 0) := by
    have h := hbw.1
    change 0 < last.entry_count at h
    omega
  unfold bktrGetAesCtrExStorageEntry bktrGetAesCtrExStorageBucket
  simp only [h1, if_false, h2, h3, hlast, h4, hs2]
  by_cases hge : p ≥ s.offset
  · simp only [hge, if_true]
    refine ⟨_, _, rfl, Or.inr ⟨by omega, rfl, ?_⟩⟩
    simp [BktrAesCtrExStorageBlock.entryCount, hlast]
  · simp only [hge, if_false]
    obtain ⟨b, i, hloop, hsearch, hserves⟩ := tree_lookup htree p (by omega)
    have hb := hserves.1
    obtain ⟨bucket, hbucket⟩ := aesctrex_bucket_exists block b (by have := htree.2.2.2.1; omega)
    rw [aesctrex_bucketAt block b bucket hbucket] at hsearch
    have h5 : ¬ (b ≥ block.bucket_count) := by omega
    simp only [hloop, h5, if_false, hbucket]
    simp only [BktrAesCtrExStorageBucket.toKeys] at hsearch
    rw [hsearch]
    exact ⟨b, i, rfl, Or.inl ⟨by omega, hserves⟩⟩

/-- Slots of a located key of a well-formed AesCtrEx block. -/
theorem aesctrex_slot (block : BktrAesCtrExStorageBlock) (ind_off section_size : Nat)
    (hwf : AesCtrExWF block ind_off section_size) (b i p : Nat)
    (h : (p < ind_off ∧ Serves block.bucket_count block.keyBuckets b i p) ∨
      (ind_off ≤ p ∧ p < block.physical_size ∧ b = block.bucket_count - 1 ∧
        i = block.entryCount b)) :
    ∃ a nxt, block.entryAt b i = some a ∧ block.entryAt b (i + 1) = some nxt ∧
      a.offset = slotKey block.keyBuckets b i ∧ nxt.offset = slotKey block.keyBuckets b (i + 1) ∧
      a.offset ≤ p ∧ p < nxt.offset ∧ nxt.offset ≤ section_size ∧
      (p < ind_off → nxt.offset ≤ ind_off) := by
  obtain ⟨htree, hlen2, hsec, hind, hphys, hss⟩ := hwf
  have hpos := htree.1
  rcases h with ⟨hp, hb, hi, hlo, hhi⟩ | ⟨hp, hp2, hb, hi⟩
  · obtain ⟨bucket, hbucket⟩ := aesctrex_bucket_exists block b (by have := htree.2.2.2.1; omega)
    have hbw := htree.2.2.2.2.2.1 b hb
    have hkb := aesctrex_bucketAt block b bucket hbucket
    rw [hkb] at hbw hi
    obtain ⟨a, ha1, _, ha3⟩ :=
      aesctrex_entry_exists block b i bucket hbucket (by have := hbw.2.2.1; omega)
    obtain ⟨nxt, hn1, _, hn3⟩ :=
      aesctrex_entry_exists block b (i + 1) bucket hbucket (by have := hbw.2.2.1; omega)
    have h1 := bucket_keys_le _ hbw (i + 1) bucket.toKeys.entry_count (by omega) (Nat.le_refl _)
    have h2 := tree_sentinel_le_total htree b hb
    rw [hkb] at h2
    unfold slotKey at h2
    rw [hkb] at h2
    have hn4 := hn3
    unfold slotKey at hn4
    rw [hkb] at hn4
    exact ⟨a, nxt, ha1, hn1, ha3.symm, hn3.symm, by omega, by omega, by omega, fun _ => by omega⟩
  · obtain ⟨last, hlast⟩ :=
      aesctrex_bucket_exists block (block.bucket_count - 1) (by have := htree.2.2.2.1; omega)
    have hkb := aesctrex_bucketAt block _ last hlast
    have hbw := htree.2.2.2.2.2.1 (block.bucket_count - 1) (by omega)
    have htotal := htree.2.2.2.2.2.2.2.2.2
    have hcount := aesctrex_entryCount block (block.bucket_count - 1)
    subst hb
    rw [← hcount] at hi
    subst hi
    rw [hkb] at hbw hlen2
    obtain ⟨a, ha1, _, ha3⟩ := aesctrex_entry_exists block (block.bucket_count - 1)
      (bucketAt block.keyBuckets (block.bucket_count - 1)).entry_count last hlast
      (by rw [hkb]; omega)
    obtain ⟨nxt, hn1, _, hn3⟩ := aesctrex_entry_exists block (block.bucket_count - 1)
      ((bucketAt block.keyBuckets (block.bucket_count - 1)).entry_count + 1) last hlast
      (by rw [hkb]; omega)
    exact ⟨a, nxt, ha1, hn1, ha3.symm, hn3.symm, by omega, by omega, by omega, fun _ => by omega⟩

/-! ## One step of the resolver and of the dispatcher -/

theorem andThen_true (m1 : Machine) (second : Machine → Outcome × Machine) :
    andThen (Outcome.ret true, m1) second = second m1 := rfl

theorem andThen_false (m1 : Machine) (second : Machine → Outcome × Machine) :
    andThen (Outcome.ret false, m1) second = (Outcome.ret false, m1) := rfl

theorem add64_eq (a b : Nat) (h : a + b < 2 ^ 64) : add64 a b = a + b :=
  Nat.mod_eq_of_lt h

theorem sub64_eq (a b : Nat) (hb : b ≤ a) (ha : a < 2 ^ 64) : sub64 a b = a - b := by
  unfold sub64
  have h1 : b % 2 ^ 64 = b := Nat.mod_eq_of_lt (by omega)
  rw [h1]
  omega

/-- One call of the resolver at an offset whose lookup returned the entry `e` with the
successor `nxt`. -/
theorem phys_step (ctx : BktrContext) (ib : BktrIndirectStorageBlock)
    (hib : ctx.indirect_block = some ib)
    (hbase : ctx.missing_base_romfs = false → ctx.base_nca_fs_ctx.isSome = true)
    (d : Nat) (m : Machine) (pos len v b i : Nat) (e nxt : BktrIndirectStorageEntry)
    (hlen : len ≠ 0) (hfound : bktrGetIndirectStorageEntry ib v = Lookup.found b i)
    (he : ib.entryAt b i = some e) (hn : ib.entryAt b (i + 1) = some nxt)
    (hlo : e.virtual_offset ≤ v) (hhi : v < nxt.virtual_offset)
    (hnlt : nxt.virtual_offset < 2 ^ 64)
    (hp : e.physical_offset + (v - e.virtual_offset) < 2 ^ 64) :
    bktrPhysicalSectionRead ctx (d + 1) m pos len v =
      if add64 v len ≤ nxt.virtual_offset then
        if e.indirect_storage_index = BktrIndirectStorageIndex_Patch then
          bktrAesCtrExStorageRead ctx d m pos len v (e.physical_offset + (v - e.virtual_offset))
        else if ctx.missing_base_romfs = true then (Outcome.ret false, m)
        else
          match ctx.base_nca_fs_ctx with
          | some fs => ncaReadFsSection fs m pos len (e.physical_offset + (v - e.virtual_offset))
          | none => (Outcome.ret false, m)
      else
        andThen (bktrPhysicalSectionRead ctx d m pos (nxt.virtual_offset - v) v)
          (fun m1 => bktrPhysicalSectionRead ctx d m1 (pos + (nxt.virtual_offset - v))
            (sub64 len (nxt.virtual_offset - v)) nxt.virtual_offset) := by
  have h1 : add64 (sub64 v e.virtual_offset) e.physical_offset =
      e.physical_offset + (v - e.virtual_offset) := by
    rw [sub64_eq v e.virtual_offset hlo (by omega), add64_eq _ _ (by omega)]
    omega
  have h2 : sub64 nxt.virtual_offset v = nxt.virtual_offset - v :=
    sub64_eq _ _ (by omega) hnlt
  have h3 : add64 v (nxt.virtual_offset - v) = nxt.virtual_offset := by
    rw [add64_eq _ _ (by omega)]
    omega
  have h4 : ((!ctx.missing_base_romfs && ctx.base_nca_fs_ctx.isNone) || len == 0) = false := by
    have h5 : (len == 0) = false := by simpa using hlen
    cases hm : ctx.missing_base_romfs with
    | true => simp [h5]
    | false =>
      have h6 := hbase hm
      cases hb : ctx.base_nca_fs_ctx with
      | none => simp [hb] at h6
      | some fs => simp [h5]
  rw [bktrPhysicalSectionRead]
  simp only [hib, h4, hfound, he, hn, h1, h2, h3]
  cases hm : ctx.missing_base_romfs <;> simp

/-- One call of the dispatcher at a physical offset whose lookup returned the entry `a` with
the successor `an`. -/
theorem aes_step (ctx : BktrContext) (ab : BktrAesCtrExStorageBlock) (fs : NcaFsSectionContext)
    (hab : ctx.aes_ctr_ex_block = some ab) (hfs : ctx.patch_nca_fs_ctx = some fs)
    (d : Nat) (m : Machine) (pos len v p cb j : Nat) (a an : BktrAesCtrExStorageEntry)
    (hlen : len ≠ 0) (hfound : bktrGetAesCtrExStorageEntry ab p = Lookup.found cb j)
    (ha : ab.entryAt cb j = some a) (han : ab.entryAt cb (j + 1) = some an)
    (hhi : p < an.offset) (hanlt : an.offset < 2 ^ 64) :
    bktrAesCtrExStorageRead ctx (d + 1) m pos len v p =
      if add64 p len ≤ an.offset then
        ncaReadAesCtrExStorageFromBktrSection fs m pos len p a.generation
      else
        andThen (bktrPhysicalSectionRead ctx d m pos (an.offset - p) v)
          (fun m1 => bktrPhysicalSectionRead ctx d m1 (pos + (an.offset - p))
            (sub64 len (an.offset - p)) (add64 v (an.offset - p))) := by
  have h2 : sub64 an.offset p = an.offset - p := sub64_eq _ _ (by omega) hanlt
  rw [bktrAesCtrExStorageRead]
  simp only [hab, hfs, hlen, if_false, hfound, ha, han, h2]

/-- In a well-formed Indirect block the lookup of a key returns the slot that serves it. -/
theorem indirect_lookup_of_serves (block : BktrIndirectStorageBlock) (hwf : IndirectWF block)
    (b i v : Nat) (h : Serves block.bucket_count block.keyBuckets b i v) :
    bktrGetIndirectStorageEntry block v = Lookup.found b i := by
  obtain ⟨_, _, _, _, _, _, _, _, hle⟩ := indirect_slot block hwf b i v h
  rename_i hhi
  obtain ⟨c, j, hfound, hserves⟩ := indirect_lookup_serves block hwf v (by omega)
  obtain ⟨h1, h2⟩ := serves_unique hwf c j b i v hserves h
  rw [hfound, h1, h2]

/-- In a well-formed AesCtrEx block the lookup returns the same slot for every offset of the
range of that slot that lies below `physical_size`. -/
theorem aesctrex_lookup_same (block : BktrAesCtrExStorageBlock) (ind_off section_size : Nat)
    (hwf : AesCtrExWF block ind_off section_size) (p q cb j : Nat)
    (an : BktrAesCtrExStorageEntry)
    (hp : p < block.physical_size) (hfound : bktrGetAesCtrExStorageEntry block p = Lookup.found cb j)
    (han : block.entryAt cb (j + 1) = some an) (hpq : p ≤ q) (hq : q < an.offset)
    (hq2 : q < block.physical_size) :
    bktrGetAesCtrExStorageEntry block q = Lookup.found cb j := by
  obtain ⟨b, i, hf, hcase⟩ := aesctrex_lookup_serves block ind_off section_size hwf p hp
  rw [hfound] at hf
  injection hf with hb hi
  subst hb
  subst hi
  obtain ⟨b2, i2, hf2, hcase2⟩ := aesctrex_lookup_serves block ind_off section_size hwf q hq2
  rw [hf2]
  have hcase1 : (p < ind_off ∧ Serves block.bucket_count block.keyBuckets cb j p) ∨
      (ind_off ≤ p ∧ p < block.physical_size ∧ cb = block.bucket_count - 1 ∧
        j = block.entryCount cb) := by
    rcases hcase with h | h
    · exact Or.inl h
    · exact Or.inr ⟨h.1, hp, h.2⟩
  obtain ⟨a, nxt, _, hn, _, hnk, _, _, _, hbelow⟩ :=
    aesctrex_slot block ind_off section_size hwf cb j p hcase1
  rw [han] at hn
  injection hn with hn
  subst hn
  rcases hcase with ⟨hlt, hs⟩ | ⟨hge, hb, hi⟩
  · have h3 := hbelow hlt
    rcases hcase2 with ⟨_, hs2⟩ | ⟨hge2, _, _⟩
    · have hs3 : Serves block.bucket_count block.keyBuckets cb j q :=
        ⟨hs.1, hs.2.1, by have := hs.2.2.1; omega, by rw [← hnk]; exact hq⟩
      obtain ⟨h4, h5⟩ := serves_unique hwf.1 b2 i2 cb j q hs2 hs3
      rw [h4, h5]
    · omega
  · rcases hcase2 with ⟨hlt2, _⟩ | ⟨_, hb2, hi2⟩
    · omega
    · rw [hb2, hi2, hb2, ← hb, ← hi]

section Bytes

variable {ctx : BktrContext} {ib : BktrIndirectStorageBlock} {ab : BktrAesCtrExStorageBlock}
  {ind_off section_size : Nat}

/-- Facts about the slot that serves `v` in a well-formed context. -/
theorem context_slot (hwf : ContextWF ctx ib ab ind_off section_size) (b i v : Nat)
    (h : Serves ib.bucket_count ib.keyBuckets b i v) :
    ∃ e nxt, ib.entryAt b i = some e ∧ ib.entryAt b (i + 1) = some nxt ∧
      e.virtual_offset ≤ v ∧ v < nxt.virtual_offset ∧ nxt.virtual_offset ≤ ib.virtual_size ∧
      ib.virtual_size < 2 ^ 64 ∧
      e.physical_offset + (nxt.virtual_offset - e.virtual_offset) ≤ 2 ^ 64 ∧
      (e.indirect_storage_index = BktrIndirectStorageIndex_Patch →
        e.physical_offset + (nxt.virtual_offset - e.virtual_offset) ≤ ab.physical_size) ∧
      bktrGetIndirectStorageEntry ib v = Lookup.found b i := by
  obtain ⟨_, _, hiwf, _, _, _, hmapped⟩ := hwf
  obtain ⟨e, nxt, he, hn, _, _, hlo, hhi, hle⟩ := indirect_slot ib hiwf b i v h
  have hm := hmapped b h.1 i (by rw [← indirect_entryCount]; exact h.2.1)
  simp only [indirectEntry, he, hn, Option.getD_some] at hm
  exact ⟨e, nxt, he, hn, hlo, hhi, hle, hiwf.2.2.2.2.1, hm.1, hm.2,
    indirect_lookup_of_serves ib hiwf b i v h⟩

theorem logicalByte_base (hwf : ContextWF ctx ib ab ind_off section_size) (b i v : Nat)
    (e : BktrIndirectStorageEntry) (fs : NcaFsSectionContext)
    (h : Serves ib.bucket_count ib.keyBuckets b i v) (he : ib.entryAt b i = some e)
    (hsrc : e.indirect_storage_index ≠ BktrIndirectStorageIndex_Patch)
    (hmiss : ctx.missing_base_romfs = false) (hfs : ctx.base_nca_fs_ctx = some fs) :
    logicalByte ctx v = some (fs.plain (e.physical_offset + (v - e.virtual_offset))) := by
  obtain ⟨_, _, _, _, _, _, _, _, _, _, hfound⟩ := context_slot hwf b i v h
  unfold logicalByte
  simp only [hwf.1, hfound, he, hsrc, if_false, hmiss, hfs]
  rfl

theorem logicalByte_missing (hwf : ContextWF ctx ib ab ind_off section_size) (b i v : Nat)
    (e : BktrIndirectStorageEntry)
    (h : Serves ib.bucket_count ib.keyBuckets b i v) (he : ib.entryAt b i = some e)
    (hsrc : e.indirect_storage_index ≠ BktrIndirectStorageIndex_Patch)
    (hmiss : ctx.missing_base_romfs = true) :
    logicalByte ctx v = none := by
  obtain ⟨_, _, _, _, _, _, _, _, _, _, hfound⟩ := context_slot hwf b i v h
  unfold logicalByte
  simp only [hwf.1, hfound, he, hsrc, if_false, hmiss, if_true]

theorem logicalByte_patch (hwf : ContextWF ctx ib ab ind_off section_size) (b i v cb j : Nat)
    (e : BktrIndirectStorageEntry) (a : BktrAesCtrExStorageEntry) (fs : NcaFsSectionContext)
    (h : Serves ib.bucket_count ib.keyBuckets b i v) (he : ib.entryAt b i = some e)
    (hsrc : e.indirect_storage_index = BktrIndirectStorageIndex_Patch)
    (hfs : ctx.patch_nca_fs_ctx = some fs)
    (hfound2 : bktrGetAesCtrExStorageEntry ab (e.physical_offset + (v - e.virtual_offset)) =
      Lookup.found cb j)
    (ha : ab.entryAt cb j = some a) :
    logicalByte ctx v =
      some (fs.ctr_ex a.generation (e.physical_offset + (v - e.virtual_offset))) := by
  obtain ⟨_, _, _, _, _, _, _, _, _, _, hfound⟩ := context_slot hwf b i v h
  unfold logicalByte
  simp only [hwf.1, hwf.2.1, hfound, he, hsrc, if_true, hfs, hfound2, ha]

end Bytes

/-! ## The postcondition of a physical read -/

section Post

variable {ctx : BktrContext} {ib : BktrIndirectStorageBlock} {ab : BktrAesCtrExStorageBlock}
  {ind_off section_size : Nat}

theorem leafRun_append (cs1 : List Call) :
    ∀ (cs2 : List Call) (pos v k1 k2 : Nat), LeafRun ib ab cs1 pos v k1 →
      LeafRun ib ab cs2 (pos + k1) (v + k1) k2 → LeafRun ib ab (cs1 ++ cs2) pos v (k1 + k2) := by
  induction cs1 with
  | nil =>
    intro cs2 pos v k1 k2 h1 h2
    simp only [LeafRun] at h1
    subst h1
    simpa using h2
  | cons c rest ih =>
    intro cs2 pos v k1 k2 h1 h2
    obtain ⟨l, hl, hlk, hcall, hrest⟩ := h1
    refine ⟨l, hl, by omega, hcall, ?_⟩
    have h3 := ih cs2 (pos + l) (v + l) (k1 - l) k2 hrest
      (by rw [show pos + l + (k1 - l) = pos + k1 by omega,
        show v + l + (k1 - l) = v + k1 by omega]; exact h2)
    rw [show k1 + k2 - l = k1 - l + k2 by omega]
    exact h3

theorem leafRun_single (c : Call) (pos v len : Nat) (hlen : 0 < len)
    (h : LeafCall ib ab c pos v len) : LeafRun ib ab [c] pos v len :=
  ⟨len, hlen, Nat.le_refl _, h, by simp [LeafRun]⟩

theorem writeLogical_append (out : Nat → Nat) (pos len v head : Nat) (hlt : head ≤ len) :
    writeLogical ctx (writeLogical ctx out pos head v) (pos + head) (len - head) (v + head) =
      writeLogical ctx out pos len v := by
  funext j
  unfold writeLogical
  by_cases h1 : pos + head ≤ j ∧ j < pos + head + (len - head)
  · have h2 : pos ≤ j ∧ j < pos + len := by omega
    simp only [h1, h2, and_self, if_true]
    rw [show v + head + (j - (pos + head)) = v + (j - pos) by omega]
  · simp only [h1, if_false]
    by_cases h3 : pos ≤ j ∧ j < pos + head
    · have h2 : pos ≤ j ∧ j < pos + len := by omega
      simp only [h3, h2, and_self, if_true]
    · have h2 : ¬ (pos ≤ j ∧ j < pos + len) := by omega
      simp only [h3, h2, if_false]

/-- The postcondition of `first && second` from the postconditions of the two reads. -/
theorem readPost_seq (m : Machine) (pos len v head : Nat) (r1 : Outcome × Machine)
    (second : Machine → Outcome × Machine) (hlt : head < len)
    (h1 : ReadPost ctx ib ab m pos head v r1)
    (h2 : ∀ m1, ReadPost ctx ib ab m1 (pos + head) (len - head) (v + head) (second m1)) :
    ReadPost ctx ib ab m pos len v (andThen r1 second) := by
  obtain ⟨ok1, cs1, k1, hr1, hc1, hk1, hrun1, hiff1, hout1⟩ := h1
  cases ok1 with
  | false =>
    have hr : r1 = (Outcome.ret false, r1.2) := Prod.ext hr1 rfl
    rw [hr, andThen_false]
    refine ⟨false, cs1, k1, rfl, hc1, by omega, hrun1, ?_, ?_⟩
    · constructor
      · intro h
        exact absurd h (by decide)
      · intro ⟨hs, ha⟩
        exact hiff1.mpr ⟨fun t ht => hs t (by omega), ha⟩
    · intro h
      exact absurd h (by decide)
  | true =>
    have hr : r1 = (Outcome.ret true, r1.2) := Prod.ext hr1 rfl
    rw [hr, andThen_true]
    obtain ⟨hk, hout⟩ := hout1 rfl
    obtain ⟨hs1, ha1⟩ := hiff1.mp rfl
    subst hk
    obtain ⟨ok2, cs2, k2, hr2, hc2, hk2, hrun2, hiff2, hout2⟩ := h2 r1.2
    refine ⟨ok2, cs1 ++ cs2, k1 + k2, hr2, ?_, by omega, leafRun_append cs1 cs2 pos v k1 k2 hrun1 hrun2,
      ?_, ?_⟩
    · rw [hc2, hc1, List.append_assoc]
    · constructor
      · intro h
        obtain ⟨hs2, ha2⟩ := hiff2.mp h
        refine ⟨fun t ht => ?_, fun c hc => ?_⟩
        · rcases Nat.lt_or_ge t k1 with h3 | h3
          · exact hs1 t h3
          · have h4 := hs2 (t - k1) (by omega)
            rw [show v + k1 + (t - k1) = v + t by omega] at h4
            exact h4
        · rcases List.mem_append.mp hc with h3 | h3
          · exact ha1 c h3
          · exact ha2 c h3
      · intro ⟨hs, ha⟩
        refine hiff2.mpr ⟨fun t ht => ?_, fun c hc => ha c (List.mem_append.mpr (Or.inr hc))⟩
        have h4 := hs (k1 + t) (by omega)
        rw [show v + (k1 + t) = v + k1 + t by omega] at h4
        exact h4
    · intro h
      obtain ⟨hk, hout3⟩ := hout2 h
      refine ⟨by omega, ?_⟩
      rw [hout3, hout]
      exact writeLogical_append m.out pos len v k1 (by omega)

/-- The postcondition of a leaf read of the base section. -/
theorem readPost_base (hwf : ContextWF ctx ib ab ind_off section_size) (m : Machine)
    (pos len v b i : Nat) (e nxt : BktrIndirectStorageEntry) (fs : NcaFsSectionContext)
    (hlen : 0 < len) (h : Serves ib.bucket_count ib.keyBuckets b i v)
    (he : ib.entryAt b i = some e) (hn : ib.entryAt b (i + 1) = some nxt)
    (hend : v + len ≤ nxt.virtual_offset)
    (hsrc : e.indirect_storage_index ≠ BktrIndirectStorageIndex_Patch)
    (hmiss : ctx.missing_base_romfs = false) (hfs : ctx.base_nca_fs_ctx = some fs) :
    ReadPost ctx ib ab m pos len v
      (ncaReadFsSection fs m pos len (e.physical_offset + (v - e.virtual_offset))) := by
  have hlo := h.2.2.1
  have hkey := indirect_entryAt_key ib b i e he
  have hnkey := indirect_entryAt_key ib b (i + 1) nxt hn
  have hbyte : ∀ t, t < len → logicalByte ctx (v + t) =
      some (fs.plain (e.physical_offset + (v - e.virtual_offset) + t)) := by
    intro t ht
    have hs : Serves ib.bucket_count ib.keyBuckets b i (v + t) :=
      ⟨h.1, h.2.1, by omega, by omega⟩
    rw [logicalByte_base hwf b i (v + t) e fs hs he hsrc hmiss hfs]
    congr 2
    omega
  have hcall : LeafCall ib ab
      (Call.ncaReadFsSection pos len (e.physical_offset + (v - e.virtual_offset))) pos v len :=
    ⟨b, i, e, nxt, h, he, hn, hend, Or.inl ⟨hsrc, rfl⟩⟩
  cases hok : fs.plain_ok len (e.physical_offset + (v - e.virtual_offset)) with
  | false =>
    have hr : ncaReadFsSection fs m pos len (e.physical_offset + (v - e.virtual_offset)) =
        (Outcome.ret false, ⟨m.out, m.calls ++
          [Call.ncaReadFsSection pos len (e.physical_offset + (v - e.virtual_offset))]⟩) := by
      simp [ncaReadFsSection, hok]
    rw [hr]
    refine ⟨false, [_], len, rfl, rfl, Nat.le_refl _, leafRun_single _ pos v len hlen hcall, ?_, ?_⟩
    · constructor
      · intro h1
        exact absurd h1 (by decide)
      · intro ⟨_, ha⟩
        obtain ⟨fs2, hfs2, hok2⟩ := ha _ (List.mem_singleton.mpr rfl)
        rw [hfs] at hfs2
        injection hfs2 with hfs2
        subst hfs2
        rw [hok] at hok2
        exact hok2
    · intro h1
      exact absurd h1 (by decide)
  | true =>
    have hr : ncaReadFsSection fs m pos len (e.physical_offset + (v - e.virtual_offset)) =
        (Outcome.ret true,
          ⟨writeOut m.out pos len fs.plain (e.physical_offset + (v - e.virtual_offset)),
            m.calls ++
              [Call.ncaReadFsSection pos len (e.physical_offset + (v - e.virtual_offset))]⟩) := by
      simp [ncaReadFsSection, hok]
    rw [hr]
    refine ⟨true, [_], len, rfl, rfl, Nat.le_refl _, leafRun_single _ pos v len hlen hcall, ?_, ?_⟩
    · constructor
      · intro _
        refine ⟨fun t ht => by rw [hbyte t ht]; rfl, fun c hc => ?_⟩
        rw [List.mem_singleton.mp hc]
        exact ⟨fs, hfs, hok⟩
      · intro _
        rfl
    · intro _
      refine ⟨rfl, ?_⟩
      funext j
      show writeOut _ _ _ _ _ j = writeLogical _ _ _ _ _ j
      unfold writeOut writeLogical
      by_cases hj : pos ≤ j ∧ j < pos + len
      · rw [if_pos hj, if_pos hj, hbyte (j - pos) (by omega)]
        rfl
      · rw [if_neg hj, if_neg hj]

/-- The postcondition of a read that routes to the base section when there is none. -/
theorem readPost_missing (hwf : ContextWF ctx ib ab ind_off section_size) (m : Machine)
    (pos len v b i : Nat) (e : BktrIndirectStorageEntry)
    (hlen : 0 < len) (h : Serves ib.bucket_count ib.keyBuckets b i v)
    (he : ib.entryAt b i = some e)
    (hsrc : e.indirect_storage_index ≠ BktrIndirectStorageIndex_Patch)
    (hmiss : ctx.missing_base_romfs = true) :
    ReadPost ctx ib ab m pos len v (Outcome.ret false, m) := by
  refine ⟨false, [], 0, rfl, by simp, by omega, by simp [LeafRun], ?_, ?_⟩
  · constructor
    · intro h1
      exact absurd h1 (by decide)
    · intro ⟨hs, _⟩
      have h2 := hs 0 hlen
      rw [Nat.add_zero, logicalByte_missing hwf b i v e h he hsrc hmiss] at h2
      exact absurd h2 (by decide)
  · intro h1
    exact absurd h1 (by decide)

/-- The postcondition of a leaf read of the update section. -/
theorem readPost_patch (hwf : ContextWF ctx ib ab ind_off section_size) (m : Machine)
    (pos len v b i cb j : Nat) (e nxt : BktrIndirectStorageEntry)
    (a an : BktrAesCtrExStorageEntry) (fs : NcaFsSectionContext)
    (hlen : 0 < len) (h : Serves ib.bucket_count ib.keyBuckets b i v)
    (he : ib.entryAt b i = some e) (hn : ib.entryAt b (i + 1) = some nxt)
    (hend : v + len ≤ nxt.virtual_offset)
    (hsrc : e.indirect_storage_index = BktrIndirectStorageIndex_Patch)
    (hfs : ctx.patch_nca_fs_ctx = some fs)
    (hfound : bktrGetAesCtrExStorageEntry ab (e.physical_offset + (v - e.virtual_offset)) =
      Lookup.found cb j)
    (ha : ab.entryAt cb j = some a) (han : ab.entryAt cb (j + 1) = some an)
    (halo : a.offset ≤ e.physical_offset + (v - e.virtual_offset))
    (haend : e.physical_offset + (v - e.virtual_offset) + len ≤ an.offset)
    (hphys : e.physical_offset + (v - e.virtual_offset) + len ≤ ab.physical_size) :
    ReadPost ctx ib ab m pos len v
      (ncaReadAesCtrExStorageFromBktrSection fs m pos len
        (e.physical_offset + (v - e.virtual_offset)) a.generation) := by
  have hlo := h.2.2.1
  have hkey := indirect_entryAt_key ib b i e he
  have hnkey := indirect_entryAt_key ib b (i + 1) nxt hn
  have hbyte : ∀ t, t < len → logicalByte ctx (v + t) =
      some (fs.ctr_ex a.generation (e.physical_offset + (v - e.virtual_offset) + t)) := by
    intro t ht
    have hs : Serves ib.bucket_count ib.keyBuckets b i (v + t) :=
      ⟨h.1, h.2.1, by omega, by omega⟩
    have hsame := aesctrex_lookup_same ab ind_off section_size hwf.2.2.2.1
      (e.physical_offset + (v - e.virtual_offset))
      (e.physical_offset + (v + t - e.virtual_offset)) cb j an (by omega) hfound han
      (by omega) (by omega) (by omega)
    rw [logicalByte_patch hwf b i (v + t) cb j e a fs hs he hsrc hfs hsame ha]
    congr 2
    omega
  have hcall : LeafCall ib ab
      (Call.ncaReadAesCtrExStorageFromBktrSection pos len
        (e.physical_offset + (v - e.virtual_offset)) a.generation) pos v len :=
    ⟨b, i, e, nxt, h, he, hn, hend, Or.inr ⟨hsrc, cb, j, a, an, hfound, ha, han, halo, haend, rfl⟩⟩
  cases hok : fs.ctr_ex_ok len (e.physical_offset + (v - e.virtual_offset)) a.generation with
  | false =>
    have hr : ncaReadAesCtrExStorageFromBktrSection fs m pos len
        (e.physical_offset + (v - e.virtual_offset)) a.generation =
        (Outcome.ret false, ⟨m.out, m.calls ++
          [Call.ncaReadAesCtrExStorageFromBktrSection pos len
            (e.physical_offset + (v - e.virtual_offset)) a.generation]⟩) := by
      simp [ncaReadAesCtrExStorageFromBktrSection, hok]
    rw [hr]
    refine ⟨false, [_], len, rfl, rfl, Nat.le_refl _, leafRun_single _ pos v len hlen hcall, ?_, ?_⟩
    · constructor
      · intro h1
        exact absurd h1 (by decide)
      · intro ⟨_, hans⟩
        obtain ⟨fs2, hfs2, hok2⟩ := hans _ (List.mem_singleton.mpr rfl)
        rw [hfs] at hfs2
        injection hfs2 with hfs2
        subst hfs2
        rw [hok] at hok2
        exact hok2
    · intro h1
      exact absurd h1 (by decide)
  | true =>
    have hr : ncaReadAesCtrExStorageFromBktrSection fs m pos len
        (e.physical_offset + (v - e.virtual_offset)) a.generation =
        (Outcome.ret true,
          ⟨writeOut m.out pos len (fs.ctr_ex a.generation)
              (e.physical_offset + (v - e.virtual_offset)),
            m.calls ++
              [Call.ncaReadAesCtrExStorageFromBktrSection pos len
                (e.physical_offset + (v - e.virtual_offset)) a.generation]⟩) := by
      simp [ncaReadAesCtrExStorageFromBktrSection, hok]
    rw [hr]
    refine ⟨true, [_], len, rfl, rfl, Nat.le_refl _, leafRun_single _ pos v len hlen hcall, ?_, ?_⟩
    · constructor
      · intro _
        refine ⟨fun t ht => by rw [hbyte t ht]; rfl, fun c hc => ?_⟩
        rw [List.mem_singleton.mp hc]
        exact ⟨fs, hfs, hok⟩
      · intro _
        rfl
    · intro _
      refine ⟨rfl, ?_⟩
      funext j
      show writeOut _ _ _ _ _ j = writeLogical _ _ _ _ _ j
      unfold writeOut writeLogical
      by_cases hj : pos ≤ j ∧ j < pos + len
      · rw [if_pos hj, if_pos hj, hbyte (j - pos) (by omega)]
        rfl
      · rw [if_neg hj, if_neg hj]

/-- Every physical read of a range inside `[0, virtual_size)` of a well-formed context
returns, with the postcondition `ReadPost`, as soon as it may nest `2 * len` calls. -/
theorem phys_read_post (hwf : ContextWF ctx ib ab ind_off section_size) :
    ∀ n len, len ≤ n → ∀ depth m pos v, 0 < len → v + len ≤ ib.virtual_size →
      2 * len ≤ depth →
      ReadPost ctx ib ab m pos len v (bktrPhysicalSectionRead ctx depth m pos len v) := by
  have hib := hwf.1
  have hab := hwf.2.1
  have hiwf := hwf.2.2.1
  have hawf := hwf.2.2.2.1
  have hpatch := hwf.2.2.2.2.1
  have hbase := hwf.2.2.2.2.2.1
  have hvs : ib.virtual_size < 2 ^ 64 := hiwf.2.2.2.2.1
  intro n
  induction n with
  | zero =>
    intro len hle depth m pos v hpos
    omega
  | succ n ih =>
    intro len hle depth m pos v hpos hv hdepth
    obtain ⟨d, rfl⟩ : ∃ d, depth = d + 1 := ⟨depth - 1, by omega⟩
    obtain ⟨b, i, hfound, hserves⟩ := indirect_lookup_serves ib hiwf v (by omega)
    obtain ⟨e, nxt, he, hn, hlo, hhi, hnle, _, hmap1, hmap2, _⟩ := context_slot hwf b i v hserves
    rw [phys_step ctx ib hib hbase d m pos len v b i e nxt (by omega) hfound he hn hlo hhi
      (by omega) (by omega), add64_eq v len (by omega)]
    by_cases hsingle : v + len ≤ nxt.virtual_offset
    · rw [if_pos hsingle]
      by_cases hsrc : e.indirect_storage_index = BktrIndirectStorageIndex_Patch
      · rw [if_pos hsrc]
        obtain ⟨fs, hfs⟩ : ∃ fs, ctx.patch_nca_fs_ctx = some fs :=
          Option.isSome_iff_exists.mp hpatch
        obtain ⟨d2, rfl⟩ : ∃ d2, d = d2 + 1 := ⟨d - 1, by omega⟩
        have hp := hmap2 hsrc
        have hplt : e.physical_offset + (v - e.virtual_offset) + len ≤ ab.physical_size := by
          omega
        obtain ⟨cb, j, hf2, hcase⟩ := aesctrex_lookup_serves ab ind_off section_size hawf
          (e.physical_offset + (v - e.virtual_offset)) (by omega)
        have hcase2 : (e.physical_offset + (v - e.virtual_offset) < ind_off ∧
              Serves ab.bucket_count ab.keyBuckets cb j
                (e.physical_offset + (v - e.virtual_offset))) ∨
            (ind_off ≤ e.physical_offset + (v - e.virtual_offset) ∧
              e.physical_offset + (v - e.virtual_offset) < ab.physical_size ∧
              cb = ab.bucket_count - 1 ∧ j = ab.entryCount cb) := by
          rcases hcase with h | h
          · exact Or.inl h
          · exact Or.inr ⟨h.1, by omega, h.2⟩
        obtain ⟨a, an, ha, han, _, _, halo, hahi, hasec, _⟩ :=
          aesctrex_slot ab ind_off section_size hawf cb j _ hcase2
        have hss : section_size < 2 ^ 64 := hawf.2.2.2.2.2
        have hps : ab.physical_size ≤ section_size := hawf.2.2.2.2.1
        rw [aes_step ctx ab fs hab hfs d2 m pos len v _ cb j a an (by omega) hf2 ha han hahi
          (by omega), add64_eq _ len (by omega)]
        by_cases hleaf : e.physical_offset + (v - e.virtual_offset) + len ≤ an.offset
        · rw [if_pos hleaf]
          exact readPost_patch hwf m pos len v b i cb j e nxt a an fs hpos hserves he hn hsingle
            hsrc hfs hf2 ha han halo hleaf hplt
        · rw [if_neg hleaf]
          have h1 := ih (an.offset - (e.physical_offset + (v - e.virtual_offset))) (by omega)
            d2 m pos v (by omega) (by omega) (by omega)
          rw [sub64_eq len _ (by omega) (by omega), add64_eq v _ (by omega)]
          exact readPost_seq m pos len v _ _ _ (by omega) h1
            (fun m1 => ih _ (by omega) d2 m1 _ _ (by omega) (by omega) (by omega))
      · rw [if_neg hsrc]
        cases hmiss : ctx.missing_base_romfs with
        | true =>
          simp only [if_true]
          exact readPost_missing hwf m pos len v b i e hpos hserves he hsrc hmiss
        | false =>
          obtain ⟨fs, hfs⟩ : ∃ fs, ctx.base_nca_fs_ctx = some fs :=
            Option.isSome_iff_exists.mp (hbase hmiss)
          simp only [hfs]
          exact readPost_base hwf m pos len v b i e nxt fs hpos hserves he hn hsingle hsrc hmiss
            hfs
    · rw [if_neg hsingle]
      have h1 := ih (nxt.virtual_offset - v) (by omega) d m pos v (by omega) (by omega) (by omega)
      rw [sub64_eq len _ (by omega) (by omega)]
      have h2 : ∀ m1, ReadPost ctx ib ab m1 (pos + (nxt.virtual_offset - v))
          (len - (nxt.virtual_offset - v)) (v + (nxt.virtual_offset - v))
          (bktrPhysicalSectionRead ctx d m1 (pos + (nxt.virtual_offset - v))
            (len - (nxt.virtual_offset - v)) nxt.virtual_offset) := by
        intro m1
        have h3 := ih (len - (nxt.virtual_offset - v)) (by omega) d m1
          (pos + (nxt.virtual_offset - v)) nxt.virtual_offset (by omega) (by omega) (by omega)
        rw [show v + (nxt.virtual_offset - v) = nxt.virtual_offset by omega]
        exact h3
      exact readPost_seq m pos len v _ _ _ (by omega) h1 h2

end Post

/-! ## Claims about the bucket tree index -/

/-- C3 (Indirect index totality).  For every well-formed, normalised Indirect block and every
`v < virtual_size`, `bktrGetIndirectStorageEntry` returns a pointer to a real entry `e` of
the block with `e.virtual_offset ≤ v < (e + 1).virtual_offset`, and no other real entry of the
block has that property. -/
theorem indirect_index_totality (block : BktrIndirectStorageBlock) (hwf : IndirectWF block)
    (v : Nat) (hv : v < block.virtual_size) :
    ∃ b i e nxt, bktrGetIndirectStorageEntry block v = Lookup.found b i ∧
      b < block.bucket_count ∧ i < block.entryCount b ∧
      block.entryAt b i = some e ∧ block.entryAt b (i + 1) = some nxt ∧
      e.virtual_offset ≤ v ∧ v < nxt.virtual_offset ∧
      ∀ c j f g, c < block.bucket_count → j < block.entryCount c →
        block.entryAt c j = some f → block.entryAt c (j + 1) = some g →
        f.virtual_offset ≤ v → v < g.virtual_offset → c = b ∧ j = i := by
  obtain ⟨b, i, hfound, hserves⟩ := indirect_lookup_serves block hwf v hv
  obtain ⟨e, nxt, he, hn, _, _, hlo, hhi, _⟩ := indirect_slot block hwf b i v hserves
  refine ⟨b, i, e, nxt, hfound, hserves.1, ?_, he, hn, hlo, hhi, ?_⟩
  · rw [← indirect_entryCount]
    exact hserves.2.1
  · intro c j f g hc hj hf hg hlo2 hhi2
    have h2 : Serves block.bucket_count block.keyBuckets c j v := by
      refine ⟨hc, ?_, ?_, ?_⟩
      · rw [indirect_entryCount]
        exact hj
      · rw [indirect_entryAt_key block c j f hf]
        exact hlo2
      · rw [indirect_entryAt_key block c (j + 1) g hg]
        exact hhi2
    exact serves_unique hwf c j b i v h2 hserves

/-- Witness of C3 on `sampleIndirect` at `v = 0x2345`. -/
theorem indirect_index_totality_witness :
    ∃ b i e nxt, bktrGetIndirectStorageEntry sampleIndirect 0x2345 = Lookup.found b i ∧
      b < sampleIndirect.bucket_count ∧ i < sampleIndirect.entryCount b ∧
      sampleIndirect.entryAt b i = some e ∧ sampleIndirect.entryAt b (i + 1) = some nxt ∧
      e.virtual_offset ≤ 0x2345 ∧ 0x2345 < nxt.virtual_offset ∧
      ∀ c j f g, c < sampleIndirect.bucket_count → j < sampleIndirect.entryCount c →
        sampleIndirect.entryAt c j = some f → sampleIndirect.entryAt c (j + 1) = some g →
        f.virtual_offset ≤ 0x2345 → 0x2345 < g.virtual_offset → c = b ∧ j = i :=
  indirect_index_totality sampleIndirect (by decide) 0x2345 (by decide)

/-- C4 (AesCtrEx index totality).  For every well-formed, normalised AesCtrEx block as
bootstrap leaves it (first sentinel `ind_off`, second sentinel `section_size`,
`ind_off < physical_size ≤ section_size`) and every `p < physical_size`,
`bktrGetAesCtrExStorageEntry` returns a pointer to an entry `a` with
`a.offset ≤ p < (a + 1).offset`; for `p < ind_off` it is a real entry of the tree, and for
`ind_off ≤ p` it is the first sentinel of the last bucket. -/
theorem aesctrex_index_totality (block : BktrAesCtrExStorageBlock) (ind_off section_size : Nat)
    (hwf : AesCtrExWF block ind_off section_size) (p : Nat) (hp : p < block.physical_size) :
    ∃ b i a nxt, bktrGetAesCtrExStorageEntry block p = Lookup.found b i ∧
      block.entryAt b i = some a ∧ block.entryAt b (i + 1) = some nxt ∧
      a.offset ≤ p ∧ p < nxt.offset ∧
      (p < ind_off → b < block.bucket_count ∧ i < block.entryCount b) ∧
      (ind_off ≤ p → b = block.bucket_count - 1 ∧ i = block.entryCount b ∧
        a.offset = ind_off ∧ nxt.offset = section_size) := by
  obtain ⟨b, i, hfound, hcase⟩ := aesctrex_lookup_serves block ind_off section_size hwf p hp
  have hcase2 : (p < ind_off ∧ Serves block.bucket_count block.keyBuckets b i p) ∨
      (ind_off ≤ p ∧ p < block.physical_size ∧ b = block.bucket_count - 1 ∧
        i = block.entryCount b) := by
    rcases hcase with h | h
    · exact Or.inl h
    · exact Or.inr ⟨h.1, hp, h.2⟩
  obtain ⟨a, nxt, ha, hn, hak, hnk, hlo, hhi, _, _⟩ :=
    aesctrex_slot block ind_off section_size hwf b i p hcase2
  refine ⟨b, i, a, nxt, hfound, ha, hn, hlo, hhi, ?_, ?_⟩
  · intro hlt
    rcases hcase with h | h
    · refine ⟨h.2.1, ?_⟩
      rw [← aesctrex_entryCount]
      exact h.2.2.1
    · omega
  · intro hge
    rcases hcase with h | h
    · omega
    · obtain ⟨_, hb, hi⟩ := h
      refine ⟨hb, hi, ?_, ?_⟩
      · rw [hak, hi, hb, ← aesctrex_entryCount]
        exact hwf.1.2.2.2.2.2.2.2.2.2
      · rw [hnk, hi, hb, ← aesctrex_entryCount]
        exact hwf.2.2.1

/-- Witness of C4 on `sampleAesCtrEx` at `p = 0x4100`, which lies in the first sentinel. -/
theorem aesctrex_index_totality_witness :
    ∃ b i a nxt, bktrGetAesCtrExStorageEntry sampleAesCtrEx 0x4100 = Lookup.found b i ∧
      sampleAesCtrEx.entryAt b i = some a ∧ sampleAesCtrEx.entryAt b (i + 1) = some nxt ∧
      a.offset ≤ 0x4100 ∧ 0x4100 < nxt.offset ∧
      (0x4100 < 0x4000 → b < sampleAesCtrEx.bucket_count ∧ i < sampleAesCtrEx.entryCount b) ∧
      (0x4000 ≤ 0x4100 → b = sampleAesCtrEx.bucket_count - 1 ∧ i = sampleAesCtrEx.entryCount b ∧
        a.offset = 0x4000 ∧ nxt.offset = 0x6000) :=
  aesctrex_index_totality sampleAesCtrEx 0x4000 0x6000 (by decide) 0x4100 (by decide)

theorem ofSearch_found (bucket_num b i : Nat) (r : SearchResult)
    (h : Lookup.ofSearch bucket_num r = Lookup.found b i) :
    bucket_num = b ∧ r = SearchResult.hit i := by
  cases r with
  | hit mid =>
    simp only [Lookup.ofSearch] at h
    injection h with h1 h2
    exact ⟨h1, by rw [h2]⟩
  | miss => exact Lookup.noConfusion h
  | fault => exact Lookup.noConfusion h
  | diverge => exact Lookup.noConfusion h

theorem map_getElem?_some {α : Type} (f : α → Nat) (l : List α) (i k : Nat)
    (h : (l.map f)[i]? = some k) : ∃ a, l[i]? = some a ∧ f a = k := by
  rw [List.getElem?_map] at h
  cases ha : l[i]? with
  | none => simp [ha] at h
  | some a =>
    rw [ha] at h
    exact ⟨a, rfl, by simpa using h⟩

/-- An entry that `bktrGetIndirectStorageEntry` returns has a key at most the search key,
unless it is entry `0` of a bucket with `entry_count == 1`. -/
theorem indirect_found_key_le (block : BktrIndirectStorageBlock) (v b i : Nat)
    (h : bktrGetIndirectStorageEntry block v = Lookup.found b i) :
    (block.entryCount b = 1 ∧ i = 0) ∨
      ∃ e, block.entryAt b i = some e ∧ e.virtual_offset ≤ v := by
  unfold bktrGetIndirectStorageEntry bktrGetIndirectStorageBucket at h
  split at h
  · exact Lookup.noConfusion h
  · split at h
    · exact Lookup.noConfusion h
    · rename_i bucket_num _
      split at h
      · exact Lookup.noConfusion h
      · rename_i ptr hptr
        have hp : ptr = bucket_num := by
          by_cases hge : bucket_num ≥ block.bucket_count
          · simp [hge] at hptr
          · simp only [hge, if_false] at hptr
            injection hptr with hptr
            exact hptr.symm
        subst hp
        split at h
        · exact Lookup.noConfusion h
        · rename_i bucket hbucket
          obtain ⟨hb, hs⟩ := ofSearch_found _ _ _ _ h
          subst hb
          rcases bucketSearch_hit_le _ _ _ _ hs with h1 | ⟨k, hk, hle⟩
          · left
            simp only [BktrIndirectStorageBlock.entryCount, hbucket]
            exact h1
          · right
            obtain ⟨e, he, hek⟩ := map_getElem?_some _ _ _ _ hk
            refine ⟨e, ?_, by omega⟩
            simp only [BktrIndirectStorageBlock.entryAt, hbucket]
            exact he

/-- An entry that `bktrGetAesCtrExStorageEntry` returns has a key at most the search key,
unless it is entry `0` of a bucket with `entry_count == 1`. -/
theorem aesctrex_found_key_le (block : BktrAesCtrExStorageBlock) (p b i : Nat)
    (h : bktrGetAesCtrExStorageEntry block p = Lookup.found b i) :
    (block.entryCount b = 1 ∧ i = 0) ∨ ∃ a, block.entryAt b i = some a ∧ a.offset ≤ p := by
  unfold bktrGetAesCtrExStorageEntry at h
  split at h
  · exact Lookup.noConfusion h
  · split at h
    · exact Lookup.noConfusion h
    · rename_i last_ptr _
      split at h
      · exact Lookup.noConfusion h
      · rename_i last_bucket hlast
        split at h
        · exact Lookup.noConfusion h
        · split at h
          · exact Lookup.noConfusion h
          · rename_i sentinel hsentinel
            split at h
            · rename_i hge
              injection h with h1 h2
              subst h1
              subst h2
              right
              refine ⟨sentinel, ?_, hge⟩
              simp only [BktrAesCtrExStorageBlock.entryAt, hlast]
              exact hsentinel
            · split at h
              · exact Lookup.noConfusion h
              · rename_i bucket_num _
                unfold bktrGetAesCtrExStorageBucket at h
                split at h
                · exact Lookup.noConfusion h
                · rename_i ptr hptr
                  have hp : ptr = bucket_num := by
                    by_cases hge : bucket_num ≥ block.bucket_count
                    · simp [hge] at hptr
                    · simp only [hge, if_false] at hptr
                      injection hptr with hptr
                      exact hptr.symm
                  subst hp
                  split at h
                  · exact Lookup.noConfusion h
                  · rename_i bucket hbucket
                    obtain ⟨hb, hs⟩ := ofSearch_found _ _ _ _ h
                    subst hb
                    rcases bucketSearch_hit_le _ _ _ _ hs with h1 | ⟨k, hk, hle⟩
                    · left
                      simp only [BktrAesCtrExStorageBlock.entryCount, hbucket]
                      exact h1
                    · right
                      obtain ⟨e, he, hek⟩ := map_getElem?_some _ _ _ _ hk
                      refine ⟨e, ?_, by omega⟩
                      simp only [BktrAesCtrExStorageBlock.entryAt, hbucket]
                      exact he

/-- The search below the first key of a bucket with two entries: `high = mid - 1` wraps to
`0xFFFFFFFF` at `mid = 0`, and the next iteration reads slot `0x7FFFFFFF`, which is outside
the bucket. -/
theorem search_below_first_key_wraps :
    bktrGetIndirectStorageEntry corruptIndirect2 3 = Lookup.fault ∧
      searchLoop [5, 10, 100] 2 3 2 0 1 =
        (match ([5, 10, 100] : List Nat)[0x7FFFFFFF]? with
          | none => SearchResult.fault
          | some _ => SearchResult.miss) := by
  constructor <;> decide

/-- C5, counterexample.  In `corruptIndirect1` no entry of the selected bucket has a key at
most `3`, yet the lookup of `3` does not fail: the `entry_count == 1` short circuit returns
entry `0`, whose key is `5`. -/
theorem corrupt_single_entry_lookup_succeeds :
    3 < corruptIndirect1.virtual_size ∧
      (∀ i, i < corruptIndirect1.entryCount 0 →
        ∀ e, corruptIndirect1.entryAt 0 i = some e → ¬ e.virtual_offset ≤ 3) ∧
      bktrGetIndirectStorageEntry corruptIndirect1 3 = Lookup.found 0 0 ∧
      corruptIndirect1.entryAt 0 0 = some ⟨5, 0, 0⟩ := by
  refine ⟨by decide, ?_, by decide, by decide⟩
  intro i hi e he
  have hi0 : i = 0 := by
    have : corruptIndirect1.entryCount 0 = 1 := by decide
    omega
  subst hi0
  have : corruptIndirect1.entryAt 0 0 = some ⟨5, 0, 0⟩ := by decide
  rw [this] at he
  injection he with he
  subst he
  decide

/-- C5, as amended.  For every Indirect or AesCtrEx block and every key, an entry that the
lookup returns has a key at most the search key, unless it is entry `0` of a bucket whose
`entry_count` is `1` (the short circuit returns it without comparing its key); and on a bucket
with `0 < entry_count < 2 ^ 31` entries in memory whose first key is at most the search key
the search returns one of `entries[0..entry_count)` with key at most the search key, and
returns the same slot on every memory that agrees on `entries[0..entry_count)`: it reads no
slot outside that range. -/
theorem lookup_result_key_le :
    (∀ (block : BktrIndirectStorageBlock) (v b i : Nat),
      bktrGetIndirectStorageEntry block v = Lookup.found b i →
      (block.entryCount b = 1 ∧ i = 0) ∨
        ∃ e, block.entryAt b i = some e ∧ e.virtual_offset ≤ v) ∧
    (∀ (block : BktrAesCtrExStorageBlock) (p b i : Nat),
      bktrGetAesCtrExStorageEntry block p = Lookup.found b i →
      (block.entryCount b = 1 ∧ i = 0) ∨ ∃ a, block.entryAt b i = some a ∧ a.offset ≤ p) ∧
    (∀ (keys : List Nat) (entry_count offset : Nat), 0 < entry_count → entry_count < 2 ^ 31 →
      entry_count ≤ keys.length → keyAt keys 0 ≤ offset →
      ∃ mid, mid < entry_count ∧ keyAt keys mid ≤ offset ∧
        ∀ mem : List Nat, (∀ i, i < entry_count → mem[i]? = keys[i]?) →
          bucketSearch entry_count mem offset = SearchResult.hit mid) := by
  refine ⟨indirect_found_key_le, aesctrex_found_key_le, ?_⟩
  intro keys entry_count offset hpos hec hlen hfirst
  obtain ⟨mid, hmid, hle, _, hall⟩ := bucketSearch_hit_mem keys entry_count offset hpos hec hfirst
  refine ⟨mid, hmid, hle, fun mem hmem => hall mem (fun i hi => ?_)⟩
  rw [hmem i hi]
  exact getElem?_keyAt (by omega)

/-- Witness of C5 as amended: the lookup of `0x2345` in `sampleIndirect` returns entry `1` of
bucket `0`, whose key `0x2000` is at most `0x2345`. -/
theorem lookup_result_key_le_witness :
    bktrGetIndirectStorageEntry sampleIndirect 0x2345 = Lookup.found 0 1 ∧
      ((sampleIndirect.entryCount 0 = 1 ∧ 1 = 0) ∨
        ∃ e, sampleIndirect.entryAt 0 1 = some e ∧ e.virtual_offset ≤ 0x2345) :=
  ⟨by decide, lookup_result_key_le.1 sampleIndirect 0x2345 0 1 (by decide)⟩

/-- C6 (out-of-range and empty-tree lookups fail).  For every Indirect block the lookup
returns `NULL` when `bucket_count == 0` or `v ≥ virtual_size`, and for every AesCtrEx block
when `bucket_count == 0` or `p ≥ physical_size`; and when the bucket that the lookup selects
is empty (`entry_count == 0`) it returns `NULL` as well.  (The AesCtrEx lookup selects a
bucket once the last bucket was found non-empty and the key is below its first sentinel.)
The lookups are functions of the block: they do not change it. -/
theorem lookup_fails_out_of_range :
    (∀ (block : BktrIndirectStorageBlock) (v : Nat),
      block.bucket_count = 0 ∨ v ≥ block.virtual_size →
      bktrGetIndirectStorageEntry block v = Lookup.null) ∧
    (∀ (block : BktrAesCtrExStorageBlock) (p : Nat),
      block.bucket_count = 0 ∨ p ≥ block.physical_size →
      bktrGetAesCtrExStorageEntry block p = Lookup.null) ∧
    (∀ (block : BktrIndirectStorageBlock) (v bucket_num : Nat) (bucket : BktrIndirectStorageBucket),
      bucketNumLoop block.virtual_offsets v (block.bucket_count - 1) 1 0 = some bucket_num →
      block.indirect_storage_buckets[bucket_num]? = some bucket → bucket.entry_count = 0 →
      bktrGetIndirectStorageEntry block v = Lookup.null) ∧
    (∀ (block : BktrAesCtrExStorageBlock) (p bucket_num : Nat)
      (last_bucket bucket : BktrAesCtrExStorageBucket) (sentinel : BktrAesCtrExStorageEntry),
      block.bucket_count < 2 ^ 32 →
      block.aes_ctr_ex_storage_buckets[block.bucket_count - 1]? = some last_bucket →
      last_bucket.aes_ctr_ex_storage_entries[last_bucket.entry_count]? = some sentinel →
      p < sentinel.offset →
      bucketNumLoop block.physical_offsets p (block.bucket_count - 1) 1 0 = some bucket_num →
      block.aes_ctr_ex_storage_buckets[bucket_num]? = some bucket → bucket.entry_count = 0 →
      bktrGetAesCtrExStorageEntry block p = Lookup.null) := by
  refine ⟨?_, ?_, ?_, ?_⟩
  · intro block v h
    unfold bktrGetIndirectStorageEntry
    simp only [h, if_true]
  · intro block p h
    unfold bktrGetAesCtrExStorageEntry
    simp only [h, if_true]
  · intro block v bucket_num bucket hloop hbucket hec
    unfold bktrGetIndirectStorageEntry bktrGetIndirectStorageBucket
    by_cases h : block.bucket_count = 0 ∨ v ≥ block.virtual_size
    · simp only [h, if_true]
    · simp only [h, if_false, hloop]
      by_cases hge : bucket_num ≥ block.bucket_count
      · simp only [hge, if_true]
      · simp only [hge, if_false, hbucket, hec, bucketSearch, if_true, Lookup.ofSearch]
  · intro block p bucket_num last_bucket bucket sentinel hbc hlast hsentinel hp hloop hbucket hec
    unfold bktrGetAesCtrExStorageEntry bktrGetAesCtrExStorageBucket
    by_cases h : block.bucket_count = 0 ∨ p ≥ block.physical_size
    · simp only [h, if_true]
    · have h2 : (block.bucket_count + 2 ^ 32 - 1) % 2 ^ 32 = block.bucket_count - 1 := by omega
      have h3 : ¬ (block.bucket_count - 1 ≥ block.bucket_count) := by omega
      have h4 : ¬ (p ≥ sentinel.offset) := by omega
      simp only [h, if_false, h2, h3, hlast]
      by_cases h5 : last_bucket.entry_count = 0
      · simp only [h5, if_true]
      · simp only [h5, if_false, hsentinel, h4, hloop]
        by_cases hge : bucket_num ≥ block.bucket_count
        · simp only [hge, if_true]
        · simp only [hge, if_false, hbucket, hec, bucketSearch, if_true, Lookup.ofSearch]

/-- Witness of C6: out of range in `sampleIndirect`, and the empty selected bucket of
`emptyBucketIndirect` and of `emptyBucketAesCtrEx`. -/
theorem lookup_fails_out_of_range_witness :
    bktrGetIndirectStorageEntry sampleIndirect 0x8000 = Lookup.null ∧
      bktrGetIndirectStorageEntry emptyBucketIndirect 10 = Lookup.null ∧
      bktrGetAesCtrExStorageEntry emptyBucketAesCtrEx 10 = Lookup.null :=
  ⟨lookup_fails_out_of_range.1 sampleIndirect 0x8000 (Or.inr (by decide)),
    lookup_fails_out_of_range.2.2.1 emptyBucketIndirect 10 0 ⟨0, [⟨0, 0, 0⟩]⟩ (by decide)
      (by decide) (by decide),
    lookup_fails_out_of_range.2.2.2 emptyBucketAesCtrEx 10 0 ⟨1, [⟨50, 3⟩, ⟨80, 4⟩, ⟨120, 0⟩]⟩
      ⟨0, [⟨0, 0⟩]⟩ ⟨80, 4⟩ (by decide) (by decide) (by decide) (by decide) (by decide)
      (by decide) (by decide)⟩

/-! ## Claims about the read paths -/

theorem callBudget_eq : callBudget = 2 ^ 129 - 1 + 1 + 1 := by
  unfold callBudget
  norm_num

theorem callBudget_ge (len : Nat) (h : len < 2 ^ 64) : 2 * len ≤ callBudget := by
  unfold callBudget
  omega

/-- Inside the RomFS region `bktrReadFileSystemData` is the resolver at `ctx.offset + off`. -/
theorem read_fs_eq_phys (ctx : BktrContext) (m : Machine) (pos len off : Nat) (hlen : 0 < len)
    (hsize : off + len ≤ ctx.size) (hv : ctx.offset + off < 2 ^ 64) :
    bktrReadFileSystemData ctx m pos len off =
      bktrPhysicalSectionRead ctx callBudget m pos len (ctx.offset + off) := by
  have h1 : ¬ (ctx.size = 0 ∨ len = 0 ∨ add64 off len > ctx.size) := by
    have h2 : add64 off len ≤ off + len := Nat.mod_le _ _
    omega
  unfold bktrReadFileSystemData
  rw [if_neg h1, add64_eq _ _ hv]

section ReadClaims

variable {ctx : BktrContext} {ib : BktrIndirectStorageBlock} {ab : BktrAesCtrExStorageBlock}
  {ind_off section_size : Nat}

/-- A physical read whose first byte is served by an entry that is not a `Patch` entry, in a
context without a base RomFS, returns `false` and leaves the machine as it was. -/
theorem phys_missing_base (hwf : ContextWF ctx ib ab ind_off section_size)
    (hmiss : ctx.missing_base_romfs = true) (d : Nat) (m : Machine) (pos len v b i : Nat)
    (e : BktrIndirectStorageEntry) (hlen : len ≠ 0)
    (hserves : Serves ib.bucket_count ib.keyBuckets b i v) (he : ib.entryAt b i = some e)
    (hsrc : e.indirect_storage_index ≠ BktrIndirectStorageIndex_Patch) :
    bktrPhysicalSectionRead ctx (d + 1 + 1) m pos len v = (Outcome.ret false, m) := by
  obtain ⟨e2, nxt, he2, hn, hlo, hhi, hnle, hvs, hmap1, _, hfound⟩ :=
    context_slot hwf b i v hserves
  rw [he] at he2
  injection he2 with he2
  subst he2
  have hstep := fun depth l (hl : l ≠ 0) =>
    phys_step ctx ib hwf.1 hwf.2.2.2.2.2.1 depth m pos l v b i e nxt hl hfound he hn hlo hhi
      (by omega) (by omega)
  rw [hstep (d + 1) len hlen]
  by_cases hsingle : add64 v len ≤ nxt.virtual_offset
  · rw [if_pos hsingle, if_neg hsrc, if_pos hmiss]
  · rw [if_neg hsingle, hstep d (nxt.virtual_offset - v) (by omega)]
    have h3 : add64 v (nxt.virtual_offset - v) ≤ nxt.virtual_offset := by
      rw [add64_eq _ _ (by omega)]
      omega
    rw [if_pos h3, if_neg hsrc, if_pos hmiss, andThen_false]

/-- C9 (missing-base rejection).  In a well-formed, normalised context with
`missing_base_romfs = true`, every `bktrReadFileSystemData(len, off)` that passes the
argument checks and whose first byte `ctx.offset + off` is served by an Indirect entry with
source `Base` returns `false` and leaves the machine as it was: no collaborator read is
issued and the caller buffer is not written. -/
theorem missing_base_rejection (hwf : ContextWF ctx ib ab ind_off section_size)
    (hmiss : ctx.missing_base_romfs = true) (m : Machine) (pos len off b i : Nat)
    (e : BktrIndirectStorageEntry)
    (hargs : ¬ (ctx.size = 0 ∨ len = 0 ∨ add64 off len > ctx.size))
    (hserves : Serves ib.bucket_count ib.keyBuckets b i (ctx.offset + off))
    (he : ib.entryAt b i = some e)
    (hsrc : e.indirect_storage_index = BktrIndirectStorageIndex_Original) :
    bktrReadFileSystemData ctx m pos len off = (Outcome.ret false, m) := by
  obtain ⟨_, _, _, _, _, hhi, hnle, hvs, _, _, _⟩ := context_slot hwf b i _ hserves
  have hsrc2 : e.indirect_storage_index ≠ BktrIndirectStorageIndex_Patch := by
    rw [hsrc]
    decide
  unfold bktrReadFileSystemData
  rw [if_neg hargs, add64_eq _ _ (by omega), callBudget_eq]
  exact phys_missing_base hwf hmiss _ m pos len _ b i e (by omega) hserves he hsrc2

/-- Witness of C9 on `sampleCtxNoBase`: the read of `0x3000` bytes at offset `0x10`, whose
first byte lies in the `Base` entry `{0, 0, Base}`. -/
theorem missing_base_rejection_witness :
    bktrReadFileSystemData sampleCtxNoBase freshMachine 0 0x3000 0x10 =
      (Outcome.ret false, freshMachine) :=
  missing_base_rejection
    (by decide : ContextWF sampleCtxNoBase sampleIndirect sampleAesCtrEx 0x4000 0x6000)
    rfl freshMachine 0 0x3000 0x10 0 0 ⟨0, 0, 0⟩ (by decide) (by decide) (by decide) rfl

/-- C10, the code at the failing input.  With `ctx.size = 0x1000` and `ctx.offset = 1`, the
read of `len = 2` bytes at `off = 2 ^ 64 - 1` has `off + len > ctx.size`, but the sum wraps
to `1` in 64 bits, the range check passes, and the resolver is run at logical offset `0`: the
read returns `true` after a read of the base section. -/
theorem read_fs_range_check_wraps :
    (2 ^ 64 - 1) + 2 > wrapCtx.size ∧
      (bktrReadFileSystemData wrapCtx freshMachine 0 2 (2 ^ 64 - 1)).1 = Outcome.ret true ∧
      (bktrReadFileSystemData wrapCtx freshMachine 0 2 (2 ^ 64 - 1)).2.calls =
        [Call.ncaReadFsSection 0 2 0] := by
  refine ⟨by decide, by decide, by decide⟩

/-- Where every byte of the segments is served by a `Base` entry, the leaf reads are plain
reads of the base section. -/
theorem leafRun_base_calls (cs : List Call) :
    ∀ pos v k, LeafRun ib ab cs pos v k →
      (∀ t, t < k → ∀ b i e, Serves ib.bucket_count ib.keyBuckets b i (v + t) →
        ib.entryAt b i = some e →
        e.indirect_storage_index = BktrIndirectStorageIndex_Original) →
      ∀ c, c ∈ cs → ∃ p l o, c = Call.ncaReadFsSection p l o := by
  induction cs with
  | nil =>
    intro pos v k _ _ c hc
    simp at hc
  | cons c0 rest ih =>
    intro pos v k hrun hall c hc
    obtain ⟨l, hl, hlk, ⟨b, i, e, nxt, hs, he, hn, hend, hcase⟩, hrest⟩ := hrun
    rcases List.mem_cons.mp hc with h1 | h1
    · rcases hcase with ⟨_, h2⟩ | ⟨h2, _⟩
      · exact ⟨_, _, _, by rw [h1, h2]⟩
      · have h3 := hall 0 (by omega) b i e (by rw [Nat.add_zero]; exact hs) he
        rw [h3] at h2
        exact absurd h2 (by decide)
    · refine ih (pos + l) (v + l) (k - l) hrest (fun t ht b i e hs he => ?_) c h1
      exact hall (l + t) (by omega) b i e (by rw [← Nat.add_assoc]; exact hs) he

/-- C1 (base passthrough).  In a well-formed, normalised context with a base RomFS, with the
base section read as a fixed byte sequence, for every `bktrReadFileSystemData(len, off)` with
`len > 0`, `off + len ≤ ctx.size` and `ctx.offset + off + len ≤ virtual_size` such that every
Indirect entry serving a byte of the range has source `Base`: the read returns `true`, every
call it issues is a plain read of the base section (no update-section read), and output byte
`t` is the base-section byte at `e.physical_offset + (ctx.offset + off + t - e.virtual_offset)`
for the Indirect entry `e` that serves `ctx.offset + off + t`. -/
theorem base_passthrough (hwf : ContextWF ctx ib ab ind_off section_size)
    (base : NcaFsSectionContext) (hmiss : ctx.missing_base_romfs = false)
    (hfs : ctx.base_nca_fs_ctx = some base) (hok : ∀ l o, base.plain_ok l o = true)
    (m : Machine) (pos len off : Nat) (hlen : 0 < len) (hsize : off + len ≤ ctx.size)
    (hv : ctx.offset + off + len ≤ ib.virtual_size)
    (hall : ∀ t, t < len → ∀ b i e,
      Serves ib.bucket_count ib.keyBuckets b i (ctx.offset + off + t) →
      ib.entryAt b i = some e →
      e.indirect_storage_index = BktrIndirectStorageIndex_Original) :
    ∃ m2 cs, bktrReadFileSystemData ctx m pos len off = (Outcome.ret true, m2) ∧
      m2.calls = m.calls ++ cs ∧
      (∀ c, c ∈ cs → ∃ p l o, c = Call.ncaReadFsSection p l o) ∧
      ∀ t, t < len → ∀ b i e,
        Serves ib.bucket_count ib.keyBuckets b i (ctx.offset + off + t) →
        ib.entryAt b i = some e →
        m2.out (pos + t) =
          base.plain (e.physical_offset + (ctx.offset + off + t - e.virtual_offset)) := by
  have hvs : ib.virtual_size < 2 ^ 64 := hwf.2.2.1.2.2.2.2.1
  have hpatchne : ∀ e : BktrIndirectStorageEntry,
      e.indirect_storage_index = BktrIndirectStorageIndex_Original →
      e.indirect_storage_index ≠ BktrIndirectStorageIndex_Patch := by
    intro e h1 h2
    rw [h1] at h2
    exact absurd h2 (by decide)
  obtain ⟨ok, cs, k, hr, hc, hk, hrun, hiff, hout⟩ :=
    phys_read_post hwf len len (Nat.le_refl _) callBudget m pos (ctx.offset + off) hlen hv
      (callBudget_ge len (by omega))
  have hcalls := leafRun_base_calls cs pos (ctx.offset + off) k hrun
    (fun t ht b i e hs he => hall t (by omega) b i e hs he)
  have hbyte : ∀ t, t < len → ∀ b i e,
      Serves ib.bucket_count ib.keyBuckets b i (ctx.offset + off + t) →
      ib.entryAt b i = some e →
      logicalByte ctx (ctx.offset + off + t) =
        some (base.plain (e.physical_offset + (ctx.offset + off + t - e.virtual_offset))) :=
    fun t ht b i e hs he =>
      logicalByte_base hwf b i _ e base hs he (hpatchne e (hall t ht b i e hs he)) hmiss hfs
  have hoktrue : ok = true := by
    refine hiff.mpr ⟨fun t ht => ?_, fun c hcm => ?_⟩
    · obtain ⟨b, i, _, hs⟩ := indirect_lookup_serves ib hwf.2.2.1 (ctx.offset + off + t) (by omega)
      obtain ⟨e, _, he, _⟩ := context_slot hwf b i _ hs
      rw [hbyte t ht b i e hs he]
      rfl
    · obtain ⟨p, l, o, hp⟩ := hcalls c hcm
      rw [hp]
      exact ⟨base, hfs, hok l o⟩
  subst hoktrue
  obtain ⟨_, hout2⟩ := hout rfl
  refine ⟨_, cs, ?_, hc, hcalls, fun t ht b i e hs he => ?_⟩
  · rw [read_fs_eq_phys ctx m pos len off hlen hsize (by omega)]
    exact Prod.ext hr rfl
  · rw [hout2]
    unfold writeLogical
    rw [if_pos ⟨by omega, by omega⟩, show pos + t - pos = t by omega, hbyte t ht b i e hs he]
    rfl

/-- Every slot of `sampleIndirect` that serves a byte of `[0x110, 0x130)` is a `Base` entry. -/
theorem sample_range_is_base (t : Nat) (ht : t < 0x20) (b i : Nat)
    (e : BktrIndirectStorageEntry)
    (hs : Serves sampleIndirect.bucket_count sampleIndirect.keyBuckets b i (0x100 + 0x10 + t))
    (he : sampleIndirect.entryAt b i = some e) :
    e.indirect_storage_index = BktrIndirectStorageIndex_Original := by
  have hb : b < 2 := hs.1
  have hi : i < 2 := by
    have h1 := hs.2.1
    have h2 : ∀ c, c < 2 → (bucketAt sampleIndirect.keyBuckets c).entry_count = 2 := by decide
    rw [h2 b hb] at h1
    exact h1
  have hkey : ∀ c, c < 2 → ∀ j, j < 2 →
      slotKey sampleIndirect.keyBuckets c j ≤ 0x12F →
      0x110 < slotKey sampleIndirect.keyBuckets c (j + 1) →
      (indirectEntry sampleIndirect c j).indirect_storage_index =
        BktrIndirectStorageIndex_Original := by decide
  have h3 := hkey b hb i hi (by have := hs.2.2.1; omega) (by have := hs.2.2.2; omega)
  simpa [indirectEntry, he] using h3

/-- Witness of C1 on `sampleCtx`: the read of `0x20` bytes at offset `0x10`. -/
theorem base_passthrough_witness :
    ∃ m2 cs, bktrReadFileSystemData sampleCtx freshMachine 0 0x20 0x10 = (Outcome.ret true, m2) ∧
      m2.calls = freshMachine.calls ++ cs ∧
      (∀ c, c ∈ cs → ∃ p l o, c = Call.ncaReadFsSection p l o) ∧
      ∀ t, t < 0x20 → ∀ b i e,
        Serves sampleIndirect.bucket_count sampleIndirect.keyBuckets b i (0x100 + 0x10 + t) →
        sampleIndirect.entryAt b i = some e →
        m2.out (0 + t) =
          sampleBase.plain (e.physical_offset + (0x100 + 0x10 + t - e.virtual_offset)) :=
  base_passthrough
    (by decide : ContextWF sampleCtx sampleIndirect sampleAesCtrEx 0x4000 0x6000)
    sampleBase rfl rfl (fun _ _ => rfl) freshMachine 0 0x20 0x10 (by decide) (by decide)
    (by decide) sample_range_is_base

/-- When both sections answer every call, every leaf read of a run over bytes that have a
source is answered. -/
theorem leafRun_answered (hwf : ContextWF ctx ib ab ind_off section_size)
    (htotal : ReadersTotal ctx) (cs : List Call) :
    ∀ pos v k, LeafRun ib ab cs pos v k →
      (∀ t, t < k → (logicalByte ctx (v + t)).isSome = true) →
      ∀ c, c ∈ cs → Answered ctx c := by
  induction cs with
  | nil =>
    intro pos v k _ _ c hc
    simp at hc
  | cons c0 rest ih =>
    intro pos v k hrun hsome c hc
    obtain ⟨l, hl, hlk, ⟨b, i, e, nxt, hs, he, hn, hend, hcase⟩, hrest⟩ := hrun
    rcases List.mem_cons.mp hc with h1 | h1
    · rw [h1]
      rcases hcase with ⟨hsrc, h2⟩ | ⟨_, cb, j, a, an, _, _, _, _, _, h2⟩
      · rw [h2]
        cases hmiss : ctx.missing_base_romfs with
        | true =>
          have h3 := hsome 0 (by omega)
          rw [Nat.add_zero, logicalByte_missing hwf b i v e hs he hsrc hmiss] at h3
          exact absurd h3 (by decide)
        | false =>
          obtain ⟨fs, hfs⟩ : ∃ fs, ctx.base_nca_fs_ctx = some fs :=
            Option.isSome_iff_exists.mp (hwf.2.2.2.2.2.1 hmiss)
          exact ⟨fs, hfs, htotal.1 fs hfs _ _⟩
      · rw [h2]
        obtain ⟨fs, hfs⟩ : ∃ fs, ctx.patch_nca_fs_ctx = some fs :=
          Option.isSome_iff_exists.mp hwf.2.2.2.2.1
        exact ⟨fs, hfs, htotal.2 fs hfs _ _ _⟩
    · refine ih (pos + l) (v + l) (k - l) hrest (fun t ht => ?_) c h1
      have h3 := hsome (l + t) (by omega)
      rw [← Nat.add_assoc] at h3
      exact h3

/-- When both sections answer every call, a physical read of a range inside
`[0, virtual_size)` returns `true` exactly when every byte of the range has a source, and
then the buffer holds the bytes of the patched image. -/
theorem phys_read_total (hwf : ContextWF ctx ib ab ind_off section_size)
    (htotal : ReadersTotal ctx) (m : Machine) (pos len v : Nat) (hlen : 0 < len)
    (hv : v + len ≤ ib.virtual_size) :
    ∃ ok, (bktrPhysicalSectionRead ctx callBudget m pos len v).1 = Outcome.ret ok ∧
      (ok = true ↔ ∀ t, t < len → (logicalByte ctx (v + t)).isSome = true) ∧
      (ok = true → (bktrPhysicalSectionRead ctx callBudget m pos len v).2.out =
        writeLogical ctx m.out pos len v) := by
  have hvs : ib.virtual_size < 2 ^ 64 := hwf.2.2.1.2.2.2.2.1
  obtain ⟨ok, cs, k, hr, hc, hk, hrun, hiff, hout⟩ :=
    phys_read_post hwf len len (Nat.le_refl _) callBudget m pos v hlen hv
      (callBudget_ge len (by omega))
  refine ⟨ok, hr, ⟨fun h => (hiff.mp h).1, fun h => hiff.mpr ⟨h, ?_⟩⟩, fun h => (hout h).2⟩
  exact leafRun_answered hwf htotal cs pos v k hrun (fun t ht => h t (by omega))

/-- The function `bktrIsFileEntryUpdated` after its argument checks and its lookup: the two
loops run on the slots of the bucket of the entry that the lookup returned. -/
theorem file_updated_step (ctx : BktrContext) (block : BktrIndirectStorageBlock)
    (file_entry : RomFileSystemFileEntry) (b i : Nat) (bucket : BktrIndirectStorageBucket)
    (hib : ctx.indirect_block = some block)
    (hargs : ¬ (ctx.body_offset = 0 ∨ file_entry.size = 0 ∨
      add64 file_entry.offset file_entry.size > ctx.size))
    (hfound : bktrGetIndirectStorageEntry block
      (add64 (add64 ctx.offset ctx.body_offset) file_entry.offset) = Lookup.found b i)
    (hbucket : block.indirect_storage_buckets[b]? = some bucket) :
    bktrIsFileEntryUpdated ctx file_entry =
      match lastEntryLoop
          (add64 (add64 (add64 ctx.offset ctx.body_offset) file_entry.offset) file_entry.size)
          (bucket.indirect_storage_entries.drop i) i with
      | none => FileUpdated.fault
      | some last =>
        match updatedLoop (bucket.indirect_storage_entries.drop i) (last - i) with
        | none => FileUpdated.fault
        | some updated => FileUpdated.ok updated := by
  unfold bktrIsFileEntryUpdated
  simp only [hib, hargs, if_false, hfound, hbucket]

theorem lastEntryLoop_stops (limit : Nat) (l : List BktrIndirectStorageEntry) :
    ∀ index n, (∀ j, j < n → ∃ e, l[j]? = some e ∧ e.virtual_offset < limit) →
      (∃ e, l[n]? = some e ∧ ¬ e.virtual_offset < limit) →
      lastEntryLoop limit l index = some (index + n) := by
  induction l with
  | nil =>
    intro index n _ h
    obtain ⟨e, he, _⟩ := h
    simp at he
  | cons e0 rest ih =>
    intro index n hbelow hstop
    cases n with
    | zero =>
      obtain ⟨e, he, hge⟩ := hstop
      simp only [List.getElem?_cons_zero, Option.some.injEq] at he
      subst he
      simp only [lastEntryLoop, hge, if_false, Nat.add_zero]
    | succ k =>
      obtain ⟨e, he, hlt⟩ := hbelow 0 (by omega)
      simp only [List.getElem?_cons_zero, Option.some.injEq] at he
      subst he
      simp only [lastEntryLoop, hlt, if_true]
      rw [ih (index + 1) k (fun j hj => by simpa using hbelow (j + 1) (by omega))
        (by simpa using hstop)]
      congr 1
      omega

theorem updatedLoop_any (l : List BktrIndirectStorageEntry) :
    ∀ n, (∀ j, j < n → ∃ e, l[j]? = some e) →
      ∃ updated, updatedLoop l n = some updated ∧
        (updated = true ↔ ∃ j, j < n ∧ ∃ e, l[j]? = some e ∧
          e.indirect_storage_index = BktrIndirectStorageIndex_Patch) := by
  induction l with
  | nil =>
    intro n hmem
    cases n with
    | zero =>
      refine ⟨false, rfl, ?_⟩
      constructor
      · intro h
        exact absurd h (by decide)
      · intro ⟨j, hj, _⟩
        omega
    | succ k =>
      obtain ⟨e, he⟩ := hmem 0 (by omega)
      simp at he
  | cons e0 rest ih =>
    intro n hmem
    cases n with
    | zero =>
      refine ⟨false, rfl, ?_⟩
      constructor
      · intro h
        exact absurd h (by decide)
      · intro ⟨j, hj, _⟩
        omega
    | succ k =>
      by_cases hsrc : e0.indirect_storage_index = BktrIndirectStorageIndex_Patch
      · refine ⟨true, by simp only [updatedLoop, hsrc, if_true], ?_⟩
        constructor
        · intro _
          exact ⟨0, by omega, e0, by simp, hsrc⟩
        · intro _
          rfl
      · obtain ⟨updated, h1, h2⟩ := ih k (fun j hj => by simpa using hmem (j + 1) (by omega))
        refine ⟨updated, by simp only [updatedLoop, hsrc, if_false]; exact h1, ?_⟩
        rw [h2]
        constructor
        · intro ⟨j, hj, e, he, hp⟩
          exact ⟨j + 1, by omega, e, by simpa using he, hp⟩
        · intro ⟨j, hj, e, he, hp⟩
          cases j with
          | zero =>
            simp only [List.getElem?_cons_zero, Option.some.injEq] at he
            subst he
            exact absurd hp hsrc
          | succ j2 =>
            exact ⟨j2, by omega, e, by simpa using he, hp⟩

/-- Inside a bucket there is a first slot after `i` whose key reaches `limit`, when the key
of the sentinel does. -/
theorem bucket_first_reaching (kb : KeyBucket) (i limit : Nat)
    (hi : i < kb.entry_count) (hlow : keyAt kb.keys i < limit)
    (hsent : limit ≤ keyAt kb.keys kb.entry_count) :
    ∃ last, i < last ∧ last ≤ kb.entry_count ∧ limit ≤ keyAt kb.keys last ∧
      ∀ j, i ≤ j → j < last → keyAt kb.keys j < limit := by
  have hex : ∃ n, i < n ∧ limit ≤ keyAt kb.keys n := ⟨kb.entry_count, hi, hsent⟩
  refine ⟨Nat.find hex, (Nat.find_spec hex).1, Nat.find_min' hex ⟨hi, hsent⟩,
    (Nat.find_spec hex).2, fun j hij hj => ?_⟩
  rcases Nat.lt_or_ge i j with h1 | h1
  · have h2 := Nat.find_min hex hj
    simp only [not_and, not_le] at h2
    exact h2 h1
  · have h3 : j = i := by omega
    rw [h3]
    exact hlow

/-- Update detection inside one bucket.  In a well-formed context, for a file with
`size > 0` and `offset + size ≤ ctx.size` whose logical range `[f, f + size)`,
`f = ctx.offset + ctx.body_offset + file_entry.offset`, ends at or before the sentinel of the
bucket of its first byte, `bktrIsFileEntryUpdated` returns `true` and stores `true` exactly
when a byte of the range is served by a `Patch` entry. -/
theorem file_updated_within_bucket (hwf : ContextWF ctx ib ab ind_off section_size)
    (file_entry : RomFileSystemFileEntry) (hbody : ctx.body_offset ≠ 0)
    (hsize : 0 < file_entry.size) (hfit : file_entry.offset + file_entry.size ≤ ctx.size)
    (b i : Nat)
    (hs : Serves ib.bucket_count ib.keyBuckets b i
      (ctx.offset + ctx.body_offset + file_entry.offset))
    (hend : ctx.offset + ctx.body_offset + file_entry.offset + file_entry.size ≤
      slotKey ib.keyBuckets b (bucketAt ib.keyBuckets b).entry_count) :
    ∃ updated, bktrIsFileEntryUpdated ctx file_entry = FileUpdated.ok updated ∧
      (updated = true ↔ ∃ t, t < file_entry.size ∧ ∃ c j e,
        Serves ib.bucket_count ib.keyBuckets c j
          (ctx.offset + ctx.body_offset + file_entry.offset + t) ∧
        ib.entryAt c j = some e ∧
        e.indirect_storage_index = BktrIndirectStorageIndex_Patch) := by
  have hiwf := hwf.2.2.1
  have hvs : ib.virtual_size < 2 ^ 64 := hiwf.2.2.2.2.1
  obtain ⟨hb, hi, hlo, hhi⟩ := hs
  have hs : Serves ib.bucket_count ib.keyBuckets b i
      (ctx.offset + ctx.body_offset + file_entry.offset) := ⟨hb, hi, hlo, hhi⟩
  have hsentle := tree_sentinel_le_total hiwf b hb
  obtain ⟨bucket, hbucket⟩ := indirect_bucket_exists ib b (by have := hiwf.2.2.2.1; omega)
  have hkb := indirect_bucketAt ib b bucket hbucket
  have hbw := hiwf.2.2.2.2.2.1 b hb
  have hfound := indirect_lookup_of_serves ib hiwf b i _ hs
  have hslot : ∀ j, j ≤ (bucketAt ib.keyBuckets b).entry_count →
      ∃ e, bucket.indirect_storage_entries[j]? = some e ∧ ib.entryAt b j = some e ∧
        e.virtual_offset = slotKey ib.keyBuckets b j := by
    intro j hj
    obtain ⟨e, he1, he2, he3⟩ := indirect_entry_exists ib b j bucket hbucket
      (by rw [← hkb]; have := hbw.2.2.1; omega)
    exact ⟨e, he2, he1, he3.symm⟩
  obtain ⟨last, hlast1, hlast2, hlast3, hlast4⟩ := bucket_first_reaching (bucketAt ib.keyBuckets b) i
    (ctx.offset + ctx.body_offset + file_entry.offset + file_entry.size) hi
    (by unfold slotKey at hlo; omega) hend
  have h1 : add64 file_entry.offset file_entry.size = file_entry.offset + file_entry.size :=
    add64_eq _ _ (by omega)
  have h2 : add64 (add64 ctx.offset ctx.body_offset) file_entry.offset =
      ctx.offset + ctx.body_offset + file_entry.offset := by
    rw [add64_eq ctx.offset ctx.body_offset (by omega), add64_eq _ _ (by omega)]
  have h3 : add64 (ctx.offset + ctx.body_offset + file_entry.offset) file_entry.size =
      ctx.offset + ctx.body_offset + file_entry.offset + file_entry.size :=
    add64_eq _ _ (by omega)
  have hargs : ¬ (ctx.body_offset = 0 ∨ file_entry.size = 0 ∨
      add64 file_entry.offset file_entry.size > ctx.size) := by
    rw [h1]
    omega
  rw [file_updated_step ctx ib file_entry b i bucket hwf.1 hargs (by rw [h2]; exact hfound)
    hbucket, h2, h3]
  have hloop1 := lastEntryLoop_stops
    (ctx.offset + ctx.body_offset + file_entry.offset + file_entry.size)
    (bucket.indirect_storage_entries.drop i) i (last - i)
    (fun j hj => by
      obtain ⟨e, he1, _, he3⟩ := hslot (i + j) (by omega)
      refine ⟨e, by rw [List.getElem?_drop]; exact he1, ?_⟩
      rw [he3]
      exact hlast4 (i + j) (by omega) (by omega))
    (by
      obtain ⟨e, he1, _, he3⟩ := hslot last hlast2
      refine ⟨e, by rw [List.getElem?_drop, show i + (last - i) = last by omega]; exact he1, ?_⟩
      rw [he3]
      unfold slotKey
      omega)
  rw [show i + (last - i) = last by omega] at hloop1
  rw [hloop1]
  obtain ⟨updated, hloop2, hiff⟩ := updatedLoop_any (bucket.indirect_storage_entries.drop i)
    (last - i) (fun j hj => by
      obtain ⟨e, he1, _, _⟩ := hslot (i + j) (by omega)
      exact ⟨e, by rw [List.getElem?_drop]; exact he1⟩)
  simp only [hloop2]
  refine ⟨updated, rfl, ?_⟩
  rw [hiff]
  constructor
  · intro ⟨j, hj, e, he, hp⟩
    rw [List.getElem?_drop] at he
    obtain ⟨e2, he1, he2, he3⟩ := hslot (i + j) (by omega)
    rw [he] at he1
    injection he1 with he1
    subst he1
    have hk1 := hlast4 (i + j) (by omega) (by omega)
    have hk2 : slotKey ib.keyBuckets b (i + 1) ≤ slotKey ib.keyBuckets b (i + j + 1) :=
      bucket_keys_le _ hbw (i + 1) (i + j + 1) (by omega) (by omega)
    have hk3 : slotKey ib.keyBuckets b (i + j) < slotKey ib.keyBuckets b (i + j + 1) :=
      hbw.2.2.2 (i + j) (by omega)
    unfold slotKey at hk2 hk3 hlo hhi
    rcases Nat.lt_or_ge (keyAt (bucketAt ib.keyBuckets b).keys (i + j))
        (ctx.offset + ctx.body_offset + file_entry.offset) with h4 | h4
    · refine ⟨0, hsize, b, i + j, e, ⟨hb, by omega, ?_, ?_⟩, he2, hp⟩
      · unfold slotKey
        omega
      · unfold slotKey
        omega
    · refine ⟨keyAt (bucketAt ib.keyBuckets b).keys (i + j) -
          (ctx.offset + ctx.body_offset + file_entry.offset), by omega, b, i + j, e,
        ⟨hb, by omega, ?_, ?_⟩, he2, hp⟩
      · unfold slotKey
        omega
      · unfold slotKey
        omega
  · intro ⟨t, ht, c, j, e, hs2, he, hp⟩
    obtain ⟨hc, hj, hlo2, hhi2⟩ := hs2
    have hcw := hiwf.2.2.2.2.2.1 c hc
    have hcb : c = b := by
      rcases Nat.lt_trichotomy c b with h | h | h
      · have h5 := tree_first_mono hiwf b c h hb
        have h6 := bucket_keys_le _ hcw (j + 1) _ (by omega) (Nat.le_refl _)
        have h7 := bucket_keys_le _ hbw 0 i (by omega) (by omega)
        unfold slotKey at *
        omega
      · exact h
      · have h5 := tree_first_mono hiwf c b h hc
        have h6 := bucket_keys_le _ hcw 0 j (by omega) (by omega)
        unfold slotKey at *
        omega
    subst hcb
    have hji : i ≤ j := by
      rcases Nat.lt_or_ge j i with h | h
      · have h6 := bucket_keys_le _ hbw (j + 1) i (by omega) (by omega)
        unfold slotKey at *
        omega
      · exact h
    have hjl : j < last := by
      rcases Nat.lt_or_ge j last with h | h
      · exact h
      · have h6 := bucket_keys_le _ hbw last j h (by omega)
        unfold slotKey at *
        omega
    refine ⟨j - i, by omega, e, ?_, hp⟩
    rw [List.getElem?_drop, show i + (j - i) = j by omega]
    obtain ⟨e2, he1, he2, _⟩ := hslot j (by omega)
    rw [he] at he2
    injection he2 with he2
    subst he2
    exact he1

/-- An out-of-range read whose `off + len` does not wrap is rejected by the range check of
`bktrReadFileSystemData`, before the resolver runs. -/
theorem read_fs_rejects_out_of_range (ctx : BktrContext) (m : Machine) (pos len off : Nat)
    (hwrap : off + len < 2 ^ 64) (h : off + len > ctx.size) :
    bktrReadFileSystemData ctx m pos len off = (Outcome.ret false, m) := by
  unfold bktrReadFileSystemData
  rw [add64_eq _ _ hwrap]
  have h1 : ctx.size = 0 ∨ len = 0 ∨ off + len > ctx.size := Or.inr (Or.inr h)
  rw [if_pos h1]

/-- C8, the code at the failing input.  In the well-formed context `crossCtx` the file
`{offset = 0x2D00, size = 0x2000}` occupies the logical range `[0x3000, 0x5000)`, whose bytes
from `0x4000` on are served by the `Patch` entry of bucket `1`.  The lookup returns entry `0`
of bucket `0`; the first loop steps over the sentinel of bucket `0` (key `0x4000 < 0x5000`)
into the unused slots behind it and leaves the memory of the bucket.  Whatever the unused
slots hold, the result does not depend on the source of the entry of bucket `1`, which is
never read. -/
theorem file_update_misses_next_bucket :
    ContextWF crossCtx crossIndirect sampleAesCtrEx 0x4000 0x6000 ∧
      Serves crossIndirect.bucket_count crossIndirect.keyBuckets 1 0 0x4000 ∧
      crossIndirect.entryAt 1 0 = some ⟨0x4000, 0, BktrIndirectStorageIndex_Patch⟩ ∧
      bktrIsFileEntryUpdated crossCtx ⟨0x2D00, 0x2000⟩ = FileUpdated.fault ∧
      ∀ pad : List BktrIndirectStorageEntry,
        bktrIsFileEntryUpdated (crossCtxWith pad BktrIndirectStorageIndex_Patch)
            ⟨0x2D00, 0x2000⟩ =
          bktrIsFileEntryUpdated (crossCtxWith pad BktrIndirectStorageIndex_Original)
            ⟨0x2D00, 0x2000⟩ := by
  refine ⟨by decide, by decide, by decide, by decide, fun pad => ?_⟩
  have hlookup : ∀ source,
      bktrGetIndirectStorageEntry (crossIndirectWith pad source)
        (add64 (add64 0x100 0x200) 0x2D00) = Lookup.found 0 0 := by
    intro source
    rw [show add64 (add64 0x100 0x200) 0x2D00 = 0x3000 by decide]
    simp [bktrGetIndirectStorageEntry, crossIndirectWith, bucketNumLoop,
      bktrGetIndirectStorageBucket, bucketSearch, Lookup.ofSearch]
  have hargs : ¬ ((0x200 : Nat) = 0 ∨ (0x2000 : Nat) = 0 ∨ add64 0x2D00 0x2000 > 0x7000) := by
    decide
  have hbucket : ∀ source, (crossIndirectWith pad source).indirect_storage_buckets[0]? =
      some (BktrIndirectStorageBucket.mk 1
        ([BktrIndirectStorageEntry.mk 0 0 0, BktrIndirectStorageEntry.mk 0x4000 0 0] ++ pad)) := by
    intro source
    simp [crossIndirectWith]
  rw [file_updated_step (crossCtxWith pad BktrIndirectStorageIndex_Patch)
      (crossIndirectWith pad BktrIndirectStorageIndex_Patch) ⟨0x2D00, 0x2000⟩ 0 0 _ rfl hargs
      (hlookup _) (hbucket _),
    file_updated_step (crossCtxWith pad BktrIndirectStorageIndex_Original)
      (crossIndirectWith pad BktrIndirectStorageIndex_Original) ⟨0x2D00, 0x2000⟩ 0 0 _ rfl hargs
      (hlookup _) (hbucket _)]
  simp only [crossCtxWith]

end ReadClaims


/-! ## File entry reads and the AesCtrEx short circuit -/

section FileEntry

theorem read_fs_offset_mod (ctx : BktrContext) (m : Machine) (pos len x : Nat) :
    bktrReadFileSystemData ctx m pos len (x % 2 ^ 64) = bktrReadFileSystemData ctx m pos len x := by
  unfold bktrReadFileSystemData add64
  rw [Nat.mod_add_mod, Nat.add_mod_mod]

theorem read_file_eq_spec (ctx : BktrContext) (file_entry : RomFileSystemFileEntry)
    (m : Machine) (pos len off : Nat)
    (hcheck : ¬ (ctx.body_offset = 0 ∨ file_entry.size = 0 ∨
      add64 file_entry.offset file_entry.size > ctx.size ∨ len = 0 ∨
      add64 off len > file_entry.size)) :
    bktrReadFileEntryData ctx file_entry m pos len off =
      read_file_spec ctx file_entry m pos len off := by
  unfold bktrReadFileEntryData read_file_spec
  rw [if_neg hcheck]
  have h : add64 (add64 ctx.body_offset file_entry.offset) off =
      (ctx.body_offset + file_entry.offset + off) % 2 ^ 64 := by
    unfold add64; rw [Nat.mod_add_mod]
  rw [h, read_fs_offset_mod]

/-- Under the preconditions of the wrapper (`body_offset ≠ 0`, `len > 0`,
`file_entry.size > 0`, `off + len ≤ file_entry.size`,
`file_entry.offset + file_entry.size ≤ ctx.size`) `bktrReadFileEntryData` returns the flag,
the buffer and the collaborator calls of `read_fs` at
`ctx.body_offset + file_entry.offset + off`; and whenever the code finds
`off + len > file_entry.size` or `file_entry.offset + file_entry.size > ctx.size` on the sums
as it computes them in `u64`, which are the true sums when these fit 64 bits, it returns
`false` with the machine untouched, whatever `read_fs` would do.  Sums that wrap are not
covered: the check of line 270 lets them pass. -/
theorem read_file_refines_read_fs (ctx : BktrContext) (file_entry : RomFileSystemFileEntry)
    (m : Machine) (pos len off : Nat) :
    (ctx.body_offset ≠ 0 → 0 < len → 0 < file_entry.size → off + len ≤ file_entry.size →
      file_entry.offset + file_entry.size ≤ ctx.size →
      bktrReadFileEntryData ctx file_entry m pos len off =
        read_file_spec ctx file_entry m pos len off) ∧
    (add64 off len > file_entry.size ∨ add64 file_entry.offset file_entry.size > ctx.size →
      bktrReadFileEntryData ctx file_entry m pos len off = (Outcome.ret false, m)) ∧
    (off + len < 2 ^ 64 → file_entry.offset + file_entry.size < 2 ^ 64 →
      off + len > file_entry.size ∨ file_entry.offset + file_entry.size > ctx.size →
      bktrReadFileEntryData ctx file_entry m pos len off = (Outcome.ret false, m)) := by
  have hrej : add64 off len > file_entry.size ∨
      add64 file_entry.offset file_entry.size > ctx.size →
      bktrReadFileEntryData ctx file_entry m pos len off = (Outcome.ret false, m) := by
    intro h
    unfold bktrReadFileEntryData
    rw [if_pos]
    rcases h with h | h
    · exact Or.inr (Or.inr (Or.inr (Or.inr h)))
    · exact Or.inr (Or.inr (Or.inl h))
  refine ⟨?_, hrej, ?_⟩
  · intro hb hl hs h1 h2
    apply read_file_eq_spec
    have e1 : add64 off len ≤ off + len := Nat.mod_le _ _
    have e2 : add64 file_entry.offset file_entry.size ≤ file_entry.offset + file_entry.size :=
      Nat.mod_le _ _
    intro h
    rcases h with h | h | h | h | h <;> omega
  · intro w1 w2 h
    apply hrej
    unfold add64
    rw [Nat.mod_eq_of_lt w1, Nat.mod_eq_of_lt w2]
    exact h

theorem read_file_refines_read_fs_witness :
    bktrReadFileEntryData sampleCtx ⟨0x100, 0x200⟩ freshMachine 0 0x10 0x20 =
        read_file_spec sampleCtx ⟨0x100, 0x200⟩ freshMachine 0 0x10 0x20 ∧
      bktrReadFileEntryData sampleCtx ⟨0x100, 0x200⟩ freshMachine 0 0x10 0x1F8 =
        (Outcome.ret false, freshMachine) ∧
      bktrReadFileEntryData sampleCtx ⟨0x6F00, 0x200⟩ freshMachine 0 0x10 0 =
        (Outcome.ret false, freshMachine) :=
  ⟨(read_file_refines_read_fs sampleCtx ⟨0x100, 0x200⟩ freshMachine 0 0x10 0x20).1
      (by decide) (by decide) (by decide) (by decide) (by decide),
    (read_file_refines_read_fs sampleCtx ⟨0x100, 0x200⟩ freshMachine 0 0x10 0x1F8).2.1
      (Or.inl (by decide)),
    (read_file_refines_read_fs sampleCtx ⟨0x6F00, 0x200⟩ freshMachine 0 0x10 0).2.2
      (by decide) (by decide) (Or.inr (by decide))⟩

end FileEntry

section ShortCircuit

theorem aesctrex_short_circuit_counterexample :
    bktrGetAesCtrExStorageEntry sampleAesCtrEx 0x5000 = Lookup.null ∧
      sampleAesCtrEx.bucket_count = 1 ∧ sampleAesCtrEx.entryCount 0 = 2 ∧
      sampleAesCtrEx.entryAt 0 2 = some ⟨0x4000, 7⟩ ∧ (0x5000 : Nat) ≥ 0x4000 ∧
      AesCtrExWF sampleAesCtrEx 0x4000 0x6000 := by
  decide

/-- C19 (amended): in every AesCtrEx block with `1 ≤ bucket_count` whose last bucket is in
memory, is not empty and has its first sentinel `entries[entry_count]` in memory, the lookup
of a physical offset `p` with `sentinel.offset ≤ p < physical_size` returns the first
sentinel of the last bucket directly, and the lookup of every `p ≥ physical_size` returns
`NULL`, also when `p` lies in the relocation-table region up to the section end. -/
theorem aesctrex_short_circuit (block : BktrAesCtrExStorageBlock)
    (last_bucket : BktrAesCtrExStorageBucket) (sentinel : BktrAesCtrExStorageEntry) (p : Nat)
    (hbc : 1 ≤ block.bucket_count) (hbw : block.bucket_count < 2 ^ 32)
    (hlast : block.aes_ctr_ex_storage_buckets[block.bucket_count - 1]? = some last_bucket)
    (hne : 0 < last_bucket.entry_count)
    (hsent : last_bucket.aes_ctr_ex_storage_entries[last_bucket.entry_count]? = some sentinel) :
    (sentinel.offset ≤ p → p < block.physical_size →
      bktrGetAesCtrExStorageEntry block p =
        Lookup.found (block.bucket_count - 1) last_bucket.entry_count) ∧
    (block.physical_size ≤ p → bktrGetAesCtrExStorageEntry block p = Lookup.null) := by
  have hidx : (block.bucket_count + 2 ^ 32 - 1) % 2 ^ 32 = block.bucket_count - 1 := by omega
  constructor
  · intro h1 h2
    unfold bktrGetAesCtrExStorageEntry bktrGetAesCtrExStorageBucket
    rw [if_neg (by omega), hidx, if_neg (by omega)]
    simp only [hlast, hsent]
    rw [if_neg (by omega), if_pos h1]
  · intro h
    unfold bktrGetAesCtrExStorageEntry
    rw [if_pos (Or.inr h)]

theorem aesctrex_short_circuit_witness :
    bktrGetAesCtrExStorageEntry sampleAesCtrEx 0x4800 = Lookup.found 0 2 ∧
      bktrGetAesCtrExStorageEntry sampleAesCtrEx 0x5800 = Lookup.null :=
  ⟨(aesctrex_short_circuit sampleAesCtrEx ⟨2, [⟨0, 5⟩, ⟨0x1000, 6⟩, ⟨0x4000, 7⟩, ⟨0x6000, 0⟩]⟩
      ⟨0x4000, 7⟩ 0x4800 (by decide) (by decide) (by decide) (by decide) (by decide)).1
      (by decide) (by decide),
    (aesctrex_short_circuit sampleAesCtrEx ⟨2, [⟨0, 5⟩, ⟨0x1000, 6⟩, ⟨0x4000, 7⟩, ⟨0x6000, 0⟩]⟩
      ⟨0x4000, 7⟩ 0x5800 (by decide) (by decide) (by decide) (by decide) (by decide)).2
      (by decide)⟩

end ShortCircuit

/-! ## The leaves of a physical read -/

section Leaves

variable {ctx : BktrContext} {ib : BktrIndirectStorageBlock} {ab : BktrAesCtrExStorageBlock}
  {ind_off section_size : Nat}

/-- Induction over the calls of the resolver: a property of reads that holds for the three
kinds of leaves (a read of the base section, the refusal of a `Base` segment without a base
RomFS, a read of the update section) and is kept by the C expression `first && second` at
every split point holds for every physical read inside the virtual address space. -/
theorem phys_read_induct (hwf : ContextWF ctx ib ab ind_off section_size)
    (P : Machine → Nat → Nat → Nat → Outcome × Machine → Prop)
    (hB : ∀ m pos len v b i e nxt fs, 0 < len → Serves ib.bucket_count ib.keyBuckets b i v →
      ib.entryAt b i = some e → ib.entryAt b (i + 1) = some nxt →
      v + len ≤ nxt.virtual_offset →
      e.indirect_storage_index ≠ BktrIndirectStorageIndex_Patch →
      ctx.missing_base_romfs = false → ctx.base_nca_fs_ctx = some fs →
      P m pos len v (ncaReadFsSection fs m pos len (e.physical_offset + (v - e.virtual_offset))))
    (hM : ∀ m pos len v b i e, 0 < len → Serves ib.bucket_count ib.keyBuckets b i v →
      ib.entryAt b i = some e →
      e.indirect_storage_index ≠ BktrIndirectStorageIndex_Patch →
      ctx.missing_base_romfs = true → P m pos len v (Outcome.ret false, m))
    (hP : ∀ m pos len v b i cb j e nxt a an fs, 0 < len →
      Serves ib.bucket_count ib.keyBuckets b i v →
      ib.entryAt b i = some e → ib.entryAt b (i + 1) = some nxt →
      v + len ≤ nxt.virtual_offset →
      e.indirect_storage_index = BktrIndirectStorageIndex_Patch →
      ctx.patch_nca_fs_ctx = some fs →
      bktrGetAesCtrExStorageEntry ab (e.physical_offset + (v - e.virtual_offset)) =
        Lookup.found cb j →
      ab.entryAt cb j = some a → ab.entryAt cb (j + 1) = some an →
      a.offset ≤ e.physical_offset + (v - e.virtual_offset) →
      e.physical_offset + (v - e.virtual_offset) + len ≤ an.offset →
      e.physical_offset + (v - e.virtual_offset) + len ≤ ab.physical_size →
      P m pos len v (ncaReadAesCtrExStorageFromBktrSection fs m pos len
        (e.physical_offset + (v - e.virtual_offset)) a.generation))
    (hS : ∀ m pos len v head r1 second, 0 < head → head < len → SplitPoint ib ab v head →
      P m pos head v r1 → (∀ m1, P m1 (pos + head) (len - head) (v + head) (second m1)) →
      P m pos len v (andThen r1 second)) :
    ∀ n len, len ≤ n → ∀ depth m pos v, 0 < len → v + len ≤ ib.virtual_size →
      2 * len ≤ depth → P m pos len v (bktrPhysicalSectionRead ctx depth m pos len v) := by
  have hib := hwf.1
  have hab := hwf.2.1
  have hiwf := hwf.2.2.1
  have hawf := hwf.2.2.2.1
  have hpatch := hwf.2.2.2.2.1
  have hbase := hwf.2.2.2.2.2.1
  have hvs : ib.virtual_size < 2 ^ 64 := hiwf.2.2.2.2.1
  intro n
  induction n with
  | zero =>
    intro len hle depth m pos v hpos
    omega
  | succ n ih =>
    intro len hle depth m pos v hpos hv hdepth
    obtain ⟨d, rfl⟩ : ∃ d, depth = d + 1 := ⟨depth - 1, by omega⟩
    obtain ⟨b, i, hfound, hserves⟩ := indirect_lookup_serves ib hiwf v (by omega)
    obtain ⟨e, nxt, he, hn, hlo, hhi, hnle, _, hmap1, hmap2, _⟩ := context_slot hwf b i v hserves
    rw [phys_step ctx ib hib hbase d m pos len v b i e nxt (by omega) hfound he hn hlo hhi
      (by omega) (by omega), add64_eq v len (by omega)]
    by_cases hsingle : v + len ≤ nxt.virtual_offset
    · rw [if_pos hsingle]
      by_cases hsrc : e.indirect_storage_index = BktrIndirectStorageIndex_Patch
      · rw [if_pos hsrc]
        obtain ⟨fs, hfs⟩ : ∃ fs, ctx.patch_nca_fs_ctx = some fs :=
          Option.isSome_iff_exists.mp hpatch
        obtain ⟨d2, rfl⟩ : ∃ d2, d = d2 + 1 := ⟨d - 1, by omega⟩
        have hp := hmap2 hsrc
        have hplt : e.physical_offset + (v - e.virtual_offset) + len ≤ ab.physical_size := by
          omega
        obtain ⟨cb, j, hf2, hcase⟩ := aesctrex_lookup_serves ab ind_off section_size hawf
          (e.physical_offset + (v - e.virtual_offset)) (by omega)
        have hcase2 : (e.physical_offset + (v - e.virtual_offset) < ind_off ∧
              Serves ab.bucket_count ab.keyBuckets cb j
                (e.physical_offset + (v - e.virtual_offset))) ∨
            (ind_off ≤ e.physical_offset + (v - e.virtual_offset) ∧
              e.physical_offset + (v - e.virtual_offset) < ab.physical_size ∧
              cb = ab.bucket_count - 1 ∧ j = ab.entryCount cb) := by
          rcases hcase with h | h
          · exact Or.inl h
          · exact Or.inr ⟨h.1, by omega, h.2⟩
        obtain ⟨a, an, ha, han, _, _, halo, hahi, hasec, _⟩ :=
          aesctrex_slot ab ind_off section_size hawf cb j _ hcase2
        have hss : section_size < 2 ^ 64 := hawf.2.2.2.2.2
        have hps : ab.physical_size ≤ section_size := hawf.2.2.2.2.1
        rw [aes_step ctx ab fs hab hfs d2 m pos len v _ cb j a an (by omega) hf2 ha han hahi
          (by omega), add64_eq _ len (by omega)]
        by_cases hleaf : e.physical_offset + (v - e.virtual_offset) + len ≤ an.offset
        · rw [if_pos hleaf]
          exact hP m pos len v b i cb j e nxt a an fs hpos hserves he hn hsingle
            hsrc hfs hf2 ha han halo hleaf hplt
        · rw [if_neg hleaf]
          have h1 := ih (an.offset - (e.physical_offset + (v - e.virtual_offset))) (by omega)
            d2 m pos v (by omega) (by omega) (by omega)
          rw [sub64_eq len _ (by omega) (by omega), add64_eq v _ (by omega)]
          refine hS m pos len v _ _ _ (by omega) (by omega) ?_ h1
            (fun m1 => ih _ (by omega) d2 m1 _ _ (by omega) (by omega) (by omega))
          exact ⟨b, i, e, nxt, hserves, he, hn,
            Or.inr ⟨hsrc, by omega, cb, j, an, hf2, han, by omega⟩⟩
      · rw [if_neg hsrc]
        cases hmiss : ctx.missing_base_romfs with
        | true =>
          simp only [if_true]
          exact hM m pos len v b i e hpos hserves he hsrc hmiss
        | false =>
          obtain ⟨fs, hfs⟩ : ∃ fs, ctx.base_nca_fs_ctx = some fs :=
            Option.isSome_iff_exists.mp (hbase hmiss)
          simp only [hfs]
          exact hB m pos len v b i e nxt fs hpos hserves he hn hsingle hsrc hmiss hfs
    · rw [if_neg hsingle]
      have h1 := ih (nxt.virtual_offset - v) (by omega) d m pos v (by omega) (by omega) (by omega)
      rw [sub64_eq len _ (by omega) (by omega)]
      refine hS m pos len v _ _ _ (by omega) (by omega) ?_ h1 ?_
      · exact ⟨b, i, e, nxt, hserves, he, hn, Or.inl (by omega)⟩
      · intro m1
        have h3 := ih (len - (nxt.virtual_offset - v)) (by omega) d m1
          (pos + (nxt.virtual_offset - v)) nxt.virtual_offset (by omega) (by omega) (by omega)
        rw [show v + (nxt.virtual_offset - v) = nxt.virtual_offset by omega]
        exact h3

end Leaves

/-! ## Bootstrap: the re-lay keeps every bucket -/

section Relay

theorem bucketAddress_eq (bucket_count entry_size i : Nat) (hi : i < bucket_count)
    (hbw : bucket_count < 2 ^ 32) (hE : entry_size ≤ sizeofBucket) :
    bucketAddress bucket_count entry_size i = some ((sizeofBucket + entry_size) * i) := by
  unfold bucketAddress
  rw [if_neg (by omega)]
  have h1 : (sizeofBucket + entry_size) * i ≤ (2 * sizeofBucket) * 2 ^ 32 :=
    Nat.mul_le_mul (by omega) (by omega)
  have h2 : (2 * sizeofBucket) * 2 ^ 32 < 2 ^ 64 := by
    unfold sizeofBucket
    norm_num
  rw [Nat.mod_eq_of_lt (by omega)]

/-- The move of bucket `i + 1` leaves every byte below the end of on-disk bucket `i` as it
was. -/
theorem copyBucket_below (cur : Nat → Nat) (entry_size i a : Nat)
    (ha : a < sizeofBucket * (i + 1)) :
    copyBucket cur ((sizeofBucket + entry_size) * (i + 1)) (sizeofBucket * (i + 1))
      sizeofBucket a = cur a := by
  have h1 : sizeofBucket * (i + 1) ≤ (sizeofBucket + entry_size) * (i + 1) :=
    Nat.mul_le_mul_right _ (by omega)
  unfold copyBucket
  rw [if_neg (by omega)]

/-- The loop from counter `i` on, on any state `cur` of the bucket area: buckets `0..i` end
up at the new stride with the bytes that `cur` holds for them at the on-disk stride, and
the bytes behind the new place of bucket `i` are not written. -/
theorem relayLoop_spec (bucket_count entry_size : Nat) (hbw : bucket_count < 2 ^ 32)
    (hE : entry_size ≤ sizeofBucket) :
    ∀ i, i < bucket_count → ∀ cur, ∃ final,
      relayLoop bucket_count entry_size i cur = some final ∧
      (∀ j, j ≤ i → ∀ k, k < sizeofBucket →
        final ((sizeofBucket + entry_size) * j + k) = cur (sizeofBucket * j + k)) ∧
      (∀ a, (sizeofBucket + entry_size) * i + sizeofBucket ≤ a → final a = cur a) := by
  intro i
  induction i with
  | zero =>
    intro _ cur
    refine ⟨cur, rfl, ?_, fun a _ => rfl⟩
    intro j hj k _
    have hj0 : j = 0 := by omega
    subst hj0
    simp
  | succ i ih =>
    intro hi cur
    obtain ⟨final, hrun, hmoved, hframe⟩ := ih (by omega)
      (copyBucket cur ((sizeofBucket + entry_size) * (i + 1)) (sizeofBucket * (i + 1))
        sizeofBucket)
    have hsucc : (sizeofBucket + entry_size) * (i + 1) =
        (sizeofBucket + entry_size) * i + (sizeofBucket + entry_size) := Nat.mul_succ _ _
    refine ⟨final, ?_, ?_, ?_⟩
    · rw [relayLoop, bucketAddress_eq bucket_count entry_size (i + 1) hi hbw hE]
      exact hrun
    · intro j hj k hk
      rcases Nat.lt_or_ge j (i + 1) with hlt | hge
      · rw [hmoved j (by omega) k hk]
        apply copyBucket_below
        have h1 : sizeofBucket * j + sizeofBucket ≤ sizeofBucket * (i + 1) := by
          rw [← Nat.mul_succ]
          exact Nat.mul_le_mul_left _ (by omega)
        omega
      · have hj1 : j = i + 1 := by omega
        subst hj1
        rw [hframe _ (by omega)]
        unfold copyBucket
        rw [if_pos (by omega)]
        congr 1
        omega
    · intro a ha
      rw [hframe a (by omega)]
      unfold copyBucket
      rw [if_neg (by omega)]

/-- C17: on the bucket area of a block that holds `bucket_count ≥ 1` buckets at the on-disk
stride `sizeof(Bucket) = 0x4000`, with `sizeof(Entry) ≤ sizeof(Bucket)`, the high-to-low copy
loop of bootstrap ends and leaves, for every `i < bucket_count`, the `sizeof(Bucket)` bytes at
offset `i * (sizeof(Bucket) + sizeof(Entry))` equal to the original bytes of on-disk bucket
`i`; bucket `0` is untouched; and no bucket is overwritten before it has been moved: the
move of bucket `i + 1` changes no byte of the on-disk buckets `0..i`, whatever the state of
the area. -/
theorem relay_preserves_buckets (bucket_count entry_size : Nat) (area : Nat → Nat)
    (hbc : 1 ≤ bucket_count) (hbw : bucket_count < 2 ^ 32) (hE : entry_size ≤ sizeofBucket) :
    sizeofBucket = 0x4000 ∧
    (∃ final, relay bucket_count entry_size area = some final ∧
      (∀ i, i < bucket_count → ∀ k, k < sizeofBucket →
        final (i * (sizeofBucket + entry_size) + k) = area (i * sizeofBucket + k)) ∧
      (∀ k, k < sizeofBucket → final k = area k)) ∧
    (∀ i cur a, a < (i + 1) * sizeofBucket →
      copyBucket cur ((sizeofBucket + entry_size) * (i + 1)) (sizeofBucket * (i + 1))
        sizeofBucket a = cur a) := by
  refine ⟨rfl, ?_, ?_⟩
  · have hidx : (bucket_count + 2 ^ 32 - 1) % 2 ^ 32 = bucket_count - 1 := by omega
    obtain ⟨final, hrun, hmoved, _⟩ :=
      relayLoop_spec bucket_count entry_size hbw hE (bucket_count - 1) (by omega) area
    refine ⟨final, ?_, ?_, ?_⟩
    · unfold relay
      rw [hidx]
      exact hrun
    · intro i hi k hk
      have h := hmoved i (by omega) k hk
      rw [Nat.mul_comm i, Nat.mul_comm i]
      exact h
    · intro k hk
      have h := hmoved 0 (by omega) k hk
      simpa using h
  · intro i cur a ha
    apply copyBucket_below
    rw [Nat.mul_comm]
    exact ha

theorem relay_preserves_buckets_witness :
    ∃ final, relay 3 0x10 (fun a => a % 251) = some final ∧
      (∀ i, i < 3 → ∀ k, k < sizeofBucket →
        final (i * (sizeofBucket + 0x10) + k) = (fun a => a % 251) (i * sizeofBucket + k)) ∧
      (∀ k, k < sizeofBucket → final k = (fun a => a % 251) k) :=
  (relay_preserves_buckets 3 0x10 (fun a => a % 251) (by decide) (by decide)
    (by decide)).2.1

end Relay

/-! ## Bootstrap: what the sentinel steps leave behind -/

section Sentinels

theorem storeIndirectKey_some (entries : List BktrIndirectStorageEntry) (index key : Nat)
    (h : index < entries.length) : ∃ es, storeIndirectKey entries index key = some es := by
  unfold storeIndirectKey
  rw [List.getElem?_eq_getElem h]
  exact ⟨_, rfl⟩

theorem storeIndirectKey_spec (entries es : List BktrIndirectStorageEntry) (index key : Nat)
    (h : storeIndirectKey entries index key = some es) :
    es.length = entries.length ∧ index < entries.length ∧
      (∃ e, entries[index]? = some e ∧
        es[index]? = some ⟨key, e.physical_offset, e.indirect_storage_index⟩) ∧
      ∀ j, j ≠ index → es[j]? = entries[j]? := by
  unfold storeIndirectKey at h
  cases he : entries[index]? with
  | none =>
    rw [he] at h
    exact Option.noConfusion h
  | some e =>
    rw [he] at h
    injection h with h
    subst h
    have hlt : index < entries.length := by
      rcases Nat.lt_or_ge index entries.length with h1 | h1
      · exact h1
      · rw [List.getElem?_eq_none h1] at he
        exact Option.noConfusion he
    refine ⟨List.length_set _ _ _, hlt, ⟨e, rfl, ?_⟩, fun j hj => ?_⟩
    · simp [List.getElem?_set, hlt]
    · simp [List.getElem?_set, Ne.symm hj]

theorem storeAesCtrExEntry_some (entries : List BktrAesCtrExStorageEntry)
    (index offset generation : Nat) (h : index < entries.length) :
    ∃ es, storeAesCtrExEntry entries index offset generation = some es := by
  unfold storeAesCtrExEntry
  rw [List.getElem?_eq_getElem h]
  exact ⟨_, rfl⟩

theorem storeAesCtrExEntry_spec (entries es : List BktrAesCtrExStorageEntry)
    (index offset generation : Nat)
    (h : storeAesCtrExEntry entries index offset generation = some es) :
    es.length = entries.length ∧ index < entries.length ∧
      es[index]? = some ⟨offset, generation⟩ ∧ ∀ j, j ≠ index → es[j]? = entries[j]? := by
  unfold storeAesCtrExEntry at h
  cases he : entries[index]? with
  | none =>
    rw [he] at h
    exact Option.noConfusion h
  | some e =>
    rw [he] at h
    injection h with h
    subst h
    have hlt : index < entries.length := by
      rcases Nat.lt_or_ge index entries.length with h1 | h1
      · exact h1
      · rw [List.getElem?_eq_none h1] at he
        exact Option.noConfusion he
    refine ⟨List.length_set _ _ _, hlt, ?_, fun j hj => ?_⟩
    · simp [List.getElem?_set, hlt]
    · simp [List.getElem?_set, Ne.symm hj]

theorem relaidIndirectBuckets_getElem? (room : Nat → List BktrIndirectStorageEntry) :
    ∀ (l : List BktrIndirectStorageBucket) (i b : Nat),
      (relaidIndirectBuckets room l i)[b]? =
        (l[b]?).map (fun x => ⟨x.entry_count, x.indirect_storage_entries ++ room (i + b)⟩) := by
  intro l
  induction l with
  | nil =>
    intro i b
    simp [relaidIndirectBuckets]
  | cons x rest ih =>
    intro i b
    cases b with
    | zero => simp [relaidIndirectBuckets]
    | succ b =>
      simp only [relaidIndirectBuckets, List.getElem?_cons_succ, ih]
      rw [show i + 1 + b = i + (b + 1) by omega]

theorem relaidIndirectBuckets_length (room : Nat → List BktrIndirectStorageEntry) :
    ∀ (l : List BktrIndirectStorageBucket) (i : Nat),
      (relaidIndirectBuckets room l i).length = l.length := by
  intro l
  induction l with
  | nil =>
    intro i
    rfl
  | cons x rest ih =>
    intro i
    simp [relaidIndirectBuckets, ih]

theorem relaidAesCtrExBuckets_getElem? (room : Nat → List BktrAesCtrExStorageEntry) :
    ∀ (l : List BktrAesCtrExStorageBucket) (i b : Nat),
      (relaidAesCtrExBuckets room l i)[b]? =
        (l[b]?).map (fun x => ⟨x.entry_count, x.aes_ctr_ex_storage_entries ++ room (i + b)⟩) := by
  intro l
  induction l with
  | nil =>
    intro i b
    simp [relaidAesCtrExBuckets]
  | cons x rest ih =>
    intro i b
    cases b with
    | zero => simp [relaidAesCtrExBuckets]
    | succ b =>
      simp only [relaidAesCtrExBuckets, List.getElem?_cons_succ, ih]
      rw [show i + 1 + b = i + (b + 1) by omega]

theorem relaidAesCtrExBuckets_length (room : Nat → List BktrAesCtrExStorageEntry) :
    ∀ (l : List BktrAesCtrExStorageBucket) (i : Nat),
      (relaidAesCtrExBuckets room l i).length = l.length := by
  intro l
  induction l with
  | nil =>
    intro i
    rfl
  | cons x rest ih =>
    intro i
    simp [relaidAesCtrExBuckets, ih]

/-- What the loop of lines 130-134 leaves behind, from counter `i` on. -/
theorem indirectSentinelLoop_spec (block : BktrIndirectStorageBlock) :
    ∀ remaining i (buckets : List BktrIndirectStorageBucket),
      i + remaining ≤ block.bucket_count →
      (∀ b, i ≤ b → b < i + remaining → ∃ x key, buckets[b]? = some x ∧
        block.virtual_offsets[b + 1]? = some key ∧
        x.entry_count < x.indirect_storage_entries.length) →
      ∃ res, indirectSentinelLoop block remaining i buckets = some res ∧
        res.length = buckets.length ∧
        (∀ b, b < i ∨ i + remaining ≤ b → res[b]? = buckets[b]?) ∧
        (∀ b, i ≤ b → b < i + remaining → ∃ x es, buckets[b]? = some x ∧
          res[b]? = some ⟨x.entry_count, es⟩ ∧
          storeIndirectKey x.indirect_storage_entries x.entry_count
            (keyAt block.virtual_offsets (b + 1)) = some es) := by
  intro remaining
  induction remaining with
  | zero =>
    intro i buckets _ _
    refine ⟨buckets, rfl, rfl, fun b _ => rfl, ?_⟩
    intro b h1 h2
    omega
  | succ remaining ih =>
    intro i buckets hbc hmem
    obtain ⟨x, key, hx, hkey, hslot⟩ := hmem i (Nat.le_refl _) (by omega)
    obtain ⟨es, hes⟩ := storeIndirectKey_some x.indirect_storage_entries x.entry_count key hslot
    have hacc : bktrGetIndirectStorageBucket block i = some i := by
      unfold bktrGetIndirectStorageBucket
      rw [if_neg (by omega)]
    have hkeyAt : keyAt block.virtual_offsets (i + 1) = key := by
      simp [keyAt, hkey]
    have hset : ∀ b, b ≠ i → (buckets.set i ⟨x.entry_count, es⟩)[b]? = buckets[b]? := by
      intro b hb
      simp [List.getElem?_set, Ne.symm hb]
    have hi : i < buckets.length := by
      rcases Nat.lt_or_ge i buckets.length with h1 | h1
      · exact h1
      · rw [List.getElem?_eq_none h1] at hx
        exact Option.noConfusion hx
    have hseti : (buckets.set i ⟨x.entry_count, es⟩)[i]? = some ⟨x.entry_count, es⟩ := by
      simp [List.getElem?_set, hi]
    obtain ⟨res, hrun, hlen, hout, hin⟩ := ih (i + 1) (buckets.set i ⟨x.entry_count, es⟩)
      (by omega) (by
        intro b h1 h2
        obtain ⟨x2, key2, hx2, hkey2, hslot2⟩ := hmem b (by omega) (by omega)
        exact ⟨x2, key2, by rw [hset b (by omega)]; exact hx2, hkey2, hslot2⟩)
    refine ⟨res, ?_, ?_, ?_, ?_⟩
    · rw [indirectSentinelLoop]
      simp only [hacc, hx, hkey, hes]
      exact hrun
    · rw [hlen, List.length_set]
    · intro b hb
      rw [hout b (by omega), hset b (by omega)]
    · intro b h1 h2
      rcases Nat.eq_or_lt_of_le h1 with heq | hlt
      · subst heq
        refine ⟨x, es, hx, ?_, ?_⟩
        · rw [hout i (Or.inl (by omega)), hseti]
        · rw [hkeyAt]
          exact hes
      · obtain ⟨x2, es2, hx2, hres2, hst2⟩ := hin b (by omega) (by omega)
        exact ⟨x2, es2, by rw [← hset b (by omega)]; exact hx2, hres2, hst2⟩

/-- What the loop of lines 143-149 leaves behind, from counter `i` on. -/
theorem aesCtrExSentinelLoop_spec (block : BktrAesCtrExStorageBlock) :
    ∀ remaining i (buckets : List BktrAesCtrExStorageBucket),
      i + remaining < block.bucket_count ∨ remaining = 0 →
      (∀ b, i ≤ b → b < i + remaining → ∃ x nx first, buckets[b]? = some x ∧
        buckets[b + 1]? = some nx ∧ nx.aes_ctr_ex_storage_entries[0]? = some first ∧
        x.entry_count < x.aes_ctr_ex_storage_entries.length) →
      ∃ res, aesCtrExSentinelLoop block remaining i buckets = some res ∧
        res.length = buckets.length ∧
        (∀ b, b < i ∨ i + remaining ≤ b → res[b]? = buckets[b]?) ∧
        (∀ b, i ≤ b → b < i + remaining → ∃ x nx first es, buckets[b]? = some x ∧
          buckets[b + 1]? = some nx ∧ nx.aes_ctr_ex_storage_entries[0]? = some first ∧
          res[b]? = some ⟨x.entry_count, es⟩ ∧
          storeAesCtrExEntry x.aes_ctr_ex_storage_entries x.entry_count first.offset
            first.generation = some es) := by
  intro remaining
  induction remaining with
  | zero =>
    intro i buckets _ _
    refine ⟨buckets, rfl, rfl, fun b _ => rfl, ?_⟩
    intro b h1 h2
    omega
  | succ remaining ih =>
    intro i buckets hbc hmem
    obtain ⟨x, nx, first, hx, hnx, hfirst, hslot⟩ := hmem i (Nat.le_refl _) (by omega)
    obtain ⟨es, hes⟩ := storeAesCtrExEntry_some x.aes_ctr_ex_storage_entries x.entry_count
      first.offset first.generation hslot
    have hacc : bktrGetAesCtrExStorageBucket block i = some i := by
      unfold bktrGetAesCtrExStorageBucket
      rw [if_neg (by omega)]
    have hacc2 : bktrGetAesCtrExStorageBucket block (i + 1) = some (i + 1) := by
      unfold bktrGetAesCtrExStorageBucket
      rw [if_neg (by omega)]
    have hset : ∀ b, b ≠ i → (buckets.set i ⟨x.entry_count, es⟩)[b]? = buckets[b]? := by
      intro b hb
      simp [List.getElem?_set, Ne.symm hb]
    have hi : i < buckets.length := by
      rcases Nat.lt_or_ge i buckets.length with h1 | h1
      · exact h1
      · rw [List.getElem?_eq_none h1] at hx
        exact Option.noConfusion hx
    have hseti : (buckets.set i ⟨x.entry_count, es⟩)[i]? = some ⟨x.entry_count, es⟩ := by
      simp [List.getElem?_set, hi]
    obtain ⟨res, hrun, hlen, hout, hin⟩ := ih (i + 1) (buckets.set i ⟨x.entry_count, es⟩)
      (by omega) (by
        intro b h1 h2
        obtain ⟨x2, nx2, first2, hx2, hnx2, hfirst2, hslot2⟩ := hmem b (by omega) (by omega)
        exact ⟨x2, nx2, first2, by rw [hset b (by omega)]; exact hx2,
          by rw [hset (b + 1) (by omega)]; exact hnx2, hfirst2, hslot2⟩)
    refine ⟨res, ?_, ?_, ?_, ?_⟩
    · rw [aesCtrExSentinelLoop]
      simp only [hacc, hacc2, hx, hnx, hfirst, hes]
      exact hrun
    · rw [hlen, List.length_set]
    · intro b hb
      rw [hout b (by omega), hset b (by omega)]
    · intro b h1 h2
      rcases Nat.eq_or_lt_of_le h1 with heq | hlt
      · subst heq
        refine ⟨x, nx, first, es, hx, hnx, hfirst, ?_, hes⟩
        rw [hout i (Or.inl (by omega)), hseti]
      · obtain ⟨x2, nx2, first2, es2, hx2, hnx2, hfirst2, hres2, hst2⟩ :=
          hin b (by omega) (by omega)
        exact ⟨x2, nx2, first2, es2, by rw [← hset b (by omega)]; exact hx2,
          by rw [← hset (b + 1) (by omega)]; exact hnx2, hfirst2, hres2, hst2⟩

end Sentinels

section Normalise

/-- The buckets that the re-lay and the sentinel steps leave in an Indirect block whose
sentinel slots are in memory: bucket `b` is the bucket read from disk, with its room, after
the store of the key `virtual_offsets[b + 1]` (for the last bucket: `virtual_size`) into the
slot `entries[entry_count]`. -/
theorem normaliseIndirect_spec (block : BktrIndirectStorageBlock)
    (room : Nat → List BktrIndirectStorageEntry)
    (hbc : 0 < block.bucket_count) (hbw : block.bucket_count < 2 ^ 32)
    (hlen : block.bucket_count ≤ block.indirect_storage_buckets.length)
    (htop : block.bucket_count ≤ block.virtual_offsets.length)
    (hslot : ∀ b x, b < block.bucket_count → block.indirect_storage_buckets[b]? = some x →
      x.entry_count < (x.indirect_storage_entries ++ room b).length) :
    ∃ nb, normaliseIndirect block room = some nb ∧ nb.bucket_count = block.bucket_count ∧
      nb.virtual_size = block.virtual_size ∧ nb.virtual_offsets = block.virtual_offsets ∧
      nb.indirect_storage_buckets.length = block.indirect_storage_buckets.length ∧
      ∀ b, b < block.bucket_count → ∃ x es, block.indirect_storage_buckets[b]? = some x ∧
        nb.indirect_storage_buckets[b]? = some ⟨x.entry_count, es⟩ ∧
        storeIndirectKey (x.indirect_storage_entries ++ room b) x.entry_count
          (if b + 1 < block.bucket_count then keyAt block.virtual_offsets (b + 1)
            else block.virtual_size) = some es := by
  have hR : ∀ b, b < block.bucket_count → ∃ x, block.indirect_storage_buckets[b]? = some x ∧
      (relaidIndirectBuckets room block.indirect_storage_buckets 0)[b]? =
        some ⟨x.entry_count, x.indirect_storage_entries ++ room b⟩ := by
    intro b hb
    have hb2 : b < block.indirect_storage_buckets.length := by omega
    refine ⟨block.indirect_storage_buckets[b], List.getElem?_eq_getElem hb2, ?_⟩
    rw [relaidIndirectBuckets_getElem?, List.getElem?_eq_getElem hb2, Nat.zero_add]
    rfl
  obtain ⟨res, hrun, hreslen, hout, hin⟩ := indirectSentinelLoop_spec
    ⟨block.bucket_count, block.virtual_size, block.virtual_offsets,
      relaidIndirectBuckets room block.indirect_storage_buckets 0⟩
    (block.bucket_count - 1) 0 (relaidIndirectBuckets room block.indirect_storage_buckets 0)
    (by show 0 + (block.bucket_count - 1) ≤ block.bucket_count; omega)
    (by
      intro b _ hb2
      obtain ⟨x, hx, hrx⟩ := hR b (by omega)
      have hk : b + 1 < block.virtual_offsets.length := by omega
      exact ⟨_, block.virtual_offsets[b + 1], hrx, List.getElem?_eq_getElem hk,
        hslot b x (by omega) hx⟩)
  obtain ⟨xl, hxl, hrxl⟩ := hR (block.bucket_count - 1) (by omega)
  have hreslast : res[block.bucket_count - 1]? =
      some ⟨xl.entry_count, xl.indirect_storage_entries ++ room (block.bucket_count - 1)⟩ := by
    rw [hout _ (Or.inr (by omega))]
    exact hrxl
  obtain ⟨esl, hesl⟩ := storeIndirectKey_some
    (xl.indirect_storage_entries ++ room (block.bucket_count - 1)) xl.entry_count
    block.virtual_size (hslot _ xl (by omega) hxl)
  have hidx : (block.bucket_count + 2 ^ 32 - 1) % 2 ^ 32 = block.bucket_count - 1 := by omega
  have hlastlen : block.bucket_count - 1 < res.length := by
    rw [hreslen, relaidIndirectBuckets_length]
    omega
  refine ⟨⟨block.bucket_count, block.virtual_size, block.virtual_offsets,
    res.set (block.bucket_count - 1) ⟨xl.entry_count, esl⟩⟩, ?_, rfl, rfl, rfl, ?_, ?_⟩
  · unfold normaliseIndirect relayIndirect
    rw [if_neg (by omega)]
    simp only [hrun]
    unfold lastIndirectSentinel bktrGetIndirectStorageBucket
    simp only [hidx]
    rw [if_neg (by omega)]
    simp only [hreslast, hesl]
  · show (res.set _ _).length = _
    rw [List.length_set, hreslen, relaidIndirectBuckets_length]
  · intro b hb
    show ∃ x es, _ ∧ (res.set _ _)[b]? = _ ∧ _
    rcases Nat.lt_or_ge (b + 1) block.bucket_count with hlt | hge
    · obtain ⟨x, es, hx, hres, hst⟩ := hin b (Nat.zero_le _) (by omega)
      obtain ⟨y, hy, hry⟩ := hR b hb
      rw [hry] at hx
      injection hx with hx
      subst hx
      refine ⟨y, es, hy, ?_, ?_⟩
      · rw [List.getElem?_set_ne (by omega)]
        exact hres
      · rw [if_pos hlt]
        exact hst
    · have hbl : b = block.bucket_count - 1 := by omega
      subst hbl
      refine ⟨xl, esl, hxl, ?_, ?_⟩
      · simp [List.getElem?_set, hlastlen]
      · rw [if_neg (by omega)]
        exact hesl

/-- The buckets that the re-lay and the sentinel steps leave in an AesCtrEx block whose
sentinel slots are in memory. -/
theorem normaliseAesCtrEx_spec (block : BktrAesCtrExStorageBlock)
    (room : Nat → List BktrAesCtrExStorageEntry) (indirect_offset generation section_size : Nat)
    (hbc : 0 < block.bucket_count) (hbw : block.bucket_count < 2 ^ 32)
    (hlen : block.bucket_count ≤ block.aes_ctr_ex_storage_buckets.length)
    (hslot : ∀ b x, b < block.bucket_count → block.aes_ctr_ex_storage_buckets[b]? = some x →
      x.entry_count < (x.aes_ctr_ex_storage_entries ++ room b).length)
    (hlast : ∀ x, block.aes_ctr_ex_storage_buckets[block.bucket_count - 1]? = some x →
      x.entry_count + 1 < (x.aes_ctr_ex_storage_entries ++ room (block.bucket_count - 1)).length ∧
      x.entry_count + 1 < 2 ^ 32) :
    ∃ nb, normaliseAesCtrEx block room indirect_offset generation section_size = some nb ∧
      nb.bucket_count = block.bucket_count ∧ nb.physical_size = block.physical_size ∧
      nb.physical_offsets = block.physical_offsets ∧
      nb.aes_ctr_ex_storage_buckets.length = block.aes_ctr_ex_storage_buckets.length ∧
      (∀ b, b + 1 < block.bucket_count → ∃ x nx first es,
        block.aes_ctr_ex_storage_buckets[b]? = some x ∧
        block.aes_ctr_ex_storage_buckets[b + 1]? = some nx ∧
        (nx.aes_ctr_ex_storage_entries ++ room (b + 1))[0]? = some first ∧
        nb.aes_ctr_ex_storage_buckets[b]? = some ⟨x.entry_count, es⟩ ∧
        storeAesCtrExEntry (x.aes_ctr_ex_storage_entries ++ room b) x.entry_count first.offset
          first.generation = some es) ∧
      ∃ x es1 es2, block.aes_ctr_ex_storage_buckets[block.bucket_count - 1]? = some x ∧
        nb.aes_ctr_ex_storage_buckets[block.bucket_count - 1]? = some ⟨x.entry_count, es2⟩ ∧
        storeAesCtrExEntry (x.aes_ctr_ex_storage_entries ++ room (block.bucket_count - 1))
          x.entry_count indirect_offset generation = some es1 ∧
        storeAesCtrExEntry es1 (x.entry_count + 1) section_size 0 = some es2 := by
  have hR : ∀ b, b < block.bucket_count → ∃ x, block.aes_ctr_ex_storage_buckets[b]? = some x ∧
      (relaidAesCtrExBuckets room block.aes_ctr_ex_storage_buckets 0)[b]? =
        some ⟨x.entry_count, x.aes_ctr_ex_storage_entries ++ room b⟩ := by
    intro b hb
    have hb2 : b < block.aes_ctr_ex_storage_buckets.length := by omega
    refine ⟨block.aes_ctr_ex_storage_buckets[b], List.getElem?_eq_getElem hb2, ?_⟩
    rw [relaidAesCtrExBuckets_getElem?, List.getElem?_eq_getElem hb2, Nat.zero_add]
    rfl
  have hfirst : ∀ b x, b < block.bucket_count → block.aes_ctr_ex_storage_buckets[b]? = some x →
      ∃ first, (x.aes_ctr_ex_storage_entries ++ room b)[0]? = some first := by
    intro b x hb hx
    have h := hslot b x hb hx
    exact ⟨_, List.getElem?_eq_getElem (by omega)⟩
  obtain ⟨res, hrun, hreslen, hout, hin⟩ := aesCtrExSentinelLoop_spec
    ⟨block.bucket_count, block.physical_size, block.physical_offsets,
      relaidAesCtrExBuckets room block.aes_ctr_ex_storage_buckets 0⟩
    (block.bucket_count - 1) 0 (relaidAesCtrExBuckets room block.aes_ctr_ex_storage_buckets 0)
    (by show 0 + (block.bucket_count - 1) < block.bucket_count ∨ _; omega)
    (by
      intro b _ hb2
      obtain ⟨x, hx, hrx⟩ := hR b (by omega)
      obtain ⟨nx, hnx, hrnx⟩ := hR (b + 1) (by omega)
      obtain ⟨first, hf⟩ := hfirst (b + 1) nx (by omega) hnx
      exact ⟨_, _, first, hrx, hrnx, hf, hslot b x (by omega) hx⟩)
  obtain ⟨xl, hxl, hrxl⟩ := hR (block.bucket_count - 1) (by omega)
  have hreslast : res[block.bucket_count - 1]? =
      some ⟨xl.entry_count, xl.aes_ctr_ex_storage_entries ++ room (block.bucket_count - 1)⟩ := by
    rw [hout _ (Or.inr (by omega))]
    exact hrxl
  obtain ⟨hl1, hl2⟩ := hlast xl hxl
  obtain ⟨es1, hes1⟩ := storeAesCtrExEntry_some
    (xl.aes_ctr_ex_storage_entries ++ room (block.bucket_count - 1)) xl.entry_count
    indirect_offset generation (by omega)
  obtain ⟨hes1len, _⟩ := storeAesCtrExEntry_spec _ _ _ _ _ hes1
  obtain ⟨es2, hes2⟩ := storeAesCtrExEntry_some es1 (xl.entry_count + 1) section_size 0
    (by omega)
  have hidx : (block.bucket_count + 2 ^ 32 - 1) % 2 ^ 32 = block.bucket_count - 1 := by omega
  have hidx2 : (xl.entry_count + 1) % 2 ^ 32 = xl.entry_count + 1 := Nat.mod_eq_of_lt hl2
  have hlastlen : block.bucket_count - 1 < res.length := by
    rw [hreslen, relaidAesCtrExBuckets_length]
    omega
  refine ⟨⟨block.bucket_count, block.physical_size, block.physical_offsets,
    res.set (block.bucket_count - 1) ⟨xl.entry_count, es2⟩⟩, ?_, rfl, rfl, rfl, ?_, ?_, ?_⟩
  · unfold normaliseAesCtrEx relayAesCtrEx
    rw [if_neg (by omega)]
    simp only [hrun]
    unfold lastAesCtrExSentinels bktrGetAesCtrExStorageBucket
    simp only [hidx]
    rw [if_neg (by omega)]
    simp only [hreslast, hes1, hidx2, hes2]
  · show (res.set _ _).length = _
    rw [List.length_set, hreslen, relaidAesCtrExBuckets_length]
  · intro b hb
    show ∃ x nx first es, _ ∧ _ ∧ _ ∧ (res.set _ _)[b]? = _ ∧ _
    obtain ⟨x, nx, first, es, hx, hnx, hf, hres, hst⟩ := hin b (Nat.zero_le _) (by omega)
    obtain ⟨y, hy, hry⟩ := hR b (by omega)
    obtain ⟨ny, hny, hrny⟩ := hR (b + 1) (by omega)
    rw [hry] at hx
    injection hx with hx
    subst hx
    rw [hrny] at hnx
    injection hnx with hnx
    subst hnx
    refine ⟨y, ny, first, es, hy, hny, hf, ?_, hst⟩
    rw [List.getElem?_set_ne (by omega)]
    exact hres
  · refine ⟨xl, es1, es2, hxl, ?_, hes1, hes2⟩
    show (res.set _ _)[_]? = _
    simp [List.getElem?_set, hlastlen]

end Normalise

section NormalisedBuckets

theorem indirect_entryAt_lt (block : BktrIndirectStorageBlock) (b i : Nat)
    (e : BktrIndirectStorageEntry) (h : block.entryAt b i = some e) :
    i < (bucketAt block.keyBuckets b).keys.length := by
  unfold BktrIndirectStorageBlock.entryAt at h
  cases hb : block.indirect_storage_buckets[b]? with
  | none =>
    rw [hb] at h
    exact Option.noConfusion h
  | some bucket =>
    rw [hb] at h
    rw [indirect_bucketAt block b bucket hb]
    simp only [BktrIndirectStorageBucket.toKeys, List.length_map]
    rcases Nat.lt_or_ge i bucket.indirect_storage_entries.length with h1 | h1
    · exact h1
    · have h2 : bucket.indirect_storage_entries[i]? = none := List.getElem?_eq_none h1
      simp only [h2] at h
      exact Option.noConfusion h

theorem aesctrex_entryAt_lt (block : BktrAesCtrExStorageBlock) (b i : Nat)
    (e : BktrAesCtrExStorageEntry) (h : block.entryAt b i = some e) :
    i < (bucketAt block.keyBuckets b).keys.length := by
  unfold BktrAesCtrExStorageBlock.entryAt at h
  cases hb : block.aes_ctr_ex_storage_buckets[b]? with
  | none =>
    rw [hb] at h
    exact Option.noConfusion h
  | some bucket =>
    rw [hb] at h
    rw [aesctrex_bucketAt block b bucket hb]
    simp only [BktrAesCtrExStorageBucket.toKeys, List.length_map]
    rcases Nat.lt_or_ge i bucket.aes_ctr_ex_storage_entries.length with h1 | h1
    · exact h1
    · have h2 : bucket.aes_ctr_ex_storage_entries[i]? = none := List.getElem?_eq_none h1
      simp only [h2] at h
      exact Option.noConfusion h

/-- The Indirect block after the re-lay and the sentinel steps, bucket by bucket: the count
and the real entries are those read from disk, and the slot `entries[entry_count]` holds the
key `virtual_offsets[b + 1]`, for the last bucket the key `virtual_size`. -/
theorem normaliseIndirect_buckets (block : BktrIndirectStorageBlock)
    (room : Nat → List BktrIndirectStorageEntry)
    (hbc : 0 < block.bucket_count) (hbw : block.bucket_count < 2 ^ 32)
    (hlen : block.bucket_count ≤ block.indirect_storage_buckets.length)
    (htop : block.bucket_count ≤ block.virtual_offsets.length)
    (hcnt : ∀ b, b < block.bucket_count →
      (bucketAt block.keyBuckets b).entry_count ≤ (bucketAt block.keyBuckets b).keys.length)
    (hroom : ∀ b, b < block.bucket_count → 0 < (room b).length) :
    ∃ nb, normaliseIndirect block room = some nb ∧ nb.bucket_count = block.bucket_count ∧
      nb.virtual_size = block.virtual_size ∧ nb.virtual_offsets = block.virtual_offsets ∧
      nb.indirect_storage_buckets.length = block.indirect_storage_buckets.length ∧
      ∀ b, b < block.bucket_count →
        nb.entryCount b = block.entryCount b ∧
        (∀ j, j < block.entryCount b →
          nb.entryAt b j = block.entryAt b j ∧ (block.entryAt b j).isSome = true) ∧
        ∃ s, nb.entryAt b (block.entryCount b) = some s ∧
          s.virtual_offset = (if b + 1 < block.bucket_count then
            keyAt block.virtual_offsets (b + 1) else block.virtual_size) := by
  have hx : ∀ b x, b < block.bucket_count → block.indirect_storage_buckets[b]? = some x →
      x.entry_count ≤ x.indirect_storage_entries.length := by
    intro b x hb hbx
    have h := hcnt b hb
    rw [indirect_bucketAt block b x hbx] at h
    simpa [BktrIndirectStorageBucket.toKeys] using h
  obtain ⟨nb, hrun, h1, h2, h3, h4, hb⟩ := normaliseIndirect_spec block room hbc hbw hlen htop
    (by
      intro b x hb hbx
      have h5 := hx b x hb hbx
      have h6 := hroom b hb
      rw [List.length_append]
      omega)
  refine ⟨nb, hrun, h1, h2, h3, h4, ?_⟩
  intro b hlt
  obtain ⟨x, es, hbx, hnbx, hst⟩ := hb b hlt
  obtain ⟨_, _, ⟨e, _, hes⟩, hother⟩ := storeIndirectKey_spec _ _ _ _ hst
  have hle := hx b x hlt hbx
  have hcount : block.entryCount b = x.entry_count := by
    simp [BktrIndirectStorageBlock.entryCount, hbx]
  rw [hcount]
  refine ⟨?_, ?_, ?_⟩
  · simp [BktrIndirectStorageBlock.entryCount, hnbx]
  · intro j hj
    have hj2 : j < x.indirect_storage_entries.length := by omega
    have h7 : nb.entryAt b j = x.indirect_storage_entries[j]? := by
      simp only [BktrIndirectStorageBlock.entryAt, hnbx]
      rw [hother j (by omega), List.getElem?_append_left hj2]
    have h8 : block.entryAt b j = x.indirect_storage_entries[j]? := by
      simp only [BktrIndirectStorageBlock.entryAt, hbx]
    rw [h7, h8, List.getElem?_eq_getElem hj2]
    exact ⟨rfl, rfl⟩
  · refine ⟨⟨_, e.physical_offset, e.indirect_storage_index⟩, ?_, rfl⟩
    simp only [BktrIndirectStorageBlock.entryAt, hnbx]
    exact hes

/-- The AesCtrEx block after the re-lay and the sentinel steps, bucket by bucket: the count
and the real entries are those read from disk; in a bucket with a successor the slot
`entries[entry_count]` holds the offset and the generation of the first entry of the
successor; in the last bucket it holds `{indirect_offset, generation}` and the slot behind
it holds `{section_size, 0}`. -/
theorem normaliseAesCtrEx_buckets (block : BktrAesCtrExStorageBlock)
    (room : Nat → List BktrAesCtrExStorageEntry) (indirect_offset generation section_size : Nat)
    (hbc : 0 < block.bucket_count) (hbw : block.bucket_count < 2 ^ 32)
    (hlen : block.bucket_count ≤ block.aes_ctr_ex_storage_buckets.length)
    (hcnt : ∀ b, b < block.bucket_count →
      0 < (bucketAt block.keyBuckets b).entry_count ∧
      (bucketAt block.keyBuckets b).entry_count < 2 ^ 31 ∧
      (bucketAt block.keyBuckets b).entry_count ≤ (bucketAt block.keyBuckets b).keys.length)
    (hroom : ∀ b, b < block.bucket_count → 0 < (room b).length)
    (hroom2 : 2 ≤ (room (block.bucket_count - 1)).length) :
    ∃ nb, normaliseAesCtrEx block room indirect_offset generation section_size = some nb ∧
      nb.bucket_count = block.bucket_count ∧ nb.physical_size = block.physical_size ∧
      nb.physical_offsets = block.physical_offsets ∧
      nb.aes_ctr_ex_storage_buckets.length = block.aes_ctr_ex_storage_buckets.length ∧
      ∀ b, b < block.bucket_count →
        nb.entryCount b = block.entryCount b ∧
        (∀ j, j < block.entryCount b →
          nb.entryAt b j = block.entryAt b j ∧ (block.entryAt b j).isSome = true) ∧
        (b + 1 < block.bucket_count → ∃ f, block.entryAt (b + 1) 0 = some f ∧
          nb.entryAt b (block.entryCount b) = some ⟨f.offset, f.generation⟩) ∧
        (b + 1 = block.bucket_count →
          nb.entryAt b (block.entryCount b) = some ⟨indirect_offset, generation⟩ ∧
          nb.entryAt b (block.entryCount b + 1) = some ⟨section_size, 0⟩) := by
  have hx : ∀ b x, b < block.bucket_count → block.aes_ctr_ex_storage_buckets[b]? = some x →
      0 < x.entry_count ∧ x.entry_count < 2 ^ 31 ∧
        x.entry_count ≤ x.aes_ctr_ex_storage_entries.length := by
    intro b x hb hbx
    have h := hcnt b hb
    rw [aesctrex_bucketAt block b x hbx] at h
    simpa [BktrAesCtrExStorageBucket.toKeys] using h
  obtain ⟨nb, hrun, h1, h2, h3, h4, hmid, hlast⟩ := normaliseAesCtrEx_spec block room
    indirect_offset generation section_size hbc hbw hlen
    (by
      intro b x hb hbx
      have h5 := hx b x hb hbx
      have h6 := hroom b hb
      rw [List.length_append]
      omega)
    (by
      intro x hbx
      have h5 := hx _ x (by omega) hbx
      rw [List.length_append]
      omega)
  refine ⟨nb, hrun, h1, h2, h3, h4, ?_⟩
  intro b hlt
  rcases Nat.lt_or_ge (b + 1) block.bucket_count with hnl | hl
  · obtain ⟨x, nx, first, es, hbx, hbnx, hfirst, hnbx, hst⟩ := hmid b hnl
    obtain ⟨_, _, hes, hother⟩ := storeAesCtrExEntry_spec _ _ _ _ _ hst
    obtain ⟨_, _, hle⟩ := hx b x hlt hbx
    obtain ⟨hnpos, _, hnle⟩ := hx (b + 1) nx hnl hbnx
    have hcount : block.entryCount b = x.entry_count := by
      simp [BktrAesCtrExStorageBlock.entryCount, hbx]
    rw [hcount]
    refine ⟨?_, ?_, ?_, ?_⟩
    · simp [BktrAesCtrExStorageBlock.entryCount, hnbx]
    · intro j hj
      have hj2 : j < x.aes_ctr_ex_storage_entries.length := by omega
      have h7 : nb.entryAt b j = x.aes_ctr_ex_storage_entries[j]? := by
        simp only [BktrAesCtrExStorageBlock.entryAt, hnbx]
        rw [hother j (by omega), List.getElem?_append_left hj2]
      have h8 : block.entryAt b j = x.aes_ctr_ex_storage_entries[j]? := by
        simp only [BktrAesCtrExStorageBlock.entryAt, hbx]
      rw [h7, h8, List.getElem?_eq_getElem hj2]
      exact ⟨rfl, rfl⟩
    · intro _
      refine ⟨first, ?_, ?_⟩
      · simp only [BktrAesCtrExStorageBlock.entryAt, hbnx]
        rw [← hfirst, List.getElem?_append_left (by omega)]
      · simp only [BktrAesCtrExStorageBlock.entryAt, hnbx]
        exact hes
    · intro h
      omega
  · have hbl : b = block.bucket_count - 1 := by omega
    subst hbl
    obtain ⟨x, es1, es2, hbx, hnbx, hst1, hst2⟩ := hlast
    obtain ⟨hlen1, _, hes1, hother1⟩ := storeAesCtrExEntry_spec _ _ _ _ _ hst1
    obtain ⟨_, _, hes2, hother2⟩ := storeAesCtrExEntry_spec _ _ _ _ _ hst2
    obtain ⟨_, _, hle⟩ := hx _ x hlt hbx
    have hcount : block.entryCount (block.bucket_count - 1) = x.entry_count := by
      simp [BktrAesCtrExStorageBlock.entryCount, hbx]
    rw [hcount]
    refine ⟨?_, ?_, ?_, ?_⟩
    · simp [BktrAesCtrExStorageBlock.entryCount, hnbx]
    · intro j hj
      have hj2 : j < x.aes_ctr_ex_storage_entries.length := by omega
      have h7 : nb.entryAt (block.bucket_count - 1) j = x.aes_ctr_ex_storage_entries[j]? := by
        simp only [BktrAesCtrExStorageBlock.entryAt, hnbx]
        rw [hother2 j (by omega), hother1 j (by omega), List.getElem?_append_left hj2]
      have h8 : block.entryAt (block.bucket_count - 1) j =
          x.aes_ctr_ex_storage_entries[j]? := by
        simp only [BktrAesCtrExStorageBlock.entryAt, hbx]
      rw [h7, h8, List.getElem?_eq_getElem hj2]
      exact ⟨rfl, rfl⟩
    · intro h
      omega
    · intro _
      constructor
      · simp only [BktrAesCtrExStorageBlock.entryAt, hnbx]
        rw [hother2 _ (by omega)]
        exact hes1
      · simp only [BktrAesCtrExStorageBlock.entryAt, hnbx]
        exact hes2

/-- A tree whose buckets hold the counts and the real keys of a well-formed tree on disk,
and in the slot `entries[entry_count]` the first key of the next bucket, for the last bucket
`total`, is a well-formed normalised tree. -/
theorem tree_of_disk (bucket_count total : Nat) (top : List Nat) (disk norm : List KeyBucket)
    (hdisk : DiskTreeWF bucket_count total top disk) (hlen : bucket_count ≤ norm.length)
    (hn : ∀ b, b < bucket_count →
      (bucketAt norm b).entry_count = (bucketAt disk b).entry_count ∧
      (bucketAt disk b).entry_count < (bucketAt norm b).keys.length ∧
      (∀ j, j < (bucketAt disk b).entry_count → slotKey norm b j = slotKey disk b j) ∧
      slotKey norm b (bucketAt disk b).entry_count =
        (if b + 1 < bucket_count then keyAt top (b + 1) else total)) :
    TreeWF bucket_count total top norm := by
  obtain ⟨d1, d2, d3, _, d5, dbuckets, dzero, dfirst, dnext, dlast⟩ := hdisk
  refine ⟨d1, d2, d3, hlen, d5, ?_, ?_, ?_, ?_, ?_⟩
  · intro b hb
    obtain ⟨n1, n2, n3, n4⟩ := hn b hb
    obtain ⟨b1, b2, _, b4⟩ := dbuckets b hb
    refine ⟨by omega, by omega, by omega, ?_⟩
    intro i hi
    rw [n1] at hi
    have hki : keyAt (bucketAt norm b).keys i = slotKey disk b i := n3 i hi
    rw [hki]
    rcases Nat.lt_or_ge (i + 1) (bucketAt disk b).entry_count with h1 | h1
    · have hk1 : keyAt (bucketAt norm b).keys (i + 1) = slotKey disk b (i + 1) := n3 (i + 1) h1
      rw [hk1]
      exact b4 i hi h1
    · have hi1 : i + 1 = (bucketAt disk b).entry_count := by omega
      have hk1 : keyAt (bucketAt norm b).keys (i + 1) =
          (if b + 1 < bucket_count then keyAt top (b + 1) else total) := by
        rw [hi1]
        exact n4
      rw [hk1]
      have hi2 : i = (bucketAt disk b).entry_count - 1 := by omega
      rw [hi2]
      by_cases hnb : b + 1 < bucket_count
      · rw [if_pos hnb]
        exact dnext b hb hnb
      · rw [if_neg hnb]
        have hbl : b = bucket_count - 1 := by omega
        rw [hbl]
        exact dlast
  · obtain ⟨_, _, n3, _⟩ := hn 0 d1
    rw [n3 0 (dbuckets 0 d1).1]
    exact dzero
  · intro b hb hpos
    obtain ⟨_, _, n3, _⟩ := hn b hb
    rw [n3 0 (dbuckets b hb).1]
    exact dfirst b hb hpos
  · intro b hb hnb
    obtain ⟨n1, _, _, n4⟩ := hn b hb
    rw [n1, n4, if_pos hnb]
  · obtain ⟨n1, _, _, n4⟩ := hn (bucket_count - 1) (by omega)
    rw [n1, n4, if_neg (by omega)]

end NormalisedBuckets

/-! ## Claims about the sentinels -/

section SentinelClaims

/-- C15: for an Indirect and an AesCtrEx block with `bucket_count ≥ 2` as they lie on disk
(every bucket holds its `entry_count ≥ 1` entries, and the first key of every Indirect
bucket `i ≥ 1` equals `virtual_offsets[i]`), with room for a sentinel behind every bucket,
the re-lay and the sentinel steps end, and afterwards for every `i < bucket_count - 1` the
entry at index `entry_count` of bucket `i` has the key of `entries[0]` of bucket `i + 1`; for
the AesCtrEx block it has the generation of that entry too.  The Indirect key is the one of
the top table, `virtual_offsets[i + 1]`; the AesCtrEx sentinel is taken from the first entry
of the next bucket as read from disk. -/
theorem inter_bucket_sentinels (ib : BktrIndirectStorageBlock)
    (roomi : Nat → List BktrIndirectStorageEntry) (ab : BktrAesCtrExStorageBlock)
    (rooma : Nat → List BktrAesCtrExStorageEntry) (indirect_offset generation section_size : Nat)
    (hibc : 2 ≤ ib.bucket_count) (hibw : ib.bucket_count < 2 ^ 32)
    (hilen : ib.bucket_count ≤ ib.indirect_storage_buckets.length)
    (hitop : ib.bucket_count ≤ ib.virtual_offsets.length)
    (hicnt : ∀ b, b < ib.bucket_count →
      0 < (bucketAt ib.keyBuckets b).entry_count ∧
      (bucketAt ib.keyBuckets b).entry_count ≤ (bucketAt ib.keyBuckets b).keys.length)
    (hiroom : ∀ b, b < ib.bucket_count → 0 < (roomi b).length)
    (hifirst : ∀ b, b < ib.bucket_count → 0 < b →
      slotKey ib.keyBuckets b 0 = keyAt ib.virtual_offsets b)
    (habc : 2 ≤ ab.bucket_count) (habw : ab.bucket_count < 2 ^ 32)
    (halen : ab.bucket_count ≤ ab.aes_ctr_ex_storage_buckets.length)
    (hacnt : ∀ b, b < ab.bucket_count →
      0 < (bucketAt ab.keyBuckets b).entry_count ∧
      (bucketAt ab.keyBuckets b).entry_count < 2 ^ 31 ∧
      (bucketAt ab.keyBuckets b).entry_count ≤ (bucketAt ab.keyBuckets b).keys.length)
    (haroom : ∀ b, b < ab.bucket_count → 0 < (rooma b).length)
    (haroom2 : 2 ≤ (rooma (ab.bucket_count - 1)).length) :
    (∃ nib, normaliseIndirect ib roomi = some nib ∧
      ∀ i, i + 1 < ib.bucket_count → ∃ s f,
        nib.entryAt i (nib.entryCount i) = some s ∧ nib.entryAt (i + 1) 0 = some f ∧
        s.virtual_offset = f.virtual_offset ∧
        s.virtual_offset = keyAt ib.virtual_offsets (i + 1)) ∧
    (∃ nab, normaliseAesCtrEx ab rooma indirect_offset generation section_size = some nab ∧
      ∀ i, i + 1 < ab.bucket_count → ∃ s f,
        nab.entryAt i (nab.entryCount i) = some s ∧ nab.entryAt (i + 1) 0 = some f ∧
        s.offset = f.offset ∧ s.generation = f.generation ∧ ab.entryAt (i + 1) 0 = some f) := by
  constructor
  · obtain ⟨nib, hrun, _, _, _, _, hb⟩ := normaliseIndirect_buckets ib roomi (by omega) hibw
      hilen hitop (fun b hb => (hicnt b hb).2) hiroom
    refine ⟨nib, hrun, ?_⟩
    intro i hi
    obtain ⟨hc, _, s, hs, hkey⟩ := hb i (by omega)
    obtain ⟨_, hreal, _⟩ := hb (i + 1) hi
    have hpos : 0 < ib.entryCount (i + 1) := by
      rw [← indirect_entryCount]
      exact (hicnt (i + 1) hi).1
    obtain ⟨hsame, hsome⟩ := hreal 0 hpos
    obtain ⟨f, hf⟩ := Option.isSome_iff_exists.mp hsome
    have hfk : f.virtual_offset = keyAt ib.virtual_offsets (i + 1) := by
      rw [← indirect_entryAt_key ib (i + 1) 0 f hf]
      exact hifirst (i + 1) hi (by omega)
    rw [if_pos hi] at hkey
    refine ⟨s, f, ?_, ?_, ?_, hkey⟩
    · rw [hc]
      exact hs
    · rw [hsame]
      exact hf
    · rw [hkey, hfk]
  · obtain ⟨nab, hrun, _, _, _, _, hb⟩ := normaliseAesCtrEx_buckets ab rooma indirect_offset
      generation section_size (by omega) habw halen hacnt haroom haroom2
    refine ⟨nab, hrun, ?_⟩
    intro i hi
    obtain ⟨hc, _, hnext, _⟩ := hb i (by omega)
    obtain ⟨_, hreal, _, _⟩ := hb (i + 1) hi
    have hpos : 0 < ab.entryCount (i + 1) := by
      rw [← aesctrex_entryCount]
      exact (hacnt (i + 1) hi).1
    obtain ⟨hsame, _⟩ := hreal 0 hpos
    obtain ⟨f, hf, hs⟩ := hnext hi
    refine ⟨⟨f.offset, f.generation⟩, f, ?_, ?_, rfl, rfl, hf⟩
    · rw [hc]
      exact hs
    · rw [hsame]
      exact hf

theorem inter_bucket_sentinels_witness :
    (∃ nib, normaliseIndirect diskIndirect zeroIndirectRoom = some nib ∧
      ∀ i, i + 1 < diskIndirect.bucket_count → ∃ s f,
        nib.entryAt i (nib.entryCount i) = some s ∧ nib.entryAt (i + 1) 0 = some f ∧
        s.virtual_offset = f.virtual_offset ∧
        s.virtual_offset = keyAt diskIndirect.virtual_offsets (i + 1)) ∧
    (∃ nab, normaliseAesCtrEx diskAesCtrEx2 zeroAesCtrExRoom 0x4000 7 0x6000 = some nab ∧
      ∀ i, i + 1 < diskAesCtrEx2.bucket_count → ∃ s f,
        nab.entryAt i (nab.entryCount i) = some s ∧ nab.entryAt (i + 1) 0 = some f ∧
        s.offset = f.offset ∧ s.generation = f.generation ∧
        diskAesCtrEx2.entryAt (i + 1) 0 = some f) :=
  inter_bucket_sentinels diskIndirect zeroIndirectRoom diskAesCtrEx2 zeroAesCtrExRoom
    0x4000 7 0x6000 (by decide) (by decide) (by decide) (by decide) (by decide)
    (by decide) (by decide) (by decide) (by decide) (by decide) (by decide) (by decide)
    (by decide)

theorem indirect_entryAt_set (bucket_count virtual_size : Nat) (top : List Nat)
    (buckets : List BktrIndirectStorageBucket) (p : Nat) (bucket : BktrIndirectStorageBucket)
    (hp : p < buckets.length) (b i : Nat) :
    (BktrIndirectStorageBlock.mk bucket_count virtual_size top (buckets.set p bucket)).entryAt
        b i =
      if b = p then bucket.indirect_storage_entries[i]?
      else (BktrIndirectStorageBlock.mk bucket_count virtual_size top buckets).entryAt b i := by
  unfold BktrIndirectStorageBlock.entryAt
  by_cases hb : b = p
  · subst hb
    simp [List.getElem?_set, hp]
  · simp [List.getElem?_set, hb, Ne.symm hb]

theorem indirect_entryCount_set (bucket_count virtual_size : Nat) (top : List Nat)
    (buckets : List BktrIndirectStorageBucket) (p : Nat) (bucket : BktrIndirectStorageBucket)
    (hp : p < buckets.length) (b : Nat) :
    (BktrIndirectStorageBlock.mk bucket_count virtual_size top
        (buckets.set p bucket)).entryCount b =
      if b = p then bucket.entry_count
      else (BktrIndirectStorageBlock.mk bucket_count virtual_size top buckets).entryCount b := by
  unfold BktrIndirectStorageBlock.entryCount
  by_cases hb : b = p
  · subst hb
    simp [List.getElem?_set, hp]
  · simp [List.getElem?_set, hb, Ne.symm hb]

theorem aesctrex_entryAt_set (bucket_count physical_size : Nat) (top : List Nat)
    (buckets : List BktrAesCtrExStorageBucket) (p : Nat) (bucket : BktrAesCtrExStorageBucket)
    (hp : p < buckets.length) (b i : Nat) :
    (BktrAesCtrExStorageBlock.mk bucket_count physical_size top (buckets.set p bucket)).entryAt
        b i =
      if b = p then bucket.aes_ctr_ex_storage_entries[i]?
      else (BktrAesCtrExStorageBlock.mk bucket_count physical_size top buckets).entryAt b i := by
  unfold BktrAesCtrExStorageBlock.entryAt
  by_cases hb : b = p
  · subst hb
    simp [List.getElem?_set, hp]
  · simp [List.getElem?_set, hb, Ne.symm hb]

theorem aesctrex_entryCount_set (bucket_count physical_size : Nat) (top : List Nat)
    (buckets : List BktrAesCtrExStorageBucket) (p : Nat) (bucket : BktrAesCtrExStorageBucket)
    (hp : p < buckets.length) (b : Nat) :
    (BktrAesCtrExStorageBlock.mk bucket_count physical_size top
        (buckets.set p bucket)).entryCount b =
      if b = p then bucket.entry_count
      else (BktrAesCtrExStorageBlock.mk bucket_count physical_size top buckets).entryCount b := by
  unfold BktrAesCtrExStorageBlock.entryCount
  by_cases hb : b = p
  · subst hb
    simp [List.getElem?_set, hp]
  · simp [List.getElem?_set, hb, Ne.symm hb]

/-- What lines 151 and 153 leave behind in an Indirect block whose last bucket has the slot
`entries[entry_count]` in memory. -/
theorem lastIndirectSentinel_spec (ib : BktrIndirectStorageBlock)
    (hb : 1 ≤ ib.bucket_count) (hbw : ib.bucket_count < 2 ^ 32)
    (hs : (ib.entryAt (ib.bucket_count - 1) (ib.entryCount (ib.bucket_count - 1))).isSome = true) :
    ∃ nib, lastIndirectSentinel ib = some nib ∧
      (∃ s, nib.entryAt (ib.bucket_count - 1) (nib.entryCount (ib.bucket_count - 1)) = some s ∧
        s.virtual_offset = ib.virtual_size) ∧
      (∀ b, nib.entryCount b = ib.entryCount b) ∧
      (∀ b i, i < ib.entryCount b → nib.entryAt b i = ib.entryAt b i) := by
  obtain ⟨bc, vs, top, buckets⟩ := ib
  simp only at hb hbw hs ⊢
  have hidx : (bc + 2 ^ 32 - 1) % 2 ^ 32 = bc - 1 := by omega
  cases hx : buckets[bc - 1]? with
  | none => simp [BktrIndirectStorageBlock.entryAt, hx] at hs
  | some x =>
    have hp : bc - 1 < buckets.length := by
      rcases Nat.lt_or_ge (bc - 1) buckets.length with h1 | h1
      · exact h1
      · rw [List.getElem?_eq_none h1] at hx
        exact Option.noConfusion hx
    have hcount : (BktrIndirectStorageBlock.mk bc vs top buckets).entryCount (bc - 1) =
        x.entry_count := by
      simp [BktrIndirectStorageBlock.entryCount, hx]
    rw [hcount] at hs
    have hslot : x.entry_count < x.indirect_storage_entries.length := by
      simp only [BktrIndirectStorageBlock.entryAt, hx] at hs
      rcases Nat.lt_or_ge x.entry_count x.indirect_storage_entries.length with h1 | h1
      · exact h1
      · rw [List.getElem?_eq_none h1] at hs
        exact absurd hs (by decide)
    obtain ⟨es, hes⟩ := storeIndirectKey_some x.indirect_storage_entries x.entry_count vs hslot
    obtain ⟨_, _, ⟨e, _, hsent⟩, hother⟩ := storeIndirectKey_spec _ _ _ _ hes
    refine ⟨⟨bc, vs, top, buckets.set (bc - 1) ⟨x.entry_count, es⟩⟩, ?_, ?_, ?_, ?_⟩
    · unfold lastIndirectSentinel bktrGetIndirectStorageBucket
      simp only [hidx]
      rw [if_neg (by omega)]
      simp only [hx, hes]
    · refine ⟨⟨vs, e.physical_offset, e.indirect_storage_index⟩, ?_, rfl⟩
      rw [indirect_entryCount_set _ _ _ _ _ _ hp, if_pos rfl,
        indirect_entryAt_set _ _ _ _ _ _ hp, if_pos rfl]
      exact hsent
    · intro b
      rw [indirect_entryCount_set _ _ _ _ _ _ hp]
      by_cases hbp : b = bc - 1
      · rw [if_pos hbp, hbp, hcount]
      · rw [if_neg hbp]
    · intro b i hi
      rw [indirect_entryAt_set _ _ _ _ _ _ hp]
      by_cases hbp : b = bc - 1
      · rw [if_pos hbp]
        subst hbp
        rw [hcount] at hi
        rw [hother i (by omega)]
        simp [BktrIndirectStorageBlock.entryAt, hx]
      · rw [if_neg hbp]

/-- What lines 152 and 154-157 leave behind in an AesCtrEx block whose last bucket has the
slots `entries[entry_count]` and `entries[entry_count + 1]` in memory. -/
theorem lastAesCtrExSentinels_spec (ab : BktrAesCtrExStorageBlock)
    (indirect_offset generation section_size : Nat)
    (hb : 1 ≤ ab.bucket_count) (hbw : ab.bucket_count < 2 ^ 32)
    (hs : (ab.entryAt (ab.bucket_count - 1)
      (ab.entryCount (ab.bucket_count - 1) + 1)).isSome = true)
    (hec : ab.entryCount (ab.bucket_count - 1) + 1 < 2 ^ 32) :
    ∃ nab, lastAesCtrExSentinels ab indirect_offset generation section_size = some nab ∧
      nab.entryAt (ab.bucket_count - 1) (nab.entryCount (ab.bucket_count - 1)) =
        some ⟨indirect_offset, generation⟩ ∧
      nab.entryAt (ab.bucket_count - 1) (nab.entryCount (ab.bucket_count - 1) + 1) =
        some ⟨section_size, 0⟩ ∧
      (∀ b, nab.entryCount b = ab.entryCount b) ∧
      (∀ b i, i < ab.entryCount b → nab.entryAt b i = ab.entryAt b i) := by
  obtain ⟨bc, ps, top, buckets⟩ := ab
  simp only at hb hbw hs hec ⊢
  have hidx : (bc + 2 ^ 32 - 1) % 2 ^ 32 = bc - 1 := by omega
  cases hx : buckets[bc - 1]? with
  | none => simp [BktrAesCtrExStorageBlock.entryAt, hx] at hs
  | some x =>
    have hp : bc - 1 < buckets.length := by
      rcases Nat.lt_or_ge (bc - 1) buckets.length with h1 | h1
      · exact h1
      · rw [List.getElem?_eq_none h1] at hx
        exact Option.noConfusion hx
    have hcount : (BktrAesCtrExStorageBlock.mk bc ps top buckets).entryCount (bc - 1) =
        x.entry_count := by
      simp [BktrAesCtrExStorageBlock.entryCount, hx]
    rw [hcount] at hs hec
    have hslot : x.entry_count + 1 < x.aes_ctr_ex_storage_entries.length := by
      simp only [BktrAesCtrExStorageBlock.entryAt, hx] at hs
      rcases Nat.lt_or_ge (x.entry_count + 1) x.aes_ctr_ex_storage_entries.length with h1 | h1
      · exact h1
      · rw [List.getElem?_eq_none h1] at hs
        exact absurd hs (by decide)
    obtain ⟨es1, hes1⟩ := storeAesCtrExEntry_some x.aes_ctr_ex_storage_entries x.entry_count
      indirect_offset generation (by omega)
    obtain ⟨hlen1, _, hsent1, hother1⟩ := storeAesCtrExEntry_spec _ _ _ _ _ hes1
    obtain ⟨es2, hes2⟩ := storeAesCtrExEntry_some es1 (x.entry_count + 1) section_size 0
      (by omega)
    obtain ⟨_, _, hsent2, hother2⟩ := storeAesCtrExEntry_spec _ _ _ _ _ hes2
    have hidx2 : (x.entry_count + 1) % 2 ^ 32 = x.entry_count + 1 := Nat.mod_eq_of_lt hec
    refine ⟨⟨bc, ps, top, buckets.set (bc - 1) ⟨x.entry_count, es2⟩⟩, ?_, ?_, ?_, ?_, ?_⟩
    · unfold lastAesCtrExSentinels bktrGetAesCtrExStorageBucket
      simp only [hidx]
      rw [if_neg (by omega)]
      simp only [hx, hes1, hidx2, hes2]
    · rw [aesctrex_entryCount_set _ _ _ _ _ _ hp, if_pos rfl,
        aesctrex_entryAt_set _ _ _ _ _ _ hp, if_pos rfl]
      show es2[x.entry_count]? = _
      rw [hother2 _ (by omega)]
      exact hsent1
    · rw [aesctrex_entryCount_set _ _ _ _ _ _ hp, if_pos rfl,
        aesctrex_entryAt_set _ _ _ _ _ _ hp, if_pos rfl]
      exact hsent2
    · intro b
      rw [aesctrex_entryCount_set _ _ _ _ _ _ hp]
      by_cases hbp : b = bc - 1
      · rw [if_pos hbp, hbp, hcount]
      · rw [if_neg hbp]
    · intro b i hi
      rw [aesctrex_entryAt_set _ _ _ _ _ _ hp]
      by_cases hbp : b = bc - 1
      · rw [if_pos hbp]
        subst hbp
        rw [hcount] at hi
        show es2[i]? = _
        rw [hother2 i (by omega), hother1 i (by omega)]
        simp [BktrAesCtrExStorageBlock.entryAt, hx]
      · rw [if_neg hbp]

/-- C16: on every state of the two blocks in which bootstrap reaches the last-bucket sentinel
step with `bucket_count ≥ 1` in both and the written slots inside the memory of the last
buckets, the step ends and afterwards (a) the slot `entries[entry_count]` of the last
Indirect bucket has `virtual_offset = virtual_size`, (b) the slot `entries[entry_count]` of
the last AesCtrEx bucket is `{indirect_bucket.offset, aes_ctr_upper_iv.generation}`, (c) its
slot `entries[entry_count + 1]` is `{section_size, 0}`; the counts are unchanged and no real
entry (index below `entry_count`) of any bucket is changed. -/
theorem last_bucket_sentinels (ib : BktrIndirectStorageBlock) (ab : BktrAesCtrExStorageBlock)
    (indirect_offset generation section_size : Nat)
    (hbi : 1 ≤ ib.bucket_count) (hbwi : ib.bucket_count < 2 ^ 32)
    (hba : 1 ≤ ab.bucket_count) (hbwa : ab.bucket_count < 2 ^ 32)
    (hsi : (ib.entryAt (ib.bucket_count - 1)
      (ib.entryCount (ib.bucket_count - 1))).isSome = true)
    (hsa : (ab.entryAt (ab.bucket_count - 1)
      (ab.entryCount (ab.bucket_count - 1) + 1)).isSome = true)
    (hec : ab.entryCount (ab.bucket_count - 1) + 1 < 2 ^ 32) :
    ∃ nib nab, lastIndirectSentinel ib = some nib ∧
      lastAesCtrExSentinels ab indirect_offset generation section_size = some nab ∧
      (∃ s, nib.entryAt (ib.bucket_count - 1) (nib.entryCount (ib.bucket_count - 1)) = some s ∧
        s.virtual_offset = ib.virtual_size) ∧
      nab.entryAt (ab.bucket_count - 1) (nab.entryCount (ab.bucket_count - 1)) =
        some ⟨indirect_offset, generation⟩ ∧
      nab.entryAt (ab.bucket_count - 1) (nab.entryCount (ab.bucket_count - 1) + 1) =
        some ⟨section_size, 0⟩ ∧
      (∀ b, nib.entryCount b = ib.entryCount b) ∧ (∀ b, nab.entryCount b = ab.entryCount b) ∧
      (∀ b i, i < ib.entryCount b → nib.entryAt b i = ib.entryAt b i) ∧
      (∀ b i, i < ab.entryCount b → nab.entryAt b i = ab.entryAt b i) := by
  obtain ⟨nib, h1, h2, h3, h4⟩ := lastIndirectSentinel_spec ib hbi hbwi hsi
  obtain ⟨nab, g1, g2, g3, g4, g5⟩ := lastAesCtrExSentinels_spec ab indirect_offset generation
    section_size hba hbwa hsa hec
  exact ⟨nib, nab, h1, g1, h2, g2, g3, h3, g4, h4, g5⟩

theorem last_bucket_sentinels_witness :
    ∃ nib nab,
      lastIndirectSentinel ⟨1, 0x8000, [0], [⟨2, [⟨0, 0, 0⟩, ⟨0x2000, 0, 1⟩, ⟨0, 0, 0⟩]⟩]⟩ =
        some nib ∧
      lastAesCtrExSentinels ⟨1, 0x5000, [0], [⟨2, [⟨0, 5⟩, ⟨0x1000, 6⟩, ⟨0, 0⟩, ⟨0, 0⟩]⟩]⟩
        0x4000 7 0x6000 = some nab ∧
      (∃ s, nib.entryAt (1 - 1) (nib.entryCount (1 - 1)) = some s ∧
        s.virtual_offset = 0x8000) ∧
      nab.entryAt (1 - 1) (nab.entryCount (1 - 1)) = some ⟨0x4000, 7⟩ ∧
      nab.entryAt (1 - 1) (nab.entryCount (1 - 1) + 1) = some ⟨0x6000, 0⟩ ∧
      (∀ b, nib.entryCount b = (BktrIndirectStorageBlock.mk 1 0x8000 [0]
        [⟨2, [⟨0, 0, 0⟩, ⟨0x2000, 0, 1⟩, ⟨0, 0, 0⟩]⟩]).entryCount b) ∧
      (∀ b, nab.entryCount b = (BktrAesCtrExStorageBlock.mk 1 0x5000 [0]
        [⟨2, [⟨0, 5⟩, ⟨0x1000, 6⟩, ⟨0, 0⟩, ⟨0, 0⟩]⟩]).entryCount b) ∧
      (∀ b i, i < (BktrIndirectStorageBlock.mk 1 0x8000 [0]
          [⟨2, [⟨0, 0, 0⟩, ⟨0x2000, 0, 1⟩, ⟨0, 0, 0⟩]⟩]).entryCount b →
        nib.entryAt b i = (BktrIndirectStorageBlock.mk 1 0x8000 [0]
          [⟨2, [⟨0, 0, 0⟩, ⟨0x2000, 0, 1⟩, ⟨0, 0, 0⟩]⟩]).entryAt b i) ∧
      (∀ b i, i < (BktrAesCtrExStorageBlock.mk 1 0x5000 [0]
          [⟨2, [⟨0, 5⟩, ⟨0x1000, 6⟩, ⟨0, 0⟩, ⟨0, 0⟩]⟩]).entryCount b →
        nab.entryAt b i = (BktrAesCtrExStorageBlock.mk 1 0x5000 [0]
          [⟨2, [⟨0, 5⟩, ⟨0x1000, 6⟩, ⟨0, 0⟩, ⟨0, 0⟩]⟩]).entryAt b i) :=
  last_bucket_sentinels ⟨1, 0x8000, [0], [⟨2, [⟨0, 0, 0⟩, ⟨0x2000, 0, 1⟩, ⟨0, 0, 0⟩]⟩]⟩
    ⟨1, 0x5000, [0], [⟨2, [⟨0, 5⟩, ⟨0x1000, 6⟩, ⟨0, 0⟩, ⟨0, 0⟩]⟩]⟩ 0x4000 7 0x6000
    (by decide) (by decide) (by decide) (by decide) (by decide) (by decide) (by decide)

end SentinelClaims

section Monotonicity

/-- C18, counterexample.  The AesCtrEx block `diskAesCtrEx` is well formed on disk and is
accepted by bootstrap for the update section of size `0x6000` whose Indirect block occupies
`[0x4000, 0x5000)`: its `physical_size` is the offset `0x5000` of the AesCtrEx block.  After
the re-lay and the sentinel steps the entry at index `entry_count` of its last bucket is
`{0x4000, 7}`: its key is the offset `0x4000` of the Indirect block, not `physical_size`. -/
theorem aesctrex_last_sentinel_is_indirect_offset :
    DiskTreeWF diskAesCtrEx.bucket_count 0x4000 diskAesCtrEx.physical_offsets
        diskAesCtrEx.keyBuckets ∧
      diskAesCtrEx.physical_size = 0x4000 + 0x1000 ∧
      normaliseAesCtrEx diskAesCtrEx zeroAesCtrExRoom 0x4000 7 0x6000 = some sampleAesCtrEx ∧
      sampleAesCtrEx.entryAt (sampleAesCtrEx.bucket_count - 1)
        (sampleAesCtrEx.entryCount (sampleAesCtrEx.bucket_count - 1)) = some ⟨0x4000, 7⟩ ∧
      (0x4000 : Nat) ≠ sampleAesCtrEx.physical_size := by
  refine ⟨by decide, by decide, by decide, by decide, by decide⟩

/-- C18 (amended): for every Indirect block and every AesCtrEx block that are well formed on
disk, with room for the sentinels behind the buckets, and for header values with
`indirect_offset < physical_size ≤ section_size`, the re-lay and the sentinel steps end and
leave well-formed normalised blocks: in every bucket the keys of `entries[0..entry_count]`
(sentinel included) are strictly increasing, `entries[entry_count].key` equals the first key
of the next bucket for every bucket that has one, and for the last bucket it equals
`virtual_size` in the Indirect block and `indirect_offset` (the start of the Indirect block
on disk, not `physical_size`) in the AesCtrEx block, where the slot behind it holds
`section_size`. -/
theorem normalised_blocks_well_formed (ib : BktrIndirectStorageBlock)
    (roomi : Nat → List BktrIndirectStorageEntry) (ab : BktrAesCtrExStorageBlock)
    (rooma : Nat → List BktrAesCtrExStorageEntry) (indirect_offset generation section_size : Nat)
    (hid : DiskTreeWF ib.bucket_count ib.virtual_size ib.virtual_offsets ib.keyBuckets)
    (hiroom : ∀ b, b < ib.bucket_count → 0 < (roomi b).length)
    (had : DiskTreeWF ab.bucket_count indirect_offset ab.physical_offsets ab.keyBuckets)
    (haroom : ∀ b, b < ab.bucket_count → 0 < (rooma b).length)
    (haroom2 : 2 ≤ (rooma (ab.bucket_count - 1)).length)
    (hlo : indirect_offset < ab.physical_size) (hhi : ab.physical_size ≤ section_size)
    (hss : section_size < 2 ^ 64) :
    (∃ nib, normaliseIndirect ib roomi = some nib ∧ IndirectWF nib ∧
      slotKey nib.keyBuckets (nib.bucket_count - 1)
        (bucketAt nib.keyBuckets (nib.bucket_count - 1)).entry_count = ib.virtual_size) ∧
    (∃ nab, normaliseAesCtrEx ab rooma indirect_offset generation section_size = some nab ∧
      AesCtrExWF nab indirect_offset section_size ∧
      slotKey nab.keyBuckets (nab.bucket_count - 1)
        (bucketAt nab.keyBuckets (nab.bucket_count - 1)).entry_count = indirect_offset) := by
  constructor
  · have hlen : ib.bucket_count ≤ ib.indirect_storage_buckets.length := by
      have h := hid.2.2.2.1
      simpa [BktrIndirectStorageBlock.keyBuckets] using h
    obtain ⟨nib, hrun, h1, h2, h3, h4, hb⟩ := normaliseIndirect_buckets ib roomi hid.1 hid.2.1
      hlen hid.2.2.1 (fun b hb => (hid.2.2.2.2.2.1 b hb).2.2.1) hiroom
    have hwf : IndirectWF nib := by
      unfold IndirectWF
      rw [h1, h2, h3]
      apply tree_of_disk ib.bucket_count ib.virtual_size ib.virtual_offsets ib.keyBuckets
        nib.keyBuckets hid
      · simp only [BktrIndirectStorageBlock.keyBuckets, List.length_map]
        omega
      · intro b hlt
        obtain ⟨hc, hreal, s, hs, hkey⟩ := hb b hlt
        rw [indirect_entryCount, indirect_entryCount, hc]
        refine ⟨rfl, indirect_entryAt_lt nib b _ s hs, ?_, ?_⟩
        · intro j hj
          obtain ⟨hsame, hsome⟩ := hreal j hj
          obtain ⟨e, he⟩ := Option.isSome_iff_exists.mp hsome
          rw [indirect_entryAt_key nib b j e (hsame.trans he),
            indirect_entryAt_key ib b j e he]
        · rw [indirect_entryAt_key nib b _ s hs]
          exact hkey
    exact ⟨nib, hrun, hwf, h2 ▸ hwf.2.2.2.2.2.2.2.2.2⟩
  · have hlen : ab.bucket_count ≤ ab.aes_ctr_ex_storage_buckets.length := by
      have h := had.2.2.2.1
      simpa [BktrAesCtrExStorageBlock.keyBuckets] using h
    obtain ⟨nab, hrun, h1, h2, h3, h4, hb⟩ := normaliseAesCtrEx_buckets ab rooma
      indirect_offset generation section_size had.1 had.2.1 hlen
      (fun b hb => ⟨(had.2.2.2.2.2.1 b hb).1, (had.2.2.2.2.2.1 b hb).2.1,
        (had.2.2.2.2.2.1 b hb).2.2.1⟩) haroom haroom2
    have htree : TreeWF ab.bucket_count indirect_offset ab.physical_offsets nab.keyBuckets := by
      apply tree_of_disk ab.bucket_count indirect_offset ab.physical_offsets ab.keyBuckets
        nab.keyBuckets had
      · simp only [BktrAesCtrExStorageBlock.keyBuckets, List.length_map]
        omega
      · intro b hlt
        obtain ⟨hc, hreal, hnext, hlast⟩ := hb b hlt
        rw [aesctrex_entryCount, aesctrex_entryCount, hc]
        by_cases hnb : b + 1 < ab.bucket_count
        · obtain ⟨f, hf, hs⟩ := hnext hnb
          refine ⟨rfl, aesctrex_entryAt_lt nab b _ _ hs, ?_, ?_⟩
          · intro j hj
            obtain ⟨hsame, hsome⟩ := hreal j hj
            obtain ⟨e, he⟩ := Option.isSome_iff_exists.mp hsome
            rw [aesctrex_entryAt_key nab b j e (hsame.trans he),
              aesctrex_entryAt_key ab b j e he]
          · rw [aesctrex_entryAt_key nab b _ _ hs, if_pos hnb]
            show f.offset = _
            rw [← aesctrex_entryAt_key ab (b + 1) 0 f hf]
            exact had.2.2.2.2.2.2.2.1 (b + 1) hnb (by omega)
        · obtain ⟨hs, _⟩ := hlast (by omega)
          refine ⟨rfl, aesctrex_entryAt_lt nab b _ _ hs, ?_, ?_⟩
          · intro j hj
            obtain ⟨hsame, hsome⟩ := hreal j hj
            obtain ⟨e, he⟩ := Option.isSome_iff_exists.mp hsome
            rw [aesctrex_entryAt_key nab b j e (hsame.trans he),
              aesctrex_entryAt_key ab b j e he]
          · rw [aesctrex_entryAt_key nab b _ _ hs, if_neg hnb]
    obtain ⟨hcl, _, _, hlast⟩ := hb (ab.bucket_count - 1) (by have := had.1; omega)
    obtain ⟨_, hs2⟩ := hlast (by have := had.1; omega)
    have hwf : AesCtrExWF nab indirect_offset section_size := by
      unfold AesCtrExWF
      rw [h1, h2, h3]
      refine ⟨htree, ?_, ?_, hlo, hhi, hss⟩
      · rw [aesctrex_entryCount, hcl]
        exact aesctrex_entryAt_lt nab _ _ _ hs2
      · rw [aesctrex_entryCount, hcl, aesctrex_entryAt_key nab _ _ _ hs2]
    refine ⟨nab, hrun, hwf, ?_⟩
    rw [h1]
    exact htree.2.2.2.2.2.2.2.2.2

theorem normalised_blocks_well_formed_witness :
    (∃ nib, normaliseIndirect diskIndirect zeroIndirectRoom = some nib ∧ IndirectWF nib ∧
      slotKey nib.keyBuckets (nib.bucket_count - 1)
        (bucketAt nib.keyBuckets (nib.bucket_count - 1)).entry_count =
          diskIndirect.virtual_size) ∧
    (∃ nab, normaliseAesCtrEx diskAesCtrEx zeroAesCtrExRoom 0x4000 7 0x6000 = some nab ∧
      AesCtrExWF nab 0x4000 0x6000 ∧
      slotKey nab.keyBuckets (nab.bucket_count - 1)
        (bucketAt nab.keyBuckets (nab.bucket_count - 1)).entry_count = 0x4000) :=
  normalised_blocks_well_formed diskIndirect zeroIndirectRoom diskAesCtrEx zeroAesCtrExRoom
    0x4000 7 0x6000 (by decide) (by decide) (by decide) (by decide) (by decide) (by decide)
    (by decide) (by decide)

end Monotonicity

/-! ## Claims about bootstrap -/

section Bootstrap

theorem initialize_invalid (env : BootEnv) (out : BktrContextRecord)
    (base update : Option NcaFsSection) (h : invalidParameters env base update = true) :
    bktrInitializeContext env out base update = (Outcome.ret false, out, []) := by
  unfold bktrInitializeContext
  rw [if_pos h]

theorem bootRead_eq (out : BktrContextRecord) (calls : List BootCall) (read_size offset : Nat)
    (o : Outcome) (buf : Nat → Nat) (c : List BootCall)
    (h : bootRead out calls read_size offset = (o, buf, c)) :
    c = calls ++ (bktrPhysicalSectionRead out.ctx callBudget ⟨fun _ => 0, []⟩ 0 read_size
      offset).2.calls.map BootCall.resolver := by
  unfold bootRead at h
  injection h with _ h
  injection h with _ h
  exact h.symm

theorem bootRead_no_base_init (P : Prop) (out : BktrContextRecord) (calls : List BootCall)
    (read_size offset : Nat) (o : Outcome) (buf : Nat → Nat) (c : List BootCall)
    (h : bootRead out calls read_size offset = (o, buf, c))
    (hc : P → BootCall.romfsInitializeContext ∉ calls) :
    P → BootCall.romfsInitializeContext ∉ c := by
  intro hp
  rw [bootRead_eq out calls read_size offset o buf c h]
  simp [hc hp]

theorem fillPost_fault (out o : BktrContextRecord) (calls0 calls : List BootCall)
    (hc : BootCall.romfsInitializeContext ∉ calls0 → BootCall.romfsInitializeContext ∉ calls) :
    FillPost out calls0 (Outcome.fault, o, calls) :=
  ⟨fun h => Outcome.noConfusion h, hc, fun h => Outcome.noConfusion h⟩

theorem fillPost_diverge (out o : BktrContextRecord) (calls0 calls : List BootCall)
    (hc : BootCall.romfsInitializeContext ∉ calls0 → BootCall.romfsInitializeContext ∉ calls) :
    FillPost out calls0 (Outcome.diverge, o, calls) :=
  ⟨fun h => Outcome.noConfusion h, hc, fun h => Outcome.noConfusion h⟩

theorem fillPost_failed (out o : BktrContextRecord) (calls0 calls : List BootCall)
    (hc : BootCall.romfsInitializeContext ∉ calls0 → BootCall.romfsInitializeContext ∉ calls) :
    FillPost out calls0 (initializeEnd false o calls) :=
  ⟨fun _ => rfl, hc, fun h => Outcome.noConfusion h (fun h2 => Bool.noConfusion h2)⟩

theorem fillPost_done (out o : BktrContextRecord) (calls0 calls : List BootCall)
    (hc : BootCall.romfsInitializeContext ∉ calls0 → BootCall.romfsInitializeContext ∉ calls)
    (h1 : o.ctx.missing_base_romfs = out.ctx.missing_base_romfs)
    (h2 : o.base_romfs_ready = out.base_romfs_ready)
    (h3 : o.ctx.base_nca_fs_ctx.isSome = out.ctx.base_nca_fs_ctx.isSome) :
    FillPost out calls0 (initializeEnd true o calls) :=
  ⟨fun h => Outcome.noConfusion h (fun h2 => Bool.noConfusion h2), hc, fun _ => ⟨h1, h2, h3⟩⟩

theorem not_mem_append_single (P : Prop) (calls : List BootCall) (c : BootCall)
    (hc : P → BootCall.romfsInitializeContext ∉ calls)
    (h : c ≠ BootCall.romfsInitializeContext) :
    P → BootCall.romfsInitializeContext ∉ calls ++ [c] := by
  intro hp
  simp [hc hp, Ne.symm h]

/-- The part of bootstrap that reads the header and the tables keeps `FillPost`. -/
theorem tables_post (env : BootEnv) (out0 out : BktrContextRecord) (calls0 calls : List BootCall)
    (hc : BootCall.romfsInitializeContext ∉ calls0 → BootCall.romfsInitializeContext ∉ calls)
    (h1 : out.ctx.missing_base_romfs = out0.ctx.missing_base_romfs)
    (h2 : out.base_romfs_ready = out0.base_romfs_ready)
    (h3 : out.ctx.base_nca_fs_ctx.isSome = out0.ctx.base_nca_fs_ctx.isSome) :
    FillPost out0 calls0 (bktrInitializeContextTables env out calls) := by
  unfold bktrInitializeContextTables
  split
  · rename_i hr
    exact fillPost_fault _ _ _ _ (bootRead_no_base_init _ _ _ _ _ _ _ _ hr hc)
  · rename_i hr
    exact fillPost_diverge _ _ _ _ (bootRead_no_base_init _ _ _ _ _ _ _ _ hr hc)
  · rename_i hr
    exact fillPost_failed _ _ _ _ (bootRead_no_base_init _ _ _ _ _ _ _ _ hr hc)
  · rename_i header_bytes calls1 hr
    have hc1 := bootRead_no_base_init _ _ _ _ _ _ _ _ hr hc
    simp only []
    split
    · exact fillPost_failed _ _ _ _ hc1
    · split
      · exact fillPost_failed _ _ _ _ hc1
      · split
        · exact fillPost_failed _ _ _ _ (not_mem_append_single _ _ _ hc1 (by simp))
        · have hc2 := not_mem_append_single _ calls1
            (BootCall.malloc (env.decodeHeader header_bytes).directory_entry_size) hc1 (by simp)
          split
          · rename_i hr2
            exact fillPost_fault _ _ _ _ (bootRead_no_base_init _ _ _ _ _ _ _ _ hr2 hc2)
          · rename_i hr2
            exact fillPost_diverge _ _ _ _ (bootRead_no_base_init _ _ _ _ _ _ _ _ hr2 hc2)
          · rename_i hr2
            exact fillPost_failed _ _ _ _ (bootRead_no_base_init _ _ _ _ _ _ _ _ hr2 hc2)
          · rename_i dir_table calls2 hr2
            have hc3 := bootRead_no_base_init _ _ _ _ _ _ _ _ hr2 hc2
            split
            · exact fillPost_failed _ _ _ _ hc3
            · split
              · exact fillPost_failed _ _ _ _ (not_mem_append_single _ _ _ hc3 (by simp))
              · have hc4 := not_mem_append_single _ calls2
                  (BootCall.malloc (env.decodeHeader header_bytes).file_entry_size) hc3 (by simp)
                split
                · rename_i hr3
                  exact fillPost_fault _ _ _ _ (bootRead_no_base_init _ _ _ _ _ _ _ _ hr3 hc4)
                · rename_i hr3
                  exact fillPost_diverge _ _ _ _ (bootRead_no_base_init _ _ _ _ _ _ _ _ hr3 hc4)
                · rename_i hr3
                  exact fillPost_failed _ _ _ _ (bootRead_no_base_init _ _ _ _ _ _ _ _ hr3 hc4)
                · rename_i hr3
                  exact fillPost_done _ _ _ _ (bootRead_no_base_init _ _ _ _ _ _ _ _ hr3 hc4)
                    h1 h2 h3

/-- The part of bootstrap that follows the base RomFS step keeps `FillPost`. -/
theorem fill_post (env : BootEnv) (out : BktrContextRecord) (u : NcaFsSection)
    (calls : List BootCall) : FillPost out calls (bktrInitializeContextFill env out u calls) := by
  unfold bktrInitializeContextFill
  simp only []
  have hc1 := fun n => not_mem_append_single (BootCall.romfsInitializeContext ∉ calls) calls
    (BootCall.calloc n) id (by simp)
  split
  · exact fillPost_failed _ _ _ _ (hc1 _)
  · have hc2 := fun n a b => not_mem_append_single _ _ (BootCall.ncaReadFsSection a b) (hc1 n)
      (by simp)
    split
    · exact fillPost_failed _ _ _ _ (hc2 _ _ _)
    · have hc3 := fun n a b k => not_mem_append_single _ _ (BootCall.calloc k) (hc2 n a b)
        (by simp)
      split
      · exact fillPost_failed _ _ _ _ (hc3 _ _ _ _)
      · have hc4 := fun n a b k c d =>
          not_mem_append_single _ _ (BootCall.ncaReadFsSection c d) (hc3 n a b k) (by simp)
        split
        · exact fillPost_failed _ _ _ _ (hc4 _ _ _ _ _ _)
        · split
          · exact fillPost_failed _ _ _ _ (hc4 _ _ _ _ _ _)
          · have hc5 := fun n a b k c d =>
              not_mem_append_single _ _ BootCall.ncaGetFsSectionHashTargetProperties
                (hc4 n a b k c d) (by simp)
            split
            · split
              · exact fillPost_failed _ _ _ _ (hc5 _ _ _ _ _ _)
              · exact tables_post env out _ _ _ (hc5 _ _ _ _ _ _) rfl rfl rfl
            · exact fillPost_fault _ _ _ _ (hc4 _ _ _ _ _ _)

end Bootstrap

section BootstrapSample

set_option maxRecDepth 100000 in
/-- On the samples bootstrap succeeds and leaves the blocks and the region of `sampleCtx`. -/
theorem bootstrap_sample_succeeds :
    (bktrInitializeContext sampleEnv emptyContextRecord (some sampleBaseSection)
        (some sampleUpdateSection)).1 = Outcome.ret true ∧
      (bktrInitializeContext sampleEnv emptyContextRecord (some sampleBaseSection)
        (some sampleUpdateSection)).2.1.ctx.indirect_block = some sampleIndirect ∧
      (bktrInitializeContext sampleEnv emptyContextRecord (some sampleBaseSection)
        (some sampleUpdateSection)).2.1.ctx.aes_ctr_ex_block = some sampleAesCtrEx ∧
      (bktrInitializeContext sampleEnv emptyContextRecord (some sampleBaseSection)
        (some sampleUpdateSection)).2.1.ctx.offset = 0x100 ∧
      (bktrInitializeContext sampleEnv emptyContextRecord (some sampleBaseSection)
        (some sampleUpdateSection)).2.1.ctx.size = 0x7000 ∧
      (bktrInitializeContext sampleEnv emptyContextRecord (some sampleBaseSection)
        (some sampleUpdateSection)).2.1.ctx.body_offset = 0x200 ∧
      (bktrInitializeContext sampleEnv emptyContextRecord (some sampleBaseSection)
        (some sampleUpdateSection)).2.1.ctx.missing_base_romfs = false := by
  refine ⟨by decide, by decide, by decide, by decide, by decide, by decide, by decide⟩

end BootstrapSample

section BootstrapClaims

/-- For every output context and every pair of section handles, `bktrInitializeContext`
returns `false`, makes no collaborator call (no section read) and leaves the output context
exactly as it was (an empty context stays empty) whenever the header check finds
`ind.off + ind.sz ≠ aes.off`, `aes.off + aes.sz ≠ section_size` on the sums as the code
computes them in `u64`, which are the true sums when these fit 64 bits, a magic word that
read big-endian is not `"BKTR"`, a version that is not the supported one, a base and an
update that differ in program id, content type or id offset, or
`base.title_version > update.title_version`.  Sums that wrap are not covered: the check of
lines 50-51 lets them pass. -/
theorem header_validation_rejects (env : BootEnv) (out : BktrContextRecord) (b u : NcaFsSection)
    (base_nca_ctx update_nca_ctx : NcaContext)
    (hb : b.nca_ctx = some base_nca_ctx) (hu : u.nca_ctx = some update_nca_ctx)
    (h : add64 u.indirect_bucket.offset u.indirect_bucket.size ≠ u.aes_ctr_ex_bucket.offset ∨
      add64 u.aes_ctr_ex_bucket.offset u.aes_ctr_ex_bucket.size ≠ u.section_size ∨
      (u.indirect_bucket.offset + u.indirect_bucket.size < 2 ^ 64 ∧
        u.indirect_bucket.offset + u.indirect_bucket.size ≠ u.aes_ctr_ex_bucket.offset) ∨
      (u.aes_ctr_ex_bucket.offset + u.aes_ctr_ex_bucket.size < 2 ^ 64 ∧
        u.aes_ctr_ex_bucket.offset + u.aes_ctr_ex_bucket.size ≠ u.section_size) ∨
      bswap32 u.indirect_bucket.magic ≠ NCA_BKTR_MAGIC ∨
      bswap32 u.aes_ctr_ex_bucket.magic ≠ NCA_BKTR_MAGIC ∨
      u.indirect_bucket.version ≠ env.NCA_BKTR_VERSION ∨
      u.aes_ctr_ex_bucket.version ≠ env.NCA_BKTR_VERSION ∨
      base_nca_ctx.program_id ≠ update_nca_ctx.program_id ∨
      base_nca_ctx.content_type ≠ update_nca_ctx.content_type ∨
      base_nca_ctx.id_offset ≠ update_nca_ctx.id_offset ∨
      base_nca_ctx.title_version > update_nca_ctx.title_version) :
    bktrInitializeContext env out (some b) (some u) = (Outcome.ret false, out, []) := by
  apply initialize_invalid
  unfold invalidParameters
  simp only [hb, hu]
  rcases h with h | h | ⟨hw, h⟩ | ⟨hw, h⟩ | h | h | h | h | h | h | h | h
  · simp [h]
  · simp [h]
  · have h2 : add64 u.indirect_bucket.offset u.indirect_bucket.size ≠
        u.aes_ctr_ex_bucket.offset := by
      rw [add64_eq _ _ hw]
      exact h
    simp [h2]
  · have h2 : add64 u.aes_ctr_ex_bucket.offset u.aes_ctr_ex_bucket.size ≠ u.section_size := by
      rw [add64_eq _ _ hw]
      exact h
    simp [h2]
  · simp [h]
  · simp [h]
  · simp [h]
  · simp [h]
  · simp [h]
  · simp [h]
  · simp [h]
  · simp [h]

theorem header_validation_rejects_witness :
    invalidParameters sampleEnv (some sampleBaseSection) (some sampleUpdateSection) = false ∧
      bktrInitializeContext sampleEnv filledContextRecord (some sampleBaseSection)
        (some gapUpdateSection) = (Outcome.ret false, filledContextRecord, []) ∧
      bktrInitializeContext sampleEnv emptyContextRecord (some sampleBaseSection)
        (some gapUpdateSection) = (Outcome.ret false, emptyContextRecord, []) :=
  ⟨by decide,
    header_validation_rejects sampleEnv filledContextRecord sampleBaseSection gapUpdateSection
      ⟨0x1000, 0, 0, 0, false, false⟩ ⟨0x1000, 0, 0, 0x10000, false, false⟩ rfl rfl
      (Or.inl (by decide)),
    header_validation_rejects sampleEnv emptyContextRecord sampleBaseSection gapUpdateSection
      ⟨0x1000, 0, 0, 0, false, false⟩ ⟨0x1000, 0, 0, 0x10000, false, false⟩ rfl rfl
      (Or.inr (Or.inr (Or.inl ⟨by decide, by decide⟩)))⟩

/-- C13, counterexample.  The output context `filledContextRecord` was filled by an earlier
bootstrap.  With the update section `gapUpdateSection`, whose header places the AesCtrEx
block at `0x5800` and not behind the Indirect block at `0x5000`, `bktrInitializeContext`
returns `false` at the header check, before `bktrFreeContext`: the context still holds both
blocks and both tables, it is not in the empty state. -/
theorem validation_failure_keeps_context :
    (bktrInitializeContext sampleEnv filledContextRecord (some sampleBaseSection)
        (some gapUpdateSection)).1 = Outcome.ret false ∧
      (bktrInitializeContext sampleEnv filledContextRecord (some sampleBaseSection)
        (some gapUpdateSection)).2.1.ctx.indirect_block = some sampleIndirect ∧
      (bktrInitializeContext sampleEnv filledContextRecord (some sampleBaseSection)
        (some gapUpdateSection)).2.1.ctx.aes_ctr_ex_block = some sampleAesCtrEx ∧
      (bktrInitializeContext sampleEnv filledContextRecord (some sampleBaseSection)
        (some gapUpdateSection)).2.1.dir_table.isSome = true ∧
      (bktrInitializeContext sampleEnv filledContextRecord (some sampleBaseSection)
        (some gapUpdateSection)).2.1.file_table.isSome = true ∧
      emptyContextRecord.ctx.indirect_block = none ∧
      emptyContextRecord.dir_table.isSome = false := by
  rw [initialize_invalid sampleEnv filledContextRecord (some sampleBaseSection)
    (some gapUpdateSection) (by decide)]
  exact ⟨rfl, rfl, rfl, rfl, rfl, rfl, rfl⟩

/-- C13 (amended): for every input and every incoming state of the output context, when
`bktrInitializeContext` returns `false` at the argument and header check the output context
is exactly as it was on entry, and no collaborator was called; whenever it returns `false`
after that check (sparse base, failed base RomFS initialisation, failed allocation, failed
read, `physical_size` mismatch, bad RomFS header or tables) the output context is in the
empty state on return. -/
theorem bootstrap_failure_state (env : BootEnv) (out : BktrContextRecord)
    (base update : Option NcaFsSection) :
    (invalidParameters env base update = true →
      bktrInitializeContext env out base update = (Outcome.ret false, out, [])) ∧
    (invalidParameters env base update = false →
      (bktrInitializeContext env out base update).1 = Outcome.ret false →
      (bktrInitializeContext env out base update).2.1 = emptyContextRecord) := by
  refine ⟨initialize_invalid env out base update, ?_⟩
  intro hvalid
  unfold bktrInitializeContext
  rw [hvalid]
  simp only [Bool.false_eq_true, if_false]
  cases base with
  | none => simp [invalidParameters] at hvalid
  | some b =>
    cases update with
    | none => simp [invalidParameters] at hvalid
    | some u =>
      simp only []
      split
      · rename_i hm
        have hm2 : (!b.enabled || b.section_type != NcaFsSectionType.RomFs) = false := by
          simpa using hm
        split
        · split
          · exact (fill_post env _ u _).1
          · intro _
            simp only [hm2]
            rfl
        · intro _
          simp only [hm2]
          rfl
      · exact (fill_post env _ u _).1

theorem bootstrap_failure_state_witness :
    bktrInitializeContext sampleEnv filledContextRecord (some sampleBaseSection)
        (some gapUpdateSection) = (Outcome.ret false, filledContextRecord, []) ∧
      (bktrInitializeContext sampleEnv filledContextRecord (some sparseBaseSection)
        (some sampleUpdateSection)).2.1 = emptyContextRecord :=
  ⟨(bootstrap_failure_state sampleEnv filledContextRecord (some sampleBaseSection)
      (some gapUpdateSection)).1 (by decide),
    (bootstrap_failure_state sampleEnv filledContextRecord (some sparseBaseSection)
      (some sampleUpdateSection)).2 (by decide) (by decide)⟩

/-- C14: for every input that passes the argument and header check, if the base section is
enabled, has section type RomFS and has a sparse layer, `bktrInitializeContext` returns
`false` without any collaborator call, so without reading either storage block from the
update section; and if the base section is disabled or its type is not RomFS, it sets
`missing_base_romfs = true` and goes on to fill the context without a call of
`romfsInitializeContext`: a run that returns `true` leaves `missing_base_romfs = true` and
no base read context. -/
theorem sparse_base_rejected_missing_base_tolerated (env : BootEnv) (out : BktrContextRecord)
    (b u : NcaFsSection) (hvalid : invalidParameters env (some b) (some u) = false) :
    (b.enabled = true → b.section_type = NcaFsSectionType.RomFs → b.has_sparse_layer = true →
      bktrInitializeContext env out (some b) (some u) =
        (Outcome.ret false, emptyContextRecord, [])) ∧
    (b.enabled = false ∨ b.section_type ≠ NcaFsSectionType.RomFs →
      bktrInitializeContext env out (some b) (some u) =
        bktrInitializeContextFill env
          ⟨⟨0, 0, 0, true, none, none, none, none⟩, false, 0, 0, ⟨0, 0, 0, 0, 0, 0⟩, 0, none, 0,
            none, 0⟩ u [] ∧
      BootCall.romfsInitializeContext ∉ (bktrInitializeContext env out (some b) (some u)).2.2 ∧
      ((bktrInitializeContext env out (some b) (some u)).1 = Outcome.ret true →
        (bktrInitializeContext env out (some b) (some u)).2.1.ctx.missing_base_romfs = true ∧
        (bktrInitializeContext env out (some b) (some u)).2.1.base_romfs_ready = false ∧
        (bktrInitializeContext env out (some b) (some u)).2.1.ctx.base_nca_fs_ctx.isSome =
          false)) := by
  constructor
  · intro h1 h2 h3
    unfold bktrInitializeContext
    rw [hvalid]
    simp [h1, h2, h3, bktrFreeContext, emptyContextRecord]
  · intro h
    have hm : (!b.enabled || b.section_type != NcaFsSectionType.RomFs) = true := by
      rcases h with h | h
      · simp [h]
      · simp [h]
    have heq : bktrInitializeContext env out (some b) (some u) =
        bktrInitializeContextFill env
          ⟨⟨0, 0, 0, true, none, none, none, none⟩, false, 0, 0, ⟨0, 0, 0, 0, 0, 0⟩, 0, none, 0,
            none, 0⟩ u [] := by
      unfold bktrInitializeContext
      rw [hvalid]
      simp only [Bool.false_eq_true, if_false, hm, Bool.not_true]
      rfl
    rw [heq]
    obtain ⟨_, h2, h3⟩ := fill_post env
      ⟨⟨0, 0, 0, true, none, none, none, none⟩, false, 0, 0, ⟨0, 0, 0, 0, 0, 0⟩, 0, none, 0,
        none, 0⟩ u []
    exact ⟨rfl, h2 (by simp), h3⟩

theorem sparse_base_rejected_missing_base_tolerated_witness :
    bktrInitializeContext sampleEnv filledContextRecord (some sparseBaseSection)
        (some sampleUpdateSection) = (Outcome.ret false, emptyContextRecord, []) ∧
      BootCall.romfsInitializeContext ∉
        (bktrInitializeContext sampleEnv emptyContextRecord (some disabledBaseSection)
          (some sampleUpdateSection)).2.2 :=
  ⟨(sparse_base_rejected_missing_base_tolerated sampleEnv filledContextRecord sparseBaseSection
      sampleUpdateSection (by decide)).1 rfl rfl rfl,
    ((sparse_base_rejected_missing_base_tolerated sampleEnv emptyContextRecord
      disabledBaseSection sampleUpdateSection (by decide)).2 (Or.inl rfl)).2.1⟩

end BootstrapClaims

/-! ## Bootstrap: the tail room -/

section TailRoom

/-- End of the room of bucket `i` in the new layout, against the end of the buckets on disk
plus `k` entries. -/
theorem bucket_room_end (bucket_count entry_size i k : Nat) (hi : i < bucket_count)
    (hk : i + 1 ≤ k) :
    (sizeofBucket + entry_size) * i + sizeofBucket + entry_size ≤
      bucket_count * sizeofBucket + k * entry_size := by
  have h1 : (sizeofBucket + entry_size) * i = sizeofBucket * i + entry_size * i :=
    Nat.add_mul _ _ _
  have h2 : entry_size * i + entry_size ≤ k * entry_size := by
    rw [← Nat.mul_succ, Nat.mul_comm]
    exact Nat.mul_le_mul_right _ hk
  have h3 : sizeofBucket * i + sizeofBucket ≤ bucket_count * sizeofBucket := by
    rw [← Nat.mul_succ, Nat.mul_comm]
    exact Nat.mul_le_mul_right _ hi
  omega

theorem relayWrites_bound (bucket_count entry_size k : Nat) (hbw : bucket_count < 2 ^ 32)
    (hE : entry_size ≤ sizeofBucket) (hk : bucket_count ≤ k) :
    ∀ i, i < bucket_count → ∀ w, w ∈ relayWrites bucket_count entry_size i →
      w.1 + w.2 + entry_size ≤ bucket_count * sizeofBucket + k * entry_size := by
  intro i
  induction i with
  | zero =>
    intro _ w hw
    simp [relayWrites] at hw
  | succ i ih =>
    intro hi w hw
    rw [relayWrites, bucketAddress_eq bucket_count entry_size (i + 1) hi hbw hE] at hw
    rcases List.mem_cons.mp hw with h | h
    · subst h
      exact bucket_room_end bucket_count entry_size (i + 1) k hi (by omega)
    · exact ih (by omega) w h

theorem sentinelLoopWrites_bound (bucket_count entry_size entries_offset k : Nat)
    (counts : Nat → Nat) (hbw : bucket_count < 2 ^ 32) (hE : entry_size ≤ sizeofBucket)
    (hfit : ∀ i, i < bucket_count → entries_offset + counts i * entry_size ≤ sizeofBucket)
    (hk : bucket_count ≤ k) :
    ∀ remaining i, i + remaining ≤ bucket_count →
      ∀ w, w ∈ sentinelLoopWrites bucket_count entry_size entries_offset counts remaining i →
        w.1 + w.2 ≤ bucket_count * sizeofBucket + k * entry_size := by
  intro remaining
  induction remaining with
  | zero =>
    intro i _ w hw
    simp [sentinelLoopWrites] at hw
  | succ remaining ih =>
    intro i hi w hw
    rw [sentinelLoopWrites, bucketAddress_eq bucket_count entry_size i (by omega) hbw hE] at hw
    rcases List.mem_cons.mp hw with h | h
    · subst h
      have h1 := bucket_room_end bucket_count entry_size i k (by omega) (by omega)
      have h2 := hfit i (by omega)
      show (sizeofBucket + entry_size) * i + entries_offset + counts i * entry_size +
        entry_size ≤ _
      omega
    · exact ih (i + 1) (by omega) w h

/-- C23: for every `bucket_count` with `1 ≤ bucket_count ≤ 0x3FF0 / 8`, entry sizes
`E_ind`, `E_aes` and blocks whose buckets hold their entries inside the `sizeof(Bucket)`
bytes of the record (`E_aes > 0`), when the on-disk size of a block is at least
`header + bucket_count * sizeof(Bucket)`, every byte that the Indirect re-lay and sentinel
steps write lies below `on-disk size + (0x3FF0 / 8) * E_ind`, and every byte that the AesCtrEx
re-lay and sentinel steps write, the second trailing sentinel `entries[entry_count + 1]` of a
completely full last bucket included, lies below `on-disk size + (0x3FF0 / 8 + 1) * E_aes`. -/
theorem tail_room_suffices (header ind_size aes_size bucket_count_ind bucket_count_aes : Nat)
    (e_ind e_aes entries_offset_ind entries_offset_aes : Nat) (counts_ind counts_aes : Nat → Nat)
    (hbi : 1 ≤ bucket_count_ind) (hki : bucket_count_ind ≤ 0x3FF0 / 8)
    (hba : 1 ≤ bucket_count_aes) (hka : bucket_count_aes ≤ 0x3FF0 / 8)
    (hsi : header + bucket_count_ind * sizeofBucket ≤ ind_size)
    (hsa : header + bucket_count_aes * sizeofBucket ≤ aes_size)
    (hfi : ∀ i, i < bucket_count_ind →
      entries_offset_ind + counts_ind i * e_ind ≤ sizeofBucket)
    (hfa : ∀ i, i < bucket_count_aes →
      entries_offset_aes + counts_aes i * e_aes ≤ sizeofBucket)
    (hei : e_ind ≤ sizeofBucket) (hea : e_aes ≤ sizeofBucket) (hpa : 0 < e_aes) :
    (∀ w, w ∈ indirectWrites bucket_count_ind e_ind entries_offset_ind counts_ind →
      ∀ o, w.1 ≤ o → o < w.1 + w.2 → header + o < ind_size + (0x3FF0 / 8) * e_ind) ∧
    (∀ w, w ∈ aesCtrExWrites bucket_count_aes e_aes entries_offset_aes counts_aes →
      ∀ o, w.1 ≤ o → o < w.1 + w.2 → header + o < aes_size + (0x3FF0 / 8 + 1) * e_aes) := by
  have hidx : ∀ bc, 1 ≤ bc → bc ≤ 0x3FF0 / 8 → (bc + 2 ^ 32 - 1) % 2 ^ 32 = bc - 1 := by
    intro bc h1 h2
    omega
  constructor
  · intro w hw o h1 h2
    have hbw : bucket_count_ind < 2 ^ 32 := by omega
    have hbound : w.1 + w.2 ≤ bucket_count_ind * sizeofBucket + (0x3FF0 / 8) * e_ind := by
      unfold indirectWrites at hw
      rw [hidx _ hbi hki] at hw
      rcases List.mem_append.mp hw with h | h
      · rcases List.mem_append.mp h with h | h
        · have := relayWrites_bound bucket_count_ind e_ind (0x3FF0 / 8) hbw hei hki
            (bucket_count_ind - 1) (by omega) w h
          omega
        · exact sentinelLoopWrites_bound bucket_count_ind e_ind entries_offset_ind (0x3FF0 / 8)
            counts_ind hbw hei hfi hki (bucket_count_ind - 1) 0 (by omega) w h
      · unfold lastIndirectWrites at h
        rw [hidx _ hbi hki,
          bucketAddress_eq bucket_count_ind e_ind (bucket_count_ind - 1) (by omega) hbw hei] at h
        rw [List.mem_singleton] at h
        subst h
        have h3 := bucket_room_end bucket_count_ind e_ind (bucket_count_ind - 1) (0x3FF0 / 8)
          (by omega) (by omega)
        have h4 := hfi (bucket_count_ind - 1) (by omega)
        show (sizeofBucket + e_ind) * (bucket_count_ind - 1) + entries_offset_ind +
          counts_ind (bucket_count_ind - 1) * e_ind + e_ind ≤ _
        omega
    omega
  · intro w hw o h1 h2
    have hbw : bucket_count_aes < 2 ^ 32 := by omega
    have hbound : w.1 + w.2 ≤ bucket_count_aes * sizeofBucket + (0x3FF0 / 8 + 1) * e_aes := by
      unfold aesCtrExWrites at hw
      rw [hidx _ hba hka] at hw
      rcases List.mem_append.mp hw with h | h
      · rcases List.mem_append.mp h with h | h
        · have := relayWrites_bound bucket_count_aes e_aes (0x3FF0 / 8 + 1) hbw hea (by omega)
            (bucket_count_aes - 1) (by omega) w h
          omega
        · exact sentinelLoopWrites_bound bucket_count_aes e_aes entries_offset_aes
            (0x3FF0 / 8 + 1) counts_aes hbw hea hfa (by omega) (bucket_count_aes - 1) 0
            (by omega) w h
      · unfold lastAesCtrExWrites at h
        rw [hidx _ hba hka,
          bucketAddress_eq bucket_count_aes e_aes (bucket_count_aes - 1) (by omega) hbw hea] at h
        have h3 := bucket_room_end bucket_count_aes e_aes (bucket_count_aes - 1) (0x3FF0 / 8)
          (by omega) (by omega)
        have h4 := hfa (bucket_count_aes - 1) (by omega)
        have h8 : counts_aes (bucket_count_aes - 1) ≤
            counts_aes (bucket_count_aes - 1) * e_aes := Nat.le_mul_of_pos_right _ hpa
        have h9 : sizeofBucket = 0x4000 := rfl
        have h5 : (counts_aes (bucket_count_aes - 1) + 1) % 2 ^ 32 =
            counts_aes (bucket_count_aes - 1) + 1 := Nat.mod_eq_of_lt (by omega)
        have h6 : (counts_aes (bucket_count_aes - 1) + 1) * e_aes =
            counts_aes (bucket_count_aes - 1) * e_aes + e_aes := Nat.succ_mul _ _
        have h7 : (0x3FF0 / 8 + 1) * e_aes = (0x3FF0 / 8) * e_aes + e_aes := Nat.succ_mul _ _
        rw [h5, h6] at h
        rcases List.mem_cons.mp h with h | h
        · subst h
          show (sizeofBucket + e_aes) * (bucket_count_aes - 1) + entries_offset_aes +
            counts_aes (bucket_count_aes - 1) * e_aes + e_aes ≤ _
          omega
        · rw [List.mem_singleton] at h
          subst h
          show (sizeofBucket + e_aes) * (bucket_count_aes - 1) + entries_offset_aes +
            (counts_aes (bucket_count_aes - 1) * e_aes + e_aes) + e_aes ≤ _
          omega
    omega

theorem tail_room_suffices_witness :
    (∀ w, w ∈ indirectWrites (0x3FF0 / 8) 0x14 0x10 (fun _ => 818) →
      ∀ o, w.1 ≤ o → o < w.1 + w.2 →
        0x4000 + o < (0x4000 + (0x3FF0 / 8) * sizeofBucket) + (0x3FF0 / 8) * 0x14) ∧
    (∀ w, w ∈ aesCtrExWrites (0x3FF0 / 8) 0x10 0x10 (fun _ => 1023) →
      ∀ o, w.1 ≤ o → o < w.1 + w.2 →
        0x4000 + o < (0x4000 + (0x3FF0 / 8) * sizeofBucket) + (0x3FF0 / 8 + 1) * 0x10) :=
  tail_room_suffices 0x4000 (0x4000 + (0x3FF0 / 8) * sizeofBucket)
    (0x4000 + (0x3FF0 / 8) * sizeofBucket) (0x3FF0 / 8) (0x3FF0 / 8) 0x14 0x10 0x10 0x10
    (fun _ => 818) (fun _ => 1023) (by decide) (by decide) (by decide) (by decide)
    (by decide) (by decide)
    (fun _ _ => (by decide : 0x10 + 818 * 0x14 ≤ sizeofBucket))
    (fun _ _ => (by decide : 0x10 + 1023 * 0x10 ≤ sizeofBucket)) (by decide) (by decide)
    (by decide)

end TailRoom

/-! ## Bootstrap: the bucket indices -/

section BucketIndices

/-- With `1 ≤ bucket_count` every bucket index that the re-lay loop hands to the accessor
is below `bucket_count`: the loop ends without a `NULL`. -/
theorem relay_indices_exist (bucket_count entry_size : Nat) (area : Nat → Nat)
    (hbc : 1 ≤ bucket_count) (hbw : bucket_count < 2 ^ 32) (hE : entry_size ≤ sizeofBucket) :
    (relay bucket_count entry_size area).isSome = true := by
  have hidx : (bucket_count + 2 ^ 32 - 1) % 2 ^ 32 = bucket_count - 1 := by omega
  obtain ⟨final, hrun, _⟩ :=
    relayLoop_spec bucket_count entry_size hbw hE (bucket_count - 1) (by omega) area
  unfold relay
  rw [hidx, hrun]
  rfl

set_option maxRecDepth 100000 in
/-- C25, the code at the failing input.  For a block whose header has `bucket_count = 0` the
re-lay loop starts at the `u32` value `bucket_count - 1 = 0xFFFFFFFF`, which is not below
`bucket_count`: the accessor returns `NULL` for it and the second `memcpy` of the first
iteration writes to that pointer; the access to bucket `bucket_count - 1` as the last bucket
gets `NULL` in the same way.  Bootstrap on an update section whose Indirect block has
`bucket_count = 0` passes every check before line 123 and ends in that access. -/
theorem bootstrap_zero_bucket_count_uses_null :
    (0 + 2 ^ 32 - 1) % 2 ^ 32 = 0xFFFFFFFF ∧ ¬ (0xFFFFFFFF < zeroBucketIndirect.bucket_count) ∧
      bktrGetIndirectStorageBucket zeroBucketIndirect 0xFFFFFFFF = none ∧
      bktrGetAesCtrExStorageBucket zeroBucketAesCtrEx 0xFFFFFFFF = none ∧
      (∀ entry_size area, relay 0 entry_size area = none) ∧
      normaliseIndirect zeroBucketIndirect zeroIndirectRoom = none ∧
      normaliseAesCtrEx zeroBucketAesCtrEx zeroAesCtrExRoom 0x4000 7 0x6000 = none ∧
      lastIndirectSentinel zeroBucketIndirect = none ∧
      lastAesCtrExSentinels zeroBucketAesCtrEx 0x4000 7 0x6000 = none ∧
      invalidParameters zeroBucketEnv (some sampleBaseSection) (some sampleUpdateSection) =
        false ∧
      (bktrInitializeContext zeroBucketEnv emptyContextRecord (some sampleBaseSection)
        (some sampleUpdateSection)).1 = Outcome.fault := by
  refine ⟨by decide, by decide, by decide, by decide, ?_, by decide, by decide, by decide,
    by decide, by decide, by decide⟩
  intro entry_size area
  show relayLoop 0 entry_size (4294967294 + 1) area = none
  rw [relayLoop]
  rfl

end BucketIndices

/-! ## The entry behind a returned entry -/

section NextEntry

/-- Whatever the bucket holds, a slot `mid` that the search loop returns is the last real
entry, or the key of the slot behind it was read and is above `offset`. -/
theorem searchLoop_hit_next (keys : List Nat) (entry_count offset : Nat) :
    ∀ budget low high mid,
      searchLoop keys entry_count offset budget low high = SearchResult.hit mid →
      (∃ k1, keys[mid + 1]? = some k1 ∧ offset < k1) ∨
        mid = (entry_count + 2 ^ 32 - 1) % 2 ^ 32 := by
  intro budget
  induction budget with
  | zero => intro low high mid h; simp [searchLoop] at h
  | succ n ih =>
    intro low high mid h
    unfold searchLoop at h
    by_cases hlh : low ≤ high
    · simp only [hlh, if_true] at h
      cases hm : keys[((low + high) % 2 ^ 32) / 2]? with
      | none =>
        rw [hm] at h
        exact SearchResult.noConfusion h
      | some k =>
        simp only [hm] at h
        by_cases hk : k > offset
        · simp only [hk, if_true] at h
          exact ih _ _ _ h
        · simp only [hk, if_false] at h
          by_cases hlast : ((low + high) % 2 ^ 32) / 2 = (entry_count + 2 ^ 32 - 1) % 2 ^ 32
          · simp only [hlast, if_true] at h
            injection h with h
            exact Or.inr h.symm
          · simp only [hlast, if_false] at h
            cases hm1 : keys[((low + high) % 2 ^ 32) / 2 + 1]? with
            | none =>
              rw [hm1] at h
              exact SearchResult.noConfusion h
            | some k1 =>
              simp only [hm1] at h
              by_cases hk1 : k1 > offset
              · simp only [hk1, if_true] at h
                injection h with h
                subst h
                exact Or.inl ⟨k1, hm1, hk1⟩
              · simp only [hk1, if_false] at h
                exact ih _ _ _ h
    · simp [hlh] at h

theorem bucketSearch_hit_next (keys : List Nat) (entry_count offset mid : Nat)
    (hec : entry_count < 2 ^ 32)
    (h : bucketSearch entry_count keys offset = SearchResult.hit mid) :
    (∃ k1, keys[mid + 1]? = some k1 ∧ offset < k1) ∨ mid + 1 = entry_count := by
  unfold bucketSearch at h
  by_cases h0 : entry_count = 0
  · simp [h0] at h
  · simp only [h0, if_false] at h
    by_cases h1 : entry_count = 1
    · simp only [h1, if_true] at h
      injection h with h
      right
      omega
    · simp only [h1, if_false] at h
      rcases searchLoop_hit_next _ _ _ _ _ _ _ h with h2 | h2
      · exact Or.inl h2
      · right
        omega

/-- Over a top table that is nondecreasing on `[1, bucket_count)`, the bucket number that
the count loop yields is the last bucket, or the key of the next bucket in the top table is
above `offset`. -/
theorem bucketNumLoop_threshold (top : List Nat) (offset bucket_count : Nat)
    (hmono : ∀ i j, 1 ≤ i → i ≤ j → j < bucket_count → keyAt top i ≤ keyAt top j) :
    ∀ remaining i bucket_num r, i + remaining = bucket_count → 1 ≤ i →
      (bucket_num + 1 = i ∨ (bucket_num + 1 < i ∧ offset < keyAt top (bucket_num + 1))) →
      bucketNumLoop top offset remaining i bucket_num = some r →
      r + 1 = bucket_count ∨ (r + 1 < bucket_count ∧ offset < keyAt top (r + 1)) := by
  intro remaining
  induction remaining with
  | zero =>
    intro i bucket_num r hi _ hinv h
    simp only [bucketNumLoop] at h
    injection h with h
    subst h
    rcases hinv with h1 | h1
    · left
      omega
    · right
      exact ⟨by omega, h1.2⟩
  | succ remaining ih =>
    intro i bucket_num r hi h1 hinv h
    simp only [bucketNumLoop] at h
    cases ho : top[i]? with
    | none =>
      rw [ho] at h
      exact Option.noConfusion h
    | some o =>
      simp only [ho] at h
      have hkey : keyAt top i = o := by simp [keyAt, ho]
      refine ih (i + 1) _ r (by omega) (by omega) ?_ h
      rcases hinv with h2 | ⟨h2, h3⟩
      · by_cases hle : o ≤ offset
        · rw [if_pos hle]
          left
          omega
        · rw [if_neg hle]
          right
          refine ⟨by omega, ?_⟩
          rw [h2, hkey]
          omega
      · have h4 := hmono (bucket_num + 1) i (by omega) (by omega) (by omega)
        rw [hkey] at h4
        rw [if_neg (by omega)]
        right
        exact ⟨by omega, h3⟩

/-- What a run of the loop of lines 130-134 that ended has done, from counter `i` on. -/
theorem indirectSentinelLoop_inv (block : BktrIndirectStorageBlock) :
    ∀ remaining i (buckets res : List BktrIndirectStorageBucket),
      indirectSentinelLoop block remaining i buckets = some res →
      res.length = buckets.length ∧
      (∀ b, b < i ∨ i + remaining ≤ b → res[b]? = buckets[b]?) ∧
      (∀ b, i ≤ b → b < i + remaining → ∃ x es, buckets[b]? = some x ∧
        res[b]? = some ⟨x.entry_count, es⟩ ∧
        storeIndirectKey x.indirect_storage_entries x.entry_count
          (keyAt block.virtual_offsets (b + 1)) = some es) := by
  intro remaining
  induction remaining with
  | zero =>
    intro i buckets res h
    simp only [indirectSentinelLoop] at h
    injection h with h
    subst h
    refine ⟨rfl, fun b _ => rfl, ?_⟩
    intro b h1 h2
    omega
  | succ remaining ih =>
    intro i buckets res h
    rw [indirectSentinelLoop] at h
    unfold bktrGetIndirectStorageBucket at h
    by_cases hge : i ≥ block.bucket_count
    · simp [hge] at h
    · simp only [hge, if_false] at h
      cases hx : buckets[i]? with
      | none => simp [hx] at h
      | some x =>
        cases hkey : block.virtual_offsets[i + 1]? with
        | none => simp [hx, hkey] at h
        | some key =>
          simp only [hx, hkey] at h
          cases hes : storeIndirectKey x.indirect_storage_entries x.entry_count key with
          | none => simp [hes] at h
          | some es =>
            simp only [hes] at h
            obtain ⟨hlen, hout, hin⟩ := ih _ _ _ h
            have hkeyAt : keyAt block.virtual_offsets (i + 1) = key := by
              simp [keyAt, hkey]
            have hset : ∀ b, b ≠ i →
                (buckets.set i ⟨x.entry_count, es⟩)[b]? = buckets[b]? := by
              intro b hb
              simp [List.getElem?_set, Ne.symm hb]
            have hi : i < buckets.length := by
              rcases Nat.lt_or_ge i buckets.length with h1 | h1
              · exact h1
              · rw [List.getElem?_eq_none h1] at hx
                exact Option.noConfusion hx
            have hseti : (buckets.set i ⟨x.entry_count, es⟩)[i]? =
                some ⟨x.entry_count, es⟩ := by
              simp [List.getElem?_set, hi]
            refine ⟨?_, ?_, ?_⟩
            · rw [hlen, List.length_set]
            · intro b hb
              rw [hout b (by omega), hset b (by omega)]
            · intro b h1 h2
              rcases Nat.eq_or_lt_of_le h1 with heq | hlt
              · subst heq
                refine ⟨x, es, hx, ?_, ?_⟩
                · rw [hout i (Or.inl (by omega)), hseti]
                · rw [hkeyAt]
                  exact hes
              · obtain ⟨x2, es2, hx2, hres2, hst2⟩ := hin b (by omega) (by omega)
                exact ⟨x2, es2, by rw [← hset b (by omega)]; exact hx2, hres2, hst2⟩

/-- What the re-lay and the sentinel steps have done to an Indirect block when they ended:
the header and the top table are kept, and in every bucket the slot `entries[entry_count]`
is in memory and holds the key `virtual_offsets[b + 1]`, for the last bucket the key
`virtual_size`. -/
theorem normaliseIndirect_inv (disk nb : BktrIndirectStorageBlock)
    (room : Nat → List BktrIndirectStorageEntry) (hbw : disk.bucket_count < 2 ^ 32)
    (h : normaliseIndirect disk room = some nb) :
    nb.bucket_count = disk.bucket_count ∧ nb.virtual_size = disk.virtual_size ∧
      nb.virtual_offsets = disk.virtual_offsets ∧ 0 < disk.bucket_count ∧
      ∀ b, b < disk.bucket_count → ∃ bucket s, nb.indirect_storage_buckets[b]? = some bucket ∧
        bucket.indirect_storage_entries[bucket.entry_count]? = some s ∧
        s.virtual_offset = (if b + 1 < disk.bucket_count then
          keyAt disk.virtual_offsets (b + 1) else disk.virtual_size) := by
  unfold normaliseIndirect relayIndirect at h
  by_cases hc : disk.bucket_count = 0 ∨
      disk.indirect_storage_buckets.length < disk.bucket_count
  · simp [hc] at h
  · simp only [hc, if_false] at h
    cases hloop : indirectSentinelLoop
        ⟨disk.bucket_count, disk.virtual_size, disk.virtual_offsets,
          relaidIndirectBuckets room disk.indirect_storage_buckets 0⟩
        (disk.bucket_count - 1) 0
        (relaidIndirectBuckets room disk.indirect_storage_buckets 0) with
    | none => simp [hloop] at h
    | some res =>
      simp only [hloop] at h
      obtain ⟨hlen, hout, hin⟩ := indirectSentinelLoop_inv _ _ _ _ _ hloop
      unfold lastIndirectSentinel bktrGetIndirectStorageBucket at h
      have hidx : (disk.bucket_count + 2 ^ 32 - 1) % 2 ^ 32 = disk.bucket_count - 1 := by
        omega
      simp only [hidx] at h
      rw [if_neg (by omega)] at h
      cases hlast : res[disk.bucket_count - 1]? with
      | none => simp [hlast] at h
      | some last =>
        simp only [hlast] at h
        cases hes : storeIndirectKey last.indirect_storage_entries last.entry_count
            disk.virtual_size with
        | none => simp [hes] at h
        | some es =>
          simp only [hes] at h
          injection h with h
          subst h
          have hp : disk.bucket_count - 1 < res.length := by
            rcases Nat.lt_or_ge (disk.bucket_count - 1) res.length with h1 | h1
            · exact h1
            · rw [List.getElem?_eq_none h1] at hlast
              exact Option.noConfusion hlast
          refine ⟨rfl, rfl, rfl, by omega, ?_⟩
          intro b hb
          show ∃ bucket s, (res.set _ _)[b]? = some bucket ∧ _
          rcases Nat.lt_or_ge (b + 1) disk.bucket_count with hlt | hge
          · obtain ⟨x, es2, _, hres, hst⟩ := hin b (Nat.zero_le _) (by omega)
            obtain ⟨_, _, ⟨e, _, hsent⟩, _⟩ := storeIndirectKey_spec _ _ _ _ hst
            refine ⟨⟨x.entry_count, es2⟩, _, ?_, hsent, ?_⟩
            · rw [List.getElem?_set_ne (by omega)]
              exact hres
            · rw [if_pos hlt]
          · have hbl : b = disk.bucket_count - 1 := by omega
            subst hbl
            obtain ⟨_, _, ⟨e, _, hsent⟩, _⟩ := storeIndirectKey_spec _ _ _ _ hes
            refine ⟨⟨last.entry_count, es⟩, _, ?_, hsent, ?_⟩
            · simp [List.getElem?_set, hp]
            · rw [if_neg (by omega)]

/-- In an Indirect block that bootstrap has normalised, over a top table that is
nondecreasing on `[1, bucket_count)`, the entry behind every entry that the lookup returns
is in memory and has a key above the search key. -/
theorem indirect_found_next (disk nb : BktrIndirectStorageBlock)
    (room : Nat → List BktrIndirectStorageEntry)
    (hnorm : normaliseIndirect disk room = some nb) (hbw : disk.bucket_count < 2 ^ 32)
    (hcw : ∀ b, b < nb.bucket_count → nb.entryCount b < 2 ^ 32)
    (hmono : ∀ i j, 1 ≤ i → i ≤ j → j < nb.bucket_count →
      keyAt nb.virtual_offsets i ≤ keyAt nb.virtual_offsets j)
    (v b i : Nat) (h : bktrGetIndirectStorageEntry nb v = Lookup.found b i) :
    ∃ nxt, nb.entryAt b (i + 1) = some nxt ∧ v < nxt.virtual_offset := by
  obtain ⟨h1, h2, h3, _, hsent⟩ := normaliseIndirect_inv disk nb room hbw hnorm
  unfold bktrGetIndirectStorageEntry bktrGetIndirectStorageBucket at h
  split at h
  · exact Lookup.noConfusion h
  · rename_i hguard
    split at h
    · exact Lookup.noConfusion h
    · rename_i bucket_num hloop
      split at h
      · exact Lookup.noConfusion h
      · rename_i ptr hptr
        have hlt : bucket_num < nb.bucket_count := by
          by_cases hge : bucket_num ≥ nb.bucket_count
          · simp [hge] at hptr
          · omega
        have hp : ptr = bucket_num := by
          simp only [show ¬ bucket_num ≥ nb.bucket_count by omega, if_false] at hptr
          injection hptr with hptr
          exact hptr.symm
        subst hp
        split at h
        · exact Lookup.noConfusion h
        · rename_i bucket hbucket
          obtain ⟨hb, hs⟩ := ofSearch_found _ _ _ _ h
          subst hb
          have hec : bucket.entry_count < 2 ^ 32 := by
            have := hcw ptr hlt
            simpa [BktrIndirectStorageBlock.entryCount, hbucket] using this
          rcases bucketSearch_hit_next _ _ _ _ hec hs with ⟨k1, hk1, hgt⟩ | hlast
          · obtain ⟨e, he, hek⟩ := map_getElem?_some _ _ _ _ hk1
            refine ⟨e, ?_, by omega⟩
            simp only [BktrIndirectStorageBlock.entryAt, hbucket]
            exact he
          · obtain ⟨bucket2, s, hb2, hs2, hkey⟩ := hsent ptr (by omega)
            rw [hbucket] at hb2
            injection hb2 with hb2
            subst hb2
            refine ⟨s, ?_, ?_⟩
            · simp only [BktrIndirectStorageBlock.entryAt, hbucket]
              rw [hlast]
              exact hs2
            · rw [hkey]
              have hthr := bucketNumLoop_threshold nb.virtual_offsets v nb.bucket_count hmono
                (nb.bucket_count - 1) 1 0 ptr (by omega) (Nat.le_refl 1) (Or.inl rfl) hloop
              by_cases hnb : ptr + 1 < disk.bucket_count
              · rw [if_pos hnb, ← h3]
                rcases hthr with h5 | h5
                · omega
                · exact h5.2
              · rw [if_neg hnb, ← h2]
                omega

end NextEntry

/-- C24: in an Indirect block that bootstrap has normalised and whose top table is
nondecreasing on `[1, bucket_count)`, with no assumption on the order of the keys inside the
buckets, every entry `e` that `bktrGetIndirectStorageEntry` returns for `v` has the entry
`e + 1` in memory with `v < (e + 1).virtual_offset`; and when the resolver's test
`offset + read_size <= next.virtual_offset` on the `u64` sum fails, the head length
`next.virtual_offset - offset` of line 368 is computed without wrap-around, lies strictly
between `0` and `read_size`, and the resolver makes the two nested calls of lines 370-371
with it. -/
theorem split_head_no_underflow (disk nb : BktrIndirectStorageBlock)
    (room : Nat → List BktrIndirectStorageEntry)
    (hnorm : normaliseIndirect disk room = some nb) (hbw : disk.bucket_count < 2 ^ 32)
    (hcw : ∀ b, b < nb.bucket_count → nb.entryCount b < 2 ^ 32)
    (hmono : ∀ j, j < nb.bucket_count → ∀ i, i ≤ j → 1 ≤ i →
      keyAt nb.virtual_offsets i ≤ keyAt nb.virtual_offsets j)
    (v len b i : Nat) (hlen : len < 2 ^ 64)
    (h : bktrGetIndirectStorageEntry nb v = Lookup.found b i) :
    ∃ nxt, nb.entryAt b (i + 1) = some nxt ∧ v < nxt.virtual_offset ∧
      (nxt.virtual_offset < add64 v len →
        sub64 nxt.virtual_offset v = nxt.virtual_offset - v ∧
        0 < sub64 nxt.virtual_offset v ∧ sub64 nxt.virtual_offset v < len ∧
        ∀ (ctx : BktrContext) (d : Nat) (m : Machine) (pos : Nat),
          ctx.indirect_block = some nb →
          (ctx.missing_base_romfs = false → ctx.base_nca_fs_ctx.isSome = true) →
          bktrPhysicalSectionRead ctx (d + 1) m pos len v =
            andThen (bktrPhysicalSectionRead ctx d m pos (sub64 nxt.virtual_offset v) v)
              (fun m1 => bktrPhysicalSectionRead ctx d m1 (pos + sub64 nxt.virtual_offset v)
                (len - sub64 nxt.virtual_offset v) nxt.virtual_offset)) := by
  obtain ⟨nxt, hn, hgt⟩ := indirect_found_next disk nb room hnorm hbw hcw
    (fun i j h1 h2 h3 => hmono j h3 i h2 h1) v b i h
  refine ⟨nxt, hn, hgt, ?_⟩
  intro hsplit
  have hsum : add64 v len < 2 ^ 64 := Nat.mod_lt _ (by norm_num)
  have hnowrap : v + len < 2 ^ 64 := by
    rcases Nat.lt_or_ge (v + len) (2 ^ 64) with h1 | h1
    · exact h1
    · have h2 : add64 v len = v + len - 2 ^ 64 := by
        unfold add64
        rw [Nat.mod_eq_sub_mod h1, Nat.mod_eq_of_lt (by omega)]
      omega
  have hadd : add64 v len = v + len := add64_eq _ _ hnowrap
  have hsub : sub64 nxt.virtual_offset v = nxt.virtual_offset - v :=
    sub64_eq _ _ (by omega) (by omega)
  refine ⟨hsub, by omega, by omega, ?_⟩
  intro ctx d m pos hib hbase
  have he : ∃ e, nb.entryAt b i = some e := by
    rcases indirect_found_key_le nb v b i h with ⟨_, h0⟩ | ⟨e, he, _⟩
    · subst h0
      unfold BktrIndirectStorageBlock.entryAt at hn ⊢
      cases hb : nb.indirect_storage_buckets[b]? with
      | none => simp [hb] at hn
      | some bucket =>
        simp only [hb] at hn ⊢
        have h1 : 1 < bucket.indirect_storage_entries.length := by
          rcases Nat.lt_or_ge 1 bucket.indirect_storage_entries.length with h1 | h1
          · exact h1
          · rw [List.getElem?_eq_none h1] at hn
            exact Option.noConfusion hn
        exact ⟨_, List.getElem?_eq_getElem (by omega)⟩
    · exact ⟨e, he⟩
  obtain ⟨e, he⟩ := he
  have hguard : ((!ctx.missing_base_romfs && ctx.base_nca_fs_ctx.isNone) || len == 0) =
      false := by
    have h5 : (len == 0) = false := by
      have : len ≠ 0 := by omega
      simpa using this
    cases hm : ctx.missing_base_romfs with
    | true => simp [h5]
    | false =>
      have h6 := hbase hm
      cases hf : ctx.base_nca_fs_ctx with
      | none => simp [hf] at h6
      | some fs => simp [h5]
  have hs2 : sub64 len (nxt.virtual_offset - v) = len - (nxt.virtual_offset - v) :=
    sub64_eq _ _ (by omega) hlen
  have ha2 : add64 v (nxt.virtual_offset - v) = nxt.virtual_offset := by
    rw [add64_eq _ _ (by omega)]
    omega
  have hcond : ¬ add64 v len ≤ nxt.virtual_offset := by omega
  rw [bktrPhysicalSectionRead]
  simp only [hib, hguard, h, he, hn, hsub, hs2, ha2, hcond, if_false]
  simp

set_option maxRecDepth 100000 in
theorem split_head_no_underflow_witness :
    ∃ nxt, sampleIndirect.entryAt 0 (0 + 1) = some nxt ∧ 0x1000 < nxt.virtual_offset ∧
      (nxt.virtual_offset < add64 0x1000 0x2000 →
        sub64 nxt.virtual_offset 0x1000 = nxt.virtual_offset - 0x1000 ∧
        0 < sub64 nxt.virtual_offset 0x1000 ∧ sub64 nxt.virtual_offset 0x1000 < 0x2000 ∧
        ∀ (ctx : BktrContext) (d : Nat) (m : Machine) (pos : Nat),
          ctx.indirect_block = some sampleIndirect →
          (ctx.missing_base_romfs = false → ctx.base_nca_fs_ctx.isSome = true) →
          bktrPhysicalSectionRead ctx (d + 1) m pos 0x2000 0x1000 =
            andThen (bktrPhysicalSectionRead ctx d m pos (sub64 nxt.virtual_offset 0x1000) 0x1000)
              (fun m1 => bktrPhysicalSectionRead ctx d m1 (pos + sub64 nxt.virtual_offset 0x1000)
                (0x2000 - sub64 nxt.virtual_offset 0x1000) nxt.virtual_offset)) :=
  split_head_no_underflow diskIndirect sampleIndirect zeroIndirectRoom (by decide) (by decide)
    (by decide) (by decide) 0x1000 0x2000 0 0 (by decide) (by decide)

/-! ## More budget does not change a read that returned -/

section Budget

theorem andThen_congr (r1 r2 : Outcome × Machine) (s1 s2 : Machine → Outcome × Machine)
    (hr : r1.1 ≠ Outcome.diverge → r2 = r1)
    (hs : ∀ m1, (s1 m1).1 ≠ Outcome.diverge → s2 m1 = s1 m1)
    (h : (andThen r1 s1).1 ≠ Outcome.diverge) : andThen r2 s2 = andThen r1 s1 := by
  obtain ⟨o, m1⟩ := r1
  cases o with
  | ret ok =>
    have h1 := hr (by simp)
    subst h1
    cases ok with
    | true =>
      rw [andThen_true] at h ⊢
      exact hs m1 h
    | false => rfl
  | fault =>
    have h1 := hr (by simp)
    subst h1
    rfl
  | diverge => exact absurd rfl h

/-- One level of the resolver: when the nested calls agree under the budgets `d2` and `d1`
wherever they return under `d1`, so does the call itself. -/
theorem phys_budget_step (ctx : BktrContext) (d1 d2 : Nat)
    (hP : ∀ m pos len v, (bktrPhysicalSectionRead ctx d1 m pos len v).1 ≠ Outcome.diverge →
      bktrPhysicalSectionRead ctx d2 m pos len v = bktrPhysicalSectionRead ctx d1 m pos len v)
    (hA : ∀ m pos len v p, (bktrAesCtrExStorageRead ctx d1 m pos len v p).1 ≠ Outcome.diverge →
      bktrAesCtrExStorageRead ctx d2 m pos len v p =
        bktrAesCtrExStorageRead ctx d1 m pos len v p)
    (m : Machine) (pos len v : Nat)
    (h : (bktrPhysicalSectionRead ctx (d1 + 1) m pos len v).1 ≠ Outcome.diverge) :
    bktrPhysicalSectionRead ctx (d2 + 1) m pos len v =
      bktrPhysicalSectionRead ctx (d1 + 1) m pos len v := by
  rw [bktrPhysicalSectionRead] at h
  rw [bktrPhysicalSectionRead, bktrPhysicalSectionRead]
  cases hib : ctx.indirect_block with
  | none => rfl
  | some block =>
    simp only [hib] at h ⊢
    split
    · rfl
    · rename_i hg
      simp only [hg] at h
      cases hl : bktrGetIndirectStorageEntry block v with
      | null => rfl
      | fault => rfl
      | diverge => rfl
      | found b i =>
        simp only [hl] at h ⊢
        cases he : block.entryAt b i with
        | none => rfl
        | some e =>
          cases hn : block.entryAt b (i + 1) with
          | none => rfl
          | some nxt =>
            simp only [he, hn] at h ⊢
            split
            · rename_i hc
              simp only [hc, if_true] at h
              split
              · rename_i hp
                simp only [hp, if_true] at h
                exact hA _ _ _ _ _ h
              · rfl
            · rename_i hc
              simp only [hc, if_false] at h
              exact andThen_congr _ _ _ _ (hP _ _ _ _) (fun m1 => hP _ _ _ _) h

/-- One level of the dispatcher, likewise. -/
theorem aes_budget_step (ctx : BktrContext) (d1 d2 : Nat)
    (hP : ∀ m pos len v, (bktrPhysicalSectionRead ctx d1 m pos len v).1 ≠ Outcome.diverge →
      bktrPhysicalSectionRead ctx d2 m pos len v = bktrPhysicalSectionRead ctx d1 m pos len v)
    (m : Machine) (pos len v p : Nat)
    (h : (bktrAesCtrExStorageRead ctx (d1 + 1) m pos len v p).1 ≠ Outcome.diverge) :
    bktrAesCtrExStorageRead ctx (d2 + 1) m pos len v p =
      bktrAesCtrExStorageRead ctx (d1 + 1) m pos len v p := by
  rw [bktrAesCtrExStorageRead] at h
  rw [bktrAesCtrExStorageRead, bktrAesCtrExStorageRead]
  cases hfs : ctx.patch_nca_fs_ctx with
  | none => rfl
  | some fs =>
    cases hab : ctx.aes_ctr_ex_block with
    | none => rfl
    | some block =>
      simp only [hfs, hab] at h ⊢
      split
      · rfl
      · rename_i hg
        simp only [hg, if_false] at h
        cases hl : bktrGetAesCtrExStorageEntry block p with
        | null => rfl
        | fault => rfl
        | diverge => rfl
        | found b i =>
          simp only [hl] at h ⊢
          cases he : block.entryAt b i with
          | none => rfl
          | some e =>
            cases hn : block.entryAt b (i + 1) with
            | none => rfl
            | some nxt =>
              simp only [he, hn] at h ⊢
              split
              · rfl
              · rename_i hc
                simp only [hc, if_false] at h
                exact andThen_congr _ _ _ _ (hP _ _ _ _) (fun m1 => hP _ _ _ _) h

/-- A read that returns or faults under the budget `d` does the same under `d + 1`. -/
theorem budget_succ (ctx : BktrContext) :
    ∀ d, (∀ m pos len v, (bktrPhysicalSectionRead ctx d m pos len v).1 ≠ Outcome.diverge →
        bktrPhysicalSectionRead ctx (d + 1) m pos len v =
          bktrPhysicalSectionRead ctx d m pos len v) ∧
      (∀ m pos len v p, (bktrAesCtrExStorageRead ctx d m pos len v p).1 ≠ Outcome.diverge →
        bktrAesCtrExStorageRead ctx (d + 1) m pos len v p =
          bktrAesCtrExStorageRead ctx d m pos len v p) := by
  intro d
  induction d with
  | zero =>
    constructor
    · intro m pos len v h
      exact absurd rfl h
    · intro m pos len v p h
      exact absurd rfl h
  | succ d ih =>
    exact ⟨phys_budget_step ctx d (d + 1) ih.1 ih.2, aes_budget_step ctx d (d + 1) ih.1⟩

/-- A read that returns or faults under the budget `d` does the same under every larger
budget. -/
theorem budget_le (ctx : BktrContext) (d : Nat) :
    ∀ k, (∀ m pos len v, (bktrPhysicalSectionRead ctx d m pos len v).1 ≠ Outcome.diverge →
        bktrPhysicalSectionRead ctx (d + k) m pos len v =
          bktrPhysicalSectionRead ctx d m pos len v) ∧
      (∀ m pos len v p, (bktrAesCtrExStorageRead ctx d m pos len v p).1 ≠ Outcome.diverge →
        bktrAesCtrExStorageRead ctx (d + k) m pos len v p =
          bktrAesCtrExStorageRead ctx d m pos len v p) := by
  intro k
  induction k with
  | zero => exact ⟨fun _ _ _ _ _ => rfl, fun _ _ _ _ _ _ => rfl⟩
  | succ k ih =>
    constructor
    · intro m pos len v h
      have h1 := ih.1 m pos len v h
      rw [← Nat.add_assoc, (budget_succ ctx (d + k)).1 m pos len v (by rw [h1]; exact h), h1]
    · intro m pos len v p h
      have h1 := ih.2 m pos len v p h
      rw [← Nat.add_assoc, (budget_succ ctx (d + k)).2 m pos len v p (by rw [h1]; exact h), h1]

end Budget

/-! ## The split of the dispatcher, through the resolver and through the dispatcher -/

section SplitVariant

variable {ctx : BktrContext} {ib : BktrIndirectStorageBlock} {ab : BktrAesCtrExStorageBlock}
  {ind_off section_size : Nat}

theorem andThen_returns (r1 : Outcome × Machine) (s : Machine → Outcome × Machine)
    (h1 : ∃ ok, r1.1 = Outcome.ret ok) (h2 : ∀ m1, ∃ ok, (s m1).1 = Outcome.ret ok) :
    ∃ ok, (andThen r1 s).1 = Outcome.ret ok := by
  obtain ⟨o, m1⟩ := r1
  obtain ⟨ok, hok⟩ := h1
  simp only at hok
  subst hok
  cases ok with
  | true =>
    rw [andThen_true]
    exact h2 m1
  | false => exact ⟨false, rfl⟩

/-- Inside the range of one `Patch` entry the resolver is the dispatcher at the mapped
physical offset, with one nested call less to spend. -/
theorem phys_patch_eq_aes (hwf : ContextWF ctx ib ab ind_off section_size)
    (b i v len : Nat) (e nxt : BktrIndirectStorageEntry)
    (hs : Serves ib.bucket_count ib.keyBuckets b i v)
    (he : ib.entryAt b i = some e) (hn : ib.entryAt b (i + 1) = some nxt)
    (hpatch : e.indirect_storage_index = BktrIndirectStorageIndex_Patch)
    (hlen : 0 < len) (hin : v + len ≤ nxt.virtual_offset) (d : Nat) (m : Machine) (pos : Nat) :
    bktrPhysicalSectionRead ctx (d + 1) m pos len v =
      bktrAesCtrExStorageRead ctx d m pos len v (e.physical_offset + (v - e.virtual_offset)) := by
  obtain ⟨e2, nxt2, he2, hn2, hlo, hhi, hle, hvs, hmap, _, hfound⟩ := context_slot hwf b i v hs
  rw [he] at he2
  rw [hn] at hn2
  injection he2 with he2
  injection hn2 with hn2
  subst he2
  subst hn2
  rw [phys_step ctx ib hwf.1 hwf.2.2.2.2.2.1 d m pos len v b i e nxt (by omega) hfound he hn
    hlo hhi (by omega) (by omega)]
  rw [if_pos (by rw [add64_eq _ _ (by omega)]; exact hin), if_pos hpatch]

/-- The dispatcher, called for a range `[v, v + len)` inside one `Patch` entry that crosses
the offset of `an`, under the budget `d + 2`, is the variant that recurses through the
dispatcher under the budget `d`. -/
theorem aes_split_shift (hwf : ContextWF ctx ib ab ind_off section_size)
    (b i v len cb j : Nat) (e nxt : BktrIndirectStorageEntry) (an : BktrAesCtrExStorageEntry)
    (hs : Serves ib.bucket_count ib.keyBuckets b i v)
    (he : ib.entryAt b i = some e) (hn : ib.entryAt b (i + 1) = some nxt)
    (hpatch : e.indirect_storage_index = BktrIndirectStorageIndex_Patch)
    (hin : v + len ≤ nxt.virtual_offset)
    (hfound : bktrGetAesCtrExStorageEntry ab (e.physical_offset + (v - e.virtual_offset)) =
      Lookup.found cb j)
    (han : ab.entryAt cb (j + 1) = some an)
    (hsplit : an.offset < e.physical_offset + (v - e.virtual_offset) + len)
    (d : Nat) (m : Machine) (pos : Nat) :
    e.physical_offset + (v - e.virtual_offset) < an.offset ∧
    bktrAesCtrExStorageRead ctx (d + 2) m pos len v (e.physical_offset + (v - e.virtual_offset)) =
      aesCtrExSplitThroughDispatcher ctx d m pos len v
        (e.physical_offset + (v - e.virtual_offset))
        (an.offset - (e.physical_offset + (v - e.virtual_offset))) := by
  obtain ⟨e2, nxt2, he2, hn2, hlo, hhi, hle, hvs, hmap, hmp, _⟩ := context_slot hwf b i v hs
  rw [he] at he2
  rw [hn] at hn2
  injection he2 with he2
  injection hn2 with hn2
  subst he2
  subst hn2
  have hmp := hmp hpatch
  obtain ⟨fs, hfs⟩ := Option.isSome_iff_exists.mp hwf.2.2.2.2.1
  have hawf := hwf.2.2.2.1
  have hps : ab.physical_size ≤ section_size := hawf.2.2.2.2.1
  have hss : section_size < 2 ^ 64 := hawf.2.2.2.2.2
  obtain ⟨cb2, j2, hf2, hcase⟩ := aesctrex_lookup_serves ab ind_off section_size hawf
    (e.physical_offset + (v - e.virtual_offset)) (by omega)
  rw [hfound] at hf2
  injection hf2 with hcb hj
  subst hcb
  subst hj
  have hcase1 : (e.physical_offset + (v - e.virtual_offset) < ind_off ∧
      Serves ab.bucket_count ab.keyBuckets cb j (e.physical_offset + (v - e.virtual_offset))) ∨
      (ind_off ≤ e.physical_offset + (v - e.virtual_offset) ∧
        e.physical_offset + (v - e.virtual_offset) < ab.physical_size ∧
        cb = ab.bucket_count - 1 ∧ j = ab.entryCount cb) := by
    rcases hcase with h | h
    · exact Or.inl h
    · exact Or.inr ⟨h.1, by omega, h.2⟩
  obtain ⟨a, an2, ha, han2, _, _, _, hplt, hanle, _⟩ :=
    aesctrex_slot ab ind_off section_size hawf cb j _ hcase1
  rw [han] at han2
  injection han2 with han2
  subst han2
  refine ⟨hplt, ?_⟩
  have hiwf := hwf.2.2.1
  obtain ⟨_, _, _, _, _, hnk, _, _, _⟩ := indirect_slot ib hiwf b i v hs
  obtain ⟨_, _, he3, hn3, hek, hnk2, _, _, _⟩ := indirect_slot ib hiwf b i v hs
  rw [he] at he3
  rw [hn] at hn3
  injection he3 with he3
  injection hn3 with hn3
  subst he3
  subst hn3
  have hs2 : Serves ib.bucket_count ib.keyBuckets b i
      (v + (an.offset - (e.physical_offset + (v - e.virtual_offset)))) := by
    refine ⟨hs.1, hs.2.1, by have := hs.2.2.1; omega, ?_⟩
    rw [← hnk2]
    omega
  rw [aes_step ctx ab fs hwf.2.1 hfs (d + 1) m pos len v _ cb j a an (by omega) hfound ha han
    hplt (by omega)]
  rw [if_neg (by rw [add64_eq _ _ (by omega)]; omega)]
  unfold aesCtrExSplitThroughDispatcher
  rw [phys_patch_eq_aes hwf b i v _ e nxt hs he hn hpatch (by omega) (by omega) d m pos]
  rw [sub64_eq _ _ (by omega) (by omega), add64_eq _ _ (by omega)]
  have hp2 : e.physical_offset +
      (v + (an.offset - (e.physical_offset + (v - e.virtual_offset))) - e.virtual_offset) =
      e.physical_offset + (v - e.virtual_offset) +
        (an.offset - (e.physical_offset + (v - e.virtual_offset))) := by omega
  congr 1
  funext m1
  rw [phys_patch_eq_aes hwf b i _ _ e nxt hs2 he hn hpatch (by omega) (by omega) d m1, hp2]

end SplitVariant

section SplitVariantClaim

variable {ctx : BktrContext} {ib : BktrIndirectStorageBlock} {ab : BktrAesCtrExStorageBlock}
  {ind_off section_size : Nat}

/-- Inside the range of one `Patch` entry the dispatcher returns under every budget of at
least `2 * len - 1` nested calls. -/
theorem aes_patch_returns (hwf : ContextWF ctx ib ab ind_off section_size)
    (b i v len : Nat) (e nxt : BktrIndirectStorageEntry)
    (hs : Serves ib.bucket_count ib.keyBuckets b i v)
    (he : ib.entryAt b i = some e) (hn : ib.entryAt b (i + 1) = some nxt)
    (hpatch : e.indirect_storage_index = BktrIndirectStorageIndex_Patch)
    (hlen : 0 < len) (hin : v + len ≤ nxt.virtual_offset) (d : Nat) (hd : 2 * len ≤ d + 1)
    (m : Machine) (pos : Nat) :
    ∃ ok, (bktrAesCtrExStorageRead ctx d m pos len v
      (e.physical_offset + (v - e.virtual_offset))).1 = Outcome.ret ok := by
  obtain ⟨e2, nxt2, _, hn2, _, _, hle, _, _, _, _⟩ := context_slot hwf b i v hs
  rw [hn] at hn2
  injection hn2 with hn2
  subst hn2
  rw [← phys_patch_eq_aes hwf b i v len e nxt hs he hn hpatch hlen hin d m pos]
  obtain ⟨ok, _, _, hok, _⟩ :=
    phys_read_post hwf len len (Nat.le_refl _) (d + 1) m pos v hlen (by omega) hd
  exact ⟨ok, hok⟩

/-- C21: in a well-formed, normalised context, for a dispatcher call
`bktrAesCtrExStorageRead(len, v, p)` reached from the resolver, with `[v, v + len)` inside
the range of one `Patch` Indirect entry `e` and `p = e.physical_offset + (v -
e.virtual_offset)`, that crosses the offset of the successor `an` of the AesCtrEx entry found
for `p`: the code, which recurses through the resolver (lines 402-408), yields the same
outcome and the same machine state, hence the same sequence of collaborator calls and the
same buffer, as the variant that recurses through the dispatcher with `(head, v, p)` and
`(len - head, v + head, p + head)` for `head = an.offset - p`; and the call returns. -/
theorem split_through_dispatcher_same (hwf : ContextWF ctx ib ab ind_off section_size)
    (b i v len cb j : Nat) (e nxt : BktrIndirectStorageEntry) (an : BktrAesCtrExStorageEntry)
    (hs : Serves ib.bucket_count ib.keyBuckets b i v)
    (he : ib.entryAt b i = some e) (hn : ib.entryAt b (i + 1) = some nxt)
    (hpatch : e.indirect_storage_index = BktrIndirectStorageIndex_Patch)
    (hin : v + len ≤ nxt.virtual_offset)
    (hfound : bktrGetAesCtrExStorageEntry ab (e.physical_offset + (v - e.virtual_offset)) =
      Lookup.found cb j)
    (han : ab.entryAt cb (j + 1) = some an)
    (hsplit : an.offset < e.physical_offset + (v - e.virtual_offset) + len)
    (depth : Nat) (hdepth : 2 * len + 1 ≤ depth) (m : Machine) (pos : Nat) :
    bktrPhysicalSectionRead ctx (depth + 1) m pos len v =
      bktrAesCtrExStorageRead ctx depth m pos len v
        (e.physical_offset + (v - e.virtual_offset)) ∧
    bktrAesCtrExStorageRead ctx depth m pos len v
        (e.physical_offset + (v - e.virtual_offset)) =
      aesCtrExSplitThroughDispatcher ctx depth m pos len v
        (e.physical_offset + (v - e.virtual_offset))
        (an.offset - (e.physical_offset + (v - e.virtual_offset))) ∧
    ∃ ok, (bktrAesCtrExStorageRead ctx depth m pos len v
      (e.physical_offset + (v - e.virtual_offset))).1 = Outcome.ret ok := by
  have hplt0 :=
    (aes_split_shift hwf b i v len cb j e nxt an hs he hn hpatch hin hfound han hsplit 0 m pos).1
  obtain ⟨d, hd⟩ : ∃ d, depth = d + 2 := ⟨depth - 2, by omega⟩
  subst hd
  obtain ⟨hplt, hshift⟩ :=
    aes_split_shift hwf b i v len cb j e nxt an hs he hn hpatch hin hfound han hsplit d m pos
  obtain ⟨_, _, he3, hn3, _, hnk2, hlo, _, _⟩ := indirect_slot ib hwf.2.2.1 b i v hs
  rw [he] at he3
  rw [hn] at hn3
  injection he3 with he3
  injection hn3 with hn3
  subst he3
  subst hn3
  have hs2 : Serves ib.bucket_count ib.keyBuckets b i
      (v + (an.offset - (e.physical_offset + (v - e.virtual_offset)))) := by
    refine ⟨hs.1, hs.2.1, by have := hs.2.2.1; omega, ?_⟩
    rw [← hnk2]
    omega
  have hp2 : e.physical_offset + (v - e.virtual_offset) +
        (an.offset - (e.physical_offset + (v - e.virtual_offset))) =
      e.physical_offset +
        (v + (an.offset - (e.physical_offset + (v - e.virtual_offset))) - e.virtual_offset) := by
    omega
  have hr1 := fun m0 pos0 => aes_patch_returns hwf b i v
    (an.offset - (e.physical_offset + (v - e.virtual_offset))) e nxt hs he hn hpatch
    (by omega) (by omega) d (by omega) m0 pos0
  have hr2 := fun m0 pos0 => aes_patch_returns hwf b i
    (v + (an.offset - (e.physical_offset + (v - e.virtual_offset))))
    (len - (an.offset - (e.physical_offset + (v - e.virtual_offset)))) e nxt hs2 he hn hpatch
    (by omega) (by omega) d (by omega) m0 pos0
  rw [← hp2] at hr2
  have hret : ∃ ok, (aesCtrExSplitThroughDispatcher ctx d m pos len v
      (e.physical_offset + (v - e.virtual_offset))
      (an.offset - (e.physical_offset + (v - e.virtual_offset)))).1 = Outcome.ret ok :=
    andThen_returns _ _ (hr1 m pos) (fun m1 => hr2 m1 _)
  have hsame : aesCtrExSplitThroughDispatcher ctx (d + 2) m pos len v
      (e.physical_offset + (v - e.virtual_offset))
      (an.offset - (e.physical_offset + (v - e.virtual_offset))) =
      aesCtrExSplitThroughDispatcher ctx d m pos len v
        (e.physical_offset + (v - e.virtual_offset))
        (an.offset - (e.physical_offset + (v - e.virtual_offset))) := by
    unfold aesCtrExSplitThroughDispatcher
    refine andThen_congr _ _ _ _ ((budget_le ctx d 2).2 _ _ _ _ _)
      (fun m1 => (budget_le ctx d 2).2 _ _ _ _ _) ?_
    obtain ⟨ok, hok⟩ := hret
    unfold aesCtrExSplitThroughDispatcher at hok
    rw [hok]
    simp
  refine ⟨?_, ?_, ?_⟩
  · exact phys_patch_eq_aes hwf b i v len e nxt hs he hn hpatch (by omega) hin (d + 2) m pos
  · rw [hshift, hsame]
  · rw [hshift]
    exact hret

set_option maxRecDepth 100000 in
theorem split_through_dispatcher_same_witness :
    bktrPhysicalSectionRead sampleCtx (0x2001 + 1) ⟨fun _ => 0, []⟩ 0 0x1000 0x2800 =
      bktrAesCtrExStorageRead sampleCtx 0x2001 ⟨fun _ => 0, []⟩ 0 0x1000 0x2800
        (0 + (0x2800 - 0x2000)) ∧
    bktrAesCtrExStorageRead sampleCtx 0x2001 ⟨fun _ => 0, []⟩ 0 0x1000 0x2800
        (0 + (0x2800 - 0x2000)) =
      aesCtrExSplitThroughDispatcher sampleCtx 0x2001 ⟨fun _ => 0, []⟩ 0 0x1000 0x2800
        (0 + (0x2800 - 0x2000)) (0x1000 - (0 + (0x2800 - 0x2000))) ∧
    ∃ ok, (bktrAesCtrExStorageRead sampleCtx 0x2001 ⟨fun _ => 0, []⟩ 0 0x1000 0x2800
      (0 + (0x2800 - 0x2000))).1 = Outcome.ret ok :=
  split_through_dispatcher_same
    (by decide : ContextWF sampleCtx sampleIndirect sampleAesCtrEx 0x4000 0x6000)
    0 1 0x2800 0x1000 0 0 ⟨0x2000, 0, 1⟩ ⟨0x4000, 0, 0⟩ ⟨0x1000, 6⟩ (by decide) (by decide)
    (by decide) (by decide) (by decide) (by decide) (by decide) (by decide) 0x2001 (by decide)
    ⟨fun _ => 0, []⟩ 0

end SplitVariantClaim

/-! ## The number of leaf reads -/

section Segments

variable {ctx : BktrContext} {ib : BktrIndirectStorageBlock} {ab : BktrAesCtrExStorageBlock}
  {ind_off section_size : Nat}

theorem segmentCount_pos (v len : Nat) (h : 0 < len) : 1 ≤ segmentCount ib ab v len := by
  induction len with
  | zero => omega
  | succ t ih =>
    rw [segmentCount]
    rcases Nat.eq_zero_or_pos t with h0 | h0
    · subst h0
      simp [segmentCount]
    · have := ih h0
      omega

theorem segmentCount_mono (v len : Nat) :
    ∀ k, segmentCount ib ab v len ≤ segmentCount ib ab v (len + k) := by
  intro k
  induction k with
  | zero => exact Nat.le_refl _
  | succ k ih =>
    rw [← Nat.add_assoc, segmentCount]
    omega

theorem segmentCount_const (v len : Nat) (hlen : 0 < len)
    (h : ∀ t, t + 1 < len → servingPair ib ab (v + (t + 1)) = servingPair ib ab (v + t)) :
    segmentCount ib ab v len = 1 := by
  induction len with
  | zero => omega
  | succ t ih =>
    rw [segmentCount]
    rcases Nat.eq_zero_or_pos t with h0 | h0
    · subst h0
      simp [segmentCount]
    · rw [ih h0 (fun s hs => h s (by omega))]
      obtain ⟨s, rfl⟩ : ∃ s, t = s + 1 := ⟨t - 1, by omega⟩
      have h1 := h s (by omega)
      rw [if_neg]
      intro h2
      rcases h2 with h2 | h2
      · omega
      · exact h2 (by rw [h1]; rfl)

theorem segmentCount_split (v head : Nat) (hhead : 0 < head)
    (hne : servingPair ib ab (v + head) ≠ servingPair ib ab (v + head - 1)) :
    ∀ k, segmentCount ib ab v (head + k) =
      segmentCount ib ab v head + segmentCount ib ab (v + head) k := by
  intro k
  induction k with
  | zero => simp [segmentCount]
  | succ k ih =>
    rw [← Nat.add_assoc, segmentCount, segmentCount, ih, Nat.add_assoc v head k]
    rcases Nat.eq_zero_or_pos k with h0 | h0
    · subst h0
      simp [segmentCount, hne]
    · have e1 : ¬ (head + k = 0) := by omega
      have e2 : ¬ (k = 0) := by omega
      simp only [e1, e2, false_or]
      omega

theorem patchOffset_of_serves (hwf : ContextWF ctx ib ab ind_off section_size) (b i x : Nat)
    (e : BktrIndirectStorageEntry) (hs : Serves ib.bucket_count ib.keyBuckets b i x)
    (he : ib.entryAt b i = some e) :
    bktrGetIndirectStorageEntry ib x = Lookup.found b i ∧
    patchOffset ib x =
      if e.indirect_storage_index = BktrIndirectStorageIndex_Patch then
        some (e.physical_offset + (x - e.virtual_offset))
      else none := by
  have hfound := indirect_lookup_of_serves ib hwf.2.2.1 b i x hs
  refine ⟨hfound, ?_⟩
  unfold patchOffset
  simp only [hfound, he]

/-- Behind every byte of a range that a leaf read of the base section serves lies the same
pair of entries. -/
theorem servingPair_base (hwf : ContextWF ctx ib ab ind_off section_size) (b i v x : Nat)
    (e nxt : BktrIndirectStorageEntry) (hs : Serves ib.bucket_count ib.keyBuckets b i v)
    (he : ib.entryAt b i = some e) (hn : ib.entryAt b (i + 1) = some nxt)
    (hsrc : e.indirect_storage_index ≠ BktrIndirectStorageIndex_Patch)
    (hx : v ≤ x) (hx2 : x < nxt.virtual_offset) :
    servingPair ib ab x = (Lookup.found b i, Lookup.null) := by
  obtain ⟨_, _, _, hn3, _, hnk, _, _, _⟩ := indirect_slot ib hwf.2.2.1 b i v hs
  rw [hn] at hn3
  injection hn3 with hn3
  subst hn3
  have hsx : Serves ib.bucket_count ib.keyBuckets b i x :=
    ⟨hs.1, hs.2.1, by have := hs.2.2.1; omega, by rw [← hnk]; exact hx2⟩
  obtain ⟨h1, h2⟩ := patchOffset_of_serves hwf b i x e hsx he
  unfold servingPair
  rw [h1, h2, if_neg hsrc]

/-- Behind every byte of a range that a leaf read of the update section serves lies the
same pair of entries. -/
theorem servingPair_patch (hwf : ContextWF ctx ib ab ind_off section_size)
    (b i cb j v x : Nat) (e nxt : BktrIndirectStorageEntry) (an : BktrAesCtrExStorageEntry)
    (hs : Serves ib.bucket_count ib.keyBuckets b i v)
    (he : ib.entryAt b i = some e) (hn : ib.entryAt b (i + 1) = some nxt)
    (hsrc : e.indirect_storage_index = BktrIndirectStorageIndex_Patch)
    (hfound : bktrGetAesCtrExStorageEntry ab (e.physical_offset + (v - e.virtual_offset)) =
      Lookup.found cb j)
    (han : ab.entryAt cb (j + 1) = some an)
    (hx : v ≤ x) (hx2 : x < nxt.virtual_offset)
    (hx3 : e.physical_offset + (x - e.virtual_offset) < an.offset) :
    servingPair ib ab x = (Lookup.found b i, Lookup.found cb j) := by
  obtain ⟨e2, nxt2, he2, hn2, hlo, hhi, _, _, _, hmp, _⟩ := context_slot hwf b i v hs
  rw [he] at he2
  rw [hn] at hn2
  injection he2 with he2
  injection hn2 with hn2
  subst he2
  subst hn2
  have hmp := hmp hsrc
  obtain ⟨_, _, _, hn3, _, hnk, _, _, _⟩ := indirect_slot ib hwf.2.2.1 b i v hs
  rw [hn] at hn3
  injection hn3 with hn3
  subst hn3
  have hsx : Serves ib.bucket_count ib.keyBuckets b i x :=
    ⟨hs.1, hs.2.1, by have := hs.2.2.1; omega, by rw [← hnk]; exact hx2⟩
  obtain ⟨h1, h2⟩ := patchOffset_of_serves hwf b i x e hsx he
  unfold servingPair
  rw [h1, h2, if_pos hsrc]
  simp only
  rw [aesctrex_lookup_same ab ind_off section_size hwf.2.2.2.1
    (e.physical_offset + (v - e.virtual_offset)) (e.physical_offset + (x - e.virtual_offset))
    cb j an (by omega) hfound han (by omega) hx3 (by omega)]

/-- At a split point the pair of entries changes. -/
theorem servingPair_split (hwf : ContextWF ctx ib ab ind_off section_size) (v head : Nat)
    (hhead : 0 < head) (hv : v + head < ib.virtual_size) (hsp : SplitPoint ib ab v head) :
    servingPair ib ab (v + head) ≠ servingPair ib ab (v + head - 1) := by
  obtain ⟨b, i, e, nxt, hs, he, hn, hcase⟩ := hsp
  have hiwf := hwf.2.2.1
  have hawf := hwf.2.2.2.1
  obtain ⟨e2, nxt2, he2, hn2, hlo, hhi, _, _, _, hmp, _⟩ := context_slot hwf b i v hs
  rw [he] at he2
  rw [hn] at hn2
  injection he2 with he2
  injection hn2 with hn2
  subst he2
  subst hn2
  obtain ⟨_, _, _, hn3, _, hnk, _, _, _⟩ := indirect_slot ib hiwf b i v hs
  rw [hn] at hn3
  injection hn3 with hn3
  subst hn3
  have hs1 : Serves ib.bucket_count ib.keyBuckets b i (v + head - 1) := by
    refine ⟨hs.1, hs.2.1, by have := hs.2.2.1; omega, ?_⟩
    rw [← hnk]
    rcases hcase with h | ⟨_, h, _⟩ <;> omega
  obtain ⟨hf1, hp1⟩ := patchOffset_of_serves hwf b i _ e hs1 he
  rcases hcase with hcase | ⟨hsrc, hlt, cb, j, an, hfound, han, hoff⟩
  · obtain ⟨b2, i2, hf2, hs2⟩ := indirect_lookup_serves ib hiwf (v + head) hv
    intro heq
    have h1 : (servingPair ib ab (v + head)).1 = (servingPair ib ab (v + head - 1)).1 := by
      rw [heq]
    simp only [servingPair] at h1
    rw [hf1, hf2] at h1
    injection h1 with hb hi
    subst hb
    subst hi
    have := hs2.2.2.2
    rw [← hnk] at this
    omega
  · have hsx : Serves ib.bucket_count ib.keyBuckets b i (v + head) :=
      ⟨hs.1, hs.2.1, by have := hs.2.2.1; omega, by rw [← hnk]; exact hlt⟩
    obtain ⟨hf2, hp2⟩ := patchOffset_of_serves hwf b i _ e hsx he
    have hmp := hmp hsrc
    have hps : ab.physical_size ≤ section_size := hawf.2.2.2.2.1
    have h1 := servingPair_patch hwf b i cb j v (v + head - 1) e nxt an hs he hn hsrc hfound han
      (by omega) (by omega) (by omega)
    rw [h1]
    unfold servingPair
    rw [hf2, hp2, if_pos hsrc]
    simp only
    obtain ⟨b2, i2, hf3, hcase3⟩ := aesctrex_lookup_serves ab ind_off section_size hawf
      (e.physical_offset + (v + head - e.virtual_offset)) (by omega)
    rw [hf3]
    intro heq
    injection heq with _ heq
    injection heq with hb hi
    subst hb
    subst hi
    have hcase4 : (e.physical_offset + (v + head - e.virtual_offset) < ind_off ∧
        Serves ab.bucket_count ab.keyBuckets b2 i2
          (e.physical_offset + (v + head - e.virtual_offset))) ∨
        (ind_off ≤ e.physical_offset + (v + head - e.virtual_offset) ∧
          e.physical_offset + (v + head - e.virtual_offset) < ab.physical_size ∧
          b2 = ab.bucket_count - 1 ∧ i2 = ab.entryCount b2) := by
      rcases hcase3 with h | h
      · exact Or.inl h
      · exact Or.inr ⟨h.1, by omega, h.2⟩
    obtain ⟨_, an2, _, han2, _, _, _, hplt, _, _⟩ :=
      aesctrex_slot ab ind_off section_size hawf b2 i2 _ hcase4
    rw [han] at han2
    injection han2 with han2
    subst han2
    omega

/-- The calls that a physical read issues are at most as many as the segments of its range,
and exactly as many when it returns `true`. -/
theorem leaf_count (hwf : ContextWF ctx ib ab ind_off section_size) (m : Machine)
    (pos len v depth : Nat) (hlen : 0 < len) (hv : v + len ≤ ib.virtual_size)
    (hdepth : 2 * len ≤ depth) :
    ∃ cs, (bktrPhysicalSectionRead ctx depth m pos len v).2.calls = m.calls ++ cs ∧
      cs.length ≤ segmentCount ib ab v len ∧
      ((bktrPhysicalSectionRead ctx depth m pos len v).1 = Outcome.ret true →
        cs.length = segmentCount ib ab v len) := by
  refine phys_read_induct hwf
    (fun m pos len v r => v + len ≤ ib.virtual_size → ∃ cs, r.2.calls = m.calls ++ cs ∧
      cs.length ≤ segmentCount ib ab v len ∧
      (r.1 = Outcome.ret true → cs.length = segmentCount ib ab v len))
    ?_ ?_ ?_ ?_ len len (Nat.le_refl _) depth m pos v hlen hv hdepth hv
  · intro m pos len v b i e nxt fs hlen hs he hn hend hsrc _ _ _
    have hc : segmentCount ib ab v len = 1 := by
      refine segmentCount_const v len hlen (fun t ht => ?_)
      rw [servingPair_base hwf b i v (v + (t + 1)) e nxt hs he hn hsrc (by omega) (by omega),
        servingPair_base hwf b i v (v + t) e nxt hs he hn hsrc (by omega) (by omega)]
    refine ⟨[Call.ncaReadFsSection pos len (e.physical_offset + (v - e.virtual_offset))],
      ?_, by rw [hc]; rfl, fun _ => by rw [hc]; rfl⟩
    unfold ncaReadFsSection
    split <;> rfl
  · intro m pos len v b i e _ _ _ _ _ _
    exact ⟨[], by simp, Nat.zero_le _, fun h => Outcome.noConfusion h (fun h => Bool.noConfusion h)⟩
  · intro m pos len v b i cb j e nxt a an fs hlen hs he hn hend hsrc _ hfound _ han _ hhi _ _
    obtain ⟨_, _, he2, _, hlo, _, _, _, _, _, _⟩ := context_slot hwf b i v hs
    rw [he] at he2
    injection he2 with he2
    subst he2
    have hc : segmentCount ib ab v len = 1 := by
      refine segmentCount_const v len hlen (fun t ht => ?_)
      rw [servingPair_patch hwf b i cb j v (v + (t + 1)) e nxt an hs he hn hsrc hfound han
          (by omega) (by omega) (by omega),
        servingPair_patch hwf b i cb j v (v + t) e nxt an hs he hn hsrc hfound han
          (by omega) (by omega) (by omega)]
    refine ⟨[Call.ncaReadAesCtrExStorageFromBktrSection pos len
      (e.physical_offset + (v - e.virtual_offset)) a.generation],
      ?_, by rw [hc]; rfl, fun _ => by rw [hc]; rfl⟩
    unfold ncaReadAesCtrExStorageFromBktrSection
    split <;> rfl
  · intro m pos len v head r1 second hhead hlt hsp h1 h2 hv
    obtain ⟨cs1, hc1, hle1, heq1⟩ := h1 (by omega)
    have hsplit := @segmentCount_split ib ab v head hhead
      (servingPair_split hwf v head hhead (by omega) hsp) (len - head)
    rw [show head + (len - head) = len by omega] at hsplit
    obtain ⟨o, m1⟩ := r1
    by_cases ho : o = Outcome.ret true
    · subst ho
      rw [andThen_true]
      obtain ⟨cs2, hc2, hle2, heq2⟩ := h2 m1 (by omega)
      have hl1 := heq1 rfl
      refine ⟨cs1 ++ cs2, ?_, ?_, ?_⟩
      · rw [hc2]
        simp only at hc1
        rw [hc1, List.append_assoc]
      · rw [List.length_append, hsplit]
        omega
      · intro hr
        rw [List.length_append, hsplit, heq2 hr, hl1]
    · have hr : andThen (o, m1) second = (o, m1) := by
        cases o with
        | ret ok =>
          cases ok with
          | true => exact absurd rfl ho
          | false => rfl
        | fault => rfl
        | diverge => rfl
      rw [hr]
      refine ⟨cs1, hc1, ?_, fun h => absurd h ho⟩
      have := @segmentCount_mono ib ab v head (len - head)
      rw [show head + (len - head) = len by omega] at this
      omega

end Segments

section BoundedRecursion

variable {ctx : BktrContext} {ib : BktrIndirectStorageBlock} {ab : BktrAesCtrExStorageBlock}
  {ind_off section_size : Nat}

/-- The split branch of the dispatcher (lines 402-408) for a range inside one `Patch` entry
that crosses the offset of `an`: the head length lies strictly between `0` and `len`. -/
theorem aes_split_eq (hwf : ContextWF ctx ib ab ind_off section_size)
    (b i v len cb j : Nat) (e nxt : BktrIndirectStorageEntry) (an : BktrAesCtrExStorageEntry)
    (hs : Serves ib.bucket_count ib.keyBuckets b i v)
    (he : ib.entryAt b i = some e) (hn : ib.entryAt b (i + 1) = some nxt)
    (hpatch : e.indirect_storage_index = BktrIndirectStorageIndex_Patch)
    (hin : v + len ≤ nxt.virtual_offset)
    (hfound : bktrGetAesCtrExStorageEntry ab (e.physical_offset + (v - e.virtual_offset)) =
      Lookup.found cb j)
    (han : ab.entryAt cb (j + 1) = some an)
    (hsplit : an.offset < e.physical_offset + (v - e.virtual_offset) + len)
    (d : Nat) (m : Machine) (pos : Nat) :
    0 < an.offset - (e.physical_offset + (v - e.virtual_offset)) ∧
    an.offset - (e.physical_offset + (v - e.virtual_offset)) < len ∧
    bktrAesCtrExStorageRead ctx (d + 1) m pos len v (e.physical_offset + (v - e.virtual_offset)) =
      andThen (bktrPhysicalSectionRead ctx d m pos
          (an.offset - (e.physical_offset + (v - e.virtual_offset))) v)
        (fun m1 => bktrPhysicalSectionRead ctx d m1
          (pos + (an.offset - (e.physical_offset + (v - e.virtual_offset))))
          (len - (an.offset - (e.physical_offset + (v - e.virtual_offset))))
          (v + (an.offset - (e.physical_offset + (v - e.virtual_offset))))) := by
  obtain ⟨e2, nxt2, he2, hn2, hlo, hhi, hle, hvs, hmap, hmp, _⟩ := context_slot hwf b i v hs
  rw [he] at he2
  rw [hn] at hn2
  injection he2 with he2
  injection hn2 with hn2
  subst he2
  subst hn2
  have hmp := hmp hpatch
  obtain ⟨fs, hfs⟩ := Option.isSome_iff_exists.mp hwf.2.2.2.2.1
  have hawf := hwf.2.2.2.1
  have hps : ab.physical_size ≤ section_size := hawf.2.2.2.2.1
  have hss : section_size < 2 ^ 64 := hawf.2.2.2.2.2
  obtain ⟨cb2, j2, hf2, hcase⟩ := aesctrex_lookup_serves ab ind_off section_size hawf
    (e.physical_offset + (v - e.virtual_offset)) (by omega)
  rw [hfound] at hf2
  injection hf2 with hcb hj
  subst hcb
  subst hj
  have hcase1 : (e.physical_offset + (v - e.virtual_offset) < ind_off ∧
      Serves ab.bucket_count ab.keyBuckets cb j (e.physical_offset + (v - e.virtual_offset))) ∨
      (ind_off ≤ e.physical_offset + (v - e.virtual_offset) ∧
        e.physical_offset + (v - e.virtual_offset) < ab.physical_size ∧
        cb = ab.bucket_count - 1 ∧ j = ab.entryCount cb) := by
    rcases hcase with h | h
    · exact Or.inl h
    · exact Or.inr ⟨h.1, by omega, h.2⟩
  obtain ⟨a, an2, ha, han2, _, _, _, hplt, hanle, _⟩ :=
    aesctrex_slot ab ind_off section_size hawf cb j _ hcase1
  rw [han] at han2
  injection han2 with han2
  subst han2
  refine ⟨by omega, by omega, ?_⟩
  rw [aes_step ctx ab fs hwf.2.1 hfs d m pos len v _ cb j a an (by omega) hfound ha han
    hplt (by omega)]
  rw [if_neg (by rw [add64_eq _ _ (by omega)]; omega)]
  rw [sub64_eq _ _ (by omega) (by omega), add64_eq _ _ (by omega)]

/-- C22, as the code has it: in a well-formed, normalised context a physical read of
`[v, v + len)` with `len > 0` and `v + len ≤ virtual_size` returns, with the same outcome and
machine state under every budget of at least `2 * len` nested calls; the calls of the section
readers that it issues are at most as many as the segments of the range (maximal runs of
bytes behind the same Indirect entry and, for `Patch` bytes, the same AesCtrEx entry), and
exactly as many when it returns `true`; a resolver call that crosses the key of the next
Indirect entry makes two nested resolver calls whose lengths lie strictly between `0` and
`len`, a resolver call inside one `Patch` entry passes its length on to the dispatcher, and a
dispatcher call that crosses the offset of the next AesCtrEx entry makes two nested resolver
calls whose lengths lie strictly between `0` and `len`. -/
theorem bounded_recursion (hwf : ContextWF ctx ib ab ind_off section_size) (m : Machine)
    (pos len v : Nat) (hlen : 0 < len) (hv : v + len ≤ ib.virtual_size) :
    (∃ ok cs, (bktrPhysicalSectionRead ctx callBudget m pos len v).1 = Outcome.ret ok ∧
      (bktrPhysicalSectionRead ctx callBudget m pos len v).2.calls = m.calls ++ cs ∧
      cs.length ≤ segmentCount ib ab v len ∧
      (ok = true → cs.length = segmentCount ib ab v len)) ∧
    (∀ depth, 2 * len ≤ depth →
      bktrPhysicalSectionRead ctx depth m pos len v =
        bktrPhysicalSectionRead ctx callBudget m pos len v) ∧
    (∀ b i e nxt, Serves ib.bucket_count ib.keyBuckets b i v → ib.entryAt b i = some e →
      ib.entryAt b (i + 1) = some nxt → ∀ d m0 p0,
      (nxt.virtual_offset < v + len →
        0 < nxt.virtual_offset - v ∧ nxt.virtual_offset - v < len ∧
        bktrPhysicalSectionRead ctx (d + 1) m0 p0 len v =
          andThen (bktrPhysicalSectionRead ctx d m0 p0 (nxt.virtual_offset - v) v)
            (fun m1 => bktrPhysicalSectionRead ctx d m1 (p0 + (nxt.virtual_offset - v))
              (len - (nxt.virtual_offset - v)) (v + (nxt.virtual_offset - v)))) ∧
      (v + len ≤ nxt.virtual_offset →
        e.indirect_storage_index = BktrIndirectStorageIndex_Patch →
        bktrPhysicalSectionRead ctx (d + 1) m0 p0 len v =
          bktrAesCtrExStorageRead ctx d m0 p0 len v
            (e.physical_offset + (v - e.virtual_offset)) ∧
        ∀ cb j an,
          bktrGetAesCtrExStorageEntry ab (e.physical_offset + (v - e.virtual_offset)) =
            Lookup.found cb j →
          ab.entryAt cb (j + 1) = some an →
          an.offset < e.physical_offset + (v - e.virtual_offset) + len →
          0 < an.offset - (e.physical_offset + (v - e.virtual_offset)) ∧
          an.offset - (e.physical_offset + (v - e.virtual_offset)) < len ∧
          bktrAesCtrExStorageRead ctx (d + 1) m0 p0 len v
              (e.physical_offset + (v - e.virtual_offset)) =
            andThen (bktrPhysicalSectionRead ctx d m0 p0
                (an.offset - (e.physical_offset + (v - e.virtual_offset))) v)
              (fun m1 => bktrPhysicalSectionRead ctx d m1
                (p0 + (an.offset - (e.physical_offset + (v - e.virtual_offset))))
                (len - (an.offset - (e.physical_offset + (v - e.virtual_offset))))
                (v + (an.offset - (e.physical_offset + (v - e.virtual_offset))))))) := by
  have hvs : ib.virtual_size < 2 ^ 64 := hwf.2.2.1.2.2.2.2.1
  have hcb : 2 * len ≤ callBudget := callBudget_ge len (by omega)
  have hret : ∀ depth, 2 * len ≤ depth →
      ∃ ok, (bktrPhysicalSectionRead ctx depth m pos len v).1 = Outcome.ret ok := by
    intro depth hd
    obtain ⟨ok, _, _, hok, _⟩ :=
      phys_read_post hwf len len (Nat.le_refl _) depth m pos v hlen hv hd
    exact ⟨ok, hok⟩
  refine ⟨?_, ?_, ?_⟩
  · obtain ⟨ok, hok⟩ := hret callBudget hcb
    obtain ⟨cs, hc, hle, heq⟩ := leaf_count hwf m pos len v callBudget hlen hv hcb
    exact ⟨ok, cs, hok, hc, hle, fun h => heq (by rw [hok, h])⟩
  · intro depth hd
    rcases Nat.le_total depth callBudget with h | h
    · obtain ⟨ok, hok⟩ := hret depth hd
      have h1 := (budget_le ctx depth (callBudget - depth)).1 m pos len v (by rw [hok]; simp)
      rw [show depth + (callBudget - depth) = callBudget by omega] at h1
      exact h1.symm
    · obtain ⟨ok, hok⟩ := hret callBudget hcb
      have h1 := (budget_le ctx callBudget (depth - callBudget)).1 m pos len v
        (by rw [hok]; simp)
      rw [show callBudget + (depth - callBudget) = depth by omega] at h1
      exact h1
  · intro b i e nxt hs he hn d m0 p0
    obtain ⟨e2, nxt2, he2, hn2, hlo, hhi, hnle, _, _, _, hfound⟩ := context_slot hwf b i v hs
    rw [he] at he2
    rw [hn] at hn2
    injection he2 with he2
    injection hn2 with hn2
    subst he2
    subst hn2
    constructor
    · intro hcross
      refine ⟨by omega, by omega, ?_⟩
      rw [phys_step ctx ib hwf.1 hwf.2.2.2.2.2.1 d m0 p0 len v b i e nxt (by omega) hfound he hn
        hlo hhi (by omega) (by omega), add64_eq v len (by omega), if_neg (by omega),
        sub64_eq len _ (by omega) (by omega),
        show v + (nxt.virtual_offset - v) = nxt.virtual_offset by omega]
    · intro hin hpatch
      refine ⟨phys_patch_eq_aes hwf b i v len e nxt hs he hn hpatch hlen hin d m0 p0, ?_⟩
      intro cb j an hf han hsplit
      exact aes_split_eq hwf b i v len cb j e nxt an hs he hn hpatch hin hf han hsplit d m0 p0

set_option maxRecDepth 100000 in
theorem bounded_recursion_witness :
    (∃ ok cs,
      (bktrPhysicalSectionRead sampleCtx callBudget freshMachine 0 0x1000 0x2800).1 =
        Outcome.ret ok ∧
      (bktrPhysicalSectionRead sampleCtx callBudget freshMachine 0 0x1000 0x2800).2.calls =
        freshMachine.calls ++ cs ∧
      cs.length ≤ segmentCount sampleIndirect sampleAesCtrEx 0x2800 0x1000 ∧
      (ok = true → cs.length = segmentCount sampleIndirect sampleAesCtrEx 0x2800 0x1000)) ∧
    (∀ depth, 2 * 0x1000 ≤ depth →
      bktrPhysicalSectionRead sampleCtx depth freshMachine 0 0x1000 0x2800 =
        bktrPhysicalSectionRead sampleCtx callBudget freshMachine 0 0x1000 0x2800) ∧
    (∀ b i e nxt, Serves sampleIndirect.bucket_count sampleIndirect.keyBuckets b i 0x2800 →
      sampleIndirect.entryAt b i = some e →
      sampleIndirect.entryAt b (i + 1) = some nxt → ∀ d m0 p0,
      (nxt.virtual_offset < 0x2800 + 0x1000 →
        0 < nxt.virtual_offset - 0x2800 ∧ nxt.virtual_offset - 0x2800 < 0x1000 ∧
        bktrPhysicalSectionRead sampleCtx (d + 1) m0 p0 0x1000 0x2800 =
          andThen (bktrPhysicalSectionRead sampleCtx d m0 p0 (nxt.virtual_offset - 0x2800) 0x2800)
            (fun m1 => bktrPhysicalSectionRead sampleCtx d m1 (p0 + (nxt.virtual_offset - 0x2800))
              (0x1000 - (nxt.virtual_offset - 0x2800))
              (0x2800 + (nxt.virtual_offset - 0x2800)))) ∧
      (0x2800 + 0x1000 ≤ nxt.virtual_offset →
        e.indirect_storage_index = BktrIndirectStorageIndex_Patch →
        bktrPhysicalSectionRead sampleCtx (d + 1) m0 p0 0x1000 0x2800 =
          bktrAesCtrExStorageRead sampleCtx d m0 p0 0x1000 0x2800
            (e.physical_offset + (0x2800 - e.virtual_offset)) ∧
        ∀ cb j an,
          bktrGetAesCtrExStorageEntry sampleAesCtrEx
              (e.physical_offset + (0x2800 - e.virtual_offset)) =
            Lookup.found cb j →
          sampleAesCtrEx.entryAt cb (j + 1) = some an →
          an.offset < e.physical_offset + (0x2800 - e.virtual_offset) + 0x1000 →
          0 < an.offset - (e.physical_offset + (0x2800 - e.virtual_offset)) ∧
          an.offset - (e.physical_offset + (0x2800 - e.virtual_offset)) < 0x1000 ∧
          bktrAesCtrExStorageRead sampleCtx (d + 1) m0 p0 0x1000 0x2800
              (e.physical_offset + (0x2800 - e.virtual_offset)) =
            andThen (bktrPhysicalSectionRead sampleCtx d m0 p0
                (an.offset - (e.physical_offset + (0x2800 - e.virtual_offset))) 0x2800)
              (fun m1 => bktrPhysicalSectionRead sampleCtx d m1
                (p0 + (an.offset - (e.physical_offset + (0x2800 - e.virtual_offset))))
                (0x1000 - (an.offset - (e.physical_offset + (0x2800 - e.virtual_offset))))
                (0x2800 + (an.offset - (e.physical_offset + (0x2800 - e.virtual_offset))))))) :=
  bounded_recursion
    (by decide : ContextWF sampleCtx sampleIndirect sampleAesCtrEx 0x4000 0x6000)
    freshMachine 0 0x1000 0x2800 (by decide) (by decide)

set_option maxRecDepth 100000 in
/-- C22, the count of the claim at a failing input: the context `overlapCtx` is well formed
and normalised, the physical read of `[0, 6)` returns `true` after six calls of the section
readers, and the range meets three Indirect entries and two AesCtrEx entries. -/
theorem leaf_reads_exceed_entries_met :
    ContextWF overlapCtx overlapIndirect overlapAesCtrEx 4 6 ∧
    (bktrPhysicalSectionRead overlapCtx callBudget freshMachine 0 6 0).1 = Outcome.ret true ∧
    (bktrPhysicalSectionRead overlapCtx callBudget freshMachine 0 6 0).2.calls.length = 6 ∧
    indirectEntriesMet overlapIndirect 0 6 = 3 ∧
    aesCtrExEntriesMet overlapIndirect overlapAesCtrEx 0 6 = 2 ∧
    ¬ ((bktrPhysicalSectionRead overlapCtx callBudget freshMachine 0 6 0).2.calls.length ≤
      indirectEntriesMet overlapIndirect 0 6 +
        aesCtrExEntriesMet overlapIndirect overlapAesCtrEx 0 6) := by
  have hwf : ContextWF overlapCtx overlapIndirect overlapAesCtrEx 4 6 := by decide
  have htotal : ReadersTotal overlapCtx := by
    constructor
    · intro fs h l o
      have h1 : fs = sampleBase := by
        simp only [overlapCtx] at h
        injection h with h
        exact h.symm
      subst h1
      rfl
    · intro fs h l o g
      have h1 : fs = samplePatch := by
        simp only [overlapCtx] at h
        injection h with h
        exact h.symm
      subst h1
      rfl
  obtain ⟨ok, hr, hiff, _⟩ :=
    phys_read_total hwf htotal freshMachine 0 6 0 (by decide) (by decide)
  have hok : ok = true := hiff.mpr (by decide)
  subst hok
  obtain ⟨cs, hc, _, heq⟩ :=
    leaf_count hwf freshMachine 0 6 0 callBudget (by decide) (by decide)
      (callBudget_ge 6 (by decide))
  have hlen : cs.length = 6 := by
    rw [heq hr]
    decide
  have hcalls : (bktrPhysicalSectionRead overlapCtx callBudget freshMachine 0 6 0).2.calls.length
      = 6 := by
    rw [hc]
    simpa [freshMachine] using hlen
  have h3 : indirectEntriesMet overlapIndirect 0 6 = 3 := by decide
  have h2 : aesCtrExEntriesMet overlapIndirect overlapAesCtrEx 0 6 = 2 := by decide
  refine ⟨hwf, hr, hcalls, h3, h2, ?_⟩
  rw [hcalls, h3, h2]
  decide

end BoundedRecursion

section FileEntryWrap

set_option maxRecDepth 100000 in
/-- C11, the code at the failing input.  In the context `sampleCtx` (`ctx.size = 0x7000`,
`body_offset = 0x200`), for the file entry `{offset 0x100, size 0x200}`, the read of
`len = 0x10` bytes at `off = 2 ^ 64 - 8` has `off + len > file_entry.size`, but the sum wraps
to `8` in 64 bits: the check of line 270 passes, `bktrReadFileSystemData` is called at the
wrapped offset `0x2F8`, and the read returns `true` after a read of the base section.
Likewise for the file entry `{offset 2 ^ 64 - 0x100, size 0x200}`, whose
`file_entry.offset + file_entry.size` exceeds `ctx.size` and wraps to `0x100`. -/
theorem read_file_range_check_wraps :
    (2 ^ 64 - 8) + 0x10 > (⟨0x100, 0x200⟩ : RomFileSystemFileEntry).size ∧
      bktrReadFileEntryData sampleCtx ⟨0x100, 0x200⟩ freshMachine 0 0x10 (2 ^ 64 - 8) =
        bktrReadFileSystemData sampleCtx freshMachine 0 0x10 0x2F8 ∧
      (bktrReadFileEntryData sampleCtx ⟨0x100, 0x200⟩ freshMachine 0 0x10 (2 ^ 64 - 8)).1 =
        Outcome.ret true ∧
      (bktrReadFileEntryData sampleCtx ⟨0x100, 0x200⟩ freshMachine 0 0x10 (2 ^ 64 - 8)).2.calls =
        [Call.ncaReadFsSection 0 0x10 0x3F8] ∧
      (2 ^ 64 - 0x100) + 0x200 > sampleCtx.size ∧
      bktrReadFileEntryData sampleCtx ⟨2 ^ 64 - 0x100, 0x200⟩ freshMachine 0 0x10 0 =
        bktrReadFileSystemData sampleCtx freshMachine 0 0x10 0x100 ∧
      (bktrReadFileEntryData sampleCtx ⟨2 ^ 64 - 0x100, 0x200⟩ freshMachine 0 0x10 0).1 =
        Outcome.ret true ∧
      (bktrReadFileEntryData sampleCtx ⟨2 ^ 64 - 0x100, 0x200⟩ freshMachine 0 0x10 0).2.calls =
        [Call.ncaReadFsSection 0 0x10 0x200] := by
  refine ⟨by decide, ?_, by decide, by decide, by decide, ?_, by decide, by decide⟩
  · rw [read_file_eq_spec sampleCtx ⟨0x100, 0x200⟩ freshMachine 0 0x10 (2 ^ 64 - 8) (by decide)]
    unfold read_file_spec
    rw [← read_fs_offset_mod]
    rfl
  · rw [read_file_eq_spec sampleCtx ⟨2 ^ 64 - 0x100, 0x200⟩ freshMachine 0 0x10 0 (by decide)]
    unfold read_file_spec
    rw [← read_fs_offset_mod]
    rfl

end FileEntryWrap

section HeaderWrap

set_option maxRecDepth 100000 in
/-- C12, the code at the failing input.  The header of `wrapUpdateSection` has
`ind.off + ind.sz = 2 ^ 64 + 0x5000`, which is not `aes.off = 0x5000`, but the sum of line 50
wraps to `0x5000` in 64 bits: the header check passes, the output context is freed, the
Indirect block is allocated and a section read of `0x6000` bytes at `2 ^ 64 - 0x1000` is
issued; the section refuses it and bootstrap returns `false` through the label `end:`.  A
context that an earlier bootstrap had filled has lost its blocks and its tables. -/
theorem header_validation_wraps :
    (2 ^ 64 - 0x1000) + 0x6000 ≠ wrapUpdateSection.aes_ctr_ex_bucket.offset ∧
      wrapUpdateSection.indirect_bucket.offset + wrapUpdateSection.indirect_bucket.size ≠
        wrapUpdateSection.aes_ctr_ex_bucket.offset ∧
      invalidParameters sampleEnv (some sampleBaseSection) (some wrapUpdateSection) = false ∧
      (bktrInitializeContext sampleEnv filledContextRecord (some sampleBaseSection)
        (some wrapUpdateSection)).1 = Outcome.ret false ∧
      (bktrInitializeContext sampleEnv filledContextRecord (some sampleBaseSection)
        (some wrapUpdateSection)).2.2 =
        [BootCall.romfsInitializeContext, BootCall.calloc (0x6000 + (0x3FF0 / 8) * 0x14),
          BootCall.ncaReadFsSection 0x6000 (2 ^ 64 - 0x1000)] ∧
      filledContextRecord.ctx.indirect_block = some sampleIndirect ∧
      filledContextRecord.dir_table.isSome = true ∧
      (bktrInitializeContext sampleEnv filledContextRecord (some sampleBaseSection)
        (some wrapUpdateSection)).2.1.ctx.indirect_block = none ∧
      (bktrInitializeContext sampleEnv filledContextRecord (some sampleBaseSection)
        (some wrapUpdateSection)).2.1.dir_table.isSome = false ∧
      (bktrInitializeContext sampleEnv emptyContextRecord (some sampleBaseSection)
        (some wrapUpdateSection)).2.2 =
        [BootCall.romfsInitializeContext, BootCall.calloc (0x6000 + (0x3FF0 / 8) * 0x14),
          BootCall.ncaReadFsSection 0x6000 (2 ^ 64 - 0x1000)] := by
  refine ⟨by decide, by decide, by decide, by decide, by decide, by decide, by decide,
    by decide, by decide, by decide⟩

end HeaderWrap

end Bktr
